import Mathlib

/-!
# BuddyBox backup subsystem

A shallow embedding of the backup orchestration code of BuddyBox
(`src/backend/routes/backup.js` and `src/backend/services/backupService.js`)
and theorems about it.

Modelling conventions.

* The backup root directory is an association list from the names of its direct
  children to nodes; the order of the list is the order `fs.readdir` reports.
  A file-system call on `path.join(BACKUP_DIR, name)` is modelled by an operation
  on `name`.
* A regular file is abstracted to what the code reads from it: the object that
  `JSON.parse` produces from its text (if any) and its size in bytes.
* An ISO-8601 time stamp is abstracted to the time value `new Date(s)` computes
  from it; `none` stands for an absent or unparsable value (`Invalid Date`, `NaN`).
* Every asynchronous function is a state transformer over `World` that may throw;
  the effects of a call are kept when it throws. Every file-system or process
  call is recorded in the trace of the world, with its error if it failed, and an
  oracle (`Env.fault`) may make any call fail.
* The working directory `temp_{id}` is a child of the backup root; what the producers
  put inside it is not modelled, so calls below it or outside the backup root have no
  effect on the modelled directory and only the oracle decides their outcome.
  The text of an external command is recorded in the trace; what the shell and the
  programs it starts make of it, and do to the backup root, is decided by the
  environment (`Env.shell`).
* The construction of an archive is one call, which fails when the promise of
  `createArchive` is rejected (`archivePromise`); the errors of its write stream, to
  which the source does not listen, show only in the size of the file that is left.
* A name is taken as written: for an id that contains a path separator, the path that
  `path.join` computes is not the child of that name (see `joinSegments`).
* A job that a request handler starts in the background is run to its end before the
  handler's response is returned; `uuidv4()` is a parameter of the caller.
* A request handler is modelled by the response it sends: the HTTP status with the
  fields of the JSON body, or the call `res.download(path, filename)`, whose handling
  by the framework is outside the model.
-/

namespace BuddyBox

/-! ## Data model -/

/-- The `options` object of a full backup. -/
structure FullOptions where
  includeDatabases : Bool
  includeConfigs : Bool
deriving DecidableEq, Repr

/-- The object stored in `{id}.json`. A field is `none` when the property is absent
(`undefined`); `automated` is the truthiness of the property of that name. -/
structure Metadata where
  id : Option String
  type : Option String
  description : Option String
  createdAt : Option Int
  status : Option String
  completedAt : Option Int
  error : Option String
  automated : Bool
  options : Option FullOptions
  databases : Option (List String)
  services : Option (List String)
deriving DecidableEq, Repr

/-- A child of the backup root directory. -/
inductive Node where
  | file (json : Option Metadata) (size : Nat)
  | dir
deriving DecidableEq, Repr

/-- The backup root directory: names of the direct children, in `readdir` order. -/
abbrev Dir := List (String × Node)

/-- The node called `name`, if there is one. -/
def Dir.find : Dir → String → Option Node
  | [], _ => none
  | (n, x) :: rest, name => if n = name then some x else Dir.find rest name

/-- The directory without the child called `name`. -/
def Dir.remove (d : Dir) (name : String) : Dir :=
  d.filter (fun e => decide (e.1 ≠ name))

/-- The directory after creating or replacing the child called `name`. -/
def Dir.put (d : Dir) (name : String) (x : Node) : Dir :=
  if (d.find name).isSome then d.map (fun e => if e.1 = name then (name, x) else e)
  else d ++ [(name, x)]

/-- The file-system and process calls the code makes. -/
inductive Op where
  | readdir
  | readFile (name : String)
  | writeFile (name : String) (m : Metadata)
  | access (name : String)
  | stat (name : String)
  | unlink (name : String)
  | mkdir (name : String)
  | rm (name : String)
  | archive (source target : String)
  | mkdirAt (path : String)
  | accessAt (path : String)
  | exec (command : String)
  | copyFile (source target : String)
  | copyDirectory (source target : String)
  | writeAt (path : String)
deriving DecidableEq, Repr

/-- One call and its outcome: `err = none` when it succeeded. -/
structure Event where
  op : Op
  err : Option String
deriving DecidableEq, Repr

/-- The state the code runs in: the backup root and the calls made so far. -/
structure World where
  fs : Dir
  trace : List Event
deriving DecidableEq, Repr

/-- What the code cannot control: configuration, injected failures, the clock,
the output of external commands (`stdout` gives its lines, `stdout.split('\n')`),
what the shell and the programs it starts do to the backup root when they are handed
a command (`shell`: the directory after the command, from the directory before), the
sizes of the files it writes and the calendar date of a time value (`isoDate`).
The first argument of `fault`, `clock`, `stdout`, `shell` and `archiveSize` is the
number of calls made before. -/
structure Env where
  backupDir : String
  cwd : String
  fault : Nat → Op → Option String
  clock : Nat → Int
  stdout : Nat → String → List String
  shell : Nat → String → Dir → Dir
  jsonLength : Metadata → Nat
  archiveSize : Nat → Nat
  dirSize : Nat
  isoDate : Int → String

/-- The result of a call: a value or the message of the error thrown. -/
inductive Res (α : Type) where
  | ok (a : α)
  | error (msg : String)
deriving DecidableEq, Repr

/-- An asynchronous function, run to completion. -/
def M (α : Type) : Type := World → Res α × World

/-- Return a value. -/
def M.pure {α : Type} (a : α) : M α := fun w => (Res.ok a, w)

/-- Sequence two computations; an error of the first is propagated. -/
def M.bind {α β : Type} (x : M α) (f : α → M β) : M β := fun w =>
  match x w with
  | (Res.ok a, w1) => f a w1
  | (Res.error e, w1) => (Res.error e, w1)

instance : Monad M where
  pure := M.pure
  bind := M.bind

/-- The statement `try body catch (error) handler`. -/
def tryCatch {α : Type} (body : M α) (handler : String → M α) : M α := fun w =>
  match body w with
  | (Res.ok a, w1) => (Res.ok a, w1)
  | (Res.error e, w1) => handler e w1

/-- The statement `throw new Error(msg)`. -/
def raise {α : Type} (msg : String) : M α := fun w => (Res.error msg, w)

/-- A call `op` whose effect on the backup root is `act`: it fails when the oracle
says so or when `act` does, and is recorded in the trace. -/
def perform {α : Type} (env : Env) (op : Op) (act : Dir → Res (α × Dir)) : M α := fun w =>
  match env.fault w.trace.length op with
  | some e => (Res.error e, { w with trace := w.trace ++ [⟨op, some e⟩] })
  | none =>
    match act w.fs with
    | Res.ok (a, d) => (Res.ok a, { fs := d, trace := w.trace ++ [⟨op, none⟩] })
    | Res.error e => (Res.error e, { w with trace := w.trace ++ [⟨op, some e⟩] })

/-- The expression `new Date()`: the clock at the current point of the run. -/
def now (env : Env) : M Int := fun w => (Res.ok (env.clock w.trace.length), w)

/-! ## File-system calls -/

/-- The call `fs.readdir(BACKUP_DIR)`. -/
def readdir (env : Env) : M (List String) :=
  perform env Op.readdir (fun d => Res.ok (d.map Prod.fst, d))

/-- The expression `JSON.parse(await fs.readFile(path, 'utf8'))`, for a file whose
text is an object. -/
def readJson (env : Env) (name : String) : M Metadata :=
  perform env (Op.readFile name) (fun d =>
    match d.find name with
    | some (Node.file (some m) _) => Res.ok (m, d)
    | some (Node.file none _) => Res.error "SyntaxError: Unexpected token"
    | some Node.dir => Res.error "EISDIR: illegal operation on a directory"
    | none => Res.error "ENOENT: no such file or directory")

/-- The call `fs.writeFile(path, JSON.stringify(m, null, 2))`. -/
def writeJson (env : Env) (name : String) (m : Metadata) : M Unit :=
  perform env (Op.writeFile name m) (fun d =>
    match d.find name with
    | some Node.dir => Res.error "EISDIR: illegal operation on a directory"
    | _ => Res.ok ((), d.put name (Node.file (some m) (env.jsonLength m))))

/-- The call `fs.access(path)`. -/
def access (env : Env) (name : String) : M Unit :=
  perform env (Op.access name) (fun d =>
    if (d.find name).isSome then Res.ok ((), d)
    else Res.error "ENOENT: no such file or directory")

/-- The size `(await fs.stat(path)).size`. -/
def stat (env : Env) (name : String) : M Nat :=
  perform env (Op.stat name) (fun d =>
    match d.find name with
    | some (Node.file _ size) => Res.ok (size, d)
    | some Node.dir => Res.ok (env.dirSize, d)
    | none => Res.error "ENOENT: no such file or directory")

/-- The call `fs.unlink(path)`. -/
def unlink (env : Env) (name : String) : M Unit :=
  perform env (Op.unlink name) (fun d =>
    match d.find name with
    | some (Node.file _ _) => Res.ok ((), d.remove name)
    | some Node.dir => Res.error "EISDIR: illegal operation on a directory"
    | none => Res.error "ENOENT: no such file or directory")

/-- The call `fs.mkdir(path, { recursive: true })` on a child of the backup root. -/
def mkdir (env : Env) (name : String) : M Unit :=
  perform env (Op.mkdir name) (fun d =>
    match d.find name with
    | some Node.dir => Res.ok ((), d)
    | some (Node.file _ _) => Res.error "EEXIST: file already exists"
    | none => Res.ok ((), d.put name Node.dir))

/-- The call `fs.rm(path, { recursive: true, force: true })` on a child of the
backup root. -/
def rm (env : Env) (name : String) : M Unit :=
  perform env (Op.rm name) (fun d => Res.ok ((), d.remove name))

/-- The function `fileExists` of both modules. -/
def fileExists (env : Env) (name : String) : M Bool :=
  tryCatch (do
    access env name
    pure true)
  (fun _ => pure false)

/-- The template literal applied to `metadata.id`: an absent id prints as
`undefined`. -/
def tmpl : Option String → String
  | some s => s
  | none => "undefined"

/-- The method `String.prototype.endsWith`. -/
def endsWith (s suffix : String) : Bool := suffix.data.isSuffixOf s.data

/-- The function `path.join` on two segments that need no normalisation. -/
def pathJoin (a b : String) : String := a ++ "/" ++ b

/-- The comparison function of both sorts,
`(a, b) => new Date(b.createdAt) - new Date(a.createdAt)`, on the time values of
`a` and `b`; a `NaN` result counts as `+0`, as `Array.prototype.sort` specifies. -/
def compareCreatedAt (a b : Option Int) : Int :=
  match a, b with
  | some x, some y => y - x
  | _, _ => 0

/-- The method `Array.prototype.sort` with a comparison function. ECMAScript makes
the sort stable when the comparison function is consistent and leaves the order to
the implementation otherwise; the model is the stable insertion sort, in which an
element passes another only when the comparison function returns a positive number
for the pair. -/
def jsSort {α : Type} (cmp : α → α → Int) (l : List α) : List α :=
  l.insertionSort (fun a b => cmp a b ≤ 0)

/-- The method `Array.prototype.slice(start)` for an integer `start`. -/
def jsSlice {α : Type} (l : List α) (start : Int) : List α :=
  if start < 0 then l.drop (l.length - start.natAbs) else l.drop start.toNat

/-! ## Listing (`routes/backup.js`) -/

/-- An element of the array `getBackupList` returns:
`{ ...metadata, size: stats.size, path: backupPath }`. -/
structure Listed where
  metadata : Metadata
  size : Nat
  path : String
deriving DecidableEq, Repr

/-- The loop `for (const file of files)` of `getBackupList`; `backups` is the array
built so far. -/
def listLoop (env : Env) : List String → List Listed → M (List Listed)
  | [], backups => pure backups
  | file :: rest, backups => do
    let backups1 ←
      if endsWith file ".json" then
        tryCatch (do
          let metadata ← readJson env file
          let backupPath := tmpl metadata.id ++ ".tar.gz"
          let backupExists ← fileExists env backupPath
          if backupExists then do
            let size ← stat env backupPath
            pure (backups ++ [⟨metadata, size, pathJoin env.backupDir backupPath⟩])
          else pure backups)
          (fun _ => pure backups)
      else pure backups
    listLoop env rest backups1

/-- The function `getBackupList`. -/
def getBackupList (env : Env) : M (List Listed) :=
  tryCatch (do
    let files ← readdir env
    let backups ← listLoop env files []
    pure (jsSort (fun a b => compareCreatedAt a.metadata.createdAt b.metadata.createdAt) backups))
  (fun _ => pure [])

/-! ## Retention (`services/backupService.js`) -/

/-- The first loop of `cleanupOldBackups`: collect the automated records. -/
def collectLoop (env : Env) : List String → List Metadata → M (List Metadata)
  | [], backups => pure backups
  | file :: rest, backups => do
    let backups1 ←
      if endsWith file ".json" then
        tryCatch (do
          let metadata ← readJson env file
          if metadata.automated then pure (backups ++ [metadata]) else pure backups)
          (fun _ => pure backups)
      else pure backups
    collectLoop env rest backups1

/-- The second loop of `cleanupOldBackups`: delete the files of each record. -/
def deleteLoop (env : Env) : List Metadata → M Unit
  | [] => pure ()
  | backup :: rest => do
    tryCatch (do
      let backupPath := tmpl backup.id ++ ".tar.gz"
      let metadataPath := tmpl backup.id ++ ".json"
      let archiveExists ← fileExists env backupPath
      (if archiveExists then unlink env backupPath else pure ())
      let metadataExists ← fileExists env metadataPath
      (if metadataExists then unlink env metadataPath else pure ()))
      (fun _ => pure ())
    deleteLoop env rest

/-- The method `cleanupOldBackups`. -/
def cleanupOldBackups (env : Env) (keepCount : Int) : M Unit :=
  tryCatch (do
    let files ← readdir env
    let backups ← collectLoop env files []
    let sorted := jsSort (fun a b => compareCreatedAt a.createdAt b.createdAt) backups
    let toDelete := jsSlice sorted keepCount
    deleteLoop env toDelete)
  (fun _ => pure ())


/-! ## Job runners of the API (`routes/backup.js`) -/

/-- The statement `for (const x of xs) body`. -/
def forOf {α : Type} (body : α → M Unit) : List α → M Unit
  | [] => pure ()
  | x :: rest => do
    body x
    forOf body rest

/-- The expression `a || b` on an optional string: absent and empty are falsy. -/
def jsOr (a : Option String) (b : String) : String :=
  match a with
  | some s => if s = "" then b else s
  | none => b

/-- The function `path.basename`, for a path that does not end in a slash. -/
def basename (p : String) : String :=
  String.mk (p.data.reverse.takeWhile (fun c => c != '/')).reverse

/-- The function `path.dirname`, for a path of several segments that does not end in
a slash. -/
def dirname (p : String) : String :=
  String.mk ((p.data.reverse.dropWhile (fun c => c != '/')).drop 1).reverse

/-- The call `fs.mkdir(path, { recursive: true })` below the working directory: only
the oracle decides its outcome. -/
def mkdirAt (env : Env) (path : String) : M Unit :=
  perform env (Op.mkdirAt path) (fun d => Res.ok ((), d))

/-- The function `fileExists` on a path outside the backup root: the path exists
unless the oracle makes `fs.access` fail. -/
def fileExistsAt (env : Env) (path : String) : M Bool :=
  tryCatch (do
    perform env (Op.accessAt path) (fun d => Res.ok ((), d))
    pure true)
    (fun _ => pure false)

/-- The function `execCommand`, which hands the command to a shell
(`child_process.exec`); the value is the list of the lines of `stdout`. Whatever the
shell and the programs it starts do to the backup root (an output redirection creates
its target before the program runs) is done whether or not the command then fails. -/
def execCommand (env : Env) (command : String) : M (List String) := fun w =>
  perform env (Op.exec command) (fun d => Res.ok (env.stdout w.trace.length command, d))
    { w with fs := env.shell w.trace.length command w.fs }

/-- The function `createArchive`, from a child of the backup root to another, as one
call. The call fails when the promise is rejected, which only the `error` event of the
archiver causes (see `archivePromise`): this is the fault that the oracle injects. The
write stream is taken to leave a file of `archiveSize` bytes at the target; the source
does not listen to its errors, and the model does not follow it where the stream
cannot be opened: with a directory at the target the model has the call fail. -/
def createArchive (env : Env) (sourceDir targetPath : String) : M Unit := fun w =>
  perform env (Op.archive sourceDir targetPath) (fun d =>
    match d.find targetPath with
    | some Node.dir => Res.error "EISDIR: illegal operation on a directory"
    | _ => Res.ok ((), d.put targetPath (Node.file none (env.archiveSize w.trace.length)))) w

/-- What the two streams of `createArchive` emit that bears on its promise: the `error`
event of the archiver `archive`, and the `error` and `close` events of the write stream
`output`. -/
inductive StreamEvent where
  | archiveError (message : String)
  | outputError (message : String)
  | outputClose
deriving DecidableEq, Repr

/-- The promise that `createArchive` returns, after the streams have emitted `events`.
Its only listeners are `output.on('close', () => resolve())` and
`archive.on('error', (err) => reject(err))`, and the first of them to be called settles
it; nothing listens to the `error` event of `output`. The value is `none` while the
promise is pending. -/
def archivePromise : List StreamEvent → Option (Res Unit)
  | [] => none
  | StreamEvent.archiveError message :: _ => some (Res.error message)
  | StreamEvent.outputError _ :: rest => archivePromise rest
  | StreamEvent.outputClose :: _ => some (Res.ok ())

/-- The function `saveBackupMetadata` of both modules. -/
def saveBackupMetadata (env : Env) (metadata : Metadata) : M Unit :=
  writeJson env (tmpl metadata.id ++ ".json") metadata

/-- The array `configPaths` of `backupConfigurations`. -/
def configPaths : List String :=
  ["/etc/nginx", "/etc/apache2", "/etc/postfix", "/etc/dovecot", "/etc/bind", "/etc/fail2ban",
    "/etc/mysql", "/etc/postgresql"]

/-- The function `backupConfigurations`. -/
def backupConfigurations (env : Env) (tempDir : String) : M Unit :=
  forOf (fun configPath =>
    tryCatch (do
      let found ← fileExistsAt env configPath
      if found then do
        let serviceName := basename configPath
        let targetPath := pathJoin (pathJoin tempDir "configs") serviceName
        mkdirAt env (dirname targetPath)
        let _ ← execCommand env ("cp -r " ++ configPath ++ " " ++ targetPath)
        pure ()
      else pure ())
      (fun _ => pure ())) configPaths

/-- The command that lists the PostgreSQL databases. -/
def pgListCommand : String :=
  "sudo -u postgres psql -l -t | awk -F\x27|\x27 \x27\x7bprint $1\x7d\x27 | grep -v template | grep -v postgres | sed \x27s/^ *//g\x27 | grep -v \x27^$\x27"

/-- The command that lists the MySQL databases. -/
def mysqlListCommand : String :=
  "mysql -e \x27SHOW DATABASES;\x27 | grep -v Database | grep -v information_schema | grep -v performance_schema | grep -v mysql | grep -v sys"

/-- The command `sudo -u postgres pg_dump {db} > {dbDir}/{db}.sql`. -/
def pgDumpCommand (db dbDir : String) : String :=
  "sudo -u postgres pg_dump " ++ db ++ " > " ++ pathJoin dbDir (db ++ ".sql")

/-- The command `mysqldump {db} > {dbDir}/{db}.sql`. -/
def mysqlDumpCommand (db dbDir : String) : String :=
  "mysqldump " ++ db ++ " > " ++ pathJoin dbDir (db ++ ".sql")

/-- The function `backupDatabases`. -/
def backupDatabases (env : Env) (tempDir : String) : M Unit := do
  let dbDir := pathJoin tempDir "databases"
  mkdirAt env dbDir
  tryCatch (do
    let pgDatabases ← execCommand env pgListCommand
    let databases := pgDatabases.filter (fun db => db.trim != "")
    forOf (fun db =>
      if db.trim != "" then do
        let _ ← execCommand env (pgDumpCommand db.trim dbDir)
        pure ()
      else pure ()) databases)
    (fun _ => pure ())
  tryCatch (do
    let mysqlDatabases ← execCommand env mysqlListCommand
    let databases := mysqlDatabases.filter (fun db => db.trim != "")
    forOf (fun db =>
      if db.trim != "" then do
        let _ ← execCommand env (mysqlDumpCommand db.trim dbDir)
        pure ()
      else pure ()) databases)
    (fun _ => pure ())

/-- The function `backupApplicationData`. -/
def backupApplicationData (env : Env) (tempDir : String) : M Unit := do
  let appDir := pathJoin tempDir "application"
  mkdirAt env appDir
  let appPaths := [env.cwd, "/var/www", "/home/buddybox"]
  forOf (fun appPath =>
    tryCatch (do
      let found ← fileExistsAt env appPath
      if found then do
        let appName := basename appPath
        let targetPath := pathJoin appDir appName
        let _ ← execCommand env ("cp -r " ++ appPath ++ " " ++ targetPath)
        pure ()
      else pure ())
      (fun _ => pure ())) appPaths

/-- The function `backupDatabase`. -/
def backupDatabase (env : Env) (dbName tempDir : String) : M Unit := do
  let dbDir := pathJoin tempDir "databases"
  mkdirAt env dbDir
  tryCatch (do
    let _ ← execCommand env (pgDumpCommand dbName dbDir)
    pure ())
    (fun _ =>
      tryCatch (do
        let _ ← execCommand env (mysqlDumpCommand dbName dbDir)
        pure ())
        (fun mysqlError => raise ("Failed to backup database " ++ dbName ++ ": " ++ mysqlError)))

/-- The names of the properties that an object literal inherits from
`Object.prototype`. Their values are functions, or the prototype itself for
`__proto__`: truthy, and no paths. -/
def inheritedKeys : List String :=
  ["constructor", "__defineGetter__", "__defineSetter__", "hasOwnProperty",
    "__lookupGetter__", "__lookupSetter__", "isPrototypeOf", "propertyIsEnumerable",
    "toString", "valueOf", "__proto__", "toLocaleString"]

/-- The object `configMap` of `backupServiceConfig` (its own properties). -/
def configMap : List (String × String) :=
  [("nginx", "/etc/nginx"), ("apache", "/etc/apache2"), ("postfix", "/etc/postfix"),
    ("dovecot", "/etc/dovecot"), ("bind", "/etc/bind"), ("fail2ban", "/etc/fail2ban"),
    ("mysql", "/etc/mysql"), ("postgresql", "/etc/postgresql")]

/-- The function `backupServiceConfig`. The value `configMap[serviceName]` is the own
property of that name or, for a name of `inheritedKeys`, an inherited one: this one is
truthy, so that nothing is thrown, and it is no path, so that `fs.access` rejects it
before any call is made and `fileExists` returns `false`. -/
def backupServiceConfig (env : Env) (serviceName tempDir : String) : M Unit :=
  match configMap.lookup serviceName with
  | none =>
    if serviceName ∈ inheritedKeys then pure ()
    else raise ("Unknown service: " ++ serviceName)
  | some configPath => do
    let found ← fileExistsAt env configPath
    if found then do
      let targetPath := pathJoin (pathJoin tempDir "configs") serviceName
      mkdirAt env (dirname targetPath)
      let _ ← execCommand env ("cp -r " ++ configPath ++ " " ++ targetPath)
      pure ()
    else pure ()

/-- The function `createFullBackup`. The `catch` block overwrites every field
(`status`, `completedAt`) that the `try` block may have changed, so it starts from the
initial object. -/
def createFullBackup (env : Env) (backupId : String) (description : Option String)
    (options : FullOptions) : M Unit := do
  let createdAt ← now env
  let metadata : Metadata :=
    { id := some backupId, type := some "full",
      description := some (jsOr description "Full system backup"),
      createdAt := some createdAt, status := some "in_progress", completedAt := none,
      error := none, automated := false, options := some options, databases := none,
      services := none }
  tryCatch (do
    saveBackupMetadata env metadata
    let backupPath := backupId ++ ".tar.gz"
    let tempDir := "temp_" ++ backupId
    mkdir env tempDir
    (if options.includeConfigs then backupConfigurations env (pathJoin env.backupDir tempDir)
      else pure ())
    (if options.includeDatabases then backupDatabases env (pathJoin env.backupDir tempDir)
      else pure ())
    backupApplicationData env (pathJoin env.backupDir tempDir)
    createArchive env tempDir backupPath
    rm env tempDir
    let completedAt ← now env
    saveBackupMetadata env
      { metadata with status := some "completed", completedAt := some completedAt })
    (fun error => do
      let completedAt ← now env
      saveBackupMetadata env
        { metadata with status := some "failed", error := some error,
                        completedAt := some completedAt })

/-- The function `createDatabaseBackup`; an absent `databases` is not iterable. -/
def createDatabaseBackup (env : Env) (backupId : String) (databases : Option (List String))
    (description : Option String) : M Unit := do
  let createdAt ← now env
  let metadata : Metadata :=
    { id := some backupId, type := some "database",
      description := some (jsOr description "Database backup"),
      createdAt := some createdAt, status := some "in_progress", completedAt := none,
      error := none, automated := false, options := none, databases := databases,
      services := none }
  tryCatch (do
    saveBackupMetadata env metadata
    let backupPath := backupId ++ ".tar.gz"
    let tempDir := "temp_" ++ backupId
    mkdir env tempDir
    (match databases with
      | some dbs => forOf (fun db => backupDatabase env db (pathJoin env.backupDir tempDir)) dbs
      | none => raise "databases is not iterable")
    createArchive env tempDir backupPath
    rm env tempDir
    let completedAt ← now env
    saveBackupMetadata env
      { metadata with status := some "completed", completedAt := some completedAt })
    (fun error => do
      let completedAt ← now env
      saveBackupMetadata env
        { metadata with status := some "failed", error := some error,
                        completedAt := some completedAt })

/-- The function `createConfigBackup`; an absent `services` is not iterable. -/
def createConfigBackup (env : Env) (backupId : String) (services : Option (List String))
    (description : Option String) : M Unit := do
  let createdAt ← now env
  let metadata : Metadata :=
    { id := some backupId, type := some "config",
      description := some (jsOr description "Configuration backup"),
      createdAt := some createdAt, status := some "in_progress", completedAt := none,
      error := none, automated := false, options := none, databases := none,
      services := services }
  tryCatch (do
    saveBackupMetadata env metadata
    let backupPath := backupId ++ ".tar.gz"
    let tempDir := "temp_" ++ backupId
    mkdir env tempDir
    (match services with
      | some svs =>
        forOf (fun service => backupServiceConfig env service (pathJoin env.backupDir tempDir))
          svs
      | none => raise "services is not iterable")
    createArchive env tempDir backupPath
    rm env tempDir
    let completedAt ← now env
    saveBackupMetadata env
      { metadata with status := some "completed", completedAt := some completedAt })
    (fun error => do
      let completedAt ← now env
      saveBackupMetadata env
        { metadata with status := some "failed", error := some error,
                        completedAt := some completedAt })

/-! ## Request handlers of the API (`routes/backup.js`) -/

/-- The body of `POST /full`. -/
structure FullRequest where
  description : Option String
  includeDatabases : Option Bool
  includeConfigs : Option Bool
deriving DecidableEq, Repr

/-- The body of `POST /database`. -/
structure DatabaseRequest where
  databases : Option (List String)
  description : Option String
deriving DecidableEq, Repr

/-- The body of `POST /config`. -/
structure ConfigRequest where
  services : Option (List String)
  description : Option String
deriving DecidableEq, Repr

/-- What a handler sends: the HTTP status and the fields of the JSON body. -/
structure Response where
  status : Nat
  success : Bool
  backupId : Option String
  message : Option String
  error : Option String
deriving DecidableEq, Repr

/-- The handler of `POST /full`; `uuid` is the value of `uuidv4()`. The job it
starts is run to its end; its rejection is only logged. -/
def postFull (env : Env) (uuid : String) (body : Option FullRequest) : M Response :=
  tryCatch (do
    let request ← (match body with
      | some b => pure b
      | none => raise "Cannot destructure property \x27description\x27 of \x27req.body\x27")
    let backupId := uuid
    tryCatch
      (createFullBackup env backupId request.description
        ⟨request.includeDatabases.getD true, request.includeConfigs.getD true⟩)
      (fun _ => pure ())
    pure ⟨200, true, some backupId, some "Backup started in background", none⟩)
    (fun error => pure ⟨500, false, none, none, some error⟩)

/-- The handler of `POST /database`; `uuid` is the value of `uuidv4()`. The job it
starts is run to its end; its rejection is only logged. -/
def postDatabase (env : Env) (uuid : String) (body : Option DatabaseRequest) : M Response :=
  tryCatch (do
    let request ← (match body with
      | some b => pure b
      | none => raise "Cannot destructure property \x27databases\x27 of \x27req.body\x27")
    let backupId := uuid
    tryCatch (createDatabaseBackup env backupId request.databases request.description)
      (fun _ => pure ())
    pure ⟨200, true, some backupId, some "Database backup started", none⟩)
    (fun error => pure ⟨500, false, none, none, some error⟩)

/-- The handler of `POST /config`; `uuid` is the value of `uuidv4()`. The job it
starts is run to its end; its rejection is only logged. -/
def postConfig (env : Env) (uuid : String) (body : Option ConfigRequest) : M Response :=
  tryCatch (do
    let request ← (match body with
      | some b => pure b
      | none => raise "Cannot destructure property \x27services\x27 of \x27req.body\x27")
    let backupId := uuid
    tryCatch (createConfigBackup env backupId request.services request.description)
      (fun _ => pure ())
    pure ⟨200, true, some backupId, some "Configuration backup started", none⟩)
    (fun error => pure ⟨500, false, none, none, some error⟩)

/-! ## The daily job (`services/backupService.js`) -/

/-- The call `fs.copyFile(source, target)` into the working directory. -/
def copyFile (env : Env) (source target : String) : M Unit :=
  perform env (Op.copyFile source target) (fun d => Res.ok ((), d))

/-- The method `copyDirectory`, which copies a tree outside the backup root into the
working directory: one call whose outcome the oracle decides. -/
def copyDirectory (env : Env) (source target : String) : M Unit :=
  perform env (Op.copyDirectory source target) (fun d => Res.ok ((), d))

/-- The call `fs.writeFile(path, ...)` of a file inside the working directory. -/
def writeAt (env : Env) (path : String) : M Unit :=
  perform env (Op.writeAt path) (fun d => Res.ok ((), d))

/-- The method `backupApplicationConfig`. -/
def backupApplicationConfig (env : Env) (tempDir : String) : M Unit := do
  let configDir := pathJoin tempDir "config"
  mkdirAt env configDir
  tryCatch (do
    let envPath := pathJoin env.cwd ".env"
    let envExists ← fileExistsAt env envPath
    (if envExists then copyFile env envPath (pathJoin configDir ".env") else pure ())
    let packagePath := pathJoin env.cwd "package.json"
    let packageExists ← fileExistsAt env packagePath
    (if packageExists then copyFile env packagePath (pathJoin configDir "package.json")
      else pure ())
    let clientPackagePath := pathJoin (pathJoin env.cwd "client") "package.json"
    let clientPackageExists ← fileExistsAt env clientPackagePath
    (if clientPackageExists then
        copyFile env clientPackagePath (pathJoin configDir "client-package.json")
      else pure ())
    let customConfigPath := pathJoin env.cwd "config"
    let customConfigExists ← fileExistsAt env customConfigPath
    (if customConfigExists then
        copyDirectory env customConfigPath (pathJoin configDir "custom")
      else pure ()))
    (fun _ => pure ())

/-- The method `backupDatabaseSchemas`. -/
def backupDatabaseSchemas (env : Env) (tempDir : String) : M Unit := do
  let dbDir := pathJoin tempDir "database_schemas"
  mkdirAt env dbDir
  tryCatch (writeAt env (pathJoin dbDir "schema_info.json")) (fun _ => pure ())

/-- The method `backupRecentLogs`. -/
def backupRecentLogs (env : Env) (tempDir : String) : M Unit := do
  let logsDir := pathJoin tempDir "logs"
  mkdirAt env logsDir
  tryCatch (do
    let appLogsPath := pathJoin env.cwd "logs"
    let logsExist ← fileExistsAt env appLogsPath
    (if logsExist then copyDirectory env appLogsPath logsDir else pure ())
    writeAt env (pathJoin logsDir "backup_summary.json"))
    (fun _ => pure ())

/-- The method `createSystemBackup`; the value is the path of the archive. -/
def createSystemBackup (env : Env) (backupId : String) : M String :=
  let backupPath := backupId ++ ".tar.gz"
  let tempDir := "temp_" ++ backupId
  tryCatch (do
    mkdir env tempDir
    backupApplicationConfig env (pathJoin env.backupDir tempDir)
    backupDatabaseSchemas env (pathJoin env.backupDir tempDir)
    backupRecentLogs env (pathJoin env.backupDir tempDir)
    createArchive env tempDir backupPath
    rm env tempDir
    pure (pathJoin env.backupDir backupPath))
    (fun error => do
      tryCatch (rm env tempDir) (fun _ => pure ())
      raise error)

/-- The value `performDailyBackup` resolves to. -/
structure DailyResult where
  success : Bool
  backupId : String
deriving DecidableEq, Repr

/-- The method `performDailyBackup`; `uuid` is the value of `uuidv4()`. -/
def performDailyBackup (env : Env) (uuid : String) : M DailyResult :=
  tryCatch (do
    let backupId := uuid
    let timestamp ← now env
    let createdAt ← now env
    let metadata : Metadata :=
      { id := some backupId, type := some "daily_auto",
        description := some ("Automated daily backup - " ++ env.isoDate timestamp),
        createdAt := some createdAt, status := some "in_progress", completedAt := none,
        error := none, automated := true, options := none, databases := none,
        services := none }
    saveBackupMetadata env metadata
    let _ ← createSystemBackup env backupId
    let completedAt ← now env
    saveBackupMetadata env
      { metadata with status := some "completed", completedAt := some completedAt }
    cleanupOldBackups env 7
    pure ⟨true, backupId⟩)
    (fun error => raise error)

/-! ## The metadata store and its request handlers (`routes/backup.js`) -/

/-- The function `getBackupStatus` (a text that is JSON but not an object, which
`JSON.parse` returns as it is, is outside the model). -/
def getBackupStatus (env : Env) (backupId : String) : M Metadata :=
  tryCatch (do
    let metadataPath := backupId ++ ".json"
    let metadata ← readJson env metadataPath
    pure metadata)
    (fun _ => raise "Backup not found")

/-- The function `getBackupPath`; the path it returns is given by the name of the
child of the backup root. -/
def getBackupPath (env : Env) (backupId : String) : M (Option String) := do
  let backupPath := backupId ++ ".tar.gz"
  let found ← fileExists env backupPath
  pure (if found then some backupPath else none)

/-- The function `deleteBackup`. -/
def deleteBackup (env : Env) (backupId : String) : M Unit :=
  let backupPath := backupId ++ ".tar.gz"
  let metadataPath := backupId ++ ".json"
  tryCatch (do
    let archiveExists ← fileExists env backupPath
    (if archiveExists then unlink env backupPath else pure ())
    let metadataExists ← fileExists env metadataPath
    (if metadataExists then unlink env metadataPath else pure ()))
    (fun error => raise ("Failed to delete backup: " ++ error))

/-- What the handler of `GET /status/:backupId` sends: the HTTP status and the fields
of the JSON body. -/
structure StatusResponse where
  httpStatus : Nat
  success : Bool
  status : Option Metadata
  error : Option String
deriving DecidableEq, Repr

/-- The handler of `GET /status/:backupId`. -/
def getStatus (env : Env) (backupId : String) : M StatusResponse :=
  tryCatch (do
    let status ← getBackupStatus env backupId
    pure ⟨200, true, some status, none⟩)
    (fun error => pure ⟨500, false, none, some error⟩)

/-- What the handler of `GET /download/:backupId` sends: a JSON body with an HTTP
status, or the call `res.download(path, filename)`. -/
inductive DownloadResponse where
  | json (httpStatus : Nat) (success : Bool) (error : String)
  | download (path filename : String)
deriving DecidableEq, Repr

/-- The handler of `GET /download/:backupId`. -/
def getDownload (env : Env) (backupId : String) : M DownloadResponse :=
  tryCatch (do
    let backupPath ← getBackupPath env backupId
    match backupPath with
    | none => pure (DownloadResponse.json 404 false "Backup not found")
    | some p => do
      let found ← fileExists env p
      if !found then pure (DownloadResponse.json 404 false "Backup not found")
      else
        pure (DownloadResponse.download (pathJoin env.backupDir p)
          ("backup-" ++ backupId ++ ".tar.gz")))
    (fun error => pure (DownloadResponse.json 500 false error))

/-- The handler of `DELETE /:backupId`. -/
def deleteById (env : Env) (backupId : String) : M Response :=
  tryCatch (do
    deleteBackup env backupId
    pure ⟨200, true, none, some "Backup deleted successfully", none⟩)
    (fun error => pure ⟨500, false, none, none, some error⟩)

/-! ## The schedule document (`routes/backup.js`) -/

/-- The function `updateBackupSchedule`, for a schedule that is an object; the object
is given by what the code that reads `*.json` files sees of it. -/
def updateBackupSchedule (env : Env) (schedule : Metadata) : M Unit :=
  tryCatch (writeJson env "schedule.json" schedule)
    (fun error => raise ("Failed to update backup schedule: " ++ error))

/-! ## The backup root of the two modules -/

/-- The constant `BACKUP_DIR` of `routes/backup.js`; `setting` is
`process.env.BACKUP_DIR`. -/
def routesBackupDir (setting : Option String) : String :=
  jsOr setting "/var/backups/buddybox"

/-- The field `backupDir` of the class `BackupService`; `setting` is
`process.env.BACKUP_DIR` and `cwd` is `process.cwd()`, an absolute normalised path. -/
def serviceBackupDir (setting : Option String) (cwd : String) : String :=
  jsOr setting (pathJoin cwd "backups")

/-! ## Paths (`path.join` of Node.js on POSIX) -/

/-- The pieces of a path between its slashes. -/
def splitSlash : List Char → List (List Char)
  | [] => [[]]
  | c :: cs =>
    if c = '/' then [] :: splitSlash cs
    else
      match splitSlash cs with
      | s :: rest => (c :: s) :: rest
      | [] => [[c]]

/-- One step of `normalizeString`: the segments kept so far, last first, after the
piece `seg` was read. Empty pieces and `.` are skipped; `..` removes the last segment
kept, or is itself kept (when nothing can be removed) in a relative path. -/
def normalizeStep (allowAboveRoot : Bool) (stack : List (List Char)) (seg : List Char) :
    List (List Char) :=
  if seg = [] ∨ seg = ['.'] then stack
  else if seg = ['.', '.'] then
    match stack with
    | top :: rest =>
      if top = ['.', '.'] then (if allowAboveRoot then seg :: stack else stack) else rest
    | [] => if allowAboveRoot then [seg] else []
  else seg :: stack

/-- The segments of the path `path.normalize(p)` for a non-empty `p`; the path is
absolute when `p` starts with a slash. Up to symbolic links, two absolute paths with the
same segments are the same file. -/
def pathSegments (p : String) : List String :=
  (((splitSlash p.data).foldl (normalizeStep (p.data.head? != some '/')) []).reverse).map
    String.mk

/-- The segments of the path `path.join(a, b)` for non-empty `a` and `b`. -/
def joinSegments (a b : String) : List String := pathSegments (a ++ "/" ++ b)

/-! ## Role authorization (`server/src/middleware/auth.js`) -/

/-- The class `AppError` of `middleware/errorHandler.js`. -/
structure AppError where
  message : String
  statusCode : Nat
  status : String
  isOperational : Bool
deriving DecidableEq, Repr

/-- The constructor of `AppError`; the decimal digits of `statusCode` are what the
template literal prints. -/
def AppError.create (message : String) (statusCode : Nat) : AppError :=
  { message := message, statusCode := statusCode,
    status := if (Nat.toDigits 10 statusCode).head? = some '4' then "fail" else "error",
    isOperational := true }

/-- One call of `next`: `next()` or `next(err)`. -/
inductive NextCall where
  | proceed
  | fail (err : AppError)
deriving DecidableEq, Repr

/-- The middleware `authorize(...roles)` run on a request whose `req.user.role` is
`role`: the calls of `next` it makes, in order. -/
def authorize (roles : List String) (role : String) : List NextCall :=
  if !roles.contains role then
    [NextCall.fail (AppError.create "Not authorized to access this route" 403)]
  else [NextCall.proceed]

/-! ## Vocabulary of the statements -/

/-- The time value `a` is earlier than the time value `b`; an absent or invalid
time is neither earlier nor later than any other. -/
def earlier (a b : Option Int) : Bool :=
  match a, b with
  | some x, some y => decide (x < y)
  | _, _ => false

/-- An environment in which no call is made to fail and the clock shows the number
of calls made so far. -/
def calmEnv : Env where
  backupDir := "/var/backups/buddybox"
  cwd := "/opt/buddybox"
  fault := fun _ _ => none
  clock := fun n => n
  stdout := fun _ _ => []
  shell := fun _ _ d => d
  jsonLength := fun _ => 256
  archiveSize := fun _ => 4096
  dirSize := 4096
  isoDate := fun _ => "2025-01-01"

/-- A completed record with the given id, creation time and `automated` flag. -/
def sampleRecord (id : String) (createdAt : Option Int) (automated : Bool) : Metadata where
  id := some id
  type := some (if automated then "daily_auto" else "full")
  description := none
  createdAt := createdAt
  status := some "completed"
  completedAt := createdAt
  error := none
  automated := automated
  options := none
  databases := none
  services := none

/-- The two files of a completed record: `{id}.json` and `{id}.tar.gz`. -/
def sampleFiles (id : String) (createdAt : Option Int) (automated : Bool) : Dir :=
  [(id ++ ".json", Node.file (some (sampleRecord id createdAt automated)) 256),
   (id ++ ".tar.gz", Node.file none 4096)]

/-- A directory with three archived records, the second of which has no valid
`createdAt`. -/
def mixedDatesDir : Dir :=
  sampleFiles "a" (some 1) false ++ sampleFiles "x" none false ++ sampleFiles "b" (some 2) false

/-- A directory with two archived records with valid creation times, the older
one first. -/
def validDatesDir : Dir :=
  sampleFiles "a" (some 1) false ++ sampleFiles "b" (some 2) false

/-- The automated record held by a directory entry: the entry is named `*.json`, is a
file whose text is an object, and the `automated` property of the object is truthy. -/
def automatedRecord (e : String × Node) : Option Metadata :=
  if endsWith e.1 ".json" then
    match e.2 with
    | Node.file (some m) _ => if m.automated then some m else none
    | _ => none
  else none

/-- The automated records whose metadata exists in a directory, in `readdir` order. -/
def automatedRecords (d : Dir) : List Metadata := d.filterMap automatedRecord

/-- The number of automated records of the directory created later than `m`. -/
def newerCount (d : Dir) (m : Metadata) : Nat :=
  ((automatedRecords d).filter (fun m1 => earlier m.createdAt m1.createdAt)).length

/-- No call is made to fail from outside: calls fail only for what the backup
directory holds (a missing file, a file that is not JSON, a directory). -/
def NoFault (env : Env) : Prop := ∀ n op, env.fault n op = none

/-- The names of the files `cleanupOldBackups` deletes for the records of a list. -/
def deletedNames (l : List Metadata) : List String :=
  l.flatMap (fun m => [tmpl m.id ++ ".tar.gz", tmpl m.id ++ ".json"])

/-- A directory with ten automated records, created at times 1 to 10 and stored in no
particular order, and two user-initiated records. -/
def tenDailyDir : Dir :=
  sampleFiles "d03" (some 3) true ++ sampleFiles "d01" (some 1) true ++
  sampleFiles "u01" (some 0) false ++
  sampleFiles "d04" (some 4) true ++ sampleFiles "d10" (some 10) true ++
  sampleFiles "d02" (some 2) true ++ sampleFiles "d06" (some 6) true ++
  sampleFiles "d05" (some 5) true ++ sampleFiles "d07" (some 7) true ++
  sampleFiles "u02" (some 11) false ++
  sampleFiles "d09" (some 9) true ++ sampleFiles "d08" (some 8) true

/-- The calls `x` makes from any world are described by `Φ`: run from `w`, `x`
appends a list `evs` of events to the trace, and `Φ` holds of the result and `evs`. -/
def Spec {α : Type} (x : M α) (Φ : Res α → List Event → Prop) : Prop :=
  ∀ w, ∃ evs, (x w).2.trace = w.trace ++ evs ∧ Φ (x w).1 evs

/-- The calls that only read outside the backup root or write inside the working
directory of a job. -/
def Op.isAux : Op → Bool
  | Op.mkdirAt _ => true
  | Op.accessAt _ => true
  | Op.exec _ => true
  | Op.copyFile _ _ => true
  | Op.copyDirectory _ _ => true
  | Op.writeAt _ => true
  | _ => false

/-- The calls that write a metadata record. -/
def Op.isWrite : Op → Bool
  | Op.writeFile _ _ => true
  | _ => false

/-- Every event of every run of `x` satisfies `Q`. -/
def Emits {α : Type} (Q : Event → Prop) (x : M α) : Prop :=
  Spec x (fun _ evs => ∀ ev ∈ evs, Q ev)

/-- The events that a run from `w` to `w1` added to the trace. -/
def newEvents (w w1 : World) : List Event := w1.trace.drop w.trace.length

/-- The records persisted in the file `name` by a list of events, oldest first: the
successful writes of that file. -/
def persistedAt (name : String) (evs : List Event) : List Metadata :=
  evs.filterMap (fun ev =>
    match ev with
    | ⟨Op.writeFile n m, none⟩ => if n = name then some m else none
    | _ => none)

/-- The initial record `m0` after the job completed at time `t`. -/
def completedRecord (m0 : Metadata) (t : Int) : Metadata :=
  { m0 with status := some "completed", completedAt := some t }

/-- The initial record `m0` after the job failed with message `e` at time `t`. -/
def failedRecord (m0 : Metadata) (e : String) (t : Int) : Metadata :=
  { m0 with status := some "failed", error := some e, completedAt := some t }

/-- The result of a runner whose last call, the write of the failed record, had the
outcome `ef`. -/
def resultOfLastWrite (ef : Option String) : Res Unit :=
  match ef with
  | none => Res.ok ()
  | some e => Res.error e

/-- The common shape of `createFullBackup`, `createDatabaseBackup` and
`createConfigBackup`, which differ in the initial record and in the `producers` run
between the creation of the working directory and the construction of the archive. -/
def jobShape (env : Env) (backupId : String) (metadata : Int → Metadata) (producers : M Unit) :
    M Unit := do
  let createdAt ← now env
  tryCatch (do
    saveBackupMetadata env (metadata createdAt)
    mkdir env ("temp_" ++ backupId)
    producers
    createArchive env ("temp_" ++ backupId) (backupId ++ ".tar.gz")
    rm env ("temp_" ++ backupId)
    let completedAt ← now env
    saveBackupMetadata env (completedRecord (metadata createdAt) completedAt))
    (fun error => do
      let completedAt ← now env
      saveBackupMetadata env (failedRecord (metadata createdAt) error completedAt))

/-- The runs of a job runner of the API for the job `id` with initial record `m0`, as
the result and the list of the calls made; `A` describes the runs of the producers. -/
inductive JobRun (id : String) (m0 : Metadata) (A : Res Unit → List Event → Prop) :
    Res Unit → List Event → Prop where
  | initialWriteFailed (e : String) (t : Int) (ef : Option String) :
      JobRun id m0 A (resultOfLastWrite ef)
        [⟨Op.writeFile (id ++ ".json") m0, some e⟩,
         ⟨Op.writeFile (id ++ ".json") (failedRecord m0 e t), ef⟩]
  | mkdirFailed (e : String) (t : Int) (ef : Option String) :
      JobRun id m0 A (resultOfLastWrite ef)
        [⟨Op.writeFile (id ++ ".json") m0, none⟩, ⟨Op.mkdir ("temp_" ++ id), some e⟩,
         ⟨Op.writeFile (id ++ ".json") (failedRecord m0 e t), ef⟩]
  | producerFailed (evs : List Event) (e : String) (t : Int) (ef : Option String)
      (h : A (Res.error e) evs) :
      JobRun id m0 A (resultOfLastWrite ef)
        ([⟨Op.writeFile (id ++ ".json") m0, none⟩, ⟨Op.mkdir ("temp_" ++ id), none⟩] ++ evs ++
         [⟨Op.writeFile (id ++ ".json") (failedRecord m0 e t), ef⟩])
  | archiveFailed (evs : List Event) (e : String) (t : Int) (ef : Option String)
      (h : A (Res.ok ()) evs) :
      JobRun id m0 A (resultOfLastWrite ef)
        ([⟨Op.writeFile (id ++ ".json") m0, none⟩, ⟨Op.mkdir ("temp_" ++ id), none⟩] ++ evs ++
         [⟨Op.archive ("temp_" ++ id) (id ++ ".tar.gz"), some e⟩,
          ⟨Op.writeFile (id ++ ".json") (failedRecord m0 e t), ef⟩])
  | removeFailed (evs : List Event) (e : String) (t : Int) (ef : Option String)
      (h : A (Res.ok ()) evs) :
      JobRun id m0 A (resultOfLastWrite ef)
        ([⟨Op.writeFile (id ++ ".json") m0, none⟩, ⟨Op.mkdir ("temp_" ++ id), none⟩] ++ evs ++
         [⟨Op.archive ("temp_" ++ id) (id ++ ".tar.gz"), none⟩,
          ⟨Op.rm ("temp_" ++ id), some e⟩,
          ⟨Op.writeFile (id ++ ".json") (failedRecord m0 e t), ef⟩])
  | finalWriteFailed (evs : List Event) (e : String) (tc t : Int) (ef : Option String)
      (h : A (Res.ok ()) evs) :
      JobRun id m0 A (resultOfLastWrite ef)
        ([⟨Op.writeFile (id ++ ".json") m0, none⟩, ⟨Op.mkdir ("temp_" ++ id), none⟩] ++ evs ++
         [⟨Op.archive ("temp_" ++ id) (id ++ ".tar.gz"), none⟩,
          ⟨Op.rm ("temp_" ++ id), none⟩,
          ⟨Op.writeFile (id ++ ".json") (completedRecord m0 tc), some e⟩,
          ⟨Op.writeFile (id ++ ".json") (failedRecord m0 e t), ef⟩])
  | completed (evs : List Event) (tc : Int) (h : A (Res.ok ()) evs) :
      JobRun id m0 A (Res.ok ())
        ([⟨Op.writeFile (id ++ ".json") m0, none⟩, ⟨Op.mkdir ("temp_" ++ id), none⟩] ++ evs ++
         [⟨Op.archive ("temp_" ++ id) (id ++ ".tar.gz"), none⟩,
          ⟨Op.rm ("temp_" ++ id), none⟩,
          ⟨Op.writeFile (id ++ ".json") (completedRecord m0 tc), none⟩])

/-- The initial record of `createFullBackup`, created at time `t`. -/
def fullRecord (backupId : String) (description : Option String) (options : FullOptions)
    (t : Int) : Metadata :=
  { id := some backupId, type := some "full",
    description := some (jsOr description "Full system backup"),
    createdAt := some t, status := some "in_progress", completedAt := none,
    error := none, automated := false, options := some options, databases := none,
    services := none }

/-- The initial record of `createDatabaseBackup`, created at time `t`. -/
def databaseRecord (backupId : String) (databases : Option (List String))
    (description : Option String) (t : Int) : Metadata :=
  { id := some backupId, type := some "database",
    description := some (jsOr description "Database backup"),
    createdAt := some t, status := some "in_progress", completedAt := none,
    error := none, automated := false, options := none, databases := databases,
    services := none }

/-- The initial record of `createConfigBackup`, created at time `t`. -/
def configRecord (backupId : String) (services : Option (List String))
    (description : Option String) (t : Int) : Metadata :=
  { id := some backupId, type := some "config",
    description := some (jsOr description "Configuration backup"),
    createdAt := some t, status := some "in_progress", completedAt := none,
    error := none, automated := false, options := none, databases := none,
    services := services }

/-- The producers of `createFullBackup`, in the order of the source. -/
def fullProducers (env : Env) (backupId : String) (options : FullOptions) : M Unit := do
  (if options.includeConfigs then
      backupConfigurations env (pathJoin env.backupDir ("temp_" ++ backupId))
    else pure ())
  (if options.includeDatabases then
      backupDatabases env (pathJoin env.backupDir ("temp_" ++ backupId))
    else pure ())
  backupApplicationData env (pathJoin env.backupDir ("temp_" ++ backupId))

/-- The producers of `createDatabaseBackup`: one per named database. -/
def databaseProducers (env : Env) (backupId : String) (databases : Option (List String)) :
    M Unit :=
  match databases with
  | some dbs =>
    forOf (fun db => backupDatabase env db (pathJoin env.backupDir ("temp_" ++ backupId))) dbs
  | none => raise "databases is not iterable"

/-- The producers of `createConfigBackup`: one per named service. -/
def configProducers (env : Env) (backupId : String) (services : Option (List String)) :
    M Unit :=
  match services with
  | some svs =>
    forOf (fun service =>
      backupServiceConfig env service (pathJoin env.backupDir ("temp_" ++ backupId))) svs
  | none => raise "services is not iterable"

/-- The invariant of a record: `completedAt` is set if and only if the status is
`completed` or `failed`. -/
def CompletedAtInvariant (m : Metadata) : Prop :=
  m.completedAt ≠ none ↔ (m.status = some "completed" ∨ m.status = some "failed")

/-- An environment in which the construction of the archive fails with the message
`disk full` and every other call succeeds. -/
def archiveFailureEnv : Env :=
  { calmEnv with
    fault := fun _ op =>
      match op with
      | Op.archive _ _ => some "disk full"
      | _ => none }

/-- What is known of the producers of every job runner of the API: they make only
calls outside the backup root and inside the working directory. -/
def OnlyAux (_ : Res Unit) (evs : List Event) : Prop := ∀ ev ∈ evs, ev.op.isAux = true

/-- The initial record of `performDailyBackup`, for the two readings of the clock it
is built from. -/
def dailyRecord (env : Env) (backupId : String) (timestamp createdAt : Int) : Metadata :=
  { id := some backupId, type := some "daily_auto",
    description := some ("Automated daily backup - " ++ env.isoDate timestamp),
    createdAt := some createdAt, status := some "in_progress", completedAt := none,
    error := none, automated := true, options := none, databases := none,
    services := none }

/-- The calls of a list that are not writes of a metadata record. -/
def NoWrite (evs : List Event) : Prop := ∀ ev ∈ evs, ev.op.isWrite = false

/-- The life cycle of the record of the job `id` in a list of events: the statuses
persisted in `{id}.json` are, in order, one of the five sequences below; every
persisted record but the last has status `in_progress`, so that nothing is persisted
after a record with status `completed` or `failed`; at most one persisted record has
`completedAt` set; and when the first call, the initial write, succeeds, the sequence
is `in_progress`, `in_progress, completed` or `in_progress, failed`. -/
def Lifecycle (id : String) (evs : List Event) : Prop :=
  (persistedAt (id ++ ".json") evs).map (fun m => m.status) ∈
      [[], [some "in_progress"], [some "failed"], [some "in_progress", some "completed"],
        [some "in_progress", some "failed"]] ∧
    (∀ m ∈ (persistedAt (id ++ ".json") evs).dropLast, m.status = some "in_progress") ∧
    ((persistedAt (id ++ ".json") evs).filter (fun m => m.completedAt.isSome)).length ≤ 1 ∧
    ((∃ m rest, evs = ⟨Op.writeFile (id ++ ".json") m, none⟩ :: rest) →
      (persistedAt (id ++ ".json") evs).map (fun m => m.status) ∈
        [[some "in_progress"], [some "in_progress", some "completed"],
          [some "in_progress", some "failed"]])

/-- An environment in which the first call fails with the message `EIO` and every
later call succeeds. -/
def firstCallFailureEnv : Env :=
  { calmEnv with fault := fun n _ => if n = 0 then some "EIO" else none }

/-- The calls that remove the working directory. -/
def Op.isRemoval : Op → Bool
  | Op.rm _ => true
  | _ => false

/-- The external commands of the producers and their probes for the existence of a
path to copy. -/
def Op.isCommandOrProbe : Op → Bool
  | Op.exec _ => true
  | Op.accessAt _ => true
  | _ => false

/-- The only calls of the list that fail are external commands of producers and probes
for a path that does not exist. -/
def OnlyCommandsFail (evs : List Event) : Prop :=
  ∀ ev ∈ evs, ev.err ≠ none → ev.op.isCommandOrProbe = true

/-- Every producer of a full backup was invoked: each configuration path and each
application path was probed and both database servers were asked for their
databases. -/
def AllProducersInvoked (env : Env) (evs : List Event) : Prop :=
  (∀ p ∈ configPaths, ∃ err, (⟨Op.accessAt p, err⟩ : Event) ∈ evs) ∧
    (∃ err, (⟨Op.exec pgListCommand, err⟩ : Event) ∈ evs) ∧
    (∃ err, (⟨Op.exec mysqlListCommand, err⟩ : Event) ∈ evs) ∧
    (∀ p ∈ [env.cwd, "/var/www", "/home/buddybox"], ∃ err, (⟨Op.accessAt p, err⟩ : Event) ∈ evs)

/-- What is known of the producers of a full backup with both options set. -/
def FullProducersRun (env : Env) (r : Res Unit) (evs : List Event) : Prop :=
  OnlyAux r evs ∧ (OnlyCommandsFail evs → r = Res.ok () ∧ AllProducersInvoked env evs)

/-- An environment in which copying `/etc/nginx` fails and every other call
succeeds. -/
def nginxCopyFailureEnv : Env :=
  { calmEnv with
    fault := fun _ op =>
      match op with
      | Op.exec command =>
        if command = "cp -r /etc/nginx /var/backups/buddybox/temp_job1/configs/nginx" then
          some "cp: cannot open" else none
      | _ => none }

/-- An environment in which copying `/etc/nginx` and the removal of the working
directory fail and every other call succeeds. -/
def removalFailureEnv : Env :=
  { calmEnv with
    fault := fun _ op =>
      match op with
      | Op.exec command =>
        if command = "cp -r /etc/nginx /var/backups/buddybox/temp_job1/configs/nginx" then
          some "cp: cannot open" else none
      | Op.rm _ => some "EPERM: operation not permitted"
      | _ => none }

/-- The calls that create a directory, build the archive or write a metadata
record. -/
def Op.isSetupStep : Op → Bool
  | Op.mkdir _ => true
  | Op.mkdirAt _ => true
  | Op.archive _ _ => true
  | Op.writeFile _ _ => true
  | _ => false

/-- The message of the error `backupDatabase` throws when both dumps of `db` failed,
the second with the message `e`. -/
def dumpFailureMessage (db e : String) : String :=
  "Failed to backup database " ++ db ++ ": " ++ e

/-- The event is a failed `mysqldump` into `dbDir`, the call whose failure makes
`backupDatabase` throw. -/
def FatalDump (dbDir : String) (ev : Event) : Prop :=
  ∃ db e, ev = ⟨Op.exec (mysqlDumpCommand db dbDir), some e⟩

/-- The event is a failed external command. -/
def FailedCommand (ev : Event) : Prop := ∃ command e, ev = ⟨Op.exec command, some e⟩

/-- What is known of the producers of a database backup that write their dumps into
`dbDir`: a failed `mysqldump` is their last call and makes them throw. -/
def DatabaseProducersRun (dbDir : String) (r : Res Unit) (evs : List Event) : Prop :=
  OnlyAux r evs ∧
    ∀ db e, (⟨Op.exec (mysqlDumpCommand db dbDir), some e⟩ : Event) ∈ evs →
      r = Res.error (dumpFailureMessage db e) ∧
        ∃ pre, evs = pre ++ [⟨Op.exec (mysqlDumpCommand db dbDir), some e⟩]

/-- What is known of the producers of a configuration backup: a failed copy is their
last call and makes them throw its error. -/
def ConfigProducersRun (r : Res Unit) (evs : List Event) : Prop :=
  OnlyAux r evs ∧
    ∀ command e, (⟨Op.exec command, some e⟩ : Event) ∈ evs →
      r = Res.error e ∧ ∃ pre, evs = pre ++ [⟨Op.exec command, some e⟩]

/-- An environment in which both dumps of the database `shop` of the job `job1` fail
with the message `access denied` and every other call succeeds. -/
def dumpFailureEnv : Env :=
  { calmEnv with
    fault := fun _ op =>
      match op with
      | Op.exec command =>
        if command = pgDumpCommand "shop" "/var/backups/buddybox/temp_job1/databases" ∨
            command = mysqlDumpCommand "shop" "/var/backups/buddybox/temp_job1/databases" then
          some "access denied"
        else none
      | _ => none }

/-- The record that the file `name` of a directory holds, if it holds one. -/
def recordAt (d : Dir) (name : String) : Option Metadata :=
  match d.find name with
  | some (Node.file (some m) _) => some m
  | _ => none

/-- The value `configMap[service]` is `undefined`: the name is no property of
`configMap`, own or inherited. -/
def UnknownService (service : String) : Prop :=
  configMap.lookup service = none ∧ service ∉ inheritedKeys

/-- What is known of the producers of a configuration backup one of whose services is
unknown: they throw. -/
def ThrowingProducersRun (r : Res Unit) (evs : List Event) : Prop :=
  OnlyAux r evs ∧ ∃ e, r = Res.error e

/-- What is known of the producers of a database backup with an empty list of
databases: they do nothing. -/
def IdleProducersRun (r : Res Unit) (evs : List Event) : Prop :=
  r = Res.ok () ∧ evs = []

/-- No probe for the existence of a file is made to fail from outside: `fs.access`
fails only for a file that does not exist. -/
def NoProbeFault (env : Env) : Prop := ∀ n name, env.fault n (Op.access name) = none

/-- No removal of a file is made to fail from outside: `fs.unlink` fails only for a
name that is no regular file. -/
def NoUnlinkFault (env : Env) : Prop := ∀ n name, env.fault n (Op.unlink name) = none

/-- A directory that holds the archive `x.tar.gz` and no metadata record. -/
def orphanArchiveDir : Dir := [("x.tar.gz", Node.file none 4096)]

/-- What `DELETE /:backupId` answers when `deleteBackup` returned. -/
def deletedResponse : Response :=
  ⟨200, true, none, some "Backup deleted successfully", none⟩

/-- The size `fs.stat` reports for a node. -/
def statSize (env : Env) : Node → Nat
  | Node.file _ size => size
  | Node.dir => env.dirSize

/-- The element `getBackupList` builds from the file `name` of the directory `d` when
no call is made to fail: `name` ends in `.json`, holds a record, and the archive of the
id of that record exists. -/
def listedAt (env : Env) (d : Dir) (name : String) : Option Listed :=
  if endsWith name ".json" then
    match recordAt d name with
    | some m =>
      match d.find (tmpl m.id ++ ".tar.gz") with
      | some node => some ⟨m, statSize env node, pathJoin env.backupDir (tmpl m.id ++ ".tar.gz")⟩
      | none => none
    | none => none
  else none

/-- The record held by a directory entry: the entry is named `*.json` and is a file
whose text is an object. -/
def storedRecord (e : String × Node) : Option Metadata :=
  if endsWith e.1 ".json" then
    match e.2 with
    | Node.file (some m) _ => some m
    | _ => none
  else none

/-- Every record of the directory is stored under its own id: an entry `*.json` that
holds a record `m` is called `{m.id}.json`. -/
def StoredUnderOwnId (d : Dir) : Prop :=
  ∀ e ∈ d, ∀ m ∈ storedRecord e, e.1 = tmpl m.id ++ ".json"

/-- A directory in which the file `x.json` holds a record with the id `y`, whose
archive `y.tar.gz` exists. -/
def misfiledDir : Dir :=
  [("x.json", Node.file (some (sampleRecord "y" (some 1) false)) 256),
   ("y.tar.gz", Node.file none 4096)]

/-- The computation leaves the backup root as it found it. -/
def KeepsFs {α : Type} (x : M α) : Prop := ∀ w, (x w).2.fs = w.fs

/-- The record `m` of the job `id` has just been persisted in the world `w`: the last
three calls were the construction of the archive `{id}.tar.gz`, the removal of the
working directory and the write of `m` to `{id}.json`, all of them successful; the
archive is a file of the backup directory and `{id}.json` holds `m`; and a listing of
this state in which no call is made to fail returns `m`. -/
def CompletedWithArchive (id : String) (m : Metadata) (w : World) : Prop :=
  (∃ pre, w.trace = pre ++ [⟨Op.archive ("temp_" ++ id) (id ++ ".tar.gz"), none⟩,
      ⟨Op.rm ("temp_" ++ id), none⟩, ⟨Op.writeFile (id ++ ".json") m, none⟩]) ∧
  (∃ size, w.fs.find (id ++ ".tar.gz") = some (Node.file none size)) ∧
  recordAt w.fs (id ++ ".json") = some m ∧
  ∀ env : Env, NoFault env →
    ∃ l, (getBackupList env w).1 = Res.ok l ∧ ∃ r ∈ l, r.metadata = m

/-- The daily backup `uuid` by the service followed by a listing by the API, under
the setting `setting` of `BACKUP_DIR`; `dir` is the directory at the root of the
service. When both modules have the same root the API lists the directory the service
wrote; otherwise it lists `other`, the directory at its own root, which the service
does not touch. The value is the result of the backup and the result of the listing. -/
def listAfterDaily (env : Env) (setting : Option String) (uuid : String) (dir other : Dir) :
    Res DailyResult × Res (List Listed) :=
  let run := performDailyBackup { env with backupDir := serviceBackupDir setting env.cwd } uuid
    ⟨dir, []⟩
  let seen := if serviceBackupDir setting env.cwd = routesBackupDir setting then run.2.fs
    else other
  (run.1, (getBackupList { env with backupDir := routesBackupDir setting }
    ⟨seen, run.2.trace⟩).1)

/-- The path with the segments `p` is a direct child of the directory `root`. -/
def DirectChild (root : String) (p : List String) : Prop :=
  ∃ name, p = pathSegments root ++ [name]

/-- The calls `getBackupStatus`, `getBackupPath` and `deleteBackup` may make for the id
`id`: they read, probe or unlink `path.join(BACKUP_DIR, id + '.json')` or
`path.join(BACKUP_DIR, id + '.tar.gz')`. -/
def Op.isStoreCallOf (id : String) : Op → Bool
  | Op.readFile name => name == id ++ ".json"
  | Op.access name => name == id ++ ".json" || name == id ++ ".tar.gz"
  | Op.unlink name => name == id ++ ".json" || name == id ++ ".tar.gz"
  | _ => false

/-- A directory with seven automated records, created at times 1 to 7. -/
def sevenDailyDir : Dir :=
  sampleFiles "d01" (some 1) true ++ sampleFiles "d02" (some 2) true ++
  sampleFiles "d03" (some 3) true ++ sampleFiles "d04" (some 4) true ++
  sampleFiles "d05" (some 5) true ++ sampleFiles "d06" (some 6) true ++
  sampleFiles "d07" (some 7) true

/-- A schedule document with the properties `id: 'd05'` and `automated: true`. -/
def rogueSchedule : Metadata :=
  { id := some "d05", type := none, description := none, createdAt := none, status := none,
    completedAt := none, error := none, automated := true, options := none, databases := none,
    services := none }

/-- A schedule document with none of the properties of a job record. -/
def plainSchedule : Metadata :=
  { id := none, type := none, description := none, createdAt := none, status := none,
    completedAt := none, error := none, automated := false, options := none, databases := none,
    services := none }

/-- The outcome of a call does not depend on when it is made: whether the oracle makes
a call fail does not depend on the number of calls made before. -/
def Stationary (env : Env) : Prop := ∀ n m op, env.fault n op = env.fault m op

/-- Run in two worlds with the same backup directory, the computation gives the same
result and again the same directory. -/
def DependsOnDirOnly {α : Type} (x : M α) : Prop :=
  ∀ w1 w2, w1.fs = w2.fs → (x w1).1 = (x w2).1 ∧ (x w1).2.fs = (x w2).2.fs

/-- The calls of a run start with the write of the initial record of the job `id`:
the first call writes `{id}.json` with a record of that id, with status `in_progress`
and with `createdAt` set; and if this write fails, every later call of the run is again a
write of a metadata record (no directory is created, no producer runs, no archive is
built). -/
def StartsInProgress (id : String) (evs : List Event) : Prop :=
  ∃ m err rest, evs = ⟨Op.writeFile (id ++ ".json") m, err⟩ :: rest ∧
    m.id = some id ∧ m.status = some "in_progress" ∧ m.createdAt ≠ none ∧
    (err ≠ none → ∀ ev ∈ rest, ev.op.isWrite = true)

/-- The calls a producer of the job `id` may make: probes of paths to copy, the
creation of a directory below the working directory `{BACKUP_DIR}/temp_{id}`, the
commands that list the databases, and dumps and copies whose target is written as a path
below the working directory. -/
def ProducerCall (env : Env) (id : String) (op : Op) : Prop :=
  match op with
  | Op.accessAt _ => True
  | Op.mkdirAt path =>
    path = pathJoin (pathJoin env.backupDir ("temp_" ++ id)) "databases" ∨
    path = pathJoin (pathJoin env.backupDir ("temp_" ++ id)) "application" ∨
    ∃ name, path =
      dirname (pathJoin (pathJoin (pathJoin env.backupDir ("temp_" ++ id)) "configs") name)
  | Op.exec command =>
    command = pgListCommand ∨ command = mysqlListCommand ∨
    (∃ db, command =
      pgDumpCommand db (pathJoin (pathJoin env.backupDir ("temp_" ++ id)) "databases")) ∨
    (∃ db, command =
      mysqlDumpCommand db (pathJoin (pathJoin env.backupDir ("temp_" ++ id)) "databases")) ∨
    (∃ source sub name, command = "cp -r " ++ source ++ " " ++
      pathJoin (pathJoin (pathJoin env.backupDir ("temp_" ++ id)) sub) name)
  | _ => False

/-- The calls a run of a job runner of the API for the job `id` may make: writes of
`{id}.json`, the creation and the removal of `temp_{id}`, the construction of
`{id}.tar.gz` from `temp_{id}`, and the calls of its producers. -/
def JobCall (env : Env) (id : String) (op : Op) : Prop :=
  match op with
  | Op.writeFile name _ => name = id ++ ".json"
  | Op.mkdir name => name = "temp_" ++ id
  | Op.archive source target => source = "temp_" ++ id ∧ target = id ++ ".tar.gz"
  | Op.rm name => name = "temp_" ++ id
  | other => ProducerCall env id other

/-- The computation changes no child of the backup root but those whose name satisfies
`S`. -/
def TouchesOnly {α : Type} (S : String → Prop) (x : M α) : Prop :=
  ∀ w n, ¬ S n → (x w).2.fs.find n = w.fs.find n

/-- The names a job runner may touch for the job `id`. -/
def OwnName (id : String) (n : String) : Prop :=
  n = id ++ ".json" ∨ n = id ++ ".tar.gz" ∨ n = "temp_" ++ id

/-- The calls a run of a job runner of the API for the job `id` may make: writes of
`{id}.json`, the creation and the removal of `temp_{id}`, the construction of
`{id}.tar.gz` from `temp_{id}`, and the calls of its producers, which are probes of
paths to copy, creations of directories below the working directory and commands handed
to the shell. The directory is never listed and no file is unlinked. -/
def Op.isRunnerCallOf (id : String) : Op → Bool
  | Op.writeFile name _ => name = id ++ ".json"
  | Op.mkdir name => name = "temp_" ++ id
  | Op.archive source target => source = "temp_" ++ id && target = id ++ ".tar.gz"
  | Op.rm name => name = "temp_" ++ id
  | Op.accessAt _ => true
  | Op.mkdirAt _ => true
  | Op.exec _ => true
  | _ => false

/-- The list `evs` is the list of the calls of a run of `x` that returned normally. -/
def RunOf (x : M Unit) (evs : List Event) : Prop :=
  ∃ w, (x w).1 = Res.ok () ∧ newEvents w (x w).2 = evs

/-- The calls of the producers of a full backup, in order: a run of the configuration
producer if `includeConfigs` is set and nothing otherwise, then a run of the database
producer if `includeDatabases` is set and nothing otherwise, then a run of the
application-data producer; a run of a producer makes at least one call. -/
def ProducersInOrder (env : Env) (id : String) (options : FullOptions) (evs : List Event) :
    Prop :=
  ∃ evsC evsD evsA, evs = evsC ++ evsD ++ evsA ∧
    (if options.includeConfigs then
      RunOf (backupConfigurations env (pathJoin env.backupDir ("temp_" ++ id))) evsC ∧ evsC ≠ []
    else evsC = []) ∧
    (if options.includeDatabases then
      RunOf (backupDatabases env (pathJoin env.backupDir ("temp_" ++ id))) evsD ∧ evsD ≠ []
    else evsD = []) ∧
    RunOf (backupApplicationData env (pathJoin env.backupDir ("temp_" ++ id))) evsA ∧ evsA ≠ []

/-- The order of the steps of a full backup that completed: the write of the initial
record, the creation of the working directory, the producers in order, the construction
of the archive from the working directory, the removal of the working directory and the
write of the completed record; every step but a call inside a producer succeeded, and
nothing follows the write of the completed record. -/
def FullJobOrder (env : Env) (id : String) (options : FullOptions) (evs : List Event) : Prop :=
  ∃ m0 tc evsP, ProducersInOrder env id options evsP ∧
    m0.status = some "in_progress" ∧
    evs = [⟨Op.writeFile (id ++ ".json") m0, none⟩, ⟨Op.mkdir ("temp_" ++ id), none⟩] ++ evsP ++
      [⟨Op.archive ("temp_" ++ id) (id ++ ".tar.gz"), none⟩, ⟨Op.rm ("temp_" ++ id), none⟩,
        ⟨Op.writeFile (id ++ ".json") (completedRecord m0 tc), none⟩]

/-- The call is a write of a record with status `failed`. -/
def Op.writesFailed : Op → Bool
  | Op.writeFile _ m => m.status == some "failed"
  | _ => false

/-- The run did not enter a `catch` block of a job runner: no write of a record with
status `failed` was attempted. -/
def NoFatalStep (evs : List Event) : Prop := ∀ ev ∈ evs, ev.op.writesFailed = false


/-- The only calls made to fail from outside are removals of the files of the record
`bad`: every other call fails only for what the backup directory holds. -/
def FaultsOnlyDeleting (env : Env) (bad : Metadata) : Prop :=
  ∀ n op, env.fault n op ≠ none → ∃ name ∈ deletedNames [bad], op = Op.unlink name

/-- The automated records of a directory beyond position `k` of their arrangement by
`jsSort`. -/
def excessRecords (d : Dir) (k : Nat) : List Metadata :=
  (jsSort (fun a b => compareCreatedAt a.createdAt b.createdAt) (automatedRecords d)).drop k

/-- An environment in which every removal of `d02.tar.gz` fails with `EACCES` and every
other call succeeds. -/
def stuckArchiveEnv : Env :=
  { calmEnv with
    fault := fun _ op => if op = Op.unlink "d02.tar.gz" then some "EACCES" else none }

/-- The computation preserves the property `I` of the backup root. -/
def Preserves {α : Type} (I : Dir → Prop) (x : M α) : Prop := ∀ w, I w.fs → I (x w).2.fs

/-- The names of the children of the directory are distinct. -/
def DistinctNames (d : Dir) : Prop := (d.map Prod.fst).Nodup

/-- The id generated for a new job is not the id of an automated record stored in
another file of the directory. -/
def FreshId (d : Dir) (uuid : String) : Prop :=
  ∀ e ∈ d, ∀ m ∈ automatedRecord e, e.1 ≠ uuid ++ ".json" → tmpl m.id ≠ uuid

/-- An environment in which no call is made to fail and the clock shows 100 plus the
number of calls made so far. -/
def lateClockEnv : Env :=
  { calmEnv with clock := fun n => 100 + n }

/-- The text that follows the first ` > ` of a command line, if there is one. -/
def afterRedirect : List Char → Option (List Char)
  | [] => none
  | c :: cs =>
    if [' ', '>', ' '].isPrefixOf (c :: cs) then some (cs.drop 2) else afterRedirect cs

/-- The child of the directory `root` that the output redirection of the command
names, if it names one: the last segment of the target, when the segments before it
are those of `root`. -/
def redirectChild (root command : String) : Option String :=
  match afterRedirect command.data with
  | some target =>
    match (pathSegments (String.mk target)).reverse with
    | name :: rest => if rest.reverse = pathSegments root then some name else none
    | [] => none
  | none => none

/-- What a shell does to the directory `root` when it is handed the command: it opens
the target of an output redirection before it starts the program, so that a target
that is a child of `root` is created, or truncated when it is a file; the programs
themselves are taken to write nothing into `root`. -/
def redirectShell (root command : String) (d : Dir) : Dir :=
  match redirectChild root command with
  | some name => if d.find name = some Node.dir then d else d.put name (Node.file none 0)
  | none => d

/-- An environment in which no call is made to fail and the shell performs the output
redirections of the commands it is handed. -/
def redirectEnv : Env :=
  { calmEnv with shell := fun _ command d => redirectShell calmEnv.backupDir command d }

/-- The command is quiet outside `S`: whenever the shell runs it, no child of the
backup root is created, replaced or removed but those whose name satisfies `S`. -/
def QuietCommand (env : Env) (S : String → Prop) (command : String) : Prop :=
  ∀ n d name, ¬ S name → (env.shell n command d).find name = d.find name

/-- The event is no command, or a command that is quiet outside `S`. -/
def QuietEvent (env : Env) (S : String → Prop) (ev : Event) : Prop :=
  match ev.op with
  | Op.exec command => QuietCommand env S command
  | _ => True

/-- Every command among the calls `evs` is quiet outside the names of the job `id`:
the shell and the programs it started changed nothing in the backup root but
`{id}.json`, `{id}.tar.gz` and `temp_{id}`. -/
def QuietShell (env : Env) (id : String) (evs : List Event) : Prop :=
  ∀ ev ∈ evs, QuietEvent env (OwnName id) ev

/-- The computation changes no child of the backup root but those whose name satisfies
`S`, in every run in which every call satisfies `P`. -/
def TouchesOnlyWhen {α : Type} (P : Event → Prop) (S : String → Prop) (x : M α) : Prop :=
  ∀ w, ∃ evs, (x w).2.trace = w.trace ++ evs ∧
    ((∀ ev ∈ evs, P ev) → ∀ n, ¬ S n → (x w).2.fs.find n = w.fs.find n)

/-- The commands among the calls `evs` redirect their output to no child of `root`. -/
def noRedirectInto (root : String) (evs : List Event) : Bool :=
  evs.all (fun ev =>
    match ev.op with
    | Op.exec command => (redirectChild root command).isNone
    | _ => true)

/-- A directory that holds the completed job `other`: its record and its archive. -/
def otherJobDir : Dir :=
  [("other.json", Node.file (some (sampleRecord "other" (some 1) false)) 256),
   ("other.tar.gz", Node.file none 4096)]

/-- A backup directory whose only file is `schedule.json`, holding a document with the
id `../../etc/passwd`; the second entry stands for the file `/var/etc/passwd.tar.gz`
outside the directory, under the name that leads to it from the backup root. -/
def strayArchiveDir : Dir :=
  [("schedule.json", Node.file (some (sampleRecord "../../etc/passwd" (some 1) false)) 256),
   ("../../etc/passwd.tar.gz", Node.file none 4096)]

/-- An environment in which every probe `fs.access` fails with `EACCES` (the process
may not search the backup directory) and no other call is made to fail. -/
def probeFailureEnv : Env :=
  { calmEnv with
    fault := fun _ op =>
      match op with
      | Op.access _ => some "EACCES: permission denied"
      | _ => none }

/-- An environment in which every removal `fs.unlink` fails with `EACCES` and no other
call is made to fail. -/
def unlinkFailureEnv : Env :=
  { calmEnv with
    fault := fun _ op =>
      match op with
      | Op.unlink _ => some "EACCES: permission denied"
      | _ => none }

/-- The error with which the promise of `createArchive` is rejected when its streams
emit `events`, if it is rejected. -/
def archiveRejection (events : List StreamEvent) : Option String :=
  match archivePromise events with
  | some (Res.error message) => some message
  | _ => none

/-- An environment in which the streams of every `createArchive` emit `events` and
leave `size` bytes in the target, and no other call is made to fail: the oracle makes
`createArchive` fail when, and with the error with which, its promise is rejected. -/
def streamsEnv (events : List StreamEvent) (size : Nat) : Env :=
  { calmEnv with
    fault := fun _ op =>
      match op with
      | Op.archive _ _ => archiveRejection events
      | _ => none
    archiveSize := fun _ => size }

/-- The streams of a `createArchive` whose archiver cannot read the working directory:
the archiver emits `error`, the write stream is closed afterwards. -/
def archiverErrorStreams : List StreamEvent :=
  [StreamEvent.archiveError "EACCES: permission denied, scandir", StreamEvent.outputClose]

/-- The streams of a `createArchive` whose write stream meets a full disk at its first
write: the stream emits `error` and is closed; the archiver emits no `error`. -/
def diskFullStreams : List StreamEvent :=
  [StreamEvent.outputError "ENOSPC: no space left on device, write", StreamEvent.outputClose]

/-- The oracle made the call `op` of the run `evs`, started in the world `w`, fail with
the error `e`. For `createArchive` this is the rejection of its promise, which only the
`error` event of the archiver causes. -/
def FailedByOracle (env : Env) (w : World) (evs : List Event) (op : Op) (e : String) : Prop :=
  ∃ n, evs[n]? = some ⟨op, some e⟩ ∧ env.fault (w.trace.length + n) op = some e

/-- The record `m` of the job `id` has just been persisted in the world `w` after
`createArchive` resolved: the last three calls were the call of `createArchive` for
`{id}.tar.gz`, the removal of the working directory and the write of `m` to `{id}.json`,
none of which threw; `{id}.json` holds `m`; and if there is a child `{id}.tar.gz`, a
listing of this state in which no call is made to fail returns `m`. -/
def CompletedAfterArchive (id : String) (m : Metadata) (w : World) : Prop :=
  (∃ pre, w.trace = pre ++ [⟨Op.archive ("temp_" ++ id) (id ++ ".tar.gz"), none⟩,
      ⟨Op.rm ("temp_" ++ id), none⟩, ⟨Op.writeFile (id ++ ".json") m, none⟩]) ∧
  recordAt w.fs (id ++ ".json") = some m ∧
  ((w.fs.find (id ++ ".tar.gz")).isSome = true →
    ∀ env : Env, NoFault env →
      ∃ l, (getBackupList env w).1 = Res.ok l ∧ ∃ r ∈ l, r.metadata = m)

/-! ## Running the monad -/

@[simp] theorem pure_run {α : Type} (a : α) (w : World) : (pure a : M α) w = (Res.ok a, w) := rfl

@[simp] theorem bind_run {α β : Type} (x : M α) (f : α → M β) (w : World) :
    (x >>= f) w = match x w with
      | (Res.ok a, w1) => f a w1
      | (Res.error e, w1) => (Res.error e, w1) := rfl

theorem perform_fs_of_readonly {α : Type} (env : Env) (op : Op) (act : Dir → Res (α × Dir))
    (hact : ∀ d a d1, act d = Res.ok (a, d1) → d1 = d) (w : World) :
    (perform env op act w).2.fs = w.fs := by
  unfold perform
  split
  · rfl
  · split
    · next a d h => exact hact _ _ _ h
    · rfl

theorem readJson_fs (env : Env) (name : String) (w : World) :
    (readJson env name w).2.fs = w.fs := by
  apply perform_fs_of_readonly
  intro d a d1 h
  split at h <;> simp_all

theorem stat_fs (env : Env) (name : String) (w : World) :
    (stat env name w).2.fs = w.fs := by
  apply perform_fs_of_readonly
  intro d a d1 h
  split at h <;> simp_all

theorem access_fs (env : Env) (name : String) (w : World) :
    (access env name w).2.fs = w.fs := by
  apply perform_fs_of_readonly
  intro d a d1 h
  split at h <;> simp_all

theorem access_ok (env : Env) (name : String) (w w1 : World)
    (h : access env name w = (Res.ok (), w1)) : (w.fs.find name).isSome = true := by
  unfold access perform at h
  split at h
  · simp at h
  · split at h
    · next a d hact =>
      by_contra hc
      simp [hc] at hact
    · simp at h

theorem fileExists_run (env : Env) (name : String) (w : World) :
    ∃ b w1, fileExists env name w = (Res.ok b, w1) ∧ w1.fs = w.fs ∧
      (b = true → (w.fs.find name).isSome = true) := by
  have hfs := access_fs env name w
  rcases hacc : access env name w with ⟨r, w1⟩
  rw [hacc] at hfs
  cases r with
  | ok a =>
    refine ⟨true, w1, ?_, hfs, fun _ => access_ok env name w w1 hacc⟩
    simp [fileExists, tryCatch, hacc]
  | error e =>
    refine ⟨false, w1, ?_, hfs, by simp⟩
    simp [fileExists, tryCatch, hacc]


/-! ## Listing -/

theorem listLoop_run (env : Env) (P : Listed → Prop) (d : Dir)
    (hP : ∀ m size w, w.fs = d → (∃ wa, fileExists env (tmpl m.id ++ ".tar.gz") w = (Res.ok true, wa)) →
      P ⟨m, size, pathJoin env.backupDir (tmpl m.id ++ ".tar.gz")⟩) :
    ∀ (files : List String) (backups : List Listed) (w : World), w.fs = d →
      (∀ r ∈ backups, P r) →
      ∃ l w1, listLoop env files backups w = (Res.ok l, w1) ∧ w1.fs = d ∧ ∀ r ∈ l, P r := by
  intro files
  induction files with
  | nil =>
    intro backups w hw hb
    exact ⟨backups, w, rfl, hw, hb⟩
  | cons file rest ih =>
    intro backups w hw hb
    unfold listLoop
    by_cases hjson : endsWith file ".json" = true
    · simp only [hjson, if_true, bind_run, tryCatch]
      have hfs1 := readJson_fs env file w
      rcases hread : readJson env file w with ⟨r, w1⟩
      rw [hread] at hfs1
      cases r with
      | error e => exact ih backups w1 (hfs1.trans hw) hb
      | ok metadata =>
        obtain ⟨b, w2, hex, hfs2, -⟩ := fileExists_run env (tmpl metadata.id ++ ".tar.gz") w1
        simp only [hex]
        cases b with
        | false => exact ih backups w2 (hfs2.trans (hfs1.trans hw)) hb
        | true =>
          simp only [if_true, bind_run]
          have hfs3 := stat_fs env (tmpl metadata.id ++ ".tar.gz") w2
          rcases hstat : stat env (tmpl metadata.id ++ ".tar.gz") w2 with ⟨r3, w3⟩
          rw [hstat] at hfs3
          have hd3 : w3.fs = d := hfs3.trans (hfs2.trans (hfs1.trans hw))
          cases r3 with
          | error e => exact ih backups w3 hd3 hb
          | ok size =>
            refine ih _ w3 hd3 ?_
            intro r hr
            rcases List.mem_append.1 hr with h | h
            · exact hb r h
            · rw [List.mem_singleton.1 h]
              exact hP metadata size w1 (hfs1.trans hw) ⟨w2, hex⟩
    · simp only [hjson, bind_run, pure_run]
      exact ih backups w hw hb


theorem readdir_fs (env : Env) (w : World) : (readdir env w).2.fs = w.fs := by
  apply perform_fs_of_readonly
  intro d a d1 h
  simp_all

theorem getBackupList_run (env : Env) (P : Listed → Prop) (w : World)
    (hP : ∀ m size w0, w0.fs = w.fs →
      (∃ wa, fileExists env (tmpl m.id ++ ".tar.gz") w0 = (Res.ok true, wa)) →
      P ⟨m, size, pathJoin env.backupDir (tmpl m.id ++ ".tar.gz")⟩) :
    ∃ bs w1, getBackupList env w =
        (Res.ok (jsSort (fun a b => compareCreatedAt a.metadata.createdAt b.metadata.createdAt) bs),
          w1) ∧
      w1.fs = w.fs ∧ ∀ r ∈ bs, P r := by
  unfold getBackupList
  simp only [tryCatch, bind_run]
  have hfs1 := readdir_fs env w
  rcases hread : readdir env w with ⟨r, w1⟩
  rw [hread] at hfs1
  cases r with
  | error e => exact ⟨[], w1, rfl, hfs1, by simp⟩
  | ok files =>
    obtain ⟨l, w2, hl, hfs2, hall⟩ := listLoop_run env P w.fs hP files [] w1 hfs1 (by simp)
    refine ⟨l, w2, ?_, hfs2, hall⟩
    simp only [hl, pure_run]

theorem mem_jsSort {α : Type} (cmp : α → α → Int) (l : List α) (a : α) :
    a ∈ jsSort cmp l ↔ a ∈ l := by
  unfold jsSort
  exact List.mem_insertionSort _

theorem jsSort_pairwise_of_valid {α : Type} (key : α → Option Int) (l : List α)
    (hv : ∀ a ∈ l, key a ≠ none) :
    (jsSort (fun a b => compareCreatedAt (key a) (key b)) l).Pairwise
      (fun a b => earlier (key a) (key b) = false) := by
  unfold jsSort
  have hmap := List.map_insertionSort (fun a b => compareCreatedAt (key a) (key b) ≤ 0)
    (fun (x y : Int) => y ≤ x) (fun a => (key a).getD 0) l (by
      intro a ha b hb
      obtain ⟨x, hx⟩ := Option.ne_none_iff_exists'.1 (hv a ha)
      obtain ⟨y, hy⟩ := Option.ne_none_iff_exists'.1 (hv b hb)
      simp [hx, hy, compareCreatedAt])
  have hsorted : ((l.insertionSort (fun a b => compareCreatedAt (key a) (key b) ≤ 0)).map
      (fun a => (key a).getD 0)).Sorted (fun (x y : Int) => y ≤ x) := by
    rw [hmap]
    have : IsTotal Int (fun (x y : Int) => y ≤ x) := ⟨fun a b => le_total b a⟩
    have : IsTrans Int (fun (x y : Int) => y ≤ x) := ⟨fun a b c hab hbc => le_trans hbc hab⟩
    exact List.sorted_insertionSort _ _
  have hpw := List.pairwise_map.1 hsorted
  have hmem : ∀ a ∈ l.insertionSort (fun a b => compareCreatedAt (key a) (key b) ≤ 0),
      key a ≠ none := fun a ha => hv a ((List.mem_insertionSort _).1 ha)
  refine (List.Pairwise.and_mem.1 hpw).imp ?_
  intro a b h
  obtain ⟨ha, hb, hab⟩ := h
  obtain ⟨x, hx⟩ := Option.ne_none_iff_exists'.1 (hmem a ha)
  obtain ⟨y, hy⟩ := Option.ne_none_iff_exists'.1 (hmem b hb)
  simp only [hx, hy, Option.getD_some] at hab
  simp [hx, hy, earlier, hab]

/-- C3, as amended. List ordering: whenever every record that `getBackupList` returns
has a valid `createdAt`, the records are ordered by `createdAt` descending: for all
positions `i < j` of the result, the `createdAt` of record `i` is not earlier than
that of record `j`. -/
theorem getBackupList_sorted_of_valid (env : Env) (w : World) (l : List Listed)
    (hrun : (getBackupList env w).1 = Res.ok l)
    (hvalid : ∀ r ∈ l, r.metadata.createdAt ≠ none) :
    l.Pairwise (fun a b => earlier a.metadata.createdAt b.metadata.createdAt = false) := by
  obtain ⟨bs, w1, hbs, -, -⟩ := getBackupList_run env (fun _ => True) w (by simp)
  rw [hbs] at hrun
  simp only [Res.ok.injEq] at hrun
  subst hrun
  exact jsSort_pairwise_of_valid (fun r => r.metadata.createdAt) bs
    (fun a ha => hvalid a ((mem_jsSort _ _ _).2 ha))

/-- Witness of C3 as amended: two archived records with valid creation times, the
older one first in the directory, are listed newest first. -/
theorem getBackupList_sorted_of_valid_witness :
    (getBackupList calmEnv ⟨validDatesDir, []⟩).1 =
        Res.ok [⟨sampleRecord "b" (some 2) false, 4096, "/var/backups/buddybox/b.tar.gz"⟩,
          ⟨sampleRecord "a" (some 1) false, 4096, "/var/backups/buddybox/a.tar.gz"⟩] ∧
      [(⟨sampleRecord "b" (some 2) false, 4096, "/var/backups/buddybox/b.tar.gz"⟩ : Listed),
          ⟨sampleRecord "a" (some 1) false, 4096, "/var/backups/buddybox/a.tar.gz"⟩].Pairwise
        (fun a b => earlier a.metadata.createdAt b.metadata.createdAt = false) :=
  ⟨by decide, getBackupList_sorted_of_valid calmEnv ⟨validDatesDir, []⟩ _ (by decide)
    (by decide)⟩

/-- Counterexample to C3 as stated: with an archived record that has no valid
`createdAt` between them in the directory, the record created at time 1 is listed
before the record created at time 2. Every comparison of neighbours in the array
involves the invalid date and yields `+0`, so the array counts as sorted already (also
for a sort that starts by looking for an ascending run, as that of V8). -/
theorem getBackupList_not_sorted :
    (getBackupList calmEnv ⟨mixedDatesDir, []⟩).1 =
        Res.ok [⟨sampleRecord "a" (some 1) false, 4096, "/var/backups/buddybox/a.tar.gz"⟩,
          ⟨sampleRecord "x" none false, 4096, "/var/backups/buddybox/x.tar.gz"⟩,
          ⟨sampleRecord "b" (some 2) false, 4096, "/var/backups/buddybox/b.tar.gz"⟩] ∧
      ¬ [(⟨sampleRecord "a" (some 1) false, 4096, "/var/backups/buddybox/a.tar.gz"⟩ : Listed),
          ⟨sampleRecord "x" none false, 4096, "/var/backups/buddybox/x.tar.gz"⟩,
          ⟨sampleRecord "b" (some 2) false, 4096, "/var/backups/buddybox/b.tar.gz"⟩].Pairwise
        (fun a b => earlier a.metadata.createdAt b.metadata.createdAt = false) := by
  constructor
  · decide
  · decide


/-! ## Directories -/

theorem find_filter (p : String → Bool) (d : Dir) (x : String) :
    Dir.find (d.filter (fun e => p e.1)) x = if p x = true then Dir.find d x else none := by
  induction d with
  | nil => simp [Dir.find]
  | cons e rest ih =>
    obtain ⟨n, node⟩ := e
    by_cases hp : p n = true <;> by_cases hn : n = x
    · subst hn
      simp [List.filter_cons, Dir.find, hp]
    · simp [List.filter_cons, Dir.find, hp, hn, ih]
    · subst hn
      simp [List.filter_cons, Dir.find, hp, ih]
    · simp [List.filter_cons, Dir.find, hp, hn, ih]

theorem find_remove (d : Dir) (n x : String) :
    Dir.find (d.remove n) x = if x = n then none else Dir.find d x := by
  unfold Dir.remove
  have h := find_filter (fun s => decide (s ≠ n)) d x
  rw [h]
  by_cases hx : x = n <;> simp [hx]

theorem find_eq_none_iff (d : Dir) (x : String) :
    Dir.find d x = none ↔ ∀ e ∈ d, e.1 ≠ x := by
  induction d with
  | nil => simp [Dir.find]
  | cons e rest ih =>
    obtain ⟨n, node⟩ := e
    by_cases hn : n = x
    · simp [Dir.find, hn]
    · simp [Dir.find, hn, ih]

theorem remove_of_find_none (d : Dir) (n : String) (h : Dir.find d n = none) :
    d.remove n = d := by
  unfold Dir.remove
  rw [List.filter_eq_self]
  intro e he
  simpa using (find_eq_none_iff d n).1 h e he

theorem find_of_mem_of_nodup (d : Dir) (hnd : (d.map Prod.fst).Nodup) (e : String × Node)
    (he : e ∈ d) : Dir.find d e.1 = some e.2 := by
  induction d with
  | nil => simp at he
  | cons e1 rest ih =>
    obtain ⟨n, node⟩ := e1
    simp only [List.map_cons, List.nodup_cons] at hnd
    rcases List.mem_cons.1 he with h | h
    · subst h
      simp [Dir.find]
    · have hne : n ≠ e.1 := by
        intro hc
        apply hnd.1
        rw [hc]
        exact List.mem_map_of_mem _ h
      simp only [Dir.find, hne, if_false]
      exact ih hnd.2 h

theorem mem_of_find (d : Dir) (x : String) (node : Node) (h : Dir.find d x = some node) :
    (x, node) ∈ d := by
  induction d with
  | nil => simp [Dir.find] at h
  | cons e rest ih =>
    obtain ⟨n, node1⟩ := e
    by_cases hn : n = x
    · simp only [Dir.find, hn, if_true, Option.some.injEq] at h
      simp [hn, h]
    · simp only [Dir.find, hn, if_false] at h
      exact List.mem_cons_of_mem _ (ih h)


/-! ## Retention -/

theorem perform_of_noFault {α : Type} (env : Env) (hnf : NoFault env) (op : Op)
    (act : Dir → Res (α × Dir)) (w : World) :
    perform env op act w =
      match act w.fs with
      | Res.ok (a, d) => (Res.ok a, { fs := d, trace := w.trace ++ [⟨op, none⟩] })
      | Res.error e => (Res.error e, { w with trace := w.trace ++ [⟨op, some e⟩] }) := by
  unfold perform
  rw [hnf]

theorem fileExists_of_noFault (env : Env) (hnf : NoFault env) (name : String) (w : World) :
    ∃ w1, fileExists env name w = (Res.ok (w.fs.find name).isSome, w1) ∧ w1.fs = w.fs := by
  unfold fileExists access
  simp only [tryCatch, bind_run, perform_of_noFault env hnf]
  cases h : (w.fs.find name).isSome <;> simp

theorem unlink_of_noFault (env : Env) (hnf : NoFault env) (name : String) (w : World)
    (hex : (w.fs.find name).isSome = true) (hfile : w.fs.find name ≠ some Node.dir) :
    ∃ w1, unlink env name w = (Res.ok (), w1) ∧ w1.fs = w.fs.remove name := by
  unfold unlink
  rw [perform_of_noFault env hnf]
  cases h : w.fs.find name with
  | none => simp [h] at hex
  | some node =>
    cases node with
    | dir => exact absurd h hfile
    | file j s => simp

theorem deleteIfExists_of_noFault (env : Env) (hnf : NoFault env) (name : String) (w : World)
    (hfile : w.fs.find name ≠ some Node.dir) :
    ∃ b w1 w2, fileExists env name w = (Res.ok b, w1) ∧
      (if b = true then unlink env name else pure ()) w1 = (Res.ok (), w2) ∧
      w2.fs = w.fs.remove name := by
  obtain ⟨w1, hex, hfs1⟩ := fileExists_of_noFault env hnf name w
  cases hb : (w.fs.find name).isSome with
  | false =>
    refine ⟨false, w1, w1, by rw [hex, hb], by simp, ?_⟩
    rw [hfs1, remove_of_find_none]
    simpa using hb
  | true =>
    obtain ⟨w2, hun, hfs2⟩ := unlink_of_noFault env hnf name w1 (by rw [hfs1]; exact hb)
      (by rw [hfs1]; exact hfile)
    refine ⟨true, w1, w2, by rw [hex, hb], by simp [hun], ?_⟩
    rw [hfs2, hfs1]

theorem deleteLoop_of_noFault (env : Env) (hnf : NoFault env) :
    ∀ (l : List Metadata) (w : World),
      (∀ m ∈ l, w.fs.find (tmpl m.id ++ ".tar.gz") ≠ some Node.dir ∧
        w.fs.find (tmpl m.id ++ ".json") ≠ some Node.dir) →
      ∃ w1, deleteLoop env l w = (Res.ok (), w1) ∧
        w1.fs = w.fs.filter (fun e => decide (e.1 ∉ deletedNames l)) := by
  intro l
  induction l with
  | nil =>
    intro w _
    exact ⟨w, rfl, by simp [deletedNames]⟩
  | cons m rest ih =>
    intro w hl
    have hm := hl m (List.mem_cons_self _ _)
    obtain ⟨b1, w0, w1, h0, h1, hfs1⟩ :=
      deleteIfExists_of_noFault env hnf (tmpl m.id ++ ".tar.gz") w hm.1
    have hj1 : w1.fs.find (tmpl m.id ++ ".json") ≠ some Node.dir := by
      rw [hfs1, find_remove]
      split
      · simp
      · exact hm.2
    obtain ⟨b2, w12, w2, h12, h2, hfs2⟩ :=
      deleteIfExists_of_noFault env hnf (tmpl m.id ++ ".json") w1 hj1
    have hrest : ∀ m1 ∈ rest, w2.fs.find (tmpl m1.id ++ ".tar.gz") ≠ some Node.dir ∧
        w2.fs.find (tmpl m1.id ++ ".json") ≠ some Node.dir := by
      intro m1 hm1
      have h := hl m1 (List.mem_cons_of_mem _ hm1)
      rw [hfs2, hfs1]
      simp only [find_remove]
      constructor
      · split
        · simp
        · split
          · simp
          · exact h.1
      · split
        · simp
        · split
          · simp
          · exact h.2
    obtain ⟨w3, h3, hfs3⟩ := ih w2 hrest
    refine ⟨w3, ?_, ?_⟩
    · unfold deleteLoop
      simp only [bind_run, tryCatch, h0, h1, h12, h2]
      exact h3
    · rw [hfs3, hfs2, hfs1]
      simp only [Dir.remove, List.filter_filter, deletedNames, List.flatMap_cons]
      apply List.filter_congr
      intro e _
      rw [Bool.eq_iff_iff]
      simp only [List.mem_append, List.mem_cons, List.mem_singleton, List.not_mem_nil, or_false,
        not_or, Bool.and_eq_true, decide_eq_true_eq, ne_eq, Bool.not_eq_true',
        decide_eq_false_iff_not, List.singleton_append]
      tauto


theorem collectLoop_of_noFault (env : Env) (hnf : NoFault env) (d : Dir) :
    ∀ (files : List String) (backups : List Metadata) (w : World), w.fs = d →
      ∃ w1, collectLoop env files backups w =
          (Res.ok (backups ++ files.filterMap
            (fun f => (d.find f).bind (fun node => automatedRecord (f, node)))), w1) ∧
        w1.fs = d := by
  intro files
  induction files with
  | nil =>
    intro backups w hw
    exact ⟨w, by simp [collectLoop], hw⟩
  | cons file rest ih =>
    intro backups w hw
    subst hw
    unfold collectLoop
    by_cases hjson : endsWith file ".json" = true
    · simp only [hjson, if_true, bind_run, tryCatch, readJson, perform_of_noFault env hnf]
      cases hfind : w.fs.find file with
      | none =>
        have h := ih backups
          { w with trace := w.trace ++
            [⟨Op.readFile file, some "ENOENT: no such file or directory"⟩] } rfl
        simpa [hfind] using h
      | some node =>
        cases node with
        | dir =>
          have h := ih backups
            { w with trace := w.trace ++
              [⟨Op.readFile file, some "EISDIR: illegal operation on a directory"⟩] } rfl
          simpa [hfind, automatedRecord, hjson] using h
        | file json size =>
          cases json with
          | none =>
            have h := ih backups
              { w with trace := w.trace ++
                [⟨Op.readFile file, some "SyntaxError: Unexpected token"⟩] } rfl
            simpa [hfind, automatedRecord, hjson] using h
          | some m =>
            by_cases hauto : m.automated = true
            · have h := ih (backups ++ [m])
                { fs := w.fs, trace := w.trace ++ [⟨Op.readFile file, none⟩] } rfl
              simpa [hfind, automatedRecord, hjson, hauto] using h
            · have h := ih backups
                { fs := w.fs, trace := w.trace ++ [⟨Op.readFile file, none⟩] } rfl
              simpa [hfind, automatedRecord, hjson, hauto] using h
    · have h := ih backups w rfl
      cases hfind : w.fs.find file with
      | none => simpa [hjson, hfind] using h
      | some node => simpa [hjson, hfind, automatedRecord] using h

theorem filterMap_names_eq_automatedRecords (d : Dir) (hnd : (d.map Prod.fst).Nodup) :
    (d.map Prod.fst).filterMap (fun f => (d.find f).bind (fun node => automatedRecord (f, node)))
      = automatedRecords d := by
  unfold automatedRecords
  rw [List.filterMap_map]
  apply List.filterMap_congr
  intro e he
  simp [Function.comp, find_of_mem_of_nodup d hnd e he]


/-! ## Ordering by creation time -/

theorem earlier_irrefl (a : Option Int) : earlier a a = false := by
  cases a <;> simp [earlier]

theorem earlier_asymm (a b : Option Int) (h : earlier a b = true) : earlier b a = false := by
  cases a <;> cases b <;> simp_all [earlier]
  omega

theorem newer_count_of_strict {α : Type} (key : α → Option Int) (s : List α)
    (hs : s.Pairwise (fun a b => earlier (key b) (key a) = true)) (k : Nat) (m : α) :
    (m ∈ s.take k → (s.filter (fun x => earlier (key m) (key x))).length < k) ∧
    (m ∈ s.drop k → k ≤ (s.filter (fun x => earlier (key m) (key x))).length) := by
  have hsplit := List.take_append_drop k s
  rw [← hsplit] at hs
  obtain ⟨-, -, hcross⟩ := List.pairwise_append.1 hs
  constructor
  · intro hm
    have hdrop : (s.drop k).filter (fun x => earlier (key m) (key x)) = [] := by
      rw [List.filter_eq_nil_iff]
      intro b hb
      have := earlier_asymm _ _ (hcross m hm b hb)
      simp [this]
    have htake : ((s.take k).filter (fun x => earlier (key m) (key x))).length
        < (s.take k).length := by
      rw [List.length_filter_lt_length_iff_exists]
      exact ⟨m, hm, by simp [earlier_irrefl]⟩
    have hlen : (s.take k).length ≤ k := by
      rw [List.length_take]
      exact Nat.min_le_left _ _
    conv_lhs => rw [← hsplit]
    rw [List.filter_append, hdrop, List.append_nil]
    omega
  · intro hm
    have htake : (s.take k).filter (fun x => earlier (key m) (key x)) = s.take k := by
      rw [List.filter_eq_self]
      intro a ha
      exact hcross a ha m hm
    have hlt : k < s.length := by
      by_contra hc
      have hnil : s.drop k = [] := List.drop_eq_nil_iff.2 (by omega)
      rw [hnil] at hm
      simp at hm
    have hlen : (s.take k).length = k := by
      rw [List.length_take]
      omega
    conv_rhs => rw [← hsplit]
    rw [List.filter_append, htake, List.length_append]
    omega

theorem jsSort_perm {α : Type} (cmp : α → α → Int) (l : List α) : (jsSort cmp l).Perm l := by
  unfold jsSort
  exact List.perm_insertionSort _ _

theorem jsSort_strict_of_valid_distinct {α : Type} (key : α → Option Int) (l : List α)
    (hv : ∀ a ∈ l, key a ≠ none) (hd : l.Pairwise (fun a b => key a ≠ key b)) :
    (jsSort (fun a b => compareCreatedAt (key a) (key b)) l).Pairwise
      (fun a b => earlier (key b) (key a) = true) := by
  have hsorted := jsSort_pairwise_of_valid key l hv
  have hperm := jsSort_perm (fun a b => compareCreatedAt (key a) (key b)) l
  have hd1 : (jsSort (fun a b => compareCreatedAt (key a) (key b)) l).Pairwise
      (fun a b => key a ≠ key b) :=
    (hperm.pairwise_iff (fun h => Ne.symm h)).2 hd
  have hall := List.Pairwise.and_mem.1 (hsorted.and hd1)
  refine hall.imp ?_
  intro a b h
  obtain ⟨ha, hb, hle, hne⟩ := h
  obtain ⟨x, hx⟩ := Option.ne_none_iff_exists'.1 (hv a (hperm.mem_iff.1 ha))
  obtain ⟨y, hy⟩ := Option.ne_none_iff_exists'.1 (hv b (hperm.mem_iff.1 hb))
  simp only [hx, hy, earlier, decide_eq_false_iff_not, not_lt, ne_eq, Option.some.injEq,
    decide_eq_true_eq] at hle hne ⊢
  omega

theorem jsSlice_natCast {α : Type} (l : List α) (k : Nat) : jsSlice l (k : Int) = l.drop k := by
  unfold jsSlice
  have : ¬ ((k : Int) < 0) := by omega
  simp [this]

theorem filter_filterMap_of_agree {α β : Type} (f : α → Option β) (p : α → Bool) (q : β → Bool) :
    ∀ (d : List α), (∀ e ∈ d, ∀ m, f e = some m → p e = q m) →
      (d.filter p).filterMap f = (d.filterMap f).filter q := by
  intro d
  induction d with
  | nil => simp
  | cons e rest ih =>
    intro h
    have ih1 := ih (fun e1 he1 => h e1 (List.mem_cons_of_mem _ he1))
    cases hf : f e with
    | none =>
      by_cases hp : p e = true
      · simp [List.filter_cons, hp, hf, ih1]
      · simp [List.filter_cons, hp, hf, ih1]
    | some m =>
      have hpq := h e (List.mem_cons_self _ _) m hf
      by_cases hp : p e = true
      · have hq : q m = true := by rw [← hpq]; exact hp
        simp [List.filter_cons, hp, hf, ih1, hq]
      · have hq : ¬ q m = true := by rw [← hpq]; exact hp
        simp [List.filter_cons, hp, hf, ih1, hq]

theorem filter_eq_take_of_split {α : Type} (q : α → Bool) (s : List α) (k : Nat)
    (htake : ∀ a ∈ s.take k, q a = true) (hdrop : ∀ a ∈ s.drop k, q a = false) :
    s.filter q = s.take k := by
  conv_lhs => rw [← List.take_append_drop k s]
  rw [List.filter_append, List.filter_eq_self.2 htake, List.filter_eq_nil_iff.2, List.append_nil]
  intro a ha
  simp [hdrop a ha]


/-! ## File names -/

theorem append_json_inj (a b : String) (h : a ++ ".json" = b ++ ".json") : a = b := by
  have hd := congrArg String.data h
  simp only [String.data_append] at hd
  exact String.ext (List.append_cancel_right hd)

theorem append_targz_inj (a b : String) (h : a ++ ".tar.gz" = b ++ ".tar.gz") : a = b := by
  have hd := congrArg String.data h
  simp only [String.data_append] at hd
  exact String.ext (List.append_cancel_right hd)

theorem targz_ne_json (a b : String) : a ++ ".tar.gz" ≠ b ++ ".json" := by
  intro h
  have hd := congrArg (fun s => s.data.reverse.head?) h
  simp [String.data_append] at hd

theorem mem_automatedRecords (d : Dir) (m : Metadata) :
    m ∈ automatedRecords d ↔
      ∃ name size, (name, Node.file (some m) size) ∈ d ∧ endsWith name ".json" = true ∧
        m.automated = true := by
  unfold automatedRecords
  rw [List.mem_filterMap]
  constructor
  · rintro ⟨⟨name, node⟩, he, hrec⟩
    unfold automatedRecord at hrec
    by_cases hjson : endsWith name ".json" = true
    · simp only [hjson, if_true] at hrec
      cases node with
      | dir => simp at hrec
      | file json size =>
        cases json with
        | none => simp at hrec
        | some m1 =>
          by_cases hauto : m1.automated = true
          · simp only [hauto, if_true, Option.some.injEq] at hrec
            subst hrec
            exact ⟨name, size, he, hjson, hauto⟩
          · simp [hauto] at hrec
    · simp [hjson] at hrec
  · rintro ⟨name, size, he, hjson, hauto⟩
    exact ⟨(name, Node.file (some m) size), he, by simp [automatedRecord, hjson, hauto]⟩


theorem cleanupOldBackups_of_noFault (env : Env) (hnf : NoFault env) (w : World) (k : Nat)
    (hnames : (w.fs.map Prod.fst).Nodup)
    (hfiles : ∀ m ∈ automatedRecords w.fs,
      w.fs.find (tmpl m.id ++ ".tar.gz") ≠ some Node.dir ∧
      w.fs.find (tmpl m.id ++ ".json") ≠ some Node.dir) :
    ∃ w1, cleanupOldBackups env k w = (Res.ok (), w1) ∧
      w1.fs = w.fs.filter (fun e => decide (e.1 ∉ deletedNames
        ((jsSort (fun a b => compareCreatedAt a.createdAt b.createdAt)
          (automatedRecords w.fs)).drop k))) := by
  unfold cleanupOldBackups
  simp only [tryCatch, bind_run, readdir, perform_of_noFault env hnf]
  obtain ⟨w1, h1, hfs1⟩ := collectLoop_of_noFault env hnf w.fs (w.fs.map Prod.fst) []
    { fs := w.fs, trace := w.trace ++ [⟨Op.readdir, none⟩] } rfl
  rw [List.nil_append, filterMap_names_eq_automatedRecords w.fs hnames] at h1
  simp only [h1, jsSlice_natCast]
  obtain ⟨w2, h2, hfs2⟩ := deleteLoop_of_noFault env hnf
    ((jsSort (fun a b => compareCreatedAt a.createdAt b.createdAt)
      (automatedRecords w.fs)).drop k) w1 (by
      intro m hm
      rw [hfs1]
      exact hfiles m ((mem_jsSort _ _ _).1 (List.mem_of_mem_drop hm)))
  refine ⟨w2, by simp only [h2], ?_⟩
  rw [hfs2, hfs1]

/-- C1. Retention correctness: let the backup directory hold its automated records
each in the file `{id}.json`, with valid and pairwise distinct `createdAt`, and let no
call fail. Then `cleanupOldBackups(k)` returns normally, and afterwards the automated
records whose metadata still exists are exactly those with fewer than `k` automated
records created later, that is the `min(k, n)` most recent of the `n`; the metadata
and the archive of each of these are as before, and for every other automated record
both `{id}.json` and `{id}.tar.gz` are gone. -/
theorem cleanupOldBackups_retention (env : Env) (w : World) (k : Nat)
    (hio : NoFault env)
    (hnames : (w.fs.map Prod.fst).Nodup)
    (hstored : ∀ e ∈ w.fs, ∀ m ∈ automatedRecord e, e.1 = tmpl m.id ++ ".json")
    (harchive : ∀ m ∈ automatedRecords w.fs, w.fs.find (tmpl m.id ++ ".tar.gz") ≠ some Node.dir)
    (hvalid : ∀ m ∈ automatedRecords w.fs, m.createdAt ≠ none)
    (hdistinct : (automatedRecords w.fs).Pairwise (fun a b => a.createdAt ≠ b.createdAt)) :
    (cleanupOldBackups env k w).1 = Res.ok () ∧
    automatedRecords (cleanupOldBackups env k w).2.fs =
      (automatedRecords w.fs).filter (fun m => decide (newerCount w.fs m < k)) ∧
    (automatedRecords (cleanupOldBackups env k w).2.fs).length =
      min k (automatedRecords w.fs).length ∧
    ∀ m ∈ automatedRecords w.fs,
      (newerCount w.fs m < k →
        (cleanupOldBackups env k w).2.fs.find (tmpl m.id ++ ".json") =
          w.fs.find (tmpl m.id ++ ".json") ∧
        (cleanupOldBackups env k w).2.fs.find (tmpl m.id ++ ".tar.gz") =
          w.fs.find (tmpl m.id ++ ".tar.gz")) ∧
      (k ≤ newerCount w.fs m →
        (cleanupOldBackups env k w).2.fs.find (tmpl m.id ++ ".json") = none ∧
        (cleanupOldBackups env k w).2.fs.find (tmpl m.id ++ ".tar.gz") = none) := by
  -- where each automated record is stored
  have hat : ∀ m ∈ automatedRecords w.fs, ∃ size,
      (tmpl m.id ++ ".json", Node.file (some m) size) ∈ w.fs := by
    intro m hm
    obtain ⟨name, size, he, hjson, hauto⟩ := (mem_automatedRecords _ _).1 hm
    have := hstored (name, Node.file (some m) size) he m (by
      simp [automatedRecord, hjson, hauto])
    simp only at this
    subst this
    exact ⟨size, he⟩
  have hfindjson : ∀ m ∈ automatedRecords w.fs, ∃ size,
      w.fs.find (tmpl m.id ++ ".json") = some (Node.file (some m) size) := by
    intro m hm
    obtain ⟨size, he⟩ := hat m hm
    exact ⟨size, find_of_mem_of_nodup w.fs hnames _ he⟩
  have huniq : ∀ m ∈ automatedRecords w.fs, ∀ m1 ∈ automatedRecords w.fs,
      tmpl m1.id = tmpl m.id → m1 = m := by
    intro m hm m1 hm1 hid
    obtain ⟨size, h⟩ := hfindjson m hm
    obtain ⟨size1, h1⟩ := hfindjson m1 hm1
    rw [hid, h] at h1
    simp only [Option.some.injEq, Node.file.injEq] at h1
    exact h1.1.symm
  -- the run
  obtain ⟨w1, hrun, hfs⟩ := cleanupOldBackups_of_noFault env hio w k hnames (by
    intro m hm
    refine ⟨harchive m hm, ?_⟩
    obtain ⟨size, h⟩ := hfindjson m hm
    rw [h]
    simp)
  rw [hrun]
  simp only
  -- the sorted list and what is deleted
  have hperm := jsSort_perm (fun (a b : Metadata) => compareCreatedAt a.createdAt b.createdAt)
    (automatedRecords w.fs)
  have hstrict := jsSort_strict_of_valid_distinct (fun m : Metadata => m.createdAt)
    (automatedRecords w.fs) hvalid hdistinct
  have hcount : ∀ m, newerCount w.fs m =
      ((jsSort (fun (a b : Metadata) => compareCreatedAt a.createdAt b.createdAt)
        (automatedRecords w.fs)).filter (fun x => earlier m.createdAt x.createdAt)).length := by
    intro m
    unfold newerCount
    exact ((hperm.filter _).length_eq).symm
  generalize hS : jsSort (fun (a b : Metadata) => compareCreatedAt a.createdAt b.createdAt)
    (automatedRecords w.fs) = s at hperm hstrict hcount hfs
  have hdrop_iff : ∀ m ∈ automatedRecords w.fs, (m ∈ s.drop k ↔ k ≤ newerCount w.fs m) := by
    intro m hm
    have hms : m ∈ s := hperm.mem_iff.2 hm
    have hc := newer_count_of_strict (fun m : Metadata => m.createdAt) s hstrict k m
    rw [hcount m]
    constructor
    · exact hc.2
    · intro hle
      rw [← List.take_append_drop k s, List.mem_append] at hms
      rcases hms with h | h
      · have := hc.1 h
        omega
      · exact h
  have hjson_iff : ∀ m ∈ automatedRecords w.fs,
      (tmpl m.id ++ ".json" ∈ deletedNames (s.drop k) ↔ m ∈ s.drop k) := by
    intro m hm
    unfold deletedNames
    simp only [List.mem_flatMap, List.mem_cons, List.mem_singleton, List.not_mem_nil, or_false]
    constructor
    · rintro ⟨m1, hm1, h | h⟩
      · exact absurd h.symm (targz_ne_json _ _)
      · have hid := append_json_inj _ _ h
        have hm1A : m1 ∈ automatedRecords w.fs := hperm.mem_iff.1 (List.mem_of_mem_drop hm1)
        rw [← huniq m hm m1 hm1A hid.symm]
        exact hm1
    · intro h
      exact ⟨m, h, Or.inr rfl⟩
  have htargz_iff : ∀ m ∈ automatedRecords w.fs,
      (tmpl m.id ++ ".tar.gz" ∈ deletedNames (s.drop k) ↔ m ∈ s.drop k) := by
    intro m hm
    unfold deletedNames
    simp only [List.mem_flatMap, List.mem_cons, List.mem_singleton, List.not_mem_nil, or_false]
    constructor
    · rintro ⟨m1, hm1, h | h⟩
      · have hid := append_targz_inj _ _ h
        have hm1A : m1 ∈ automatedRecords w.fs := hperm.mem_iff.1 (List.mem_of_mem_drop hm1)
        rw [← huniq m hm m1 hm1A hid.symm]
        exact hm1
      · exact absurd h (targz_ne_json _ _)
    · intro h
      exact ⟨m, h, Or.inl rfl⟩
  have hrecords : automatedRecords w1.fs =
      (automatedRecords w.fs).filter (fun m => decide (newerCount w.fs m < k)) := by
    rw [hfs]
    unfold automatedRecords
    apply filter_filterMap_of_agree
    intro e he m hrec
    have hm : m ∈ automatedRecords w.fs := List.mem_filterMap.2 ⟨e, he, hrec⟩
    have hname : e.1 = tmpl m.id ++ ".json" := hstored e he m hrec
    rw [hname, Bool.eq_iff_iff]
    simp only [decide_eq_true_eq]
    rw [hjson_iff m hm, hdrop_iff m hm]
    omega
  refine ⟨trivial, hrecords, ?_, ?_⟩
  · rw [hrecords]
    have h1 : ((automatedRecords w.fs).filter (fun m => decide (newerCount w.fs m < k))).length =
        (s.filter (fun m => decide (newerCount w.fs m < k))).length :=
      ((hperm.filter _).length_eq).symm
    rw [h1, filter_eq_take_of_split _ s k, List.length_take, hperm.length_eq]
    · intro a ha
      have haA : a ∈ automatedRecords w.fs := hperm.mem_iff.1 (List.mem_of_mem_take ha)
      have hc := (newer_count_of_strict (fun m : Metadata => m.createdAt) s hstrict k a).1 ha
      rw [← hcount a] at hc
      simpa using hc
    · intro a ha
      have haA : a ∈ automatedRecords w.fs := hperm.mem_iff.1 (List.mem_of_mem_drop ha)
      have hc := (hdrop_iff a haA).1 ha
      simp only [decide_eq_false_iff_not, not_lt]
      exact hc
  · intro m hm
    have hfind : ∀ x, w1.fs.find x =
        if decide (x ∉ deletedNames (s.drop k)) = true then w.fs.find x else none := by
      intro x
      rw [hfs]
      exact find_filter (fun n => decide (n ∉ deletedNames (s.drop k))) w.fs x
    constructor
    · intro hlt
      have hnot : m ∉ s.drop k := fun h => by
        have := (hdrop_iff m hm).1 h
        omega
      rw [hfind, hfind]
      simp [hjson_iff m hm, htargz_iff m hm, hnot]
    · intro hle
      have hin : m ∈ s.drop k := (hdrop_iff m hm).2 hle
      rw [hfind, hfind]
      simp [hjson_iff m hm, htargz_iff m hm, hin]

set_option maxRecDepth 100000 in
/-- Witness of C1: with ten automated records created at times 1 to 10 and two
user-initiated ones, `cleanupOldBackups(7)` leaves the seven automated records
created at times 4 to 10. -/
theorem cleanupOldBackups_retention_witness :
    automatedRecords (cleanupOldBackups calmEnv (7 : Nat) ⟨tenDailyDir, []⟩).2.fs =
        (automatedRecords tenDailyDir).filter (fun m => decide (newerCount tenDailyDir m < 7)) ∧
      (automatedRecords tenDailyDir).filter (fun m => decide (newerCount tenDailyDir m < 7)) =
        [sampleRecord "d04" (some 4) true, sampleRecord "d10" (some 10) true,
          sampleRecord "d06" (some 6) true, sampleRecord "d05" (some 5) true,
          sampleRecord "d07" (some 7) true, sampleRecord "d09" (some 9) true,
          sampleRecord "d08" (some 8) true] :=
  ⟨(cleanupOldBackups_retention calmEnv ⟨tenDailyDir, []⟩ 7 (fun _ _ => rfl) (by decide)
    (by decide) (by decide) (by decide) (by decide)).2.1, by decide⟩


/-! ## Specifications of computations by their traces -/

theorem M.bind_assoc {α β γ : Type} (x : M α) (f : α → M β) (g : β → M γ) :
    (x >>= f) >>= g = x >>= fun a => f a >>= g := by
  funext w
  simp only [bind_run]
  rcases x w with ⟨r, w1⟩
  cases r <;> rfl

theorem Spec.weaken {α : Type} {x : M α} {Φ Ψ : Res α → List Event → Prop} (h : Spec x Φ)
    (himp : ∀ r evs, Φ r evs → Ψ r evs) : Spec x Ψ := by
  intro w
  obtain ⟨evs, htr, hΦ⟩ := h w
  exact ⟨evs, htr, himp _ _ hΦ⟩

theorem spec_pure {α : Type} (a : α) : Spec (pure a : M α) (fun r evs => r = Res.ok a ∧ evs = []) := by
  intro w
  exact ⟨[], by simp, rfl, rfl⟩

theorem spec_raise {α : Type} (msg : String) :
    Spec (raise msg : M α) (fun r evs => r = Res.error msg ∧ evs = []) := by
  intro w
  exact ⟨[], by simp [raise], rfl, rfl⟩

theorem spec_now (env : Env) : Spec (now env) (fun r evs => (∃ t, r = Res.ok t) ∧ evs = []) := by
  intro w
  exact ⟨[], by simp [now], ⟨_, rfl⟩, rfl⟩

theorem spec_perform {α : Type} (env : Env) (op : Op) (act : Dir → Res (α × Dir)) :
    Spec (perform env op act) (fun r evs =>
      (∃ a, r = Res.ok a ∧ evs = [⟨op, none⟩]) ∨ (∃ e, r = Res.error e ∧ evs = [⟨op, some e⟩])) := by
  intro w
  unfold perform
  split
  · next e _ => exact ⟨_, rfl, Or.inr ⟨e, rfl, rfl⟩⟩
  · split
    · next a d _ => exact ⟨_, rfl, Or.inl ⟨a, rfl, rfl⟩⟩
    · next e _ => exact ⟨_, rfl, Or.inr ⟨e, rfl, rfl⟩⟩

theorem spec_execCommand (env : Env) (command : String) :
    Spec (execCommand env command) (fun r evs =>
      (∃ a, r = Res.ok a ∧ evs = [⟨Op.exec command, none⟩]) ∨
      (∃ e, r = Res.error e ∧ evs = [⟨Op.exec command, some e⟩])) := by
  intro w
  exact spec_perform env (Op.exec command) _
    { w with fs := env.shell w.trace.length command w.fs }

theorem spec_createArchive (env : Env) (source target : String) :
    Spec (createArchive env source target) (fun r evs =>
      (∃ a, r = Res.ok a ∧ evs = [⟨Op.archive source target, none⟩]) ∨
      (∃ e, r = Res.error e ∧ evs = [⟨Op.archive source target, some e⟩])) := by
  intro w
  exact spec_perform env (Op.archive source target) _ w

theorem spec_bind {α β : Type} {x : M α} {f : α → M β} {Φ : Res α → List Event → Prop}
    {Ψ : α → Res β → List Event → Prop} (hx : Spec x Φ) (hf : ∀ a, Spec (f a) (Ψ a)) :
    Spec (x >>= f) (fun r evs =>
      (∃ e, r = Res.error e ∧ Φ (Res.error e) evs) ∨
      (∃ a evs1 evs2, evs = evs1 ++ evs2 ∧ Φ (Res.ok a) evs1 ∧ Ψ a r evs2)) := by
  intro w
  obtain ⟨evs1, htr1, h1⟩ := hx w
  simp only [bind_run]
  rcases hxw : x w with ⟨r1, w1⟩
  rw [hxw] at htr1 h1
  cases r1 with
  | error e => exact ⟨evs1, htr1, Or.inl ⟨e, rfl, h1⟩⟩
  | ok a =>
    obtain ⟨evs2, htr2, h2⟩ := hf a w1
    refine ⟨evs1 ++ evs2, ?_, Or.inr ⟨a, evs1, evs2, rfl, h1, h2⟩⟩
    simp only at htr1 ⊢
    rw [htr2, htr1, List.append_assoc]

theorem spec_tryCatch {α : Type} {x : M α} {h : String → M α} {Φ : Res α → List Event → Prop}
    {Ψ : String → Res α → List Event → Prop} (hx : Spec x Φ) (hh : ∀ e, Spec (h e) (Ψ e)) :
    Spec (tryCatch x h) (fun r evs =>
      (∃ a, r = Res.ok a ∧ Φ (Res.ok a) evs) ∨
      (∃ e evs1 evs2, evs = evs1 ++ evs2 ∧ Φ (Res.error e) evs1 ∧ Ψ e r evs2)) := by
  intro w
  obtain ⟨evs1, htr1, h1⟩ := hx w
  simp only [tryCatch]
  rcases hxw : x w with ⟨r1, w1⟩
  rw [hxw] at htr1 h1
  cases r1 with
  | ok a => exact ⟨evs1, htr1, Or.inl ⟨a, rfl, h1⟩⟩
  | error e =>
    obtain ⟨evs2, htr2, h2⟩ := hh e w1
    refine ⟨evs1 ++ evs2, ?_, Or.inr ⟨e, evs1, evs2, rfl, h1, h2⟩⟩
    simp only at htr1 ⊢
    rw [htr2, htr1, List.append_assoc]

theorem spec_forOf {α : Type} (body : α → M Unit) (Inv : List Event → Prop)
    (Fail : String → List Event → Prop)
    (hnil : Inv [])
    (hbody : ∀ a, Spec (body a) (fun r evs =>
      ∀ pre, Inv pre → match r with
        | Res.ok _ => Inv (pre ++ evs)
        | Res.error e => Fail e (pre ++ evs))) :
    ∀ l : List α, Spec (forOf body l) (fun r evs =>
      match r with
      | Res.ok _ => Inv evs
      | Res.error e => Fail e evs) := by
  suffices hgen : ∀ (l : List α) (pre : List Event), Inv pre →
      Spec (forOf body l) (fun r evs =>
        match r with
        | Res.ok _ => Inv (pre ++ evs)
        | Res.error e => Fail e (pre ++ evs)) by
    intro l
    exact (hgen l [] hnil).weaken (fun r evs h => by simpa using h)
  intro l
  induction l with
  | nil =>
    intro pre hpre w
    exact ⟨[], by simp [forOf], by simpa [forOf] using hpre⟩
  | cons a rest ih =>
    intro pre hpre w
    obtain ⟨evs1, htr1, h1⟩ := hbody a w
    have h1 := h1 pre hpre
    unfold forOf
    simp only [bind_run]
    rcases hxw : body a w with ⟨r1, w1⟩
    rw [hxw] at htr1 h1
    cases r1 with
    | error e => exact ⟨evs1, htr1, h1⟩
    | ok u =>
      obtain ⟨evs2, htr2, h2⟩ := ih (pre ++ evs1) h1 w1
      refine ⟨evs1 ++ evs2, ?_, ?_⟩
      · simp only at htr1 ⊢
        rw [htr2, htr1, List.append_assoc]
      · simpa [List.append_assoc] using h2


theorem spec_saveBackupMetadata (env : Env) (id : String) (m : Metadata) (hid : m.id = some id) :
    Spec (saveBackupMetadata env m) (fun r evs =>
      (r = Res.ok () ∧ evs = [⟨Op.writeFile (id ++ ".json") m, none⟩]) ∨
      (∃ e, r = Res.error e ∧ evs = [⟨Op.writeFile (id ++ ".json") m, some e⟩])) := by
  unfold saveBackupMetadata writeJson
  rw [hid]
  exact (spec_perform env _ _).weaken (by
    intro r evs h
    rcases h with ⟨a, h1, h2⟩ | ⟨e, h1, h2⟩
    · exact Or.inl ⟨h1, h2⟩
    · exact Or.inr ⟨e, h1, h2⟩)

theorem spec_unit_perform (env : Env) (op : Op) (act : Dir → Res (Unit × Dir)) :
    Spec (perform env op act) (fun r evs =>
      (r = Res.ok () ∧ evs = [⟨op, none⟩]) ∨ (∃ e, r = Res.error e ∧ evs = [⟨op, some e⟩])) :=
  (spec_perform env op act).weaken (by
    intro r evs h
    rcases h with ⟨a, h1, h2⟩ | ⟨e, h1, h2⟩
    · exact Or.inl ⟨h1, h2⟩
    · exact Or.inr ⟨e, h1, h2⟩)

theorem spec_mkdir (env : Env) (name : String) :
    Spec (mkdir env name) (fun r evs =>
      (r = Res.ok () ∧ evs = [⟨Op.mkdir name, none⟩]) ∨
      (∃ e, r = Res.error e ∧ evs = [⟨Op.mkdir name, some e⟩])) :=
  spec_unit_perform env _ _

theorem spec_rm (env : Env) (name : String) :
    Spec (rm env name) (fun r evs =>
      (r = Res.ok () ∧ evs = [⟨Op.rm name, none⟩]) ∨
      (∃ e, r = Res.error e ∧ evs = [⟨Op.rm name, some e⟩])) :=
  spec_unit_perform env _ _

theorem spec_unit_createArchive (env : Env) (source target : String) :
    Spec (createArchive env source target) (fun r evs =>
      (r = Res.ok () ∧ evs = [⟨Op.archive source target, none⟩]) ∨
      (∃ e, r = Res.error e ∧ evs = [⟨Op.archive source target, some e⟩])) := by
  intro w
  exact spec_unit_perform env (Op.archive source target) _ w

theorem spec_jobShape (env : Env) (id : String) (metadata : Int → Metadata)
    (hid : ∀ t, (metadata t).id = some id) (producers : M Unit)
    (A : Res Unit → List Event → Prop) (hA : Spec producers A) :
    Spec (jobShape env id metadata producers)
      (fun r evs => ∃ t0, JobRun id (metadata t0) A r evs) := by
  have hsave : ∀ m : Metadata, m.id = some id → Spec (saveBackupMetadata env m) _ :=
    fun m hm => spec_saveBackupMetadata env id m hm
  have hbody := fun t0 : Int =>
    spec_tryCatch
      (spec_bind (hsave (metadata t0) (hid t0)) (fun _ =>
        spec_bind (spec_mkdir env ("temp_" ++ id)) (fun _ =>
          spec_bind hA (fun _ =>
            spec_bind (spec_unit_createArchive env ("temp_" ++ id) (id ++ ".tar.gz")) (fun _ =>
              spec_bind (spec_rm env ("temp_" ++ id)) (fun _ =>
                spec_bind (spec_now env) (fun tc =>
                  hsave (completedRecord (metadata t0) tc) (hid t0))))))))
      (fun e => spec_bind (spec_now env) (fun t =>
        hsave (failedRecord (metadata t0) e t) (hid t0)))
  have hall := spec_bind (spec_now env) hbody
  refine Spec.weaken hall ?_
  intro r evs h
  simp only [Res.ok.injEq, exists_eq_left', false_and, exists_false, or_false, false_or, exists_const, true_and, and_true, exists_eq', reduceCtorEq, exists_and_left, exists_eq_left] at h
  clear hbody hall hsave hA
  rcases h with ⟨_, _, hF⟩ | ⟨t0, _, evs2, rfl, rfl, hmain⟩
  · exact hF.elim
  refine ⟨t0, ?_⟩
  rcases hmain with hok | herr
  · obtain ⟨a1, rfl, _, _, rfl, rfl, _, _, rfl, rfl, a2, evsA, _, rfl, hAok, _, _, rfl, rfl, _, _,
      rfl, rfl, tc, _, _, rfl, rfl, rfl⟩ := hok
    simpa using @JobRun.completed id (metadata t0) A evsA tc hAok
  · obtain ⟨e, evsB, evsH, rfl, hbody, hhandler⟩ := herr
    have hh : ∃ t ef, r = resultOfLastWrite ef ∧
        evsH = [⟨Op.writeFile (id ++ ".json") (failedRecord (metadata t0) e t), ef⟩] := by
      rcases hhandler with ⟨_, _, hF⟩ | ⟨t, _, _, rfl, rfl, h | ⟨e1, h⟩⟩
      · exact hF.elim
      · exact ⟨t, none, h.1, by simpa using h.2⟩
      · exact ⟨t, some e1, h.1, by simpa using h.2⟩
    obtain ⟨t, ef, rfl, rfl⟩ := hh
    rcases hbody with ⟨_, he, e0, he0, rfl⟩ | ⟨_, _, rfl, rfl, hrest⟩
    · simp only [Res.error.injEq] at he he0
      subst he he0
      simpa using @JobRun.initialWriteFailed id (metadata t0) A e t ef
    rcases hrest with ⟨_, he, e0, he0, rfl⟩ | ⟨_, _, rfl, rfl, hrest⟩
    · simp only [Res.error.injEq] at he he0
      subst he he0
      simpa using @JobRun.mkdirFailed id (metadata t0) A e t ef
    rcases hrest with ⟨_, he, hAerr⟩ | ⟨a1, evsA, _, rfl, hAok, hrest⟩
    · simp only [Res.error.injEq] at he
      subst he
      simpa using @JobRun.producerFailed id (metadata t0) A _ e t ef hAerr
    rcases hrest with ⟨_, he, e0, he0, rfl⟩ | ⟨_, _, rfl, rfl, hrest⟩
    · simp only [Res.error.injEq] at he he0
      subst he he0
      simpa using @JobRun.archiveFailed id (metadata t0) A evsA e t ef hAok
    rcases hrest with ⟨_, he, e0, he0, rfl⟩ | ⟨_, _, rfl, rfl, hrest⟩
    · simp only [Res.error.injEq] at he he0
      subst he he0
      simpa using @JobRun.removeFailed id (metadata t0) A evsA e t ef hAok
    rcases hrest with ⟨_, _, hF⟩ | ⟨tc, _, _, rfl, rfl, e0, he0, rfl⟩
    · exact hF.elim
    · simp only [Res.error.injEq] at he0
      subst he0
      simpa using
        @JobRun.finalWriteFailed id (metadata t0) A evsA e tc t ef hAok


/-! ## The job runners of the API as instances of the common shape -/

theorem createFullBackup_eq (env : Env) (id : String) (description : Option String)
    (options : FullOptions) :
    createFullBackup env id description options =
      jobShape env id (fullRecord id description options) (fullProducers env id options) := by
  unfold createFullBackup jobShape fullProducers
  simp only [M.bind_assoc]
  rfl

theorem createDatabaseBackup_eq (env : Env) (id : String) (databases : Option (List String))
    (description : Option String) :
    createDatabaseBackup env id databases description =
      jobShape env id (databaseRecord id databases description)
        (databaseProducers env id databases) := by
  unfold createDatabaseBackup jobShape databaseProducers
  rfl

theorem createConfigBackup_eq (env : Env) (id : String) (services : Option (List String))
    (description : Option String) :
    createConfigBackup env id services description =
      jobShape env id (configRecord id services description)
        (configProducers env id services) := by
  unfold createConfigBackup jobShape configProducers
  rfl


/-! ## Which calls a computation can make -/

theorem Spec.and {α : Type} {x : M α} {Φ Ψ : Res α → List Event → Prop} (h1 : Spec x Φ)
    (h2 : Spec x Ψ) : Spec x (fun r evs => Φ r evs ∧ Ψ r evs) := by
  intro w
  obtain ⟨evs1, htr1, hΦ⟩ := h1 w
  obtain ⟨evs2, htr2, hΨ⟩ := h2 w
  have : evs1 = evs2 := List.append_cancel_left (htr1.symm.trans htr2)
  subst this
  exact ⟨evs1, htr1, hΦ, hΨ⟩

theorem emits_pure {α : Type} (Q : Event → Prop) (a : α) : Emits Q (pure a : M α) :=
  (spec_pure a).weaken (by rintro r evs ⟨-, rfl⟩; simp)

theorem emits_raise {α : Type} (Q : Event → Prop) (msg : String) : Emits Q (raise msg : M α) :=
  (spec_raise msg).weaken (by rintro r evs ⟨-, rfl⟩; simp)

theorem emits_now (Q : Event → Prop) (env : Env) : Emits Q (now env) :=
  (spec_now env).weaken (by rintro r evs ⟨-, rfl⟩; simp)

theorem emits_perform {α : Type} (Q : Event → Prop) (env : Env) (op : Op)
    (act : Dir → Res (α × Dir)) (hQ : ∀ err, Q ⟨op, err⟩) : Emits Q (perform env op act) :=
  (spec_perform env op act).weaken (by
    rintro r evs (⟨a, -, rfl⟩ | ⟨e, -, rfl⟩) <;> simpa using hQ _)

theorem emits_execCommand (Q : Event → Prop) (env : Env) (command : String)
    (hQ : ∀ err, Q ⟨Op.exec command, err⟩) : Emits Q (execCommand env command) :=
  (spec_execCommand env command).weaken (by
    rintro r evs (⟨a, -, rfl⟩ | ⟨e, -, rfl⟩) <;> simpa using hQ _)

theorem emits_createArchive (Q : Event → Prop) (env : Env) (source target : String)
    (hQ : ∀ err, Q ⟨Op.archive source target, err⟩) :
    Emits Q (createArchive env source target) :=
  (spec_createArchive env source target).weaken (by
    rintro r evs (⟨a, -, rfl⟩ | ⟨e, -, rfl⟩) <;> simpa using hQ _)

theorem emits_bind {α β : Type} (Q : Event → Prop) {x : M α} {f : α → M β} (hx : Emits Q x)
    (hf : ∀ a, Emits Q (f a)) : Emits Q (x >>= f) :=
  (spec_bind hx hf).weaken (by
    rintro r evs (⟨e, -, h⟩ | ⟨a, evs1, evs2, rfl, h1, h2⟩)
    · exact h
    · intro ev hev
      rcases List.mem_append.1 hev with h | h
      · exact h1 ev h
      · exact h2 ev h)

theorem emits_tryCatch {α : Type} (Q : Event → Prop) {x : M α} {h : String → M α}
    (hx : Emits Q x) (hh : ∀ e, Emits Q (h e)) : Emits Q (tryCatch x h) :=
  (spec_tryCatch hx hh).weaken (by
    rintro r evs (⟨e, -, h⟩ | ⟨a, evs1, evs2, rfl, h1, h2⟩)
    · exact h
    · intro ev hev
      rcases List.mem_append.1 hev with h | h
      · exact h1 ev h
      · exact h2 ev h)

theorem emits_ite {α : Type} (Q : Event → Prop) (c : Prop) [Decidable c] {x y : M α}
    (hx : Emits Q x) (hy : Emits Q y) : Emits Q (if c then x else y) := by
  split
  · exact hx
  · exact hy

theorem emits_forOf {α : Type} (Q : Event → Prop) (body : α → M Unit)
    (hbody : ∀ a, Emits Q (body a)) (l : List α) : Emits Q (forOf body l) := by
  induction l with
  | nil => exact emits_pure Q ()
  | cons a rest ih =>
    unfold forOf
    exact emits_bind Q (hbody a) (fun _ => ih)

theorem emits_mkdirAt (Q : Event → Prop) (env : Env) (path : String)
    (hQ : ∀ err, Q ⟨Op.mkdirAt path, err⟩) : Emits Q (mkdirAt env path) :=
  emits_perform Q env _ _ hQ

theorem emits_fileExistsAt (Q : Event → Prop) (env : Env) (path : String)
    (hQ : ∀ err, Q ⟨Op.accessAt path, err⟩) : Emits Q (fileExistsAt env path) :=
  emits_tryCatch Q (emits_bind Q (emits_perform Q env _ _ hQ) (fun _ => emits_pure Q true))
    (fun _ => emits_pure Q false)

theorem emits_backupConfigurations (Q : Event → Prop) (hQ : ∀ ev : Event, ev.op.isAux = true → Q ev)
    (env : Env) (tempDir : String) : Emits Q (backupConfigurations env tempDir) := by
  unfold backupConfigurations
  apply emits_forOf
  intro configPath
  apply emits_tryCatch
  · apply emits_bind
    · exact emits_fileExistsAt Q env _ (fun _ => hQ _ rfl)
    · intro found
      apply emits_ite
      · apply emits_bind
        · exact emits_mkdirAt Q env _ (fun _ => hQ _ rfl)
        · intro _
          apply emits_bind
          · exact emits_execCommand Q env _ (fun _ => hQ _ rfl)
          · intro _
            exact emits_pure Q ()
      · exact emits_pure Q ()
  · intro _
    exact emits_pure Q ()


theorem emits_backupDatabases (Q : Event → Prop) (hQ : ∀ ev : Event, ev.op.isAux = true → Q ev)
    (env : Env) (tempDir : String) : Emits Q (backupDatabases env tempDir) := by
  unfold backupDatabases
  repeat' first
    | exact emits_pure Q _
    | exact emits_mkdirAt Q env _ (fun _ => hQ _ rfl)
    | exact emits_execCommand Q env _ (fun _ => hQ _ rfl)
    | exact emits_fileExistsAt Q env _ (fun _ => hQ _ rfl)
    | apply emits_bind
    | apply emits_tryCatch
    | apply emits_forOf
    | apply emits_ite
    | intro _

theorem emits_backupApplicationData (Q : Event → Prop)
    (hQ : ∀ ev : Event, ev.op.isAux = true → Q ev) (env : Env) (tempDir : String) :
    Emits Q (backupApplicationData env tempDir) := by
  unfold backupApplicationData
  repeat' first
    | exact emits_pure Q _
    | exact emits_mkdirAt Q env _ (fun _ => hQ _ rfl)
    | exact emits_execCommand Q env _ (fun _ => hQ _ rfl)
    | exact emits_fileExistsAt Q env _ (fun _ => hQ _ rfl)
    | apply emits_bind
    | apply emits_tryCatch
    | apply emits_forOf
    | apply emits_ite
    | intro _

theorem emits_backupDatabase (Q : Event → Prop) (hQ : ∀ ev : Event, ev.op.isAux = true → Q ev)
    (env : Env) (dbName tempDir : String) : Emits Q (backupDatabase env dbName tempDir) := by
  unfold backupDatabase
  repeat' first
    | exact emits_pure Q _
    | exact emits_raise Q _
    | exact emits_mkdirAt Q env _ (fun _ => hQ _ rfl)
    | exact emits_execCommand Q env _ (fun _ => hQ _ rfl)
    | apply emits_bind
    | apply emits_tryCatch
    | intro _

theorem emits_backupServiceConfig (Q : Event → Prop)
    (hQ : ∀ ev : Event, ev.op.isAux = true → Q ev) (env : Env) (serviceName tempDir : String) :
    Emits Q (backupServiceConfig env serviceName tempDir) := by
  unfold backupServiceConfig
  split
  · split
    · exact emits_pure Q _
    · exact emits_raise Q _
  · repeat' first
      | exact emits_pure Q _
      | exact emits_mkdirAt Q env _ (fun _ => hQ _ rfl)
      | exact emits_execCommand Q env _ (fun _ => hQ _ rfl)
      | exact emits_fileExistsAt Q env _ (fun _ => hQ _ rfl)
      | apply emits_bind
      | apply emits_ite
      | intro _

theorem emits_fullProducers (Q : Event → Prop) (hQ : ∀ ev : Event, ev.op.isAux = true → Q ev)
    (env : Env) (id : String) (options : FullOptions) :
    Emits Q (fullProducers env id options) := by
  unfold fullProducers
  repeat' first
    | exact emits_pure Q _
    | exact emits_backupConfigurations Q hQ env _
    | exact emits_backupDatabases Q hQ env _
    | exact emits_backupApplicationData Q hQ env _
    | apply emits_bind
    | apply emits_ite
    | intro _

theorem emits_databaseProducers (Q : Event → Prop)
    (hQ : ∀ ev : Event, ev.op.isAux = true → Q ev) (env : Env) (id : String)
    (databases : Option (List String)) : Emits Q (databaseProducers env id databases) := by
  unfold databaseProducers
  split
  · exact emits_forOf Q _ (fun _ => emits_backupDatabase Q hQ env _ _) _
  · exact emits_raise Q _

theorem emits_configProducers (Q : Event → Prop)
    (hQ : ∀ ev : Event, ev.op.isAux = true → Q ev) (env : Env) (id : String)
    (services : Option (List String)) : Emits Q (configProducers env id services) := by
  unfold configProducers
  split
  · exact emits_forOf Q _ (fun _ => emits_backupServiceConfig Q hQ env _ _) _
  · exact emits_raise Q _


/-! ## The records a run persists -/

theorem newEvents_of_trace (w w1 : World) (evs : List Event) (h : w1.trace = w.trace ++ evs) :
    newEvents w w1 = evs := by
  unfold newEvents
  rw [h, List.drop_left]

theorem persistedAt_append (name : String) (l1 l2 : List Event) :
    persistedAt name (l1 ++ l2) = persistedAt name l1 ++ persistedAt name l2 := by
  unfold persistedAt
  exact List.filterMap_append _ _ _

theorem persistedAt_of_no_write (name : String) (l : List Event)
    (h : ∀ ev ∈ l, ev.op.isWrite = false) : persistedAt name l = [] := by
  unfold persistedAt
  rw [List.filterMap_eq_nil_iff]
  intro ev hev
  have := h ev hev
  obtain ⟨op, err⟩ := ev
  cases op <;> simp_all [Op.isWrite]

theorem isWrite_of_isAux (op : Op) (h : op.isAux = true) : op.isWrite = false := by
  cases op <;> simp_all [Op.isAux, Op.isWrite]

theorem emits_saveBackupMetadata (Q : Event → Prop) (env : Env) (m : Metadata)
    (hQ : ∀ err, Q ⟨Op.writeFile (tmpl m.id ++ ".json") m, err⟩) :
    Emits Q (saveBackupMetadata env m) :=
  emits_perform Q env _ _ hQ


theorem emits_fileExists (Q : Event → Prop) (hQ : ∀ ev : Event, ev.op.isWrite = false → Q ev)
    (env : Env) (name : String) : Emits Q (fileExists env name) := by
  unfold fileExists access
  repeat' first
    | exact emits_pure Q _
    | exact emits_perform Q env _ _ (fun _ => hQ _ rfl)
    | apply emits_bind
    | apply emits_tryCatch
    | intro _

theorem emits_collectLoop (Q : Event → Prop) (hQ : ∀ ev : Event, ev.op.isWrite = false → Q ev)
    (env : Env) (files : List String) :
    ∀ backups : List Metadata, Emits Q (collectLoop env files backups) := by
  induction files with
  | nil =>
    intro backups
    exact emits_pure Q _
  | cons file rest ih =>
    intro backups
    unfold collectLoop readJson
    repeat' first
      | exact emits_pure Q _
      | exact emits_perform Q env _ _ (fun _ => hQ _ rfl)
      | exact ih _
      | apply emits_bind
      | apply emits_tryCatch
      | apply emits_ite
      | intro _

theorem emits_deleteLoop (Q : Event → Prop) (hQ : ∀ ev : Event, ev.op.isWrite = false → Q ev)
    (env : Env) (l : List Metadata) : Emits Q (deleteLoop env l) := by
  induction l with
  | nil => exact emits_pure Q _
  | cons backup rest ih =>
    unfold deleteLoop unlink
    repeat' first
      | exact emits_pure Q _
      | exact emits_perform Q env _ _ (fun _ => hQ _ rfl)
      | exact emits_fileExists Q hQ env _
      | exact ih
      | apply emits_bind
      | apply emits_tryCatch
      | apply emits_ite
      | intro _

theorem emits_cleanupOldBackups (Q : Event → Prop)
    (hQ : ∀ ev : Event, ev.op.isWrite = false → Q ev) (env : Env) (keepCount : Int) :
    Emits Q (cleanupOldBackups env keepCount) := by
  unfold cleanupOldBackups readdir
  repeat' first
    | exact emits_pure Q _
    | exact emits_perform Q env _ _ (fun _ => hQ _ rfl)
    | exact emits_collectLoop Q hQ env _ _
    | exact emits_deleteLoop Q hQ env _
    | apply emits_bind
    | apply emits_tryCatch
    | intro _

theorem emits_createSystemBackup (Q : Event → Prop)
    (hQ : ∀ ev : Event, ev.op.isWrite = false → Q ev) (env : Env) (backupId : String) :
    Emits Q (createSystemBackup env backupId) := by
  unfold createSystemBackup backupApplicationConfig backupDatabaseSchemas backupRecentLogs
    mkdir rm copyFile copyDirectory writeAt
  repeat' first
    | exact emits_pure Q _
    | exact emits_raise Q _
    | exact emits_perform Q env _ _ (fun _ => hQ _ rfl)
    | exact emits_mkdirAt Q env _ (fun _ => hQ _ rfl)
    | exact emits_fileExistsAt Q env _ (fun _ => hQ _ rfl)
    | exact emits_createArchive Q env _ _ (fun _ => hQ _ rfl)
    | apply emits_bind
    | apply emits_tryCatch
    | apply emits_ite
    | intro _

theorem emits_jobShape (Q : Event → Prop) (hQ : ∀ ev : Event, ev.op.isWrite = false → Q ev)
    (env : Env) (id : String) (metadata : Int → Metadata) (producers : M Unit)
    (hp : Emits Q producers)
    (hm : ∀ (t : Int) (err : Option String),
      Q ⟨Op.writeFile (tmpl (metadata t).id ++ ".json") (metadata t), err⟩)
    (hc : ∀ (t tc : Int) (err : Option String),
      Q ⟨Op.writeFile (tmpl (completedRecord (metadata t) tc).id ++ ".json")
        (completedRecord (metadata t) tc), err⟩)
    (hf : ∀ (t tf : Int) (e : String) (err : Option String),
      Q ⟨Op.writeFile (tmpl (failedRecord (metadata t) e tf).id ++ ".json")
        (failedRecord (metadata t) e tf), err⟩) :
    Emits Q (jobShape env id metadata producers) := by
  unfold jobShape mkdir rm
  repeat' first
    | exact emits_pure Q _
    | exact emits_now Q _
    | exact hp
    | exact emits_saveBackupMetadata Q env _ (hm _)
    | exact emits_saveBackupMetadata Q env _ (hc _ _)
    | exact emits_saveBackupMetadata Q env _ (hf _ _ _)
    | exact emits_perform Q env _ _ (fun _ => hQ _ rfl)
    | exact emits_createArchive Q env _ _ (fun _ => hQ _ rfl)
    | apply emits_bind
    | apply emits_tryCatch
    | intro _


theorem newEvents_of_emits {α : Type} (Q : Event → Prop) {x : M α} (h : Emits Q x) (w : World) :
    ∀ ev ∈ newEvents w (x w).2, Q ev := by
  obtain ⟨evs, htr, hQ⟩ := h w
  rw [newEvents_of_trace w _ evs htr]
  exact hQ

theorem invariant_of_not_write (ev : Event) (h : ev.op.isWrite = false) :
    ∀ name m, ev.op = Op.writeFile name m → CompletedAtInvariant m := by
  intro name m hop
  rw [hop] at h
  simp [Op.isWrite] at h

theorem invariant_of_write (m0 : Metadata) (h : CompletedAtInvariant m0) (name0 : String)
    (err : Option String) :
    ∀ name m, (⟨Op.writeFile name0 m0, err⟩ : Event).op = Op.writeFile name m →
      CompletedAtInvariant m := by
  intro name m hop
  simp only [Op.writeFile.injEq] at hop
  rw [← hop.2]
  exact h

theorem invariant_completedRecord (m0 : Metadata) (t : Int) :
    CompletedAtInvariant (completedRecord m0 t) := by
  simp [CompletedAtInvariant, completedRecord]

theorem invariant_failedRecord (m0 : Metadata) (e : String) (t : Int) :
    CompletedAtInvariant (failedRecord m0 e t) := by
  simp [CompletedAtInvariant, failedRecord]

theorem emits_invariant_jobShape (env : Env) (id : String) (metadata : Int → Metadata)
    (producers : M Unit)
    (hp : Emits (fun ev => ∀ name m, ev.op = Op.writeFile name m → CompletedAtInvariant m)
      producers)
    (hm : ∀ t, CompletedAtInvariant (metadata t)) :
    Emits (fun ev => ∀ name m, ev.op = Op.writeFile name m → CompletedAtInvariant m)
      (jobShape env id metadata producers) :=
  emits_jobShape _ invariant_of_not_write env id metadata producers hp
    (fun t err => invariant_of_write _ (hm t) _ err)
    (fun _ _ err => invariant_of_write _ (invariant_completedRecord _ _) _ err)
    (fun _ _ _ err => invariant_of_write _ (invariant_failedRecord _ _ _) _ err)

theorem emits_invariant_performDailyBackup (env : Env) (uuid : String) :
    Emits (fun ev => ∀ name m, ev.op = Op.writeFile name m → CompletedAtInvariant m)
      (performDailyBackup env uuid) := by
  unfold performDailyBackup
  repeat' first
    | exact emits_pure _ _
    | exact emits_raise _ _
    | exact emits_now _ _
    | exact emits_createSystemBackup _ invariant_of_not_write env _
    | exact emits_cleanupOldBackups _ invariant_of_not_write env _
    | exact emits_saveBackupMetadata _ env _
        (fun err => invariant_of_write _ (by simp [CompletedAtInvariant]) _ err)
    | apply emits_bind
    | apply emits_tryCatch
    | intro _

/-- C9. The `completedAt` invariant: in every run of `createFullBackup`,
`createDatabaseBackup`, `createConfigBackup` and `performDailyBackup`, whichever calls
fail, every metadata record the runner writes (a fortiori every record it persists)
has `completedAt` set if and only if its status is `completed` or `failed`. -/
theorem runners_completedAt_invariant (env : Env) (w : World) (id : String)
    (description : Option String) (options : FullOptions)
    (databases services : Option (List String)) :
    (∀ ev ∈ newEvents w (createFullBackup env id description options w).2,
      ∀ name m, ev.op = Op.writeFile name m → CompletedAtInvariant m) ∧
    (∀ ev ∈ newEvents w (createDatabaseBackup env id databases description w).2,
      ∀ name m, ev.op = Op.writeFile name m → CompletedAtInvariant m) ∧
    (∀ ev ∈ newEvents w (createConfigBackup env id services description w).2,
      ∀ name m, ev.op = Op.writeFile name m → CompletedAtInvariant m) ∧
    (∀ ev ∈ newEvents w (performDailyBackup env id w).2,
      ∀ name m, ev.op = Op.writeFile name m → CompletedAtInvariant m) := by
  refine ⟨?_, ?_, ?_, ?_⟩
  · rw [createFullBackup_eq]
    exact newEvents_of_emits _ (emits_invariant_jobShape env id _ _
      (emits_fullProducers _ (fun ev h => invariant_of_not_write ev (isWrite_of_isAux _ h))
        env id options)
      (fun t => by simp [CompletedAtInvariant, fullRecord])) w
  · rw [createDatabaseBackup_eq]
    exact newEvents_of_emits _ (emits_invariant_jobShape env id _ _
      (emits_databaseProducers _ (fun ev h => invariant_of_not_write ev (isWrite_of_isAux _ h))
        env id databases)
      (fun t => by simp [CompletedAtInvariant, databaseRecord])) w
  · rw [createConfigBackup_eq]
    exact newEvents_of_emits _ (emits_invariant_jobShape env id _ _
      (emits_configProducers _ (fun ev h => invariant_of_not_write ev (isWrite_of_isAux _ h))
        env id services)
      (fun t => by simp [CompletedAtInvariant, configRecord])) w
  · exact newEvents_of_emits _ (emits_invariant_performDailyBackup env id) w


/-! ## Fatal errors of a job -/

theorem persistedAt_of_onlyAux (name : String) (r : Res Unit) (evs : List Event)
    (h : OnlyAux r evs) : persistedAt name evs = [] :=
  persistedAt_of_no_write name evs (fun ev hev => isWrite_of_isAux _ (h ev hev))

theorem jobRun_fatal (id : String) (m0 : Metadata) (r : Res Unit) (evs : List Event)
    (h : JobRun id m0 OnlyAux r evs)
    (hw : ∀ ev ∈ evs, ev.op.isWrite = true → ev.err = none) (e : String)
    (hfail : (⟨Op.mkdir ("temp_" ++ id), some e⟩ : Event) ∈ evs ∨
      (⟨Op.archive ("temp_" ++ id) (id ++ ".tar.gz"), some e⟩ : Event) ∈ evs) :
    r = Res.ok () ∧
      ∃ t, (persistedAt (id ++ ".json") evs).getLast? = some (failedRecord m0 e t) := by
  cases h with
  | initialWriteFailed e0 t ef =>
    have := hw ⟨Op.writeFile (id ++ ".json") m0, some e0⟩ (by simp) rfl
    simp at this
  | mkdirFailed e1 t ef =>
    have hef := hw ⟨Op.writeFile (id ++ ".json") (failedRecord m0 e1 t), ef⟩ (by simp) rfl
    simp only at hef
    subst hef
    have he : e = e1 := by
      rcases hfail with h | h <;> simp at h
      exact h
    subst he
    exact ⟨rfl, t, by simp [persistedAt]⟩
  | producerFailed evsA e1 t ef hA =>
    exfalso
    rcases hfail with h | h
    · simp only [List.mem_append, List.mem_cons, Event.mk.injEq, reduceCtorEq, false_and,
        List.mem_singleton, and_false, or_false, false_or, List.not_mem_nil] at h
      have := hA _ h
      simp [Op.isAux] at this
    · simp only [List.mem_append, List.mem_cons, Event.mk.injEq, reduceCtorEq, false_and,
        List.mem_singleton, and_false, or_false, false_or, List.not_mem_nil] at h
      have := hA _ h
      simp [Op.isAux] at this
  | archiveFailed evsA e1 t ef hA =>
    have hef := hw ⟨Op.writeFile (id ++ ".json") (failedRecord m0 e1 t), ef⟩ (by simp) rfl
    simp only at hef
    subst hef
    have he : e = e1 := by
      rcases hfail with h | h
      · exfalso
        simp only [List.mem_append, List.mem_cons, Event.mk.injEq, reduceCtorEq, false_and,
          List.mem_singleton, and_false, or_false, false_or, List.not_mem_nil] at h
        have := hA _ h
        simp [Op.isAux] at this
      · simp only [List.mem_append, List.mem_cons, Event.mk.injEq, reduceCtorEq, false_and,
          List.mem_singleton, and_false, or_false, false_or, List.not_mem_nil, true_and,
          Option.some.injEq] at h
        rcases h with h | h
        · have := hA _ h
          simp [Op.isAux] at this
        · exact h
    subst he
    refine ⟨rfl, t, ?_⟩
    have hA0 := persistedAt_of_onlyAux (id ++ ".json") _ _ hA
    simp only [persistedAt_append, hA0]
    simp [persistedAt]
  | removeFailed evsA e1 t ef hA =>
    exfalso
    rcases hfail with h | h
    · simp only [List.mem_append, List.mem_cons, Event.mk.injEq, reduceCtorEq, false_and,
        List.mem_singleton, and_false, or_false, false_or, List.not_mem_nil] at h
      have := hA _ h
      simp [Op.isAux] at this
    · simp only [List.mem_append, List.mem_cons, Event.mk.injEq, reduceCtorEq, false_and,
        List.mem_singleton, and_false, or_false, false_or, List.not_mem_nil] at h
      have := hA _ h
      simp [Op.isAux] at this
  | finalWriteFailed evsA e1 tc t ef hA =>
    have := hw ⟨Op.writeFile (id ++ ".json") (completedRecord m0 tc), some e1⟩ (by simp) rfl
    simp at this
  | completed evsA tc hA =>
    exfalso
    rcases hfail with h | h
    · simp only [List.mem_append, List.mem_cons, Event.mk.injEq, reduceCtorEq, false_and,
        List.mem_singleton, and_false, or_false, false_or, List.not_mem_nil] at h
      have := hA _ h
      simp [Op.isAux] at this
    · simp only [List.mem_append, List.mem_cons, Event.mk.injEq, reduceCtorEq, false_and,
        List.mem_singleton, and_false, or_false, false_or, List.not_mem_nil] at h
      have := hA _ h
      simp [Op.isAux] at this


theorem createFullBackup_jobRun (env : Env) (w : World) (id : String)
    (description : Option String) (options : FullOptions) :
    ∃ t0, JobRun id (fullRecord id description options t0) OnlyAux
      (createFullBackup env id description options w).1
      (newEvents w (createFullBackup env id description options w).2) := by
  rw [createFullBackup_eq]
  obtain ⟨evs, htr, h⟩ := spec_jobShape env id (fullRecord id description options)
    (fun _ => rfl) (fullProducers env id options) OnlyAux
    (emits_fullProducers _ (fun _ h => h) env id options) w
  rw [newEvents_of_trace w _ evs htr]
  exact h

theorem createDatabaseBackup_jobRun (env : Env) (w : World) (id : String)
    (databases : Option (List String)) (description : Option String) :
    ∃ t0, JobRun id (databaseRecord id databases description t0) OnlyAux
      (createDatabaseBackup env id databases description w).1
      (newEvents w (createDatabaseBackup env id databases description w).2) := by
  rw [createDatabaseBackup_eq]
  obtain ⟨evs, htr, h⟩ := spec_jobShape env id (databaseRecord id databases description)
    (fun _ => rfl) (databaseProducers env id databases) OnlyAux
    (emits_databaseProducers _ (fun _ h => h) env id databases) w
  rw [newEvents_of_trace w _ evs htr]
  exact h

theorem createConfigBackup_jobRun (env : Env) (w : World) (id : String)
    (services : Option (List String)) (description : Option String) :
    ∃ t0, JobRun id (configRecord id services description t0) OnlyAux
      (createConfigBackup env id services description w).1
      (newEvents w (createConfigBackup env id services description w).2) := by
  rw [createConfigBackup_eq]
  obtain ⟨evs, htr, h⟩ := spec_jobShape env id (configRecord id services description)
    (fun _ => rfl) (configProducers env id services) OnlyAux
    (emits_configProducers _ (fun _ h => h) env id services) w
  rw [newEvents_of_trace w _ evs htr]
  exact h

theorem jobRun_fatal_record (id : String) (m0 : Int → Metadata) (r : Res Unit) (evs : List Event)
    (h : ∃ t0 : Int, JobRun id (m0 t0) OnlyAux r evs)
    (hw : ∀ ev ∈ evs, ev.op.isWrite = true → ev.err = none) (e : String)
    (hfail : (⟨Op.mkdir ("temp_" ++ id), some e⟩ : Event) ∈ evs ∨
      (⟨Op.archive ("temp_" ++ id) (id ++ ".tar.gz"), some e⟩ : Event) ∈ evs) :
    r = Res.ok () ∧
      ∃ m, (persistedAt (id ++ ".json") evs).getLast? = some m ∧ m.status = some "failed" ∧
        m.error = some e ∧ m.completedAt ≠ none := by
  obtain ⟨t0, hrun⟩ := h
  obtain ⟨hr, t, hlast⟩ := jobRun_fatal id (m0 t0) r evs hrun hw e hfail
  exact ⟨hr, _, hlast, rfl, rfl, by simp [failedRecord]⟩

theorem mem_of_failedByOracle {env : Env} {w : World} {evs : List Event} {op : Op}
    {e : String} (h : FailedByOracle env w evs op e) : (⟨op, some e⟩ : Event) ∈ evs := by
  obtain ⟨n, hn, -⟩ := h
  exact List.getElem?_mem hn

/-- C4, as amended. A fatal job error is recorded: in every run of `createFullBackup`,
`createDatabaseBackup` and `createConfigBackup` in which every write of the metadata
record succeeds, if the creation of the working directory `temp_{id}` fails with the
message `e`, or `createArchive` is rejected with the message `e` (the error that its
archiver reported), then the runner returns normally (it does not reject) and the last
record persisted in `{id}.json` has status `failed`, `error` equal to `e` and
`completedAt` set. -/
theorem fatal_error_recorded (env : Env) (w : World) (id : String)
    (description : Option String) (options : FullOptions)
    (databases services : Option (List String)) (e : String) :
    ((∀ ev ∈ newEvents w (createFullBackup env id description options w).2,
        ev.op.isWrite = true → ev.err = none) →
      ((⟨Op.mkdir ("temp_" ++ id), some e⟩ : Event) ∈
          newEvents w (createFullBackup env id description options w).2 ∨
        FailedByOracle env w (newEvents w (createFullBackup env id description options w).2)
          (Op.archive ("temp_" ++ id) (id ++ ".tar.gz")) e) →
      (createFullBackup env id description options w).1 = Res.ok () ∧
        ∃ m, (persistedAt (id ++ ".json")
            (newEvents w (createFullBackup env id description options w).2)).getLast? = some m ∧
          m.status = some "failed" ∧ m.error = some e ∧ m.completedAt ≠ none) ∧
    ((∀ ev ∈ newEvents w (createDatabaseBackup env id databases description w).2,
        ev.op.isWrite = true → ev.err = none) →
      ((⟨Op.mkdir ("temp_" ++ id), some e⟩ : Event) ∈
          newEvents w (createDatabaseBackup env id databases description w).2 ∨
        FailedByOracle env w
          (newEvents w (createDatabaseBackup env id databases description w).2)
          (Op.archive ("temp_" ++ id) (id ++ ".tar.gz")) e) →
      (createDatabaseBackup env id databases description w).1 = Res.ok () ∧
        ∃ m, (persistedAt (id ++ ".json")
            (newEvents w (createDatabaseBackup env id databases description w).2)).getLast?
              = some m ∧
          m.status = some "failed" ∧ m.error = some e ∧ m.completedAt ≠ none) ∧
    ((∀ ev ∈ newEvents w (createConfigBackup env id services description w).2,
        ev.op.isWrite = true → ev.err = none) →
      ((⟨Op.mkdir ("temp_" ++ id), some e⟩ : Event) ∈
          newEvents w (createConfigBackup env id services description w).2 ∨
        FailedByOracle env w
          (newEvents w (createConfigBackup env id services description w).2)
          (Op.archive ("temp_" ++ id) (id ++ ".tar.gz")) e) →
      (createConfigBackup env id services description w).1 = Res.ok () ∧
        ∃ m, (persistedAt (id ++ ".json")
            (newEvents w (createConfigBackup env id services description w).2)).getLast?
              = some m ∧
          m.status = some "failed" ∧ m.error = some e ∧ m.completedAt ≠ none) :=
  ⟨fun hw hfail => jobRun_fatal_record id _ _ _
      (createFullBackup_jobRun env w id description options) hw e
      (hfail.imp (fun h => h) mem_of_failedByOracle),
   fun hw hfail => jobRun_fatal_record id _ _ _
      (createDatabaseBackup_jobRun env w id databases description) hw e
      (hfail.imp (fun h => h) mem_of_failedByOracle),
   fun hw hfail => jobRun_fatal_record id _ _ _
      (createConfigBackup_jobRun env w id services description) hw e
      (hfail.imp (fun h => h) mem_of_failedByOracle)⟩

set_option maxRecDepth 100000 in
/-- Witness of C4 as amended: a full backup, a backup of the database `shop` and a
backup of the configuration of `nginx` whose archiver reports that it cannot read the
working directory, so that `createArchive` is rejected, while every other call
succeeds. -/
theorem fatal_error_recorded_witness :
    archivePromise archiverErrorStreams =
      some (Res.error "EACCES: permission denied, scandir") ∧
    ((createFullBackup (streamsEnv archiverErrorStreams 0) "job1" none ⟨true, true⟩
        ⟨[], []⟩).1 = Res.ok () ∧
      ∃ m, (persistedAt ("job1" ++ ".json") (newEvents ⟨[], []⟩
          (createFullBackup (streamsEnv archiverErrorStreams 0) "job1" none ⟨true, true⟩
            ⟨[], []⟩).2)).getLast? = some m ∧
        m.status = some "failed" ∧ m.error = some "EACCES: permission denied, scandir" ∧
        m.completedAt ≠ none) ∧
    ((createDatabaseBackup (streamsEnv archiverErrorStreams 0) "job1" (some ["shop"]) none
        ⟨[], []⟩).1 = Res.ok () ∧
      ∃ m, (persistedAt ("job1" ++ ".json") (newEvents ⟨[], []⟩
          (createDatabaseBackup (streamsEnv archiverErrorStreams 0) "job1" (some ["shop"]) none
            ⟨[], []⟩).2)).getLast? = some m ∧
        m.status = some "failed" ∧ m.error = some "EACCES: permission denied, scandir" ∧
        m.completedAt ≠ none) ∧
    ((createConfigBackup (streamsEnv archiverErrorStreams 0) "job1" (some ["nginx"]) none
        ⟨[], []⟩).1 = Res.ok () ∧
      ∃ m, (persistedAt ("job1" ++ ".json") (newEvents ⟨[], []⟩
          (createConfigBackup (streamsEnv archiverErrorStreams 0) "job1" (some ["nginx"]) none
            ⟨[], []⟩).2)).getLast? = some m ∧
        m.status = some "failed" ∧ m.error = some "EACCES: permission denied, scandir" ∧
        m.completedAt ≠ none) :=
  ⟨by decide,
    (fatal_error_recorded (streamsEnv archiverErrorStreams 0) ⟨[], []⟩ "job1" none ⟨true, true⟩
      none none "EACCES: permission denied, scandir").1 (by decide!)
      (Or.inr ⟨36, by decide!, by decide⟩),
    (fatal_error_recorded (streamsEnv archiverErrorStreams 0) ⟨[], []⟩ "job1" none ⟨true, true⟩
      (some ["shop"]) none "EACCES: permission denied, scandir").2.1 (by decide!)
      (Or.inr ⟨4, by decide!, by decide⟩),
    (fatal_error_recorded (streamsEnv archiverErrorStreams 0) ⟨[], []⟩ "job1" none ⟨true, true⟩
      none (some ["nginx"]) "EACCES: permission denied, scandir").2.2 (by decide!)
      (Or.inr ⟨5, by decide!, by decide⟩)⟩

set_option maxRecDepth 100000 in
/-- Counterexample to C4 as stated: the construction of the archive fails because the
disk is full. The write stream of `createArchive` emits `error` and is closed; the
archiver emits no `error`, so that the promise is resolved by the `close` event, and
`createFullBackup`, `createDatabaseBackup` and `createConfigBackup`, all of whose
metadata writes succeed, persist `completed` as the last record, with no `error`,
while the archive left in the backup directory is empty. -/
theorem write_stream_error_recorded_completed :
    archivePromise diskFullStreams = some (Res.ok ()) ∧
    ((persistedAt "job1.json" (newEvents ⟨[], []⟩
        (createFullBackup (streamsEnv diskFullStreams 0) "job1" none ⟨true, true⟩
          ⟨[], []⟩).2)).map (fun m => (m.status, m.error)) =
        [(some "in_progress", none), (some "completed", none)] ∧
      (createFullBackup (streamsEnv diskFullStreams 0) "job1" none ⟨true, true⟩
        ⟨[], []⟩).2.fs.find "job1.tar.gz" = some (Node.file none 0)) ∧
    ((persistedAt "job1.json" (newEvents ⟨[], []⟩
        (createDatabaseBackup (streamsEnv diskFullStreams 0) "job1" (some ["shop"]) none
          ⟨[], []⟩).2)).map (fun m => (m.status, m.error)) =
        [(some "in_progress", none), (some "completed", none)] ∧
      (createDatabaseBackup (streamsEnv diskFullStreams 0) "job1" (some ["shop"]) none
        ⟨[], []⟩).2.fs.find "job1.tar.gz" = some (Node.file none 0)) ∧
    ((persistedAt "job1.json" (newEvents ⟨[], []⟩
        (createConfigBackup (streamsEnv diskFullStreams 0) "job1" (some ["nginx"]) none
          ⟨[], []⟩).2)).map (fun m => (m.status, m.error)) =
        [(some "in_progress", none), (some "completed", none)] ∧
      (createConfigBackup (streamsEnv diskFullStreams 0) "job1" (some ["nginx"]) none
        ⟨[], []⟩).2.fs.find "job1.tar.gz" = some (Node.file none 0)) :=
  ⟨by decide, ⟨by decide!, by decide!⟩, ⟨by decide!, by decide!⟩, ⟨by decide!, by decide!⟩⟩

/-! ## The life cycle of a record -/

theorem lifecycle_of_persisted (id : String) (m0 : Metadata) (evs : List Event)
    (h0 : m0.status = some "in_progress") (hc0 : m0.completedAt = none)
    (hP : persistedAt (id ++ ".json") evs = [] ∨
      persistedAt (id ++ ".json") evs = [m0] ∨
      (∃ e t, persistedAt (id ++ ".json") evs = [failedRecord m0 e t] ∧
        ¬ ∃ m rest, evs = ⟨Op.writeFile (id ++ ".json") m, none⟩ :: rest) ∨
      (∃ t, persistedAt (id ++ ".json") evs = [m0, completedRecord m0 t]) ∨
      (∃ e t, persistedAt (id ++ ".json") evs = [m0, failedRecord m0 e t])) :
    Lifecycle id evs := by
  have hhead : (∃ m rest, evs = ⟨Op.writeFile (id ++ ".json") m, none⟩ :: rest) →
      persistedAt (id ++ ".json") evs ≠ [] := by
    rintro ⟨m, rest, hev⟩
    rw [hev]
    simp [persistedAt]
  unfold Lifecycle
  rcases hP with h | h | ⟨e, t, h, hno⟩ | ⟨t, h⟩ | ⟨e, t, h⟩
  · refine ⟨by simp [h], by simp [h], by simp [h], fun hh => absurd h (hhead hh)⟩
  · refine ⟨by simp [h, h0], by simp [h], by simp [h, hc0], fun _ => by simp [h, h0]⟩
  · refine ⟨by simp [h, failedRecord], by simp [h], by simp [h, failedRecord],
      fun hh => absurd hh hno⟩
  · refine ⟨by simp [h, h0, completedRecord], by simp [h, h0], by simp [h, hc0, completedRecord],
      fun _ => by simp [h, h0, completedRecord]⟩
  · refine ⟨by simp [h, h0, failedRecord], by simp [h, h0], by simp [h, hc0, failedRecord],
      fun _ => by simp [h, h0, failedRecord]⟩

theorem lifecycle_of_jobRun (id : String) (m0 : Metadata) (r : Res Unit) (evs : List Event)
    (h : JobRun id m0 OnlyAux r evs)
    (h0 : m0.status = some "in_progress") (hc0 : m0.completedAt = none) :
    Lifecycle id evs := by
  apply lifecycle_of_persisted id m0 evs h0 hc0
  cases h with
  | initialWriteFailed e t ef =>
    cases ef with
    | none =>
      refine Or.inr (Or.inr (Or.inl ⟨e, t, by simp [persistedAt], ?_⟩))
      rintro ⟨m, rest, h⟩
      simp at h
    | some e1 => exact Or.inl (by simp [persistedAt])
  | mkdirFailed e t ef =>
    cases ef with
    | none => exact Or.inr (Or.inr (Or.inr (Or.inr ⟨e, t, by simp [persistedAt]⟩)))
    | some e1 => exact Or.inr (Or.inl (by simp [persistedAt]))
  | producerFailed evsA e t ef hA =>
    have hA0 := persistedAt_of_onlyAux (id ++ ".json") _ _ hA
    cases ef with
    | none =>
      refine Or.inr (Or.inr (Or.inr (Or.inr ⟨e, t, ?_⟩)))
      simp only [persistedAt_append, hA0]
      simp [persistedAt]
    | some e1 =>
      refine Or.inr (Or.inl ?_)
      simp only [persistedAt_append, hA0]
      simp [persistedAt]
  | archiveFailed evsA e t ef hA =>
    have hA0 := persistedAt_of_onlyAux (id ++ ".json") _ _ hA
    cases ef with
    | none =>
      refine Or.inr (Or.inr (Or.inr (Or.inr ⟨e, t, ?_⟩)))
      simp only [persistedAt_append, hA0]
      simp [persistedAt]
    | some e1 =>
      refine Or.inr (Or.inl ?_)
      simp only [persistedAt_append, hA0]
      simp [persistedAt]
  | removeFailed evsA e t ef hA =>
    have hA0 := persistedAt_of_onlyAux (id ++ ".json") _ _ hA
    cases ef with
    | none =>
      refine Or.inr (Or.inr (Or.inr (Or.inr ⟨e, t, ?_⟩)))
      simp only [persistedAt_append, hA0]
      simp [persistedAt]
    | some e1 =>
      refine Or.inr (Or.inl ?_)
      simp only [persistedAt_append, hA0]
      simp [persistedAt]
  | finalWriteFailed evsA e tc t ef hA =>
    have hA0 := persistedAt_of_onlyAux (id ++ ".json") _ _ hA
    cases ef with
    | none =>
      refine Or.inr (Or.inr (Or.inr (Or.inr ⟨e, t, ?_⟩)))
      simp only [persistedAt_append, hA0]
      simp [persistedAt]
    | some e1 =>
      refine Or.inr (Or.inl ?_)
      simp only [persistedAt_append, hA0]
      simp [persistedAt]
  | completed evsA tc hA =>
    have hA0 := persistedAt_of_onlyAux (id ++ ".json") _ _ hA
    refine Or.inr (Or.inr (Or.inr (Or.inl ⟨tc, ?_⟩)))
    simp only [persistedAt_append, hA0]
    simp [persistedAt]

theorem spec_performDailyBackup (env : Env) (id : String) :
    Spec (performDailyBackup env id) (fun _ evs => ∃ ts t0,
      persistedAt (id ++ ".json") evs = [] ∨
      persistedAt (id ++ ".json") evs = [dailyRecord env id ts t0] ∨
      ∃ tc, persistedAt (id ++ ".json") evs =
        [dailyRecord env id ts t0, completedRecord (dailyRecord env id ts t0) tc]) := by
  have hsys : Spec (createSystemBackup env id) (fun _ evs => NoWrite evs) :=
    emits_createSystemBackup (fun ev => ev.op.isWrite = false) (fun _ h => h) env id
  have hclean : Spec (cleanupOldBackups env 7) (fun _ evs => NoWrite evs) :=
    emits_cleanupOldBackups (fun ev => ev.op.isWrite = false) (fun _ h => h) env 7
  have hall := spec_tryCatch
    (spec_bind (spec_now env) (fun ts =>
      spec_bind (spec_now env) (fun t0 =>
        spec_bind (spec_saveBackupMetadata env id (dailyRecord env id ts t0) rfl) (fun _ =>
          spec_bind hsys (fun _ =>
            spec_bind (spec_now env) (fun tc =>
              spec_bind (spec_saveBackupMetadata env id
                (completedRecord (dailyRecord env id ts t0) tc) rfl) (fun _ =>
                spec_bind hclean (fun _ =>
                  spec_pure (⟨true, id⟩ : DailyResult)))))))))
    (fun e => spec_raise e)
  refine Spec.weaken hall ?_
  intro r evs h
  simp only [Res.ok.injEq, exists_eq_left', false_and, exists_false, or_false, false_or,
    exists_const, true_and, and_true, exists_eq', reduceCtorEq, exists_and_left,
    exists_eq_left] at h
  clear hall hsys hclean
  rcases h with ⟨a, -, ts, _, _, rfl, rfl, t0, _, _, rfl, rfl, _, _, rfl, rfl, evsS, _, rfl, hS,
      tc, _, _, rfl, rfl, _, _, rfl, rfl, evsC, _, rfl, hC, -, rfl⟩ |
    ⟨e, evsB, _, rfl, hbody, -, rfl⟩
  · refine ⟨ts, t0, Or.inr (Or.inr ⟨tc, ?_⟩)⟩
    have hS0 := persistedAt_of_no_write (id ++ ".json") evsS hS
    have hC0 := persistedAt_of_no_write (id ++ ".json") evsC hC
    simp only [persistedAt_append, hS0, hC0]
    simp [persistedAt]
  rcases hbody with ⟨_, _, hF⟩ | ⟨ts, _, _, rfl, rfl, hbody⟩
  · exact hF.elim
  rcases hbody with ⟨_, _, hF⟩ | ⟨t0, _, _, rfl, rfl, hbody⟩
  · exact hF.elim
  refine ⟨ts, t0, ?_⟩
  rcases hbody with ⟨_, -, e0, -, rfl⟩ | ⟨_, _, rfl, rfl, hbody⟩
  · exact Or.inl (by simp [persistedAt])
  rcases hbody with ⟨_, -, hS⟩ | ⟨evsS, _, rfl, hS, hbody⟩
  · have hS0 := persistedAt_of_no_write (id ++ ".json") _ hS
    refine Or.inr (Or.inl ?_)
    simp only [persistedAt_append, hS0]
    simp [persistedAt]
  have hS0 := persistedAt_of_no_write (id ++ ".json") evsS hS
  rcases hbody with ⟨_, _, hF⟩ | ⟨tc, _, _, rfl, rfl, hbody⟩
  · exact hF.elim
  rcases hbody with ⟨_, -, e0, -, rfl⟩ | ⟨_, _, rfl, rfl, hbody⟩
  · refine Or.inr (Or.inl ?_)
    simp only [persistedAt_append, hS0]
    simp [persistedAt]
  rcases hbody with ⟨_, -, hC⟩ | ⟨_, _, _, _, hF⟩
  · have hC0 := persistedAt_of_no_write (id ++ ".json") _ hC
    refine Or.inr (Or.inr ⟨tc, ?_⟩)
    simp only [persistedAt_append, hS0, hC0]
    simp [persistedAt]
  · exact hF.elim


/-- C10, as amended. State-machine terminality: in every run of `createFullBackup`,
`createDatabaseBackup`, `createConfigBackup` and `performDailyBackup`, whichever calls
fail, the statuses persisted in `{id}.json` are, in order, one of: nothing,
`in_progress`, `failed`, `in_progress, completed`, `in_progress, failed`; every
persisted record but the last has status `in_progress` (so no write follows a
persisted `completed` or `failed` record), at most one persisted record has
`completedAt` set, and when the initial write succeeds the sequence is `in_progress`,
`in_progress, completed` or `in_progress, failed`. -/
theorem runners_lifecycle (env : Env) (w : World) (id : String)
    (description : Option String) (options : FullOptions)
    (databases services : Option (List String)) :
    Lifecycle id (newEvents w (createFullBackup env id description options w).2) ∧
    Lifecycle id (newEvents w (createDatabaseBackup env id databases description w).2) ∧
    Lifecycle id (newEvents w (createConfigBackup env id services description w).2) ∧
    Lifecycle id (newEvents w (performDailyBackup env id w).2) := by
  refine ⟨?_, ?_, ?_, ?_⟩
  · obtain ⟨t0, h⟩ := createFullBackup_jobRun env w id description options
    exact lifecycle_of_jobRun id _ _ _ h rfl rfl
  · obtain ⟨t0, h⟩ := createDatabaseBackup_jobRun env w id databases description
    exact lifecycle_of_jobRun id _ _ _ h rfl rfl
  · obtain ⟨t0, h⟩ := createConfigBackup_jobRun env w id services description
    exact lifecycle_of_jobRun id _ _ _ h rfl rfl
  · obtain ⟨evs, htr, ts, t0, h⟩ := spec_performDailyBackup env id w
    rw [newEvents_of_trace w _ evs htr]
    apply lifecycle_of_persisted id (dailyRecord env id ts t0) evs rfl rfl
    rcases h with h | h | ⟨tc, h⟩
    · exact Or.inl h
    · exact Or.inr (Or.inl h)
    · exact Or.inr (Or.inr (Or.inr (Or.inl ⟨tc, h⟩)))

set_option maxRecDepth 100000 in
/-- Counterexample to C10 as stated: when the initial write of a full backup fails
and the write in the `catch` block succeeds, the only status ever persisted is
`failed`, which is none of `in_progress`, `in_progress, completed` and
`in_progress, failed`. -/
theorem lifecycle_failed_only :
    (persistedAt "job1.json" (newEvents ⟨[], []⟩
        (createFullBackup firstCallFailureEnv "job1" none ⟨true, true⟩ ⟨[], []⟩).2)).map
          (fun m => m.status) = [some "failed"] ∧
      [some "failed"] ∉ [[some "in_progress"], [some "in_progress", some "completed"],
        [some "in_progress", some "failed"]] := by
  constructor
  · decide!
  · decide


/-! ## Producers of a full backup -/

theorem spec_swallow_first {α : Type} (x : M α) (op : Op) (k : α → M Unit)
    (hx : Spec x (fun _ evs => ∃ err, evs = [⟨op, err⟩]))
    (hk : ∀ a, Emits (fun _ => True) (k a)) :
    Spec (tryCatch (x >>= k) (fun _ => pure ()))
      (fun r evs => r = Res.ok () ∧ ∃ err, (⟨op, err⟩ : Event) ∈ evs) := by
  refine (spec_tryCatch (spec_bind hx hk) (fun _ => spec_pure ())).weaken ?_
  intro r evs h
  rcases h with ⟨a, rfl, h⟩ | ⟨e, evs1, evs2, rfl, h, rfl, rfl⟩
  · refine ⟨rfl, ?_⟩
    rcases h with ⟨_, h, _⟩ | ⟨_, _, _, rfl, ⟨err, rfl⟩, _⟩
    · simp at h
    · exact ⟨err, by simp⟩
  · refine ⟨rfl, ?_⟩
    rcases h with ⟨_, _, err, rfl⟩ | ⟨_, _, _, rfl, ⟨err, rfl⟩, _⟩
    · exact ⟨err, by simp⟩
    · exact ⟨err, by simp⟩

theorem spec_fileExistsAt (env : Env) (path : String) :
    Spec (fileExistsAt env path) (fun _ evs => ∃ err, evs = [⟨Op.accessAt path, err⟩]) := by
  unfold fileExistsAt
  refine (spec_tryCatch (spec_bind (spec_perform env (Op.accessAt path) _)
    (fun _ => spec_pure true)) (fun _ => spec_pure false)).weaken ?_
  intro r evs h
  rcases h with ⟨a, -, h⟩ | ⟨e, evs1, evs2, rfl, h, -, rfl⟩
  · rcases h with ⟨_, h, _⟩ | ⟨_, _, _, rfl, h, -, rfl⟩
    · simp at h
    · rcases h with ⟨_, -, rfl⟩ | ⟨_, -, rfl⟩ <;> exact ⟨_, rfl⟩
  · rcases h with ⟨_, -, h⟩ | ⟨_, _, _, rfl, h, h2, rfl⟩
    · rcases h with ⟨_, -, rfl⟩ | ⟨_, -, rfl⟩ <;> exact ⟨_, rfl⟩
    · simp at h2

theorem spec_execCommand_first (env : Env) (command : String) :
    Spec (execCommand env command) (fun _ evs => ∃ err, evs = [⟨Op.exec command, err⟩]) :=
  (spec_execCommand env command).weaken (by
    rintro r evs (⟨a, -, rfl⟩ | ⟨e, -, rfl⟩) <;> exact ⟨_, rfl⟩)

theorem spec_forOf_each {α : Type} (body : α → M Unit) (E : α → List Event → Prop)
    (hE : ∀ a evs1 evs2 evs3, E a evs2 → E a (evs1 ++ evs2 ++ evs3))
    (hbody : ∀ a, Spec (body a) (fun r evs => r = Res.ok () ∧ E a evs)) :
    ∀ l : List α, Spec (forOf body l) (fun r evs => r = Res.ok () ∧ ∀ a ∈ l, E a evs) := by
  intro l
  induction l with
  | nil => exact (spec_pure ()).weaken (by rintro r evs ⟨rfl, rfl⟩; simp)
  | cons a rest ih =>
    unfold forOf
    refine (spec_bind (hbody a) (fun _ => ih)).weaken ?_
    intro r evs h
    rcases h with ⟨e, -, h, -⟩ | ⟨_, evs1, evs2, rfl, ⟨-, h1⟩, rfl, h2⟩
    · simp at h
    · refine ⟨rfl, ?_⟩
      intro b hb
      rcases List.mem_cons.1 hb with rfl | hb
      · simpa using hE b [] evs1 evs2 h1
      · simpa using hE b evs1 evs2 [] (h2 b hb)


theorem spec_backupConfigurations (env : Env) (tempDir : String) :
    Spec (backupConfigurations env tempDir) (fun r evs =>
      r = Res.ok () ∧ ∀ p ∈ configPaths, ∃ err, (⟨Op.accessAt p, err⟩ : Event) ∈ evs) := by
  unfold backupConfigurations
  apply spec_forOf_each _ (fun p evs => ∃ err, (⟨Op.accessAt p, err⟩ : Event) ∈ evs)
  · rintro a evs1 evs2 evs3 ⟨err, h⟩
    exact ⟨err, by simp [h]⟩
  · intro p
    apply spec_swallow_first _ _ _ (spec_fileExistsAt env p)
    intro found
    repeat' first
      | exact emits_pure _ _
      | exact emits_mkdirAt _ env _ (fun _ => trivial)
      | exact emits_execCommand _ env _ (fun _ => trivial)
      | apply emits_bind
      | apply emits_ite
      | intro _

theorem spec_mkdirAt (env : Env) (path : String) :
    Spec (mkdirAt env path) (fun r evs =>
      (r = Res.ok () ∧ evs = [⟨Op.mkdirAt path, none⟩]) ∨
      (∃ e, r = Res.error e ∧ evs = [⟨Op.mkdirAt path, some e⟩])) :=
  spec_unit_perform env _ _

theorem spec_backupDatabases (env : Env) (tempDir : String) :
    Spec (backupDatabases env tempDir) (fun r evs =>
      (∃ p e, r = Res.error e ∧ (⟨Op.mkdirAt p, some e⟩ : Event) ∈ evs) ∨
      (r = Res.ok () ∧ (∃ err, (⟨Op.exec pgListCommand, err⟩ : Event) ∈ evs) ∧
        ∃ err, (⟨Op.exec mysqlListCommand, err⟩ : Event) ∈ evs)) := by
  unfold backupDatabases
  have hpg := spec_swallow_first (execCommand env pgListCommand) (Op.exec pgListCommand)
    (fun pgDatabases =>
      forOf (fun db =>
        if db.trim != "" then do
          let _ ← execCommand env (pgDumpCommand db.trim (pathJoin tempDir "databases"))
          pure ()
        else pure ()) (pgDatabases.filter (fun db => db.trim != "")))
    (spec_execCommand_first env pgListCommand) (by
      intro a
      repeat' first
        | exact emits_pure _ _
        | exact emits_execCommand _ env _ (fun _ => trivial)
        | apply emits_bind
        | apply emits_forOf
        | apply emits_ite
        | intro _)
  have hmy := spec_swallow_first (execCommand env mysqlListCommand) (Op.exec mysqlListCommand)
    (fun mysqlDatabases =>
      forOf (fun db =>
        if db.trim != "" then do
          let _ ← execCommand env (mysqlDumpCommand db.trim (pathJoin tempDir "databases"))
          pure ()
        else pure ()) (mysqlDatabases.filter (fun db => db.trim != "")))
    (spec_execCommand_first env mysqlListCommand) (by
      intro a
      repeat' first
        | exact emits_pure _ _
        | exact emits_execCommand _ env _ (fun _ => trivial)
        | apply emits_bind
        | apply emits_forOf
        | apply emits_ite
        | intro _)
  refine (spec_bind (spec_mkdirAt env (pathJoin tempDir "databases"))
    (fun _ => spec_bind hpg (fun _ => hmy))).weaken ?_
  intro r evs h
  rcases h with ⟨e, rfl, h⟩ | ⟨_, evs1, evs2, rfl, -, h⟩
  · rcases h with ⟨h, -⟩ | ⟨e1, h, rfl⟩
    · simp at h
    · simp only [Res.error.injEq] at h
      subst h
      exact Or.inl ⟨pathJoin tempDir "databases", e, rfl, by simp⟩
  · rcases h with ⟨e, -, h, -⟩ | ⟨_, evs3, evs4, rfl, ⟨-, err1, h1⟩, rfl, err2, h2⟩
    · simp at h
    · exact Or.inr ⟨rfl, ⟨err1, by simp [h1]⟩, ⟨err2, by simp [h2]⟩⟩

theorem spec_backupApplicationData (env : Env) (tempDir : String) :
    Spec (backupApplicationData env tempDir) (fun r evs =>
      (∃ p e, r = Res.error e ∧ (⟨Op.mkdirAt p, some e⟩ : Event) ∈ evs) ∨
      (r = Res.ok () ∧ ∀ p ∈ [env.cwd, "/var/www", "/home/buddybox"],
        ∃ err, (⟨Op.accessAt p, err⟩ : Event) ∈ evs)) := by
  unfold backupApplicationData
  have hloop := spec_forOf_each
    (fun appPath =>
      tryCatch (do
        let found ← fileExistsAt env appPath
        if found then do
          let appName := basename appPath
          let targetPath := pathJoin (pathJoin tempDir "application") appName
          let _ ← execCommand env ("cp -r " ++ appPath ++ " " ++ targetPath)
          pure ()
        else pure ())
        (fun _ => pure ()))
    (fun p evs => ∃ err, (⟨Op.accessAt p, err⟩ : Event) ∈ evs)
    (by
      rintro a evs1 evs2 evs3 ⟨err, h⟩
      exact ⟨err, by simp [h]⟩)
    (by
      intro p
      apply spec_swallow_first _ _ _ (spec_fileExistsAt env p)
      intro found
      repeat' first
        | exact emits_pure _ _
        | exact emits_execCommand _ env _ (fun _ => trivial)
        | apply emits_bind
        | apply emits_ite
        | intro _)
    [env.cwd, "/var/www", "/home/buddybox"]
  refine (spec_bind (spec_mkdirAt env (pathJoin tempDir "application"))
    (fun _ => hloop)).weaken ?_
  intro r evs h
  rcases h with ⟨e, rfl, h⟩ | ⟨_, evs1, evs2, rfl, -, rfl, h⟩
  · rcases h with ⟨h, -⟩ | ⟨e1, h, rfl⟩
    · simp at h
    · simp only [Res.error.injEq] at h
      subst h
      exact Or.inl ⟨pathJoin tempDir "application", e, rfl, by simp⟩
  · refine Or.inr ⟨rfl, ?_⟩
    intro p hp
    obtain ⟨err, h1⟩ := h p hp
    exact ⟨err, by simp [h1]⟩


theorem spec_fullProducers (env : Env) (id : String) :
    Spec (fullProducers env id ⟨true, true⟩) (FullProducersRun env) := by
  have haux : Spec (fullProducers env id ⟨true, true⟩) OnlyAux :=
    emits_fullProducers _ (fun _ h => h) env id ⟨true, true⟩
  have hchain := spec_bind (spec_backupConfigurations env (pathJoin env.backupDir ("temp_" ++ id)))
    (fun _ => spec_bind (spec_backupDatabases env (pathJoin env.backupDir ("temp_" ++ id)))
      (fun _ => spec_backupApplicationData env (pathJoin env.backupDir ("temp_" ++ id))))
  have hchain1 : Spec (fullProducers env id ⟨true, true⟩) _ := hchain
  refine (haux.and hchain1).weaken ?_
  intro r evs h
  obtain ⟨hA, h⟩ := h
  refine ⟨hA, ?_⟩
  intro hH
  have hno : ∀ p e, (⟨Op.mkdirAt p, some e⟩ : Event) ∈ evs → False := by
    intro p e hmem
    have := hH _ hmem (by simp)
    simp [Op.isCommandOrProbe] at this
  rcases h with ⟨e, -, h, -⟩ | ⟨_, evs1, evs2, rfl, ⟨-, h1⟩, h⟩
  · simp at h
  rcases h with ⟨e, -, h⟩ | ⟨_, evs3, evs4, rfl, h3, h4⟩
  · rcases h with ⟨p, e1, -, hmem⟩ | ⟨h, -⟩
    · exact (hno p e1 (by simp [hmem])).elim
    · simp at h
  rcases h3 with ⟨p, e1, -, hmem⟩ | ⟨-, hpg, hmy⟩
  · exact (hno p e1 (by simp [hmem])).elim
  rcases h4 with ⟨p, e1, -, hmem⟩ | ⟨rfl, happ⟩
  · exact (hno p e1 (by simp [hmem])).elim
  refine ⟨rfl, ?_, ?_, ?_, ?_⟩
  · intro p hp
    obtain ⟨err, h⟩ := h1 p hp
    exact ⟨err, by simp [h]⟩
  · obtain ⟨err, h⟩ := hpg
    exact ⟨err, by simp [h]⟩
  · obtain ⟨err, h⟩ := hmy
    exact ⟨err, by simp [h]⟩
  · intro p hp
    obtain ⟨err, h⟩ := happ p hp
    exact ⟨err, by simp [h]⟩

theorem allProducersInvoked_mono (env : Env) (evs1 evs2 evs3 : List Event)
    (h : AllProducersInvoked env evs2) : AllProducersInvoked env (evs1 ++ evs2 ++ evs3) := by
  obtain ⟨h1, ⟨e2, h2⟩, ⟨e3, h3⟩, h4⟩ := h
  refine ⟨?_, ⟨e2, by simp [h2]⟩, ⟨e3, by simp [h3]⟩, ?_⟩
  · intro p hp
    obtain ⟨err, h⟩ := h1 p hp
    exact ⟨err, by simp [h]⟩
  · intro p hp
    obtain ⟨err, h⟩ := h4 p hp
    exact ⟨err, by simp [h]⟩

theorem onlyCommandsFail_middle (evs1 evs2 evs3 : List Event)
    (h : OnlyCommandsFail (evs1 ++ evs2 ++ evs3)) : OnlyCommandsFail evs2 := by
  intro ev hev
  exact h ev (by simp [hev])

theorem jobRun_completed (env : Env) (id : String) (m0 : Metadata) (r : Res Unit)
    (evs : List Event) (h : JobRun id m0 (FullProducersRun env) r evs)
    (hH : OnlyCommandsFail evs) :
    r = Res.ok () ∧ AllProducersInvoked env evs ∧
      (⟨Op.archive ("temp_" ++ id) (id ++ ".tar.gz"), none⟩ : Event) ∈ evs ∧
      ∃ t, (persistedAt (id ++ ".json") evs).getLast? = some (completedRecord m0 t) := by
  cases h with
  | initialWriteFailed e t ef =>
    have := hH ⟨Op.writeFile (id ++ ".json") m0, some e⟩ (by simp) (by simp)
    simp [Op.isCommandOrProbe] at this
  | mkdirFailed e t ef =>
    have := hH ⟨Op.mkdir ("temp_" ++ id), some e⟩ (by simp) (by simp)
    simp [Op.isCommandOrProbe] at this
  | producerFailed evsA e t ef hA =>
    have := (hA.2 (onlyCommandsFail_middle _ _ _ hH)).1
    simp at this
  | archiveFailed evsA e t ef hA =>
    have := hH ⟨Op.archive ("temp_" ++ id) (id ++ ".tar.gz"), some e⟩ (by simp) (by simp)
    simp [Op.isCommandOrProbe] at this
  | removeFailed evsA e t ef hA =>
    have := hH ⟨Op.rm ("temp_" ++ id), some e⟩ (by simp) (by simp)
    simp [Op.isCommandOrProbe] at this
  | finalWriteFailed evsA e tc t ef hA =>
    have := hH ⟨Op.writeFile (id ++ ".json") (completedRecord m0 tc), some e⟩ (by simp)
      (by simp)
    simp [Op.isCommandOrProbe] at this
  | completed evsA tc hA =>
    have hinv := (hA.2 (onlyCommandsFail_middle _ _ _ hH)).2
    have hA0 := persistedAt_of_onlyAux (id ++ ".json") _ _ hA.1
    refine ⟨rfl, allProducersInvoked_mono env _ _ _ hinv, by simp, tc, ?_⟩
    simp only [persistedAt_append, hA0]
    simp [persistedAt]


/-- C6, as amended. Resilience of a full job to the failure of producers: in every
run of `createFullBackup` with `includeConfigs` and `includeDatabases` set in which the
only calls that fail are external commands of producers (and probes for a path to
copy), so that directory creation, archive construction, the removal of the working
directory and the metadata writes succeed, every producer is still invoked, the
archive is built, the runner returns normally and the last record persisted has
status `completed`. -/
theorem full_backup_survives_producer_failures (env : Env) (w : World) (id : String)
    (description : Option String)
    (hfail : OnlyCommandsFail
      (newEvents w (createFullBackup env id description ⟨true, true⟩ w).2)) :
    (createFullBackup env id description ⟨true, true⟩ w).1 = Res.ok () ∧
    AllProducersInvoked env (newEvents w (createFullBackup env id description ⟨true, true⟩ w).2) ∧
    (⟨Op.archive ("temp_" ++ id) (id ++ ".tar.gz"), none⟩ : Event) ∈
      newEvents w (createFullBackup env id description ⟨true, true⟩ w).2 ∧
    ∃ m, (persistedAt (id ++ ".json")
        (newEvents w (createFullBackup env id description ⟨true, true⟩ w).2)).getLast? = some m ∧
      m.status = some "completed" := by
  have hrun : ∃ t0, JobRun id (fullRecord id description ⟨true, true⟩ t0) (FullProducersRun env)
      (createFullBackup env id description ⟨true, true⟩ w).1
      (newEvents w (createFullBackup env id description ⟨true, true⟩ w).2) := by
    rw [createFullBackup_eq]
    obtain ⟨evs, htr, h⟩ := spec_jobShape env id (fullRecord id description ⟨true, true⟩)
      (fun _ => rfl) (fullProducers env id ⟨true, true⟩) (FullProducersRun env)
      (spec_fullProducers env id) w
    rw [newEvents_of_trace w _ evs htr]
    exact h
  obtain ⟨t0, hrun⟩ := hrun
  obtain ⟨h1, h2, h3, t, h4⟩ := jobRun_completed env id _ _ _ hrun hfail
  exact ⟨h1, h2, h3, _, h4, rfl⟩

set_option maxRecDepth 100000 in
/-- Witness of C6 as amended: a full backup in which copying `/etc/nginx` fails and
every other call succeeds. -/
theorem full_backup_survives_producer_failures_witness :
    (⟨Op.exec "cp -r /etc/nginx /var/backups/buddybox/temp_job1/configs/nginx",
        some "cp: cannot open"⟩ : Event) ∈
      newEvents ⟨[], []⟩ (createFullBackup nginxCopyFailureEnv "job1" none ⟨true, true⟩ ⟨[], []⟩).2 ∧
    ((createFullBackup nginxCopyFailureEnv "job1" none ⟨true, true⟩ ⟨[], []⟩).1 = Res.ok () ∧
    AllProducersInvoked nginxCopyFailureEnv
      (newEvents ⟨[], []⟩ (createFullBackup nginxCopyFailureEnv "job1" none ⟨true, true⟩ ⟨[], []⟩).2) ∧
    (⟨Op.archive ("temp_" ++ "job1") ("job1" ++ ".tar.gz"), none⟩ : Event) ∈
      newEvents ⟨[], []⟩ (createFullBackup nginxCopyFailureEnv "job1" none ⟨true, true⟩ ⟨[], []⟩).2 ∧
    ∃ m, (persistedAt ("job1" ++ ".json") (newEvents ⟨[], []⟩
        (createFullBackup nginxCopyFailureEnv "job1" none ⟨true, true⟩ ⟨[], []⟩).2)).getLast?
          = some m ∧
      m.status = some "completed") :=
  ⟨by decide!,
    full_backup_survives_producer_failures nginxCopyFailureEnv ⟨[], []⟩ "job1" none
      (by unfold OnlyCommandsFail; decide!)⟩

set_option maxRecDepth 100000 in
/-- Counterexample to C6 as stated: copying `/etc/nginx` fails; every directory
creation, the archive construction and every metadata write succeed; but the removal
of the working directory fails, and the job, whose archive was built, persists
`failed`. -/
theorem full_backup_failed_after_archive :
    (⟨Op.exec "cp -r /etc/nginx /var/backups/buddybox/temp_job1/configs/nginx",
        some "cp: cannot open"⟩ : Event) ∈
      newEvents ⟨[], []⟩ (createFullBackup removalFailureEnv "job1" none ⟨true, true⟩ ⟨[], []⟩).2 ∧
    (∀ ev ∈ newEvents ⟨[], []⟩
        (createFullBackup removalFailureEnv "job1" none ⟨true, true⟩ ⟨[], []⟩).2,
      ev.op.isSetupStep = true → ev.err = none) ∧
    (⟨Op.archive "temp_job1" "job1.tar.gz", none⟩ : Event) ∈
      newEvents ⟨[], []⟩ (createFullBackup removalFailureEnv "job1" none ⟨true, true⟩ ⟨[], []⟩).2 ∧
    (persistedAt "job1.json" (newEvents ⟨[], []⟩
        (createFullBackup removalFailureEnv "job1" none ⟨true, true⟩ ⟨[], []⟩).2)).map
          (fun m => m.status) = [some "in_progress", some "failed"] := by
  refine ⟨?_, ?_, ?_, ?_⟩ <;> decide!


/-! ## The working directory after a failure -/

set_option maxRecDepth 100000 in
/-- C5, at a failing input. When the construction of the archive fails, each job
runner of the API (`createFullBackup`, `createDatabaseBackup`, `createConfigBackup`)
records the failure and returns without any attempt to remove the working directory,
and `temp_job1` remains in the backup directory; `createSystemBackup`, run in the same
circumstances, removes it in its `catch` block. -/
theorem working_directory_left_behind :
    ((createFullBackup archiveFailureEnv "job1" none ⟨true, true⟩ ⟨[], []⟩).2.fs.find "temp_job1"
        = some Node.dir ∧
      ∀ ev ∈ newEvents ⟨[], []⟩
          (createFullBackup archiveFailureEnv "job1" none ⟨true, true⟩ ⟨[], []⟩).2,
        ev.op.isRemoval = false) ∧
    ((createDatabaseBackup archiveFailureEnv "job1" (some ["shop"]) none ⟨[], []⟩).2.fs.find
        "temp_job1" = some Node.dir ∧
      ∀ ev ∈ newEvents ⟨[], []⟩
          (createDatabaseBackup archiveFailureEnv "job1" (some ["shop"]) none ⟨[], []⟩).2,
        ev.op.isRemoval = false) ∧
    ((createConfigBackup archiveFailureEnv "job1" (some ["nginx"]) none ⟨[], []⟩).2.fs.find
        "temp_job1" = some Node.dir ∧
      ∀ ev ∈ newEvents ⟨[], []⟩
          (createConfigBackup archiveFailureEnv "job1" (some ["nginx"]) none ⟨[], []⟩).2,
        ev.op.isRemoval = false) ∧
    ((createSystemBackup archiveFailureEnv "job1" ⟨[], []⟩).2.fs.find "temp_job1" = none ∧
      (⟨Op.rm "temp_job1", none⟩ : Event) ∈
        newEvents ⟨[], []⟩ (createSystemBackup archiveFailureEnv "job1" ⟨[], []⟩).2) := by
  refine ⟨⟨?_, ?_⟩, ⟨?_, ?_⟩, ⟨?_, ?_⟩, ⟨?_, ?_⟩⟩ <;> decide!


/-! ## Producers of database and configuration backups -/

theorem pgDumpCommand_ne_mysqlDumpCommand (db1 db2 dir1 dir2 : String) :
    pgDumpCommand db1 dir1 ≠ mysqlDumpCommand db2 dir2 := by
  intro h
  have hd := congrArg (fun s => s.data.head?) h
  simp [pgDumpCommand, mysqlDumpCommand, String.data_append] at hd

theorem mysqlDumpCommand_inj (db1 db2 dir : String)
    (h : mysqlDumpCommand db1 dir = mysqlDumpCommand db2 dir) : db1 = db2 := by
  have hd := congrArg String.data h
  simp only [mysqlDumpCommand, pathJoin, String.data_append] at hd
  have hlen := congrArg List.length hd
  simp only [List.length_append] at hlen
  have hl : db1.data.length = db2.data.length := by omega
  have hd1 : ("mysqldump ".data ++ db1.data) ++
        (" > ".data ++ (dir.data ++ "/".data ++ (db1.data ++ ".sql".data))) =
      ("mysqldump ".data ++ db2.data) ++
        (" > ".data ++ (dir.data ++ "/".data ++ (db2.data ++ ".sql".data))) := by
    simpa [List.append_assoc] using hd
  have h1 := (List.append_inj hd1 (by simp [hl])).1
  exact String.ext (List.append_cancel_left h1)


theorem perform_const_cases {α : Type} (env : Env) (op : Op) (a : α) (w : World) :
    perform env op (fun d => Res.ok (a, d)) w =
        (Res.ok a, { fs := w.fs, trace := w.trace ++ [⟨op, none⟩] }) ∨
      ∃ e, perform env op (fun d => Res.ok (a, d)) w =
        (Res.error e, { fs := w.fs, trace := w.trace ++ [⟨op, some e⟩] }) := by
  unfold perform
  split
  · next e _ => exact Or.inr ⟨e, rfl⟩
  · exact Or.inl rfl

theorem spec_backupDatabase (env : Env) (db tempDir : String) :
    Spec (backupDatabase env db tempDir) (fun r evs =>
      (∃ e, r = Res.error e ∧ evs = [⟨Op.mkdirAt (pathJoin tempDir "databases"), some e⟩]) ∨
      (r = Res.ok () ∧ evs = [⟨Op.mkdirAt (pathJoin tempDir "databases"), none⟩,
        ⟨Op.exec (pgDumpCommand db (pathJoin tempDir "databases")), none⟩]) ∨
      (∃ e1, r = Res.ok () ∧ evs = [⟨Op.mkdirAt (pathJoin tempDir "databases"), none⟩,
        ⟨Op.exec (pgDumpCommand db (pathJoin tempDir "databases")), some e1⟩,
        ⟨Op.exec (mysqlDumpCommand db (pathJoin tempDir "databases")), none⟩]) ∨
      (∃ e1 e2, r = Res.error (dumpFailureMessage db e2) ∧
        evs = [⟨Op.mkdirAt (pathJoin tempDir "databases"), none⟩,
          ⟨Op.exec (pgDumpCommand db (pathJoin tempDir "databases")), some e1⟩,
          ⟨Op.exec (mysqlDumpCommand db (pathJoin tempDir "databases")), some e2⟩])) := by
  intro w
  unfold backupDatabase
  simp only [bind_run, tryCatch]
  obtain ⟨evs1, htr1, h1⟩ := spec_mkdirAt env (pathJoin tempDir "databases") w
  rcases hx1 : mkdirAt env (pathJoin tempDir "databases") w with ⟨r1, w1⟩
  rw [hx1] at htr1 h1
  simp only at htr1 h1 ⊢
  rcases h1 with ⟨rfl, rfl⟩ | ⟨e, rfl, rfl⟩
  · simp only
    obtain ⟨evs2, htr2, h2⟩ :=
      spec_execCommand env (pgDumpCommand db (pathJoin tempDir "databases")) w1
    rcases hx2 : execCommand env (pgDumpCommand db (pathJoin tempDir "databases")) w1
      with ⟨r2, w2⟩
    rw [hx2] at htr2 h2
    simp only at htr2 h2 ⊢
    rcases h2 with ⟨a, rfl, rfl⟩ | ⟨e1, rfl, rfl⟩
    · refine ⟨_, ?_, Or.inr (Or.inl ⟨rfl, rfl⟩)⟩
      simp only [pure_run]
      rw [htr2, htr1, List.append_assoc]
      rfl
    · simp only
      obtain ⟨evs3, htr3, h3⟩ :=
        spec_execCommand env (mysqlDumpCommand db (pathJoin tempDir "databases")) w2
      rcases hx3 : execCommand env (mysqlDumpCommand db (pathJoin tempDir "databases")) w2
        with ⟨r3, w3⟩
      rw [hx3] at htr3 h3
      simp only at htr3 h3 ⊢
      rcases h3 with ⟨a, rfl, rfl⟩ | ⟨e2, rfl, rfl⟩
      · refine ⟨_, ?_, Or.inr (Or.inr (Or.inl ⟨e1, rfl, rfl⟩))⟩
        simp only [pure_run]
        rw [htr3, htr2, htr1, List.append_assoc, List.append_assoc]
        rfl
      · refine ⟨_, ?_, Or.inr (Or.inr (Or.inr ⟨e1, e2, rfl, rfl⟩))⟩
        simp only [raise]
        rw [htr3, htr2, htr1, List.append_assoc, List.append_assoc]
        rfl
  · exact ⟨_, htr1, Or.inl ⟨e, rfl, rfl⟩⟩


theorem not_fatalDump_of_ok (dbDir : String) (op : Op) : ¬ FatalDump dbDir ⟨op, none⟩ := by
  rintro ⟨db, e, h⟩
  simp at h

theorem not_fatalDump_pgDump (dbDir db dir : String) (err : Option String) :
    ¬ FatalDump dbDir ⟨Op.exec (pgDumpCommand db dir), err⟩ := by
  rintro ⟨db1, e, h⟩
  simp only [Event.mk.injEq, Op.exec.injEq] at h
  exact pgDumpCommand_ne_mysqlDumpCommand _ _ _ _ h.1

theorem not_fatalDump_mkdirAt (dbDir path : String) (err : Option String) :
    ¬ FatalDump dbDir ⟨Op.mkdirAt path, err⟩ := by
  rintro ⟨db1, e, h⟩
  simp at h

theorem spec_databaseLoop (env : Env) (tempDir : String) (dbs : List String) :
    Spec (forOf (fun db => backupDatabase env db tempDir) dbs) (fun r evs =>
      ∀ db e, (⟨Op.exec (mysqlDumpCommand db (pathJoin tempDir "databases")), some e⟩ : Event)
          ∈ evs →
        r = Res.error (dumpFailureMessage db e) ∧
          ∃ pre, evs = pre ++
            [⟨Op.exec (mysqlDumpCommand db (pathJoin tempDir "databases")), some e⟩]) := by
  have hloop := spec_forOf (fun db => backupDatabase env db tempDir)
    (fun evs => ∀ ev ∈ evs, ¬ FatalDump (pathJoin tempDir "databases") ev)
    (fun e evs => ∃ pre last, evs = pre ++ [last] ∧
      (∀ ev ∈ pre, ¬ FatalDump (pathJoin tempDir "databases") ev) ∧
      ∀ db e0, last = ⟨Op.exec (mysqlDumpCommand db (pathJoin tempDir "databases")), some e0⟩ →
        e = dumpFailureMessage db e0)
    (by simp)
    (by
      intro db
      refine (spec_backupDatabase env db tempDir).weaken ?_
      intro r evs h pre hpre
      rcases h with ⟨e, rfl, rfl⟩ | ⟨rfl, rfl⟩ | ⟨e1, rfl, rfl⟩ | ⟨e1, e2, rfl, rfl⟩
      · refine ⟨pre, _, rfl, hpre, ?_⟩
        intro db1 e0 h
        simp at h
      · intro ev hev
        simp only [List.mem_append, List.mem_cons, List.mem_singleton, List.not_mem_nil,
          or_false] at hev
        rcases hev with h | rfl | rfl
        · exact hpre ev h
        · exact not_fatalDump_mkdirAt _ _ _
        · exact not_fatalDump_pgDump _ _ _ _
      · intro ev hev
        simp only [List.mem_append, List.mem_cons, List.mem_singleton, List.not_mem_nil,
          or_false] at hev
        rcases hev with h | rfl | rfl | rfl
        · exact hpre ev h
        · exact not_fatalDump_mkdirAt _ _ _
        · exact not_fatalDump_pgDump _ _ _ _
        · exact not_fatalDump_of_ok _ _
      · refine ⟨pre ++ [⟨Op.mkdirAt (pathJoin tempDir "databases"), none⟩,
          ⟨Op.exec (pgDumpCommand db (pathJoin tempDir "databases")), some e1⟩],
          ⟨Op.exec (mysqlDumpCommand db (pathJoin tempDir "databases")), some e2⟩,
          by simp, ?_, ?_⟩
        · intro ev hev
          simp only [List.mem_append, List.mem_cons, List.mem_singleton, List.not_mem_nil,
            or_false] at hev
          rcases hev with h | rfl | rfl
          · exact hpre ev h
          · exact not_fatalDump_mkdirAt _ _ _
          · exact not_fatalDump_pgDump _ _ _ _
        · intro db1 e0 h
          simp only [Event.mk.injEq, Op.exec.injEq, Option.some.injEq] at h
          rw [mysqlDumpCommand_inj _ _ _ h.1, h.2])
    dbs
  refine hloop.weaken ?_
  intro r evs h db e hmem
  cases r with
  | ok u =>
    exact absurd ⟨db, e, rfl⟩ (h _ hmem)
  | error e1 =>
    obtain ⟨pre, last, rfl, hpre, hlast⟩ := h
    rcases List.mem_append.1 hmem with h1 | h1
    · exact absurd ⟨db, e, rfl⟩ (hpre _ h1)
    · rw [List.mem_singleton] at h1
      subst h1
      exact ⟨by rw [hlast db e rfl], pre, rfl⟩

theorem spec_databaseProducers (env : Env) (id : String) (databases : Option (List String)) :
    Spec (databaseProducers env id databases)
      (DatabaseProducersRun (pathJoin (pathJoin env.backupDir ("temp_" ++ id)) "databases")) := by
  have haux : Spec (databaseProducers env id databases) OnlyAux :=
    emits_databaseProducers _ (fun _ h => h) env id databases
  refine (haux.and ?_)
  unfold databaseProducers
  cases databases with
  | none =>
    exact (spec_raise _).weaken (by
      rintro r evs ⟨-, rfl⟩ db e h
      simp at h)
  | some dbs => exact spec_databaseLoop env _ dbs


theorem not_failedCommand_of_ok (op : Op) : ¬ FailedCommand ⟨op, none⟩ := by
  rintro ⟨c, e, h⟩
  simp at h

theorem not_failedCommand_accessAt (path : String) (err : Option String) :
    ¬ FailedCommand ⟨Op.accessAt path, err⟩ := by
  rintro ⟨c, e, h⟩
  simp at h

theorem spec_backupServiceConfig (env : Env) (service tempDir : String) :
    Spec (backupServiceConfig env service tempDir) (fun r evs =>
      (r = Res.ok () ∧ ∀ ev ∈ evs, ¬ FailedCommand ev) ∨
      (∃ e pre tail, r = Res.error e ∧ evs = pre ++ tail ∧ (∀ ev ∈ pre, ¬ FailedCommand ev) ∧
        (tail = [] ∨ ∃ op, tail = [⟨op, some e⟩]))) := by
  intro w
  unfold backupServiceConfig
  cases hlookup : configMap.lookup service with
  | none =>
    simp only
    split
    · exact ⟨[], by simp, Or.inl ⟨rfl, by simp⟩⟩
    · exact ⟨[], by simp [raise], Or.inr ⟨_, [], [], rfl, rfl, by simp, Or.inl rfl⟩⟩
  | some configPath =>
    simp only [bind_run]
    obtain ⟨evs1, htr1, err1, h1⟩ := spec_fileExistsAt env configPath w
    rcases hx1 : fileExistsAt env configPath w with ⟨r1, w1⟩
    rw [hx1] at htr1
    simp only at htr1 ⊢
    subst h1
    have hacc : ∀ ev ∈ [(⟨Op.accessAt configPath, err1⟩ : Event)], ¬ FailedCommand ev := by
      intro ev hev
      simp only [List.mem_singleton] at hev
      subst hev
      exact not_failedCommand_accessAt _ _
    cases r1 with
    | error e =>
      exact ⟨_, htr1, Or.inr ⟨e, _, [], rfl, by simp, hacc, Or.inl rfl⟩⟩
    | ok found =>
      simp only
      cases found with
      | false =>
        exact ⟨_, by simpa using htr1, Or.inl ⟨by simp, hacc⟩⟩
      | true =>
        simp only [if_true, bind_run]
        obtain ⟨evs2, htr2, h2⟩ := spec_mkdirAt env
          (dirname (pathJoin (pathJoin tempDir "configs") service)) w1
        rcases hx2 : mkdirAt env (dirname (pathJoin (pathJoin tempDir "configs") service)) w1
          with ⟨r2, w2⟩
        rw [hx2] at htr2 h2
        simp only at htr2 h2 ⊢
        rcases h2 with ⟨rfl, rfl⟩ | ⟨e, rfl, rfl⟩
        · simp only
          obtain ⟨evs3, htr3, h3⟩ := spec_execCommand env
            ("cp -r " ++ configPath ++ " " ++ pathJoin (pathJoin tempDir "configs") service) w2
          rcases hx3 : execCommand env
            ("cp -r " ++ configPath ++ " " ++ pathJoin (pathJoin tempDir "configs") service) w2
            with ⟨r3, w3⟩
          rw [hx3] at htr3 h3
          simp only at htr3 h3 ⊢
          rcases h3 with ⟨a, rfl, rfl⟩ | ⟨e, rfl, rfl⟩
          · refine ⟨[⟨Op.accessAt configPath, err1⟩,
              ⟨Op.mkdirAt (dirname (pathJoin (pathJoin tempDir "configs") service)), none⟩,
              ⟨Op.exec ("cp -r " ++ configPath ++ " " ++
                pathJoin (pathJoin tempDir "configs") service), none⟩], ?_, Or.inl ⟨rfl, ?_⟩⟩
            · simp only [pure_run]
              rw [htr3, htr2, htr1, List.append_assoc, List.append_assoc]
              rfl
            · intro ev hev
              simp only [List.mem_cons, List.mem_singleton,
                List.not_mem_nil, or_false] at hev
              rcases hev with rfl | rfl | rfl
              · exact not_failedCommand_accessAt _ _
              · exact not_failedCommand_of_ok _
              · exact not_failedCommand_of_ok _
          · refine ⟨_, ?_, Or.inr ⟨e, [⟨Op.accessAt configPath, err1⟩,
              ⟨Op.mkdirAt (dirname (pathJoin (pathJoin tempDir "configs") service)), none⟩],
              [⟨Op.exec ("cp -r " ++ configPath ++ " " ++
                pathJoin (pathJoin tempDir "configs") service), some e⟩],
              rfl, rfl, ?_, Or.inr ⟨_, rfl⟩⟩⟩
            · rw [htr3, htr2, htr1, List.append_assoc, List.append_assoc]
              rfl
            · intro ev hev
              simp only [List.mem_cons, List.mem_singleton, List.not_mem_nil, or_false] at hev
              rcases hev with rfl | rfl
              · exact not_failedCommand_accessAt _ _
              · exact not_failedCommand_of_ok _
        · refine ⟨_, ?_, Or.inr ⟨e, [⟨Op.accessAt configPath, err1⟩],
            [⟨Op.mkdirAt (dirname (pathJoin (pathJoin tempDir "configs") service)), some e⟩],
            rfl, rfl, hacc, Or.inr ⟨_, rfl⟩⟩⟩
          rw [htr2, htr1, List.append_assoc]

theorem spec_configLoop (env : Env) (tempDir : String) (svs : List String) :
    Spec (forOf (fun service => backupServiceConfig env service tempDir) svs) (fun r evs =>
      ∀ command e, (⟨Op.exec command, some e⟩ : Event) ∈ evs →
        r = Res.error e ∧ ∃ pre, evs = pre ++ [⟨Op.exec command, some e⟩]) := by
  have hloop := spec_forOf (fun service => backupServiceConfig env service tempDir)
    (fun evs => ∀ ev ∈ evs, ¬ FailedCommand ev)
    (fun e evs => ∃ pre tail, evs = pre ++ tail ∧ (∀ ev ∈ pre, ¬ FailedCommand ev) ∧
      (tail = [] ∨ ∃ op, tail = [⟨op, some e⟩]))
    (by simp)
    (by
      intro service
      refine (spec_backupServiceConfig env service tempDir).weaken ?_
      intro r evs h pre0 hpre0
      rcases h with ⟨rfl, h⟩ | ⟨e, pre, tail, rfl, rfl, hpre, htail⟩
      · intro ev hev
        rcases List.mem_append.1 hev with h1 | h1
        · exact hpre0 ev h1
        · exact h ev h1
      · refine ⟨pre0 ++ pre, tail, by simp, ?_, htail⟩
        intro ev hev
        rcases List.mem_append.1 hev with h1 | h1
        · exact hpre0 ev h1
        · exact hpre ev h1)
    svs
  refine hloop.weaken ?_
  intro r evs h command e hmem
  cases r with
  | ok u => exact absurd ⟨command, e, rfl⟩ (h _ hmem)
  | error e1 =>
    obtain ⟨pre, tail, rfl, hpre, htail⟩ := h
    rcases List.mem_append.1 hmem with h1 | h1
    · exact absurd ⟨command, e, rfl⟩ (hpre _ h1)
    · rcases htail with rfl | ⟨op, rfl⟩
      · simp at h1
      · rw [List.mem_singleton] at h1
        simp only [Event.mk.injEq, Option.some.injEq] at h1
        obtain ⟨rfl, rfl⟩ := h1
        exact ⟨rfl, pre, rfl⟩

theorem spec_configProducers (env : Env) (id : String) (services : Option (List String)) :
    Spec (configProducers env id services) ConfigProducersRun := by
  have haux : Spec (configProducers env id services) OnlyAux :=
    emits_configProducers _ (fun _ h => h) env id services
  refine (haux.and ?_)
  unfold configProducers
  cases services with
  | none =>
    exact (spec_raise _).weaken (by
      rintro r evs ⟨-, rfl⟩ command e h
      simp at h)
  | some svs => exact spec_configLoop env _ svs


theorem jobRun_producer_event (id : String) (m0 : Metadata)
    (A : Res Unit → List Event → Prop) (r : Res Unit) (evs : List Event)
    (h : JobRun id m0 A r evs)
    (hw : ∀ ev ∈ evs, ev.op.isWrite = true → ev.err = none)
    (x : Event) (msg : String) (hx : x.op.isAux = true)
    (hA : ∀ rA evsA, A rA evsA → x ∈ evsA → rA = Res.error msg ∧ ∃ pre, evsA = pre ++ [x])
    (hmem : x ∈ evs) :
    r = Res.ok () ∧ ∃ pre t, evs = pre ++
      [x, ⟨Op.writeFile (id ++ ".json") (failedRecord m0 msg t), none⟩] := by
  have hnot : ∀ op err, x = ⟨op, err⟩ → op.isAux = false → False := by
    intro op err hxe hop
    rw [hxe] at hx
    simp only at hx
    rw [hop] at hx
    exact Bool.noConfusion hx
  cases h with
  | initialWriteFailed e0 t ef =>
    have := hw ⟨Op.writeFile (id ++ ".json") m0, some e0⟩ (by simp) rfl
    simp at this
  | mkdirFailed e1 t ef =>
    exfalso
    simp only [List.mem_cons, List.mem_singleton, List.not_mem_nil, or_false] at hmem
    rcases hmem with h | h | h <;> exact hnot _ _ h rfl
  | producerFailed evsA e1 t ef hrun =>
    have hef := hw ⟨Op.writeFile (id ++ ".json") (failedRecord m0 e1 t), ef⟩ (by simp) rfl
    simp only at hef
    subst hef
    simp only [List.mem_append, List.mem_cons, List.mem_singleton, List.not_mem_nil,
      or_false] at hmem
    rcases hmem with ((h | h) | h) | h
    · exact (hnot _ _ h rfl).elim
    · exact (hnot _ _ h rfl).elim
    · obtain ⟨he, pre, hpre⟩ := hA _ _ hrun h
      simp only [Res.error.injEq] at he
      subst he
      refine ⟨rfl, [⟨Op.writeFile (id ++ ".json") m0, none⟩,
        ⟨Op.mkdir ("temp_" ++ id), none⟩] ++ pre, t, ?_⟩
      rw [hpre]
      simp
    · exact (hnot _ _ h rfl).elim
  | archiveFailed evsA e1 t ef hrun =>
    exfalso
    simp only [List.mem_append, List.mem_cons, List.mem_singleton, List.not_mem_nil,
      or_false] at hmem
    rcases hmem with ((h | h) | h) | h | h
    · exact hnot _ _ h rfl
    · exact hnot _ _ h rfl
    · have := (hA _ _ hrun h).1
      simp at this
    · exact hnot _ _ h rfl
    · exact hnot _ _ h rfl
  | removeFailed evsA e1 t ef hrun =>
    exfalso
    simp only [List.mem_append, List.mem_cons, List.mem_singleton, List.not_mem_nil,
      or_false] at hmem
    rcases hmem with ((h | h) | h) | h | h | h
    · exact hnot _ _ h rfl
    · exact hnot _ _ h rfl
    · have := (hA _ _ hrun h).1
      simp at this
    · exact hnot _ _ h rfl
    · exact hnot _ _ h rfl
    · exact hnot _ _ h rfl
  | finalWriteFailed evsA e1 tc t ef hrun =>
    have := hw ⟨Op.writeFile (id ++ ".json") (completedRecord m0 tc), some e1⟩ (by simp) rfl
    simp at this
  | completed evsA tc hrun =>
    exfalso
    simp only [List.mem_append, List.mem_cons, List.mem_singleton, List.not_mem_nil,
      or_false] at hmem
    rcases hmem with ((h | h) | h) | h | h | h
    · exact hnot _ _ h rfl
    · exact hnot _ _ h rfl
    · have := (hA _ _ hrun h).1
      simp at this
    · exact hnot _ _ h rfl
    · exact hnot _ _ h rfl
    · exact hnot _ _ h rfl


/-- C7, as amended. A producer failure aborts a Database-kind or Config-kind job: in
every run of `createDatabaseBackup` (resp. `createConfigBackup`) in which every
metadata write succeeds, if for one named database both dumps fail, the second with
the message `e` (resp. the copy of one service's configuration fails with `e`), then
that call is the last one before the final write: no producer is invoked for the
remaining names, no archive is built, the runner returns normally and persists status
`failed` with the error `Failed to backup database {db}: {e}` (resp. `e`). -/
theorem named_producer_failure_aborts (env : Env) (w : World) (id : String)
    (databases services : Option (List String)) (description : Option String)
    (db command e : String) :
    ((∀ ev ∈ newEvents w (createDatabaseBackup env id databases description w).2,
        ev.op.isWrite = true → ev.err = none) →
      (⟨Op.exec (mysqlDumpCommand db
          (pathJoin (pathJoin env.backupDir ("temp_" ++ id)) "databases")), some e⟩ : Event) ∈
        newEvents w (createDatabaseBackup env id databases description w).2 →
      (createDatabaseBackup env id databases description w).1 = Res.ok () ∧
        ∃ pre m, newEvents w (createDatabaseBackup env id databases description w).2 =
            pre ++ [⟨Op.exec (mysqlDumpCommand db
                (pathJoin (pathJoin env.backupDir ("temp_" ++ id)) "databases")), some e⟩,
              ⟨Op.writeFile (id ++ ".json") m, none⟩] ∧
          m.status = some "failed" ∧ m.error = some (dumpFailureMessage db e)) ∧
    ((∀ ev ∈ newEvents w (createConfigBackup env id services description w).2,
        ev.op.isWrite = true → ev.err = none) →
      (⟨Op.exec command, some e⟩ : Event) ∈
        newEvents w (createConfigBackup env id services description w).2 →
      (createConfigBackup env id services description w).1 = Res.ok () ∧
        ∃ pre m, newEvents w (createConfigBackup env id services description w).2 =
            pre ++ [⟨Op.exec command, some e⟩, ⟨Op.writeFile (id ++ ".json") m, none⟩] ∧
          m.status = some "failed" ∧ m.error = some e) := by
  constructor
  · intro hw hmem
    have hrun : ∃ t0, JobRun id (databaseRecord id databases description t0)
        (DatabaseProducersRun (pathJoin (pathJoin env.backupDir ("temp_" ++ id)) "databases"))
        (createDatabaseBackup env id databases description w).1
        (newEvents w (createDatabaseBackup env id databases description w).2) := by
      rw [createDatabaseBackup_eq]
      obtain ⟨evs, htr, h⟩ := spec_jobShape env id (databaseRecord id databases description)
        (fun _ => rfl) (databaseProducers env id databases) _
        (spec_databaseProducers env id databases) w
      rw [newEvents_of_trace w _ evs htr]
      exact h
    obtain ⟨t0, hrun⟩ := hrun
    obtain ⟨hr, pre, t, hevs⟩ := jobRun_producer_event id _ _ _ _ hrun hw
      ⟨Op.exec (mysqlDumpCommand db
        (pathJoin (pathJoin env.backupDir ("temp_" ++ id)) "databases")), some e⟩
      (dumpFailureMessage db e) rfl (fun rA evsA hA hx => hA.2 db e hx) hmem
    exact ⟨hr, pre, _, hevs, rfl, rfl⟩
  · intro hw hmem
    have hrun : ∃ t0, JobRun id (configRecord id services description t0) ConfigProducersRun
        (createConfigBackup env id services description w).1
        (newEvents w (createConfigBackup env id services description w).2) := by
      rw [createConfigBackup_eq]
      obtain ⟨evs, htr, h⟩ := spec_jobShape env id (configRecord id services description)
        (fun _ => rfl) (configProducers env id services) _
        (spec_configProducers env id services) w
      rw [newEvents_of_trace w _ evs htr]
      exact h
    obtain ⟨t0, hrun⟩ := hrun
    obtain ⟨hr, pre, t, hevs⟩ := jobRun_producer_event id _ _ _ _ hrun hw
      ⟨Op.exec command, some e⟩ e rfl (fun rA evsA hA hx => hA.2 command e hx) hmem
    exact ⟨hr, pre, _, hevs, rfl, rfl⟩

set_option maxRecDepth 100000 in
/-- Witness of C7 as amended: a backup of the databases `shop` and `blog` in which
both dumps of `shop` fail, and a backup of the configurations of `nginx` and `bind`
in which the copy of `/etc/nginx` fails. -/
theorem named_producer_failure_aborts_witness :
    ((createDatabaseBackup dumpFailureEnv "job1" (some ["shop", "blog"]) none ⟨[], []⟩).1 =
        Res.ok () ∧
      ∃ pre m, newEvents ⟨[], []⟩
          (createDatabaseBackup dumpFailureEnv "job1" (some ["shop", "blog"]) none ⟨[], []⟩).2 =
          pre ++ [⟨Op.exec (mysqlDumpCommand "shop"
              (pathJoin (pathJoin dumpFailureEnv.backupDir ("temp_" ++ "job1")) "databases")),
                some "access denied"⟩,
            ⟨Op.writeFile ("job1" ++ ".json") m, none⟩] ∧
        m.status = some "failed" ∧
        m.error = some (dumpFailureMessage "shop" "access denied")) ∧
    ((createConfigBackup nginxCopyFailureEnv "job1" (some ["nginx", "bind"]) none ⟨[], []⟩).1 =
        Res.ok () ∧
      ∃ pre m, newEvents ⟨[], []⟩
          (createConfigBackup nginxCopyFailureEnv "job1" (some ["nginx", "bind"]) none
            ⟨[], []⟩).2 =
          pre ++ [⟨Op.exec "cp -r /etc/nginx /var/backups/buddybox/temp_job1/configs/nginx",
              some "cp: cannot open"⟩,
            ⟨Op.writeFile ("job1" ++ ".json") m, none⟩] ∧
        m.status = some "failed" ∧ m.error = some "cp: cannot open") :=
  ⟨(named_producer_failure_aborts dumpFailureEnv ⟨[], []⟩ "job1" (some ["shop", "blog"]) none
      none "shop" "" "access denied").1 (by decide!) (by decide!),
    (named_producer_failure_aborts nginxCopyFailureEnv ⟨[], []⟩ "job1" none
      (some ["nginx", "bind"]) none ""
      "cp -r /etc/nginx /var/backups/buddybox/temp_job1/configs/nginx" "cp: cannot open").2
      (by decide!) (by decide!)⟩

set_option maxRecDepth 100000 in
/-- Counterexample to C7 as stated: in a backup of the databases `shop` and `blog` in
which both dumps of `shop` fail and every other call succeeds, no dump of `blog` is
attempted, no archive is built, and the job persists `failed`, not `completed`. -/
theorem database_backup_aborted :
    (∀ ev ∈ newEvents ⟨[], []⟩
        (createDatabaseBackup dumpFailureEnv "job1" (some ["shop", "blog"]) none ⟨[], []⟩).2,
      ev.op ≠ Op.exec (pgDumpCommand "blog" "/var/backups/buddybox/temp_job1/databases") ∧
      ev.op ≠ Op.exec (mysqlDumpCommand "blog" "/var/backups/buddybox/temp_job1/databases") ∧
      ev.op ≠ Op.archive "temp_job1" "job1.tar.gz") ∧
    (persistedAt "job1.json" (newEvents ⟨[], []⟩
        (createDatabaseBackup dumpFailureEnv "job1" (some ["shop", "blog"]) none ⟨[], []⟩).2)).map
          (fun m => (m.status, m.error)) =
      [(some "in_progress", none),
        (some "failed", some "Failed to backup database shop: access denied")] := by
  constructor <;> decide!


/-! ## Requests with malformed options -/

theorem postConfig_run (env : Env) (uuid : String) (request : ConfigRequest) (w : World) :
    postConfig env uuid (some request) w =
      (Res.ok ⟨200, true, some uuid, some "Configuration backup started", none⟩,
        (createConfigBackup env uuid request.services request.description w).2) := by
  unfold postConfig
  simp only [tryCatch, bind_run, pure_run]
  rcases createConfigBackup env uuid request.services request.description w with ⟨r, w1⟩
  cases r <;> rfl

theorem postDatabase_run (env : Env) (uuid : String) (request : DatabaseRequest) (w : World) :
    postDatabase env uuid (some request) w =
      (Res.ok ⟨200, true, some uuid, some "Database backup started", none⟩,
        (createDatabaseBackup env uuid request.databases request.description w).2) := by
  unfold postDatabase
  simp only [tryCatch, bind_run, pure_run]
  rcases createDatabaseBackup env uuid request.databases request.description w with ⟨r, w1⟩
  cases r <;> rfl

theorem jobRun_starts_with_write (id : String) (m0 : Metadata)
    (A : Res Unit → List Event → Prop) (r : Res Unit) (evs : List Event)
    (h : JobRun id m0 A r evs) :
    ∃ err rest, evs = ⟨Op.writeFile (id ++ ".json") m0, err⟩ :: rest := by
  cases h <;> exact ⟨_, _, rfl⟩

theorem jobRun_failed_of_throwing (id : String) (m0 : Metadata) (r : Res Unit)
    (evs : List Event) (h : JobRun id m0 ThrowingProducersRun r evs)
    (hw : ∀ ev ∈ evs, ev.op.isWrite = true → ev.err = none) :
    ∃ e t, (persistedAt (id ++ ".json") evs).getLast? = some (failedRecord m0 e t) := by
  cases h with
  | initialWriteFailed e0 t ef =>
    have := hw ⟨Op.writeFile (id ++ ".json") m0, some e0⟩ (by simp) rfl
    simp at this
  | mkdirFailed e1 t ef =>
    have hef := hw ⟨Op.writeFile (id ++ ".json") (failedRecord m0 e1 t), ef⟩ (by simp) rfl
    simp only at hef
    subst hef
    exact ⟨e1, t, by simp [persistedAt]⟩
  | producerFailed evsA e1 t ef hA =>
    have hef := hw ⟨Op.writeFile (id ++ ".json") (failedRecord m0 e1 t), ef⟩ (by simp) rfl
    simp only at hef
    subst hef
    have hA0 := persistedAt_of_onlyAux (id ++ ".json") _ _ hA.1
    refine ⟨e1, t, ?_⟩
    simp only [persistedAt_append, hA0]
    simp [persistedAt]
  | archiveFailed evsA e1 t ef hA =>
    obtain ⟨e, he⟩ := hA.2
    simp at he
  | removeFailed evsA e1 t ef hA =>
    obtain ⟨e, he⟩ := hA.2
    simp at he
  | finalWriteFailed evsA e1 tc t ef hA =>
    obtain ⟨e, he⟩ := hA.2
    simp at he
  | completed evsA tc hA =>
    obtain ⟨e, he⟩ := hA.2
    simp at he

theorem jobRun_completed_of_idle (id : String) (m0 : Metadata) (r : Res Unit)
    (evs : List Event) (h : JobRun id m0 IdleProducersRun r evs)
    (hok : ∀ ev ∈ evs, ev.err = none) :
    ∃ t, (persistedAt (id ++ ".json") evs).getLast? = some (completedRecord m0 t) := by
  cases h with
  | initialWriteFailed e0 t ef =>
    have := hok ⟨Op.writeFile (id ++ ".json") m0, some e0⟩ (by simp)
    simp at this
  | mkdirFailed e1 t ef =>
    have := hok ⟨Op.mkdir ("temp_" ++ id), some e1⟩ (by simp)
    simp at this
  | producerFailed evsA e1 t ef hA =>
    have := hA.1
    simp at this
  | archiveFailed evsA e1 t ef hA =>
    have := hok ⟨Op.archive ("temp_" ++ id) (id ++ ".tar.gz"), some e1⟩ (by simp)
    simp at this
  | removeFailed evsA e1 t ef hA =>
    have := hok ⟨Op.rm ("temp_" ++ id), some e1⟩ (by simp)
    simp at this
  | finalWriteFailed evsA e1 tc t ef hA =>
    have := hok ⟨Op.writeFile (id ++ ".json") (completedRecord m0 tc), some e1⟩ (by simp)
    simp at this
  | completed evsA tc hA =>
    obtain ⟨-, rfl⟩ := hA
    exact ⟨tc, by simp [persistedAt]⟩

theorem forOf_error_of_mem {α : Type} (body : α → M Unit) (Q : Event → Prop)
    (hbody : ∀ a, Emits Q (body a)) (s : α)
    (hs : ∀ w, ∃ e, (body s w).1 = Res.error e) :
    ∀ l : List α, s ∈ l →
      Spec (forOf body l) (fun r evs => (∀ ev ∈ evs, Q ev) ∧ ∃ e, r = Res.error e) := by
  intro l hmem
  refine (emits_forOf Q body hbody l).and ?_
  induction l with
  | nil => simp at hmem
  | cons a rest ih =>
    intro w
    obtain ⟨evs1, htr1, -⟩ := hbody a w
    unfold forOf
    simp only [bind_run]
    rcases hxw : body a w with ⟨r1, w1⟩
    rw [hxw] at htr1
    cases r1 with
    | error e => exact ⟨evs1, htr1, e, rfl⟩
    | ok u =>
      rcases List.mem_cons.1 hmem with rfl | hrest
      · obtain ⟨e, he⟩ := hs w
        rw [hxw] at he
        simp at he
      · obtain ⟨evs2, htr2, h2⟩ := ih hrest w1
        refine ⟨evs1 ++ evs2, ?_, h2⟩
        simp only at htr1 ⊢
        rw [htr2, htr1, List.append_assoc]

theorem spec_configProducers_of_unknown (env : Env) (id : String) (svs : List String)
    (s : String) (hs : s ∈ svs) (hunknown : UnknownService s) :
    Spec (configProducers env id (some svs)) ThrowingProducersRun := by
  unfold configProducers
  exact forOf_error_of_mem _ (fun ev => ev.op.isAux = true)
    (fun _ => emits_backupServiceConfig _ (fun _ h => h) env _ _) s
    (by
      intro w
      unfold backupServiceConfig
      rw [hunknown.1]
      simp only [if_neg hunknown.2]
      exact ⟨_, rfl⟩) svs hs

theorem spec_databaseProducers_of_empty (env : Env) (id : String) :
    Spec (databaseProducers env id (some [])) IdleProducersRun := by
  unfold databaseProducers forOf
  exact spec_pure ()


theorem lookup_of_inherited : ∀ s ∈ inheritedKeys, configMap.lookup s = none := by decide

theorem backupServiceConfig_of_inherited (env : Env) (s tempDir : String)
    (hs : s ∈ inheritedKeys) : backupServiceConfig env s tempDir = pure () := by
  unfold backupServiceConfig
  rw [lookup_of_inherited s hs]
  simp only [if_pos hs]

theorem spec_configProducers_of_inherited (env : Env) (id : String) (svs : List String)
    (hsvs : ∀ s ∈ svs, s ∈ inheritedKeys) :
    Spec (configProducers env id (some svs)) IdleProducersRun := by
  unfold configProducers
  simp only
  induction svs with
  | nil =>
    unfold forOf
    exact spec_pure ()
  | cons s rest ih =>
    unfold forOf
    rw [backupServiceConfig_of_inherited env s _ (hsvs s (List.mem_cons_self _ _))]
    intro w
    exact ih (fun s hs => hsvs s (List.mem_cons_of_mem _ hs)) w

/-- C8, as amended. No validation of kind-specific options: every Config or Database
create request with a body, also one whose services list contains a name outside the
known-service set or whose databases list is empty, is answered with HTTP 200,
`success: true` and the job id, and the job is started: its first call writes the
record `{id}.json` with status `in_progress`. A Config job that names a service for
which `configMap[name]` is `undefined` (a name that is no property of `configMap`, own
or inherited, such as `not-a-real-service`) then ends with status `failed` when the
metadata writes succeed; a Config job all of whose names are inherited from
`Object.prototype` (such as `constructor`), for which `configMap[name]` is a truthy
value, and a Database job with an empty list end with status `completed` when no call
fails. -/
theorem options_are_not_validated (env : Env) (w : World) (uuid : String)
    (config : ConfigRequest) (database : DatabaseRequest) :
    ((postConfig env uuid (some config) w).1 =
        Res.ok ⟨200, true, some uuid, some "Configuration backup started", none⟩ ∧
      (∃ m err rest, newEvents w (postConfig env uuid (some config) w).2 =
          ⟨Op.writeFile (uuid ++ ".json") m, err⟩ :: rest ∧
        m.id = some uuid ∧ m.status = some "in_progress") ∧
      (∀ svs s, config.services = some svs → s ∈ svs → UnknownService s →
        (∀ ev ∈ newEvents w (postConfig env uuid (some config) w).2,
          ev.op.isWrite = true → ev.err = none) →
        ∃ m, (persistedAt (uuid ++ ".json")
            (newEvents w (postConfig env uuid (some config) w).2)).getLast? = some m ∧
          m.status = some "failed") ∧
      (∀ svs, config.services = some svs → (∀ s ∈ svs, s ∈ inheritedKeys) →
        (∀ ev ∈ newEvents w (postConfig env uuid (some config) w).2, ev.err = none) →
        ∃ m, (persistedAt (uuid ++ ".json")
            (newEvents w (postConfig env uuid (some config) w).2)).getLast? = some m ∧
          m.status = some "completed")) ∧
    ((postDatabase env uuid (some database) w).1 =
        Res.ok ⟨200, true, some uuid, some "Database backup started", none⟩ ∧
      (∃ m err rest, newEvents w (postDatabase env uuid (some database) w).2 =
          ⟨Op.writeFile (uuid ++ ".json") m, err⟩ :: rest ∧
        m.id = some uuid ∧ m.status = some "in_progress") ∧
      (database.databases = some [] →
        (∀ ev ∈ newEvents w (postDatabase env uuid (some database) w).2, ev.err = none) →
        ∃ m, (persistedAt (uuid ++ ".json")
            (newEvents w (postDatabase env uuid (some database) w).2)).getLast? = some m ∧
          m.status = some "completed")) := by
  rw [postConfig_run, postDatabase_run]
  simp only
  refine ⟨⟨trivial, ?_, ?_, ?_⟩, ⟨trivial, ?_, ?_⟩⟩
  · obtain ⟨t0, h⟩ := createConfigBackup_jobRun env w uuid config.services config.description
    obtain ⟨err, rest, hevs⟩ := jobRun_starts_with_write _ _ _ _ _ h
    exact ⟨_, err, rest, hevs, rfl, rfl⟩
  · intro svs s hsvs hs hunknown hw
    rw [hsvs] at hw ⊢
    have hrun : ∃ t0, JobRun uuid (configRecord uuid (some svs) config.description t0)
        ThrowingProducersRun
        (createConfigBackup env uuid (some svs) config.description w).1
        (newEvents w (createConfigBackup env uuid (some svs) config.description w).2) := by
      rw [createConfigBackup_eq]
      obtain ⟨evs, htr, h⟩ := spec_jobShape env uuid
        (configRecord uuid (some svs) config.description) (fun _ => rfl)
        (configProducers env uuid (some svs)) _
        (spec_configProducers_of_unknown env uuid svs s hs hunknown) w
      rw [newEvents_of_trace w _ evs htr]
      exact h
    obtain ⟨t0, hrun⟩ := hrun
    obtain ⟨e, t, hlast⟩ := jobRun_failed_of_throwing _ _ _ _ hrun hw
    exact ⟨_, hlast, rfl⟩
  · intro svs hsvs hinherited hok
    rw [hsvs] at hok ⊢
    have hrun : ∃ t0, JobRun uuid (configRecord uuid (some svs) config.description t0)
        IdleProducersRun
        (createConfigBackup env uuid (some svs) config.description w).1
        (newEvents w (createConfigBackup env uuid (some svs) config.description w).2) := by
      rw [createConfigBackup_eq]
      obtain ⟨evs, htr, h⟩ := spec_jobShape env uuid
        (configRecord uuid (some svs) config.description) (fun _ => rfl)
        (configProducers env uuid (some svs)) _
        (spec_configProducers_of_inherited env uuid svs hinherited) w
      rw [newEvents_of_trace w _ evs htr]
      exact h
    obtain ⟨t0, hrun⟩ := hrun
    obtain ⟨t, hlast⟩ := jobRun_completed_of_idle _ _ _ _ hrun hok
    exact ⟨_, hlast, rfl⟩
  · obtain ⟨t0, h⟩ := createDatabaseBackup_jobRun env w uuid database.databases
      database.description
    obtain ⟨err, rest, hevs⟩ := jobRun_starts_with_write _ _ _ _ _ h
    exact ⟨_, err, rest, hevs, rfl, rfl⟩
  · intro hdbs hok
    rw [hdbs] at hok ⊢
    have hrun : ∃ t0, JobRun uuid (databaseRecord uuid (some []) database.description t0)
        IdleProducersRun
        (createDatabaseBackup env uuid (some []) database.description w).1
        (newEvents w (createDatabaseBackup env uuid (some []) database.description w).2) := by
      rw [createDatabaseBackup_eq]
      obtain ⟨evs, htr, h⟩ := spec_jobShape env uuid
        (databaseRecord uuid (some []) database.description) (fun _ => rfl)
        (databaseProducers env uuid (some [])) _
        (spec_databaseProducers_of_empty env uuid) w
      rw [newEvents_of_trace w _ evs htr]
      exact h
    obtain ⟨t0, hrun⟩ := hrun
    obtain ⟨t, hlast⟩ := jobRun_completed_of_idle _ _ _ _ hrun hok
    exact ⟨_, hlast, rfl⟩

set_option maxRecDepth 100000 in
/-- Witness of C8 as amended: a Config request for the single unknown service
`not-a-real-service`, a Config request for the single inherited name `constructor` and
a Database request with an empty list, when no call fails. -/
theorem options_are_not_validated_witness :
    (∃ m, (persistedAt ("job1" ++ ".json") (newEvents ⟨[], []⟩
        (postConfig calmEnv "job1" (some ⟨some ["not-a-real-service"], some ""⟩)
          ⟨[], []⟩).2)).getLast? = some m ∧
      m.status = some "failed") ∧
    (∃ m, (persistedAt ("job1" ++ ".json") (newEvents ⟨[], []⟩
        (postConfig calmEnv "job1" (some ⟨some ["constructor"], some ""⟩)
          ⟨[], []⟩).2)).getLast? = some m ∧
      m.status = some "completed") ∧
    (∃ m, (persistedAt ("job1" ++ ".json") (newEvents ⟨[], []⟩
        (postDatabase calmEnv "job1" (some ⟨some [], none⟩) ⟨[], []⟩).2)).getLast? = some m ∧
      m.status = some "completed") :=
  ⟨(options_are_not_validated calmEnv ⟨[], []⟩ "job1"
      ⟨some ["not-a-real-service"], some ""⟩ ⟨none, none⟩).1.2.2.1
      ["not-a-real-service"] "not-a-real-service" rfl (by decide)
      (by unfold UnknownService; decide) (by decide!),
    (options_are_not_validated calmEnv ⟨[], []⟩ "job1"
      ⟨some ["constructor"], some ""⟩ ⟨none, none⟩).1.2.2.2
      ["constructor"] rfl (by decide) (by decide!),
    (options_are_not_validated calmEnv ⟨[], []⟩ "job1"
      ⟨none, none⟩ ⟨some [], none⟩).2.2.2 rfl (by decide!)⟩

set_option maxRecDepth 100000 in
/-- Counterexample to C8 as stated: the request `create(Config,
{services: ["not-a-real-service"]}, "")` is answered with HTTP 200 and the job id
`job1`, and the record `job1.json` is created, ending with status `failed` and the
error `Unknown service: not-a-real-service`; a Database request with an empty list is
answered with HTTP 200 and the job id `job2`, and its record ends `completed`. -/
theorem malformed_options_accepted :
    (postConfig calmEnv "job1" (some ⟨some ["not-a-real-service"], some ""⟩) ⟨[], []⟩).1 =
        Res.ok ⟨200, true, some "job1", some "Configuration backup started", none⟩ ∧
    (recordAt (postConfig calmEnv "job1" (some ⟨some ["not-a-real-service"], some ""⟩)
        ⟨[], []⟩).2.fs "job1.json").map (fun m => (m.status, m.error)) =
      some (some "failed", some "Unknown service: not-a-real-service") ∧
    (postDatabase calmEnv "job2" (some ⟨some [], none⟩) ⟨[], []⟩).1 =
        Res.ok ⟨200, true, some "job2", some "Database backup started", none⟩ ∧
    (recordAt (postDatabase calmEnv "job2" (some ⟨some [], none⟩) ⟨[], []⟩).2.fs
        "job2.json").map (fun m => (m.status, m.error)) =
      some (some "completed", none) := by
  refine ⟨?_, ?_, ?_, ?_⟩ <;> decide!

set_option maxRecDepth 100000 in
/-- A name that `configMap` inherits from `Object.prototype` is not unknown to the code:
for the service `constructor` the value `configMap[serviceName]` is a function, nothing
is thrown, nothing is copied, and the job ends with status `completed`. -/
theorem inherited_service_name_is_skipped :
    ¬ UnknownService "constructor" ∧
    (recordAt (postConfig calmEnv "job1" (some ⟨some ["constructor"], some ""⟩)
        ⟨[], []⟩).2.fs "job1.json").map (fun m => (m.status, m.error)) =
      some (some "completed", none) ∧
    ∀ ev ∈ newEvents ⟨[], []⟩
        (postConfig calmEnv "job1" (some ⟨some ["constructor"], some ""⟩) ⟨[], []⟩).2,
      ev.op.isAux = false :=
  ⟨by unfold UnknownService; decide, by decide!, by decide!⟩

/-! ## The metadata store and its request handlers -/

theorem readJson_of_missing (env : Env) (name : String) (w : World)
    (h : w.fs.find name = none) : ∃ e w1, readJson env name w = (Res.error e, w1) ∧ w1.fs = w.fs := by
  unfold readJson perform
  split
  · exact ⟨_, _, rfl, rfl⟩
  · simp only [h]
    exact ⟨_, _, rfl, rfl⟩

theorem readJson_of_record (env : Env) (name : String) (w : World) (m : Metadata)
    (h : recordAt w.fs name = some m)
    (hfault : env.fault w.trace.length (Op.readFile name) = none) :
    ∃ w1, readJson env name w = (Res.ok m, w1) ∧ w1.fs = w.fs := by
  unfold recordAt at h
  unfold readJson perform
  simp only [hfault]
  split at h
  · next m1 size hfind =>
    simp only [Option.some.injEq] at h
    subst h
    simp only [hfind]
    exact ⟨_, rfl, rfl⟩
  · simp at h

theorem getBackupStatus_of_missing (env : Env) (id : String) (w : World)
    (h : w.fs.find (id ++ ".json") = none) :
    (getBackupStatus env id w).1 = Res.error "Backup not found" := by
  obtain ⟨e, w1, hread, -⟩ := readJson_of_missing env _ w h
  simp [getBackupStatus, tryCatch, hread, raise]

theorem getBackupStatus_of_record (env : Env) (id : String) (w : World) (m : Metadata)
    (h : recordAt w.fs (id ++ ".json") = some m)
    (hfault : env.fault w.trace.length (Op.readFile (id ++ ".json")) = none) :
    (getBackupStatus env id w).1 = Res.ok m := by
  obtain ⟨w1, hread, -⟩ := readJson_of_record env _ w m h hfault
  simp [getBackupStatus, tryCatch, hread]

theorem getBackupStatus_cases (env : Env) (id : String) (w : World) :
    (∃ m, (getBackupStatus env id w).1 = Res.ok m) ∨
      (getBackupStatus env id w).1 = Res.error "Backup not found" := by
  unfold getBackupStatus
  simp only [tryCatch, bind_run]
  rcases readJson env (id ++ ".json") w with ⟨r, w1⟩
  cases r with
  | ok m => exact Or.inl ⟨m, rfl⟩
  | error e => exact Or.inr rfl

theorem getStatus_eq (env : Env) (id : String) (w : World) :
    (getStatus env id w).1 =
      match (getBackupStatus env id w).1 with
      | Res.ok m => Res.ok ⟨200, true, some m, none⟩
      | Res.error e => Res.ok ⟨500, false, none, some e⟩ := by
  unfold getStatus
  simp only [tryCatch, bind_run]
  rcases getBackupStatus env id w with ⟨r, w1⟩
  cases r <;> rfl

theorem getDownload_of_missing (env : Env) (id : String) (w : World)
    (h : w.fs.find (id ++ ".tar.gz") = none) :
    (getDownload env id w).1 = Res.ok (DownloadResponse.json 404 false "Backup not found") := by
  obtain ⟨b, w1, hex, -, hb⟩ := fileExists_run env (id ++ ".tar.gz") w
  have hb : b = false := by
    cases b
    · rfl
    · simpa [h] using hb rfl
  subst hb
  simp [getDownload, getBackupPath, tryCatch, hex]

/-- C12. The status of an unknown job: whichever calls fail, the handler of
`GET /status/:backupId` never answers 404. For an id whose file `{id}.json` does not
exist it answers 500 with the body `{success: false, error: 'Backup not found'}`,
whereas the handler of `GET /download/:backupId` answers 404 with the same error for an
id whose archive does not exist. For an id whose file holds a record that can be read
it answers 200 with `{success: true, status: <that record>}`. -/
theorem status_of_unknown_job (env : Env) (id : String) (w : World) :
    (∃ r, (getStatus env id w).1 = Res.ok r ∧ r.httpStatus ≠ 404) ∧
    (w.fs.find (id ++ ".json") = none →
      (getStatus env id w).1 = Res.ok ⟨500, false, none, some "Backup not found"⟩) ∧
    (w.fs.find (id ++ ".tar.gz") = none →
      (getDownload env id w).1 =
        Res.ok (DownloadResponse.json 404 false "Backup not found")) ∧
    (∀ m, recordAt w.fs (id ++ ".json") = some m →
      env.fault w.trace.length (Op.readFile (id ++ ".json")) = none →
      (getStatus env id w).1 = Res.ok ⟨200, true, some m, none⟩) := by
  refine ⟨?_, ?_, getDownload_of_missing env id w, ?_⟩
  · rw [getStatus_eq]
    rcases getBackupStatus_cases env id w with ⟨m, h⟩ | h <;> rw [h] <;>
      exact ⟨_, rfl, by simp⟩
  · intro h
    rw [getStatus_eq, getBackupStatus_of_missing env id w h]
  · intro m h hfault
    rw [getStatus_eq, getBackupStatus_of_record env id w m h hfault]

theorem fileExists_spec (env : Env) (name : String) (w : World) :
    ∃ err, fileExists env name w =
        (Res.ok err.isNone, { w with trace := w.trace ++ [⟨Op.access name, err⟩] }) ∧
      (err = none ↔
        env.fault w.trace.length (Op.access name) = none ∧ (w.fs.find name).isSome = true) := by
  unfold fileExists access perform
  simp only [tryCatch, bind_run]
  rcases hf : env.fault w.trace.length (Op.access name) with _ | e
  · by_cases hfind : (w.fs.find name).isSome = true
    · exact ⟨none, by simp [hfind], by simp [hfind]⟩
    · exact ⟨some "ENOENT: no such file or directory", by simp [hfind], by simp [hfind]⟩
  · exact ⟨some e, by simp, by simp⟩

theorem getDownload_spec (env : Env) (id : String) (w : World) :
    (getDownload env id w).2.fs = w.fs ∧
    (∀ ev ∈ newEvents w (getDownload env id w).2, ev.op = Op.access (id ++ ".tar.gz")) ∧
    ((getDownload env id w).1 = Res.ok (DownloadResponse.json 404 false "Backup not found") ∨
      ((w.fs.find (id ++ ".tar.gz")).isSome = true ∧
      (getDownload env id w).1 =
        Res.ok (DownloadResponse.download (pathJoin env.backupDir (id ++ ".tar.gz"))
          ("backup-" ++ id ++ ".tar.gz")))) ∧
    ((∀ n, env.fault n (Op.access (id ++ ".tar.gz")) = none) →
      (w.fs.find (id ++ ".tar.gz")).isSome = true →
      (getDownload env id w).1 =
        Res.ok (DownloadResponse.download (pathJoin env.backupDir (id ++ ".tar.gz"))
          ("backup-" ++ id ++ ".tar.gz"))) := by
  obtain ⟨err1, h1, hiff1⟩ := fileExists_spec env (id ++ ".tar.gz") w
  obtain ⟨err2, h2, hiff2⟩ := fileExists_spec env (id ++ ".tar.gz")
    { w with trace := w.trace ++ [⟨Op.access (id ++ ".tar.gz"), err1⟩] }
  cases err1 with
  | some e1 =>
    have hrun : getDownload env id w =
        (Res.ok (DownloadResponse.json 404 false "Backup not found"),
          { w with trace := w.trace ++ [⟨Op.access (id ++ ".tar.gz"), some e1⟩] }) := by
      simp [getDownload, getBackupPath, tryCatch, h1]
    rw [hrun]
    refine ⟨rfl, ?_, Or.inl rfl, ?_⟩
    · simp [newEvents]
    · intro hno hfind
      have := hiff1.2 ⟨hno _, hfind⟩
      simp at this
  | none =>
    have hfind := (hiff1.1 rfl).2
    cases err2 with
    | some e2 =>
      have hrun : getDownload env id w =
          (Res.ok (DownloadResponse.json 404 false "Backup not found"),
            { w with trace := w.trace ++ [⟨Op.access (id ++ ".tar.gz"), none⟩] ++
              [⟨Op.access (id ++ ".tar.gz"), some e2⟩] }) := by
        simp [getDownload, getBackupPath, tryCatch, h1, h2]
      rw [hrun]
      refine ⟨rfl, ?_, Or.inl rfl, ?_⟩
      · simp [newEvents]
      · intro hno _
        have := hiff2.2 ⟨hno _, hfind⟩
        simp at this
    | none =>
      have hrun : getDownload env id w =
          (Res.ok (DownloadResponse.download (pathJoin env.backupDir (id ++ ".tar.gz"))
            ("backup-" ++ id ++ ".tar.gz")),
            { w with trace := w.trace ++ [⟨Op.access (id ++ ".tar.gz"), none⟩] ++
              [⟨Op.access (id ++ ".tar.gz"), none⟩] }) := by
        simp [getDownload, getBackupPath, tryCatch, h1, h2]
      rw [hrun]
      refine ⟨rfl, ?_, Or.inr ⟨hfind, rfl⟩, fun _ _ => rfl⟩
      simp [newEvents]

theorem unlink_cases (env : Env) (name : String) (w : World) :
    (∃ w1, unlink env name w = (Res.ok (), w1) ∧ w1.fs = w.fs.remove name) ∨
    (∃ e w1, unlink env name w = (Res.error e, w1) ∧ w1.fs = w.fs ∧
      (env.fault w.trace.length (Op.unlink name) ≠ none ∨
        ∀ json size, w.fs.find name ≠ some (Node.file json size))) := by
  unfold unlink perform
  split
  · next e hf => exact Or.inr ⟨_, _, rfl, rfl, Or.inl (by simp [hf])⟩
  · split
    · next a d hact =>
      simp only at hact
      split at hact
      · simp only [Res.ok.injEq, Prod.mk.injEq] at hact
        exact Or.inl ⟨_, rfl, hact.2.symm⟩
      · simp at hact
      · simp at hact
    · next e hact =>
      refine Or.inr ⟨_, _, rfl, rfl, Or.inr ?_⟩
      intro json size hfind
      simp [hfind] at hact

theorem deleteIfExists_cases (env : Env) (name : String) (w : World) :
    ∃ b w1 r w2, fileExists env name w = (Res.ok b, w1) ∧
      (if b = true then unlink env name else pure ()) w1 = (r, w2) ∧
      ((r = Res.ok () ∧ w2.fs = w.fs.remove name) ∨
       (r = Res.ok () ∧ w2.fs = w.fs ∧ env.fault w.trace.length (Op.access name) ≠ none) ∨
       (∃ e, r = Res.error e ∧ w2.fs = w.fs ∧ (w.fs.find name).isSome = true ∧
          (env.fault (w.trace.length + 1) (Op.unlink name) ≠ none ∨
            ∀ json size, w.fs.find name ≠ some (Node.file json size)))) := by
  obtain ⟨err, hex, hiff⟩ := fileExists_spec env name w
  cases err with
  | some e =>
    refine ⟨false, _, Res.ok (), _, hex, rfl, ?_⟩
    by_cases hf : env.fault w.trace.length (Op.access name) = none
    · have hnone : w.fs.find name = none := by
        by_contra hc
        have := hiff.2 ⟨hf, by
          cases h : w.fs.find name with
          | none => exact absurd h hc
          | some x => rfl⟩
        simp at this
      exact Or.inl ⟨rfl, (remove_of_find_none _ _ hnone).symm⟩
    · exact Or.inr (Or.inl ⟨rfl, rfl, hf⟩)
  | none =>
    have hsome := (hiff.1 rfl).2
    rcases unlink_cases env name { w with trace := w.trace ++ [⟨Op.access name, none⟩] } with
      ⟨w2, hun, hfs⟩ | ⟨e, w2, hun, hfs, hwhy⟩
    · exact ⟨true, _, Res.ok (), w2, hex, by simpa using hun, Or.inl ⟨rfl, hfs⟩⟩
    · refine ⟨true, _, Res.error e, w2, hex, by simpa using hun, Or.inr (Or.inr ⟨e, rfl, hfs, hsome, ?_⟩)⟩
      simpa using hwhy

theorem deleteBackup_run (env : Env) (id : String) (w : World) :
    ∃ r w1, deleteBackup env id w = (r, w1) ∧
      (∀ n, n ≠ id ++ ".tar.gz" → n ≠ id ++ ".json" → w1.fs.find n = w.fs.find n) ∧
      (w.fs.find (id ++ ".tar.gz") = none → w.fs.find (id ++ ".json") = none →
        r = Res.ok () ∧ w1.fs = w.fs) ∧
      ((∀ n name, env.fault n (Op.access name) = none) → r = Res.ok () →
        w1.fs = (w.fs.remove (id ++ ".tar.gz")).remove (id ++ ".json")) ∧
      ((∀ n name, env.fault n (Op.unlink name) = none) →
        (∀ name ∈ [id ++ ".tar.gz", id ++ ".json"], w.fs.find name ≠ some Node.dir) →
        r = Res.ok ()) := by
  obtain ⟨b1, w1, r1, w2, h1, h2, hc1⟩ := deleteIfExists_cases env (id ++ ".tar.gz") w
  cases r1 with
  | error e1 =>
    refine ⟨Res.error ("Failed to delete backup: " ++ e1), w2, ?_, ?_, ?_, ?_, ?_⟩
    · simp [deleteBackup, tryCatch, h1, h2, raise]
    all_goals
      rcases hc1 with ⟨hr, _⟩ | ⟨hr, _⟩ | ⟨e, hr, hfs, hsome, hwhy⟩
      · simp at hr
      · simp at hr
    · intro n _ _
      rw [hfs]
    · intro hnone
      simp [hnone] at hsome
    · intro _ hr
      simp at hr
    · intro hun hdir
      exfalso
      rcases hwhy with hf | hnf
      · exact hf (hun _ _)
      · have := hdir (id ++ ".tar.gz") (by simp)
        cases hfind : w.fs.find (id ++ ".tar.gz") with
        | none => simp [hfind] at hsome
        | some node =>
          cases node with
          | dir => exact this hfind
          | file json size => exact hnf json size hfind
  | ok u =>
    obtain ⟨b2, w3, r2, w4, h3, h4, hc2⟩ := deleteIfExists_cases env (id ++ ".json") w2
    have hfs2 : w2.fs = w.fs.remove (id ++ ".tar.gz") ∨
        (w2.fs = w.fs ∧ env.fault w.trace.length (Op.access (id ++ ".tar.gz")) ≠ none) := by
      rcases hc1 with ⟨_, h⟩ | ⟨_, h, hf⟩ | ⟨e, hr, _⟩
      · exact Or.inl h
      · exact Or.inr ⟨h, hf⟩
      · simp at hr
    have hframe2 : ∀ n, n ≠ id ++ ".tar.gz" → w2.fs.find n = w.fs.find n := by
      intro n hn
      rcases hfs2 with h | ⟨h, _⟩
      · rw [h, find_remove, if_neg hn]
      · rw [h]
    have hframe4 : ∀ n, n ≠ id ++ ".json" → w4.fs.find n = w2.fs.find n := by
      intro n hn
      rcases hc2 with ⟨_, h⟩ | ⟨_, h, _⟩ | ⟨e, _, h, _⟩
      · rw [h, find_remove, if_neg hn]
      · rw [h]
      · rw [h]
    have hrun : deleteBackup env id w =
        (match r2 with
          | Res.ok a => Res.ok a
          | Res.error e => Res.error ("Failed to delete backup: " ++ e), w4) := by
      cases r2 <;> simp [deleteBackup, tryCatch, h1, h2, h3, h4, raise]
    refine ⟨_, w4, hrun, ?_, ?_, ?_, ?_⟩
    · intro n hn1 hn2
      rw [hframe4 n hn2, hframe2 n hn1]
    · intro hnone1 hnone2
      have hw2 : w2.fs = w.fs := by
        rcases hfs2 with h | ⟨h, _⟩
        · rw [h, remove_of_find_none _ _ hnone1]
        · exact h
      have hnone2' : w2.fs.find (id ++ ".json") = none := by rw [hw2]; exact hnone2
      rcases hc2 with ⟨hr, h⟩ | ⟨hr, h, _⟩ | ⟨e, _, _, hsome, _⟩
      · subst hr
        exact ⟨rfl, by rw [h, remove_of_find_none _ _ hnone2', hw2]⟩
      · subst hr
        exact ⟨rfl, by rw [h, hw2]⟩
      · simp [hnone2'] at hsome
    · intro hprobe hr
      have hw2 : w2.fs = w.fs.remove (id ++ ".tar.gz") := by
        rcases hfs2 with h | ⟨_, hf⟩
        · exact h
        · exact absurd (hprobe _ _) hf
      rcases hc2 with ⟨_, h⟩ | ⟨_, _, hf⟩ | ⟨e, hr2, _⟩
      · rw [h, hw2]
      · exact absurd (hprobe _ _) hf
      · subst hr2
        simp at hr
    · intro hun hdir
      rcases hc2 with ⟨hr, _⟩ | ⟨hr, _⟩ | ⟨e, hr2, _, hsome, hwhy⟩
      · subst hr; rfl
      · subst hr; rfl
      · exfalso
        rcases hwhy with hf | hnf
        · exact hf (hun _ _)
        · have hd := hdir (id ++ ".json") (by simp)
          have hne : id ++ ".json" ≠ id ++ ".tar.gz" := fun h => targz_ne_json _ _ h.symm
          rw [hframe2 _ hne] at hsome hnf
          cases hfind : w.fs.find (id ++ ".json") with
          | none => simp [hfind] at hsome
          | some node =>
            cases node with
            | dir => exact hd hfind
            | file json size => exact hnf json size hfind

/-- C13, as amended. Download: the handler of `GET /download/:backupId` only probes
the archive `{id}.tar.gz` (it makes no other call and leaves the directory unchanged, so
the metadata record is not consulted). It answers either 404 with
`{success: false, error: 'Backup not found'}` or with the download of
`{BACKUP_DIR}/{id}.tar.gz` under the name `backup-{id}.tar.gz`, the latter only if the
archive exists; it answers 404 whenever the archive is missing, and with the download
whenever the archive exists and no probe of it is made to fail. -/
theorem download_depends_on_archive_only (env : Env) (id : String) (w : World) :
    (getDownload env id w).2.fs = w.fs ∧
    (∀ ev ∈ newEvents w (getDownload env id w).2, ev.op = Op.access (id ++ ".tar.gz")) ∧
    ((getDownload env id w).1 = Res.ok (DownloadResponse.json 404 false "Backup not found") ∨
      ((w.fs.find (id ++ ".tar.gz")).isSome = true ∧
      (getDownload env id w).1 =
        Res.ok (DownloadResponse.download (pathJoin env.backupDir (id ++ ".tar.gz"))
          ("backup-" ++ id ++ ".tar.gz")))) ∧
    (w.fs.find (id ++ ".tar.gz") = none →
      (getDownload env id w).1 =
        Res.ok (DownloadResponse.json 404 false "Backup not found")) ∧
    ((∀ n, env.fault n (Op.access (id ++ ".tar.gz")) = none) →
      (w.fs.find (id ++ ".tar.gz")).isSome = true →
      (getDownload env id w).1 =
        Res.ok (DownloadResponse.download (pathJoin env.backupDir (id ++ ".tar.gz"))
          ("backup-" ++ id ++ ".tar.gz"))) := by
  obtain ⟨h1, h2, h3, h4⟩ := getDownload_spec env id w
  exact ⟨h1, h2, h3, getDownload_of_missing env id w, h4⟩

/-- Counterexample to C13 as stated: the directory holds the archive `x.tar.gz` and no
metadata record `x.json`, and `GET /download/x` sends the archive. -/
theorem download_without_record :
    orphanArchiveDir.find "x.json" = none ∧
    (getDownload calmEnv "x" ⟨orphanArchiveDir, []⟩).1 =
      Res.ok (DownloadResponse.download "/var/backups/buddybox/x.tar.gz" "backup-x.tar.gz") := by
  decide

theorem deleteById_eq (env : Env) (id : String) (w : World) :
    deleteById env id w =
      (match (deleteBackup env id w).1 with
        | Res.ok _ => Res.ok deletedResponse
        | Res.error e => Res.ok ⟨500, false, none, none, some e⟩, (deleteBackup env id w).2) := by
  unfold deleteById
  simp only [tryCatch, bind_run]
  rcases deleteBackup env id w with ⟨r, w1⟩
  cases r <;> rfl

/-- C14, as amended. Delete removes both artifacts and is idempotent. Let the id
contain no path separator, so that `{id}.json` and `{id}.tar.gz` name children of the
backup directory, and let no probe for the existence of a file be made to fail.
Whenever `deleteBackup(id)` returns without error, the directory it leaves is the one
it found without `{id}.tar.gz` and `{id}.json`: neither exists any more and every other
child is unchanged; and a second `deleteBackup(id)`, whichever calls fail, returns
without error and leaves the directory unchanged. For an id with no files it returns
without error and leaves the directory unchanged, whichever calls fail. It does return
without error when no removal is made to fail and neither name is a directory. -/
theorem deleteBackup_removes_both (env : Env) (id : String) (w : World)
    (_hid : '/' ∉ id.data) (hprobe : NoProbeFault env) :
    (∀ w1, deleteBackup env id w = (Res.ok (), w1) →
      w1.fs = (w.fs.remove (id ++ ".tar.gz")).remove (id ++ ".json") ∧
      w1.fs.find (id ++ ".json") = none ∧ w1.fs.find (id ++ ".tar.gz") = none ∧
      (∀ n, n ≠ id ++ ".tar.gz" → n ≠ id ++ ".json" → w1.fs.find n = w.fs.find n) ∧
      ∀ env2 : Env, (deleteBackup env2 id w1).1 = Res.ok () ∧
        (deleteBackup env2 id w1).2.fs = w1.fs) ∧
    (∀ env2 : Env, w.fs.find (id ++ ".tar.gz") = none → w.fs.find (id ++ ".json") = none →
      (deleteBackup env2 id w).1 = Res.ok () ∧ (deleteBackup env2 id w).2.fs = w.fs) ∧
    (NoUnlinkFault env → w.fs.find (id ++ ".tar.gz") ≠ some Node.dir →
      w.fs.find (id ++ ".json") ≠ some Node.dir → (deleteBackup env id w).1 = Res.ok ()) := by
  have hnofiles : ∀ (env2 : Env) (w0 : World), w0.fs.find (id ++ ".tar.gz") = none →
      w0.fs.find (id ++ ".json") = none →
      (deleteBackup env2 id w0).1 = Res.ok () ∧ (deleteBackup env2 id w0).2.fs = w0.fs := by
    intro env2 w0 h1 h2
    obtain ⟨r, w2, hrun, -, hnone, -, -⟩ := deleteBackup_run env2 id w0
    rw [hrun]
    exact hnone h1 h2
  refine ⟨?_, fun env2 => hnofiles env2 w, ?_⟩
  · intro w1 hdel
    obtain ⟨r, w2, hrun, hframe, -, hboth, -⟩ := deleteBackup_run env id w
    rw [hdel] at hrun
    simp only [Prod.mk.injEq] at hrun
    obtain ⟨rfl, rfl⟩ := hrun
    have hfs := hboth hprobe rfl
    have hjson : w1.fs.find (id ++ ".json") = none := by
      rw [hfs, find_remove, if_pos rfl]
    have htar : w1.fs.find (id ++ ".tar.gz") = none := by
      rw [hfs, find_remove, if_neg (targz_ne_json _ _), find_remove, if_pos rfl]
    exact ⟨hfs, hjson, htar, hframe, fun env2 => hnofiles env2 w1 htar hjson⟩
  · intro hun h1 h2
    obtain ⟨r, w2, hrun, -, -, -, hok⟩ := deleteBackup_run env id w
    rw [hrun]
    apply hok hun
    intro name hname
    simp only [List.mem_cons, List.mem_singleton, List.not_mem_nil, or_false] at hname
    rcases hname with rfl | rfl
    · exact h1
    · exact h2

/-- Witness of C14 as amended: the record `a` of a directory with the records `a` and
`b` is deleted; the files of `b` remain. -/
theorem deleteBackup_removes_both_witness :
    deleteBackup calmEnv "a" ⟨validDatesDir, []⟩ =
      (Res.ok (), (deleteBackup calmEnv "a" ⟨validDatesDir, []⟩).2) ∧
    (deleteBackup calmEnv "a" ⟨validDatesDir, []⟩).2.fs = sampleFiles "b" (some 2) false ∧
    (deleteBackup calmEnv "a" ⟨validDatesDir, []⟩).2.fs.find ("a" ++ ".json") = none ∧
    (deleteBackup calmEnv "a" ⟨validDatesDir, []⟩).2.fs.find ("a" ++ ".tar.gz") = none :=
  have h := (deleteBackup_removes_both calmEnv "a" ⟨validDatesDir, []⟩ (by decide)
    (fun _ _ => rfl)).1
    (deleteBackup calmEnv "a" ⟨validDatesDir, []⟩).2 (by decide)
  ⟨by decide, by decide, h.2.1, h.2.2.1⟩

set_option maxRecDepth 100000 in
/-- Counterexample to C14 as stated. First, when the probes of `a.tar.gz` and `a.json`
fail for another reason than the absence of the file (here `EACCES`), `fileExists`
reports both as absent, nothing is unlinked, and `deleteBackup("a")` returns without
error while `a.json` and `a.tar.gz` are still in the backup directory. Second, no child
of that directory is called `./b.json` or `./b.tar.gz`, so that the id `./b` has no
files; but the paths that `deleteBackup("./b")` probes and unlinks are
`/var/backups/buddybox/b.json` and `/var/backups/buddybox/b.tar.gz`, the files of `b`,
so that this call does not leave the directory unchanged. -/
theorem delete_succeeds_leaving_files :
    ((deleteBackup probeFailureEnv "a" ⟨validDatesDir, []⟩).1 = Res.ok () ∧
      (deleteBackup probeFailureEnv "a" ⟨validDatesDir, []⟩).2.fs = validDatesDir ∧
      (validDatesDir.find "a.json").isSome = true ∧
      (validDatesDir.find "a.tar.gz").isSome = true ∧
      newEvents ⟨validDatesDir, []⟩
          (deleteBackup probeFailureEnv "a" ⟨validDatesDir, []⟩).2 =
        [⟨Op.access "a.tar.gz", some "EACCES: permission denied"⟩,
          ⟨Op.access "a.json", some "EACCES: permission denied"⟩]) ∧
    (validDatesDir.find ("./b" ++ ".json") = none ∧
      validDatesDir.find ("./b" ++ ".tar.gz") = none ∧
      (validDatesDir.find "b.json").isSome = true ∧
      (validDatesDir.find "b.tar.gz").isSome = true ∧
      joinSegments (routesBackupDir none) ("./b" ++ ".json") =
        ["var", "backups", "buddybox", "b.json"] ∧
      joinSegments (routesBackupDir none) ("./b" ++ ".tar.gz") =
        ["var", "backups", "buddybox", "b.tar.gz"] ∧
      joinSegments (routesBackupDir none) "b.json" = ["var", "backups", "buddybox", "b.json"] ∧
      joinSegments (routesBackupDir none) "b.tar.gz" =
        ["var", "backups", "buddybox", "b.tar.gz"]) := by
  decide

theorem fileExists_of_absent (env : Env) (name : String) (w : World)
    (h : w.fs.find name = none) :
    ∃ w1, fileExists env name w = (Res.ok false, w1) ∧ w1.fs = w.fs := by
  obtain ⟨err, hrun, hiff⟩ := fileExists_spec env name w
  cases err with
  | none =>
    have := (hiff.1 rfl).2
    simp [h] at this
  | some e => exact ⟨_, hrun, rfl⟩

theorem fileExists_of_fault (env : Env) (name : String) (w : World)
    (h : env.fault w.trace.length (Op.access name) ≠ none) :
    ∃ w1, fileExists env name w = (Res.ok false, w1) ∧ w1.fs = w.fs := by
  obtain ⟨err, hrun, hiff⟩ := fileExists_spec env name w
  cases err with
  | none => exact absurd (hiff.1 rfl).1 h
  | some e => exact ⟨_, hrun, rfl⟩

theorem fileExists_of_present (env : Env) (name : String) (w : World)
    (hf : env.fault w.trace.length (Op.access name) = none)
    (h : (w.fs.find name).isSome = true) :
    ∃ w1, fileExists env name w = (Res.ok true, w1) ∧ w1.fs = w.fs ∧
      w1.trace.length = w.trace.length + 1 := by
  obtain ⟨err, hrun, hiff⟩ := fileExists_spec env name w
  have := hiff.2 ⟨hf, h⟩
  subst this
  exact ⟨_, hrun, rfl, by simp⟩

theorem unlink_of_file (env : Env) (name : String) (w : World) (json : Option Metadata)
    (size : Nat) (hf : env.fault w.trace.length (Op.unlink name) = none)
    (h : w.fs.find name = some (Node.file json size)) :
    ∃ w1, unlink env name w = (Res.ok (), w1) ∧ w1.fs = w.fs.remove name := by
  unfold unlink perform
  simp [hf, h]

theorem unlink_of_failure (env : Env) (name : String) (w : World)
    (h : env.fault w.trace.length (Op.unlink name) ≠ none ∨ w.fs.find name = some Node.dir) :
    ∃ e w1, unlink env name w = (Res.error e, w1) ∧ w1.fs = w.fs := by
  unfold unlink perform
  rcases hf : env.fault w.trace.length (Op.unlink name) with _ | e
  · rcases h with h | h
    · exact absurd hf h
    · exact ⟨"EISDIR: illegal operation on a directory",
        { w with trace := w.trace ++
          [⟨Op.unlink name, some "EISDIR: illegal operation on a directory"⟩] },
        by simp [h], rfl⟩
  · exact ⟨e, { w with trace := w.trace ++ [⟨Op.unlink name, some e⟩] }, by simp, rfl⟩

theorem deleteBackup_of_no_record (env : Env) (id : String) (w : World)
    (hj : w.fs.find (id ++ ".json") = none) :
    (env.fault w.trace.length (Op.access (id ++ ".tar.gz")) ≠ none →
      (deleteBackup env id w).1 = Res.ok () ∧ (deleteBackup env id w).2.fs = w.fs) ∧
    (env.fault w.trace.length (Op.access (id ++ ".tar.gz")) = none →
      env.fault (w.trace.length + 1) (Op.unlink (id ++ ".tar.gz")) = none →
      (∃ json size, w.fs.find (id ++ ".tar.gz") = some (Node.file json size)) →
      (deleteBackup env id w).1 = Res.ok () ∧
        (deleteBackup env id w).2.fs = w.fs.remove (id ++ ".tar.gz")) ∧
    (env.fault w.trace.length (Op.access (id ++ ".tar.gz")) = none →
      (w.fs.find (id ++ ".tar.gz")).isSome = true →
      (env.fault (w.trace.length + 1) (Op.unlink (id ++ ".tar.gz")) ≠ none ∨
        w.fs.find (id ++ ".tar.gz") = some Node.dir) →
      (∃ e, (deleteBackup env id w).1 = Res.error ("Failed to delete backup: " ++ e)) ∧
        (deleteBackup env id w).2.fs = w.fs) := by
  refine ⟨?_, ?_, ?_⟩
  · intro hp
    obtain ⟨w1, h1, hfs1⟩ := fileExists_of_fault env _ w hp
    obtain ⟨w2, h2, hfs2⟩ := fileExists_of_absent env (id ++ ".json") w1 (by rw [hfs1]; exact hj)
    simp [deleteBackup, tryCatch, h1, h2, hfs2, hfs1]
  · rintro hp hu ⟨json, size, hfile⟩
    obtain ⟨w1, h1, hfs1, hlen1⟩ := fileExists_of_present env _ w hp (by simp [hfile])
    obtain ⟨w2, h2, hfs2⟩ := unlink_of_file env (id ++ ".tar.gz") w1 json size
      (by rw [hlen1]; exact hu) (by rw [hfs1]; exact hfile)
    obtain ⟨w3, h3, hfs3⟩ := fileExists_of_absent env (id ++ ".json") w2 (by
      rw [hfs2, hfs1, find_remove, if_neg (targz_ne_json id id).symm, hj])
    simp [deleteBackup, tryCatch, h1, h2, h3, hfs3, hfs2, hfs1]
  · intro hp hsome hfail
    obtain ⟨w1, h1, hfs1, hlen1⟩ := fileExists_of_present env _ w hp hsome
    obtain ⟨e2, w2, h2, hfs2⟩ := unlink_of_failure env (id ++ ".tar.gz") w1
      (by rw [hlen1, hfs1]; exact hfail)
    refine ⟨⟨e2, ?_⟩, ?_⟩ <;> simp [deleteBackup, tryCatch, h1, h2, raise, hfs2, hfs1]

/-- C15, as amended. Delete of an unknown job: the handler of `DELETE /:backupId` never
answers 404. It answers either 200 with
`{success: true, message: 'Backup deleted successfully'}` or 500 with
`{success: false, error}`. For an id that contains no path separator and has no
metadata record: if it has no archive
either, the answer is 200 and the directory is unchanged, whichever calls fail; if the
probe of the archive is made to fail, the answer is 200 and the directory is unchanged,
so that an archive stays; if the probe is not made to fail and the archive is a file
whose removal is not made to fail, the answer is 200 and the directory is the one found
without the archive; and if the probe is not made to fail and the removal of the
archive fails (it is made to fail, or the archive is a directory), the answer is 500
with the message `Failed to delete backup: ...` and the directory is unchanged. -/
theorem delete_of_unknown_job (env : Env) (id : String) (w : World) :
    (∃ r, (deleteById env id w).1 = Res.ok r ∧
      (r = deletedResponse ∨ (r.status = 500 ∧ r.success = false ∧ r.error ≠ none))) ∧
    ('/' ∉ id.data → w.fs.find (id ++ ".json") = none →
      (w.fs.find (id ++ ".tar.gz") = none →
        (deleteById env id w).1 = Res.ok deletedResponse ∧
          (deleteById env id w).2.fs = w.fs) ∧
      (env.fault w.trace.length (Op.access (id ++ ".tar.gz")) ≠ none →
        (deleteById env id w).1 = Res.ok deletedResponse ∧
          (deleteById env id w).2.fs = w.fs) ∧
      (env.fault w.trace.length (Op.access (id ++ ".tar.gz")) = none →
        env.fault (w.trace.length + 1) (Op.unlink (id ++ ".tar.gz")) = none →
        (∃ json size, w.fs.find (id ++ ".tar.gz") = some (Node.file json size)) →
        (deleteById env id w).1 = Res.ok deletedResponse ∧
          (deleteById env id w).2.fs = w.fs.remove (id ++ ".tar.gz") ∧
          (deleteById env id w).2.fs.find (id ++ ".tar.gz") = none) ∧
      (env.fault w.trace.length (Op.access (id ++ ".tar.gz")) = none →
        (w.fs.find (id ++ ".tar.gz")).isSome = true →
        (env.fault (w.trace.length + 1) (Op.unlink (id ++ ".tar.gz")) ≠ none ∨
          w.fs.find (id ++ ".tar.gz") = some Node.dir) →
        (∃ e, (deleteById env id w).1 =
          Res.ok ⟨500, false, none, none, some ("Failed to delete backup: " ++ e)⟩) ∧
          (deleteById env id w).2.fs = w.fs)) := by
  rw [deleteById_eq]
  refine ⟨?_, ?_⟩
  · cases (deleteBackup env id w).1 with
    | ok u => exact ⟨_, rfl, Or.inl rfl⟩
    | error e => exact ⟨_, rfl, Or.inr ⟨rfl, rfl, by simp⟩⟩
  · intro _ hj
    obtain ⟨ha, hb, hc⟩ := deleteBackup_of_no_record env id w hj
    refine ⟨?_, ?_, ?_, ?_⟩
    · intro ht
      obtain ⟨r, w2, hrun, -, hnone, -, -⟩ := deleteBackup_run env id w
      rw [hrun]
      obtain ⟨hr, hfs⟩ := hnone ht hj
      subst hr
      exact ⟨rfl, hfs⟩
    · intro hp
      obtain ⟨h1, h2⟩ := ha hp
      simp only [h1, h2, and_self]
    · intro hp hu hfile
      obtain ⟨h1, h2⟩ := hb hp hu hfile
      simp only [h1, h2, true_and]
      rw [find_remove, if_pos rfl]
    · intro hp hsome hfail
      obtain ⟨⟨e, h1⟩, h2⟩ := hc hp hsome hfail
      simp only [h1, h2, and_true]
      exact ⟨e, rfl⟩

set_option maxRecDepth 100000 in
/-- Witness of C15 as amended, for the id `x` in a directory that holds the archive
`x.tar.gz` and no record: when no call is made to fail the archive is removed and the
answer is 200; when the probes are made to fail the archive stays and the answer is
200; when the removal is made to fail the archive stays and the answer is 500. -/
theorem delete_of_unknown_job_witness :
    ((deleteById calmEnv "x" ⟨orphanArchiveDir, []⟩).1 = Res.ok deletedResponse ∧
      (deleteById calmEnv "x" ⟨orphanArchiveDir, []⟩).2.fs =
        orphanArchiveDir.remove ("x" ++ ".tar.gz") ∧
      (deleteById calmEnv "x" ⟨orphanArchiveDir, []⟩).2.fs.find ("x" ++ ".tar.gz") = none) ∧
    ((deleteById probeFailureEnv "x" ⟨orphanArchiveDir, []⟩).1 = Res.ok deletedResponse ∧
      (deleteById probeFailureEnv "x" ⟨orphanArchiveDir, []⟩).2.fs = orphanArchiveDir) ∧
    ((∃ e, (deleteById unlinkFailureEnv "x" ⟨orphanArchiveDir, []⟩).1 =
        Res.ok ⟨500, false, none, none, some ("Failed to delete backup: " ++ e)⟩) ∧
      (deleteById unlinkFailureEnv "x" ⟨orphanArchiveDir, []⟩).2.fs = orphanArchiveDir) :=
  ⟨((delete_of_unknown_job calmEnv "x" ⟨orphanArchiveDir, []⟩).2 (by decide)
      (by decide)).2.2.1 rfl rfl ⟨none, 4096, by decide⟩,
    ((delete_of_unknown_job probeFailureEnv "x" ⟨orphanArchiveDir, []⟩).2 (by decide)
      (by decide)).2.1 (by decide),
    ((delete_of_unknown_job unlinkFailureEnv "x" ⟨orphanArchiveDir, []⟩).2 (by decide)
      (by decide)).2.2.2 rfl (by decide) (Or.inl (by decide))⟩

/-- Counterexample to C15 as stated: in an empty backup directory no id has a
metadata record, and `DELETE /missing` answers 200, not 404. -/
theorem delete_unknown_answers_200 :
    Dir.find [] ("missing" ++ ".json") = none ∧
    (deleteById calmEnv "missing" ⟨[], []⟩).1 = Res.ok deletedResponse ∧
    deletedResponse.status = 200 := by
  decide

theorem find_append (d1 d2 : Dir) (x : String) :
    Dir.find (d1 ++ d2) x = (Dir.find d1 x).or (Dir.find d2 x) := by
  induction d1 with
  | nil => simp [Dir.find]
  | cons e rest ih =>
    obtain ⟨n, node⟩ := e
    by_cases hn : n = x
    · simp [Dir.find, hn]
    · simp [Dir.find, hn, ih]

theorem find_map_replace (d : Dir) (n x : String) (node : Node) :
    Dir.find (d.map (fun e => if e.1 = n then (n, node) else e)) x =
      if x = n then (Dir.find d n).map (fun _ => node) else Dir.find d x := by
  induction d with
  | nil => simp [Dir.find]
  | cons e rest ih =>
    obtain ⟨n1, node1⟩ := e
    rw [List.map_cons]
    by_cases h1 : n1 = n
    · have hhead : (if (n1, node1).1 = n then (n, node) else (n1, node1)) = (n, node) :=
        if_pos h1
      rw [hhead]
      subst h1
      by_cases hx : x = n1
      · subst hx
        simp [Dir.find]
      · have hx' : ¬ n1 = x := fun h => hx h.symm
        rw [Dir.find, if_neg hx', ih, if_neg hx, if_neg hx, Dir.find, if_neg hx']
    · have hhead : (if (n1, node1).1 = n then (n, node) else (n1, node1)) = (n1, node1) :=
        if_neg h1
      rw [hhead]
      by_cases h2 : n1 = x
      · have hx : ¬ x = n := fun h => h1 (h2.trans h)
        rw [Dir.find, if_pos h2, if_neg hx, Dir.find, if_pos h2]
      · rw [Dir.find, if_neg h2, ih]
        by_cases hx : x = n
        · rw [if_pos hx, if_pos hx, Dir.find, if_neg h1]
        · rw [if_neg hx, if_neg hx, Dir.find, if_neg h2]

theorem find_put (d : Dir) (n x : String) (node : Node) :
    Dir.find (d.put n node) x = if x = n then some node else Dir.find d x := by
  unfold Dir.put
  split
  · next hsome =>
    rw [find_map_replace]
    split
    · cases h : Dir.find d n with
      | none => simp [h] at hsome
      | some y => rfl
    · rfl
  · next hnone =>
    have hn : Dir.find d n = none := by
      cases h : Dir.find d n with
      | none => rfl
      | some y => simp [h] at hnone
    rw [find_append]
    by_cases hx : x = n
    · subst hx
      simp [hn, Dir.find]
    · have hx' : ¬ n = x := fun h => hx h.symm
      simp [Dir.find, hx, hx']

theorem writeJson_cases (env : Env) (name : String) (m : Metadata) (w : World) :
    (writeJson env name m w =
        (Res.ok (), { fs := w.fs.put name (Node.file (some m) (env.jsonLength m)),
                      trace := w.trace ++ [⟨Op.writeFile name m, none⟩] })) ∨
    (∃ e, writeJson env name m w =
        (Res.error e, { w with trace := w.trace ++ [⟨Op.writeFile name m, some e⟩] })) := by
  unfold writeJson perform
  split
  · exact Or.inr ⟨_, rfl⟩
  · split
    · next a d hact =>
      simp only at hact
      split at hact
      · simp at hact
      · simp only [Res.ok.injEq, Prod.mk.injEq] at hact
        rw [← hact.2]
        exact Or.inl rfl
    · exact Or.inr ⟨_, rfl⟩

theorem recordAt_put (d : Dir) (name : String) (m : Metadata) (size : Nat) :
    recordAt (d.put name (Node.file (some m) size)) name = some m := by
  simp [recordAt, find_put]

/-- C17. Metadata put/get round trip: whenever `saveBackupMetadata(m)` succeeds for a
record `m` with the string id `id`, the file `{id}.json` holds `m` and every other child
of the backup directory is unchanged; `getBackupStatus(id)` then returns `m`, unless
the read is made to fail; a later `saveBackupMetadata` of a record with the same id
replaces `m`, leaving again every other child unchanged. For an id whose file
`{id}.json` does not exist `getBackupStatus` throws `Backup not found`, in every
state and whichever calls fail. -/
theorem metadata_round_trip (env : Env) (m : Metadata) (id : String) (w w1 : World)
    (hid : m.id = some id) (hsave : saveBackupMetadata env m w = (Res.ok (), w1)) :
    recordAt w1.fs (id ++ ".json") = some m ∧
    (∀ n, n ≠ id ++ ".json" → w1.fs.find n = w.fs.find n) ∧
    (∀ env2 : Env, env2.fault w1.trace.length (Op.readFile (id ++ ".json")) = none →
      (getBackupStatus env2 id w1).1 = Res.ok m) ∧
    (∀ (env2 : Env) (m2 : Metadata) (w2 : World), m2.id = some id →
      saveBackupMetadata env2 m2 w1 = (Res.ok (), w2) →
      recordAt w2.fs (id ++ ".json") = some m2 ∧
      (∀ n, n ≠ id ++ ".json" → w2.fs.find n = w.fs.find n) ∧
      ∀ env3 : Env, env3.fault w2.trace.length (Op.readFile (id ++ ".json")) = none →
        (getBackupStatus env3 id w2).1 = Res.ok m2) ∧
    (∀ (env2 : Env) (id2 : String) (w0 : World), w0.fs.find (id2 ++ ".json") = none →
      (getBackupStatus env2 id2 w0).1 = Res.error "Backup not found") := by
  have hput : ∀ (env0 : Env) (m0 : Metadata) (wa wb : World), m0.id = some id →
      saveBackupMetadata env0 m0 wa = (Res.ok (), wb) →
      recordAt wb.fs (id ++ ".json") = some m0 ∧
      (∀ n, n ≠ id ++ ".json" → wb.fs.find n = wa.fs.find n) ∧
      ∀ env3 : Env, env3.fault wb.trace.length (Op.readFile (id ++ ".json")) = none →
        (getBackupStatus env3 id wb).1 = Res.ok m0 := by
    intro env0 m0 wa wb hid0 hs
    unfold saveBackupMetadata at hs
    rw [hid0] at hs
    simp only [tmpl] at hs
    have hfs : wb.fs = wa.fs.put (id ++ ".json") (Node.file (some m0) (env0.jsonLength m0)) := by
      rcases writeJson_cases env0 (id ++ ".json") m0 wa with h | ⟨e, h⟩
      · rw [h] at hs
        simp only [Prod.mk.injEq, true_and] at hs
        rw [← hs]
      · rw [h] at hs
        simp at hs
    have hrec : recordAt wb.fs (id ++ ".json") = some m0 := by
      rw [hfs]
      exact recordAt_put _ _ _ _
    refine ⟨hrec, ?_, fun env3 hf => getBackupStatus_of_record env3 id wb m0 hrec hf⟩
    intro n hn
    rw [hfs, find_put, if_neg hn]
  obtain ⟨h1, h2, h3⟩ := hput env m w w1 hid hsave
  refine ⟨h1, h2, h3, ?_, fun env2 id2 w0 h => getBackupStatus_of_missing env2 id2 w0 h⟩
  intro env2 m2 w2 hid2 hs2
  obtain ⟨k1, k2, k3⟩ := hput env2 m2 w1 w2 hid2 hs2
  exact ⟨k1, fun n hn => (k2 n hn).trans (h2 n hn), k3⟩

/-- Witness of C17: a record with the id `a` is put into the empty directory and read
back. -/
theorem metadata_round_trip_witness :
    recordAt (saveBackupMetadata calmEnv (sampleRecord "a" (some 5) false) ⟨[], []⟩).2.fs
        ("a" ++ ".json") = some (sampleRecord "a" (some 5) false) ∧
    (getBackupStatus calmEnv "a"
        (saveBackupMetadata calmEnv (sampleRecord "a" (some 5) false) ⟨[], []⟩).2).1 =
      Res.ok (sampleRecord "a" (some 5) false) :=
  have h := metadata_round_trip calmEnv (sampleRecord "a" (some 5) false) "a" ⟨[], []⟩
    (saveBackupMetadata calmEnv (sampleRecord "a" (some 5) false) ⟨[], []⟩).2 rfl (by decide)
  ⟨h.1, h.2.2.1 calmEnv rfl⟩

theorem stat_of_noFault (env : Env) (hnf : NoFault env) (name : String) (w : World)
    (node : Node) (h : w.fs.find name = some node) :
    ∃ w1, stat env name w = (Res.ok (statSize env node), w1) ∧ w1.fs = w.fs := by
  unfold stat
  rw [perform_of_noFault env hnf]
  cases node <;> simp [h, statSize]

theorem listLoop_of_noFault (env : Env) (hnf : NoFault env) (d : Dir) :
    ∀ (files : List String) (backups : List Listed) (w : World), w.fs = d →
      ∃ w1, listLoop env files backups w =
          (Res.ok (backups ++ files.filterMap (listedAt env d)), w1) ∧ w1.fs = d := by
  intro files
  induction files with
  | nil =>
    intro backups w hw
    exact ⟨w, by simp [listLoop], hw⟩
  | cons file rest ih =>
    intro backups w hw
    subst hw
    unfold listLoop
    by_cases hjson : endsWith file ".json" = true
    · simp only [hjson, if_true, bind_run, tryCatch]
      cases hrec : recordAt w.fs file with
      | none =>
        have hfs1 := readJson_fs env file w
        rcases hread : readJson env file w with ⟨r, w1⟩
        rw [hread] at hfs1
        cases r with
        | ok m =>
          exfalso
          unfold readJson at hread
          rw [perform_of_noFault env hnf] at hread
          unfold recordAt at hrec
          split at hread
          · next a d1 hact =>
            split at hact
            · next m1 size hfind => simp [hfind] at hrec
            · simp at hact
            · simp at hact
            · simp at hact
          · simp at hread
        | error e =>
          obtain ⟨w2, h2, hfs2⟩ := ih backups w1 hfs1
          refine ⟨w2, ?_, hfs2⟩
          simp only [pure_run, h2, List.filterMap_cons, listedAt, hjson, if_true, hrec]
      | some m =>
        obtain ⟨w1, hread, hfs1⟩ := readJson_of_record env file w m hrec (hnf _ _)
        obtain ⟨w2, hex, hfs2⟩ := fileExists_of_noFault env hnf (tmpl m.id ++ ".tar.gz") w1
        simp only [hread, hex]
        cases hfind : w.fs.find (tmpl m.id ++ ".tar.gz") with
        | none =>
          obtain ⟨w3, h3, hfs3⟩ := ih backups w2 (hfs2.trans hfs1)
          refine ⟨w3, ?_, hfs3⟩
          simp [hfs1, hfind, h3, List.filterMap_cons, listedAt, hjson, hrec]
        | some node =>
          obtain ⟨w3, hstat, hfs3⟩ := stat_of_noFault env hnf (tmpl m.id ++ ".tar.gz") w2 node
            (by rw [hfs2, hfs1]; exact hfind)
          obtain ⟨w4, h4, hfs4⟩ := ih (backups ++
            [⟨m, statSize env node, pathJoin env.backupDir (tmpl m.id ++ ".tar.gz")⟩]) w3
            (hfs3.trans (hfs2.trans hfs1))
          refine ⟨w4, ?_, hfs4⟩
          simp [hfs1, hfind, hstat, h4, List.filterMap_cons, listedAt, hjson, hrec]
    · obtain ⟨w1, h1, hfs1⟩ := ih backups w rfl
      refine ⟨w1, ?_, hfs1⟩
      simp [hjson, h1, List.filterMap_cons, listedAt]

theorem getBackupList_of_noFault (env : Env) (hnf : NoFault env) (w : World) :
    (getBackupList env w).1 =
      Res.ok (jsSort (fun a b => compareCreatedAt a.metadata.createdAt b.metadata.createdAt)
        ((w.fs.map Prod.fst).filterMap (listedAt env w.fs))) := by
  unfold getBackupList readdir
  simp only [tryCatch, bind_run, perform_of_noFault env hnf]
  obtain ⟨w1, h1, -⟩ := listLoop_of_noFault env hnf w.fs (w.fs.map Prod.fst) []
    { fs := w.fs, trace := w.trace ++ [⟨Op.readdir, none⟩] } rfl
  simp [h1]

theorem mem_getBackupList_of_noFault (env : Env) (hnf : NoFault env) (w : World)
    (l : List Listed) (hl : (getBackupList env w).1 = Res.ok l) (r : Listed) :
    r ∈ l ↔ ∃ name, (w.fs.find name).isSome = true ∧ listedAt env w.fs name = some r := by
  rw [getBackupList_of_noFault env hnf w] at hl
  simp only [Res.ok.injEq] at hl
  rw [← hl, mem_jsSort, List.mem_filterMap]
  constructor
  · rintro ⟨name, hname, hlisted⟩
    refine ⟨name, ?_, hlisted⟩
    obtain ⟨e, he, rfl⟩ := List.mem_map.1 hname
    cases hfind : w.fs.find e.1 with
    | none => exact absurd rfl ((find_eq_none_iff _ _).1 hfind e he)
    | some node => rfl
  · rintro ⟨name, hname, hlisted⟩
    refine ⟨name, ?_, hlisted⟩
    cases hfind : w.fs.find name with
    | none => simp [hfind] at hname
    | some node =>
      exact List.mem_map.2 ⟨(name, node), mem_of_find _ _ _ hfind, rfl⟩

theorem storedUnderOwnId_find (d : Dir) (h : StoredUnderOwnId d) (name : String)
    (m : Metadata) (hends : endsWith name ".json" = true) (hrec : recordAt d name = some m) :
    name = tmpl m.id ++ ".json" := by
  unfold recordAt at hrec
  split at hrec
  · next m1 size hfind =>
    simp only [Option.some.injEq] at hrec
    subst hrec
    exact h (name, Node.file (some m1) size) (mem_of_find _ _ _ hfind) m1
      (by simp [storedRecord, hends])
  · simp at hrec

theorem listedAt_congr (env : Env) (d d1 : Dir) (name : String) (r : Listed)
    (h : listedAt env d name = some r)
    (hname : d1.find name = d.find name)
    (harchive : d1.find (tmpl r.metadata.id ++ ".tar.gz") =
      d.find (tmpl r.metadata.id ++ ".tar.gz")) :
    listedAt env d1 name = some r := by
  unfold listedAt at h ⊢
  split at h
  · next hjson =>
    rw [if_pos hjson]
    have hrec : recordAt d1 name = recordAt d name := by
      unfold recordAt
      rw [hname]
    rw [hrec]
    split at h
    · next m hm =>
      split at h
      · next node hnode =>
        simp only [Option.some.injEq] at h
        subst h
        simp only at harchive
        simp only [harchive, hnode]
      · simp at h
    · simp at h
  · simp at h

theorem listedAt_some (env : Env) (d : Dir) (name : String) (r : Listed)
    (h : listedAt env d name = some r) :
    endsWith name ".json" = true ∧ recordAt d name = some r.metadata ∧
      (d.find (tmpl r.metadata.id ++ ".tar.gz")).isSome = true := by
  unfold listedAt at h
  split at h
  · next hjson =>
    split at h
    · next m hm =>
      split at h
      · next node hnode =>
        simp only [Option.some.injEq] at h
        subst h
        exact ⟨hjson, hm, by simp [hnode]⟩
      · simp at h
    · simp at h
  · simp at h

/-- C16, as amended. Delete is observable through status and list. Let the id contain
no path separator, so that `{id}.json` and `{id}.tar.gz` name children of the backup
directory, let no probe for the existence of a file be made to fail and let
`deleteBackup(id)` return without error. Then, whichever calls fail afterwards,
`getBackupStatus(id)` throws
`Backup not found` and `getBackupList` returns no record whose id is `id`. If moreover
every record of the directory was stored under its own id, then every record that
`getBackupList` returned before and whose id is not `id` is returned after, when no
call of the two listings is made to fail. (A record without an `id` property counts as
having the id `undefined`, under which its archive is looked up.) -/
theorem delete_observable (env : Env) (id : String) (w w1 : World)
    (_hid : '/' ∉ id.data) (hprobe : NoProbeFault env)
    (hdel : deleteBackup env id w = (Res.ok (), w1)) :
    (∀ env2 : Env, (getBackupStatus env2 id w1).1 = Res.error "Backup not found") ∧
    (∀ env2 : Env, ∃ l1, (getBackupList env2 w1).1 = Res.ok l1 ∧
      ∀ r ∈ l1, tmpl r.metadata.id ≠ id) ∧
    (∀ env2 : Env, NoFault env2 → StoredUnderOwnId w.fs →
      ∀ l l1, (getBackupList env2 w).1 = Res.ok l → (getBackupList env2 w1).1 = Res.ok l1 →
        ∀ r ∈ l, tmpl r.metadata.id ≠ id → r ∈ l1) := by
  obtain ⟨r0, w2, hrun, hframe, -, hboth, -⟩ := deleteBackup_run env id w
  rw [hdel] at hrun
  simp only [Prod.mk.injEq] at hrun
  obtain ⟨rfl, rfl⟩ := hrun
  have hfs := hboth hprobe rfl
  have hjson : w1.fs.find (id ++ ".json") = none := by
    rw [hfs, find_remove, if_pos rfl]
  have htar : w1.fs.find (id ++ ".tar.gz") = none := by
    rw [hfs, find_remove, if_neg (targz_ne_json _ _), find_remove, if_pos rfl]
  refine ⟨fun env2 => getBackupStatus_of_missing env2 id w1 hjson, ?_, ?_⟩
  · intro env2
    obtain ⟨bs, w3, hlist, -, hall⟩ := getBackupList_run env2
      (fun r => (w1.fs.find (tmpl r.metadata.id ++ ".tar.gz")).isSome = true) w1
      (by
        intro m size w0 hw0 hex
        obtain ⟨wa, hwa⟩ := hex
        obtain ⟨b, wb, hb, -, hsome⟩ := fileExists_run env2 (tmpl m.id ++ ".tar.gz") w0
        rw [hwa] at hb
        simp only [Prod.mk.injEq, Res.ok.injEq] at hb
        rw [← hw0]
        exact hsome hb.1.symm)
    refine ⟨_, by rw [hlist], ?_⟩
    intro r hr hid
    have := hall r ((mem_jsSort _ _ _).1 hr)
    rw [hid, htar] at this
    simp at this
  · intro env2 hnf hstored l l1 hl hl1 r hr hid
    obtain ⟨name, hname, hlisted⟩ := (mem_getBackupList_of_noFault env2 hnf w l hl r).1 hr
    obtain ⟨hends, hrec, -⟩ := listedAt_some env2 w.fs name r hlisted
    have hown := storedUnderOwnId_find w.fs hstored name r.metadata hends hrec
    have hn1 : name ≠ id ++ ".tar.gz" := by
      rw [hown]
      exact fun h => targz_ne_json _ _ h.symm
    have hn2 : name ≠ id ++ ".json" := by
      rw [hown]
      exact fun h => hid (append_json_inj _ _ h)
    have ha1 : tmpl r.metadata.id ++ ".tar.gz" ≠ id ++ ".tar.gz" :=
      fun h => hid (append_targz_inj _ _ h)
    have ha2 : tmpl r.metadata.id ++ ".tar.gz" ≠ id ++ ".json" := targz_ne_json _ _
    refine (mem_getBackupList_of_noFault env2 hnf w1 l1 hl1 r).2 ⟨name, ?_, ?_⟩
    · rw [hframe name hn1 hn2]
      exact hname
    · exact listedAt_congr env2 w.fs w1.fs name r hlisted (hframe name hn1 hn2)
        (hframe _ ha1 ha2)

/-- Witness of C16 as amended: the record `a` of a directory with the records `a` and
`b` is deleted; afterwards the status of `a` is not found and the list is that of `b`. -/
theorem delete_observable_witness :
    (getBackupStatus calmEnv "a" (deleteBackup calmEnv "a" ⟨validDatesDir, []⟩).2).1 =
      Res.error "Backup not found" ∧
    (getBackupList calmEnv (deleteBackup calmEnv "a" ⟨validDatesDir, []⟩).2).1 =
      Res.ok [⟨sampleRecord "b" (some 2) false, 4096, "/var/backups/buddybox/b.tar.gz"⟩] :=
  ⟨(delete_observable calmEnv "a" ⟨validDatesDir, []⟩
      (deleteBackup calmEnv "a" ⟨validDatesDir, []⟩).2 (by decide) (fun _ _ => rfl)
      (by decide)).1 calmEnv,
    by decide⟩

set_option maxRecDepth 100000 in
/-- Counterexample to C16 as stated. First, the file `x.json` holds a record with the
id `y` whose archive exists, so that `getBackupList` returns this record;
`deleteBackup('x')` succeeds and removes `x.json`, after which the record with the id
`y` is no longer listed. Second, in a directory whose records `a` and `b` are stored
under their own ids, the paths that `deleteBackup('./b')` probes and unlinks are those
that `deleteBackup('b')` probes and unlinks, the files `b.json` and `b.tar.gz`; once
they are removed the record `b`, whose id is not `./b` and which was listed before, is
no longer listed. -/
theorem delete_hides_other_record :
    ((getBackupList calmEnv ⟨misfiledDir, []⟩).1 =
        Res.ok [⟨sampleRecord "y" (some 1) false, 4096, "/var/backups/buddybox/y.tar.gz"⟩] ∧
      (deleteBackup calmEnv "x" ⟨misfiledDir, []⟩).1 = Res.ok () ∧
      (getBackupList calmEnv (deleteBackup calmEnv "x" ⟨misfiledDir, []⟩).2).1 = Res.ok []) ∧
    (StoredUnderOwnId validDatesDir ∧
      joinSegments (routesBackupDir none) ("./b" ++ ".json") =
        joinSegments (routesBackupDir none) ("b" ++ ".json") ∧
      joinSegments (routesBackupDir none) ("./b" ++ ".tar.gz") =
        joinSegments (routesBackupDir none) ("b" ++ ".tar.gz") ∧
      joinSegments (routesBackupDir none) ("./b" ++ ".json") =
        ["var", "backups", "buddybox", "b.json"] ∧
      joinSegments (routesBackupDir none) ("./b" ++ ".tar.gz") =
        ["var", "backups", "buddybox", "b.tar.gz"] ∧
      (getBackupList calmEnv ⟨validDatesDir, []⟩).1 =
        Res.ok [⟨sampleRecord "b" (some 2) false, 4096, "/var/backups/buddybox/b.tar.gz"⟩,
          ⟨sampleRecord "a" (some 1) false, 4096, "/var/backups/buddybox/a.tar.gz"⟩] ∧
      tmpl (sampleRecord "b" (some 2) false).id ≠ "./b" ∧
      (getBackupList calmEnv
          ⟨(validDatesDir.remove "b.tar.gz").remove "b.json", []⟩).1 =
        Res.ok [⟨sampleRecord "a" (some 1) false, 4096, "/var/backups/buddybox/a.tar.gz"⟩]) :=
  ⟨by decide, by unfold StoredUnderOwnId; decide, by decide, by decide, by decide, by decide,
    by decide!, by decide, by decide!⟩

/-! ## What retention leaves alone -/

theorem readJson_ok (env : Env) (name : String) (w w1 : World) (m : Metadata)
    (h : readJson env name w = (Res.ok m, w1)) : recordAt w.fs name = some m ∧ w1.fs = w.fs := by
  have hfs := readJson_fs env name w
  rw [h] at hfs
  refine ⟨?_, hfs⟩
  unfold readJson perform at h
  split at h
  · simp at h
  · split at h
    · next a d hact =>
      simp only [Prod.mk.injEq, Res.ok.injEq] at h
      simp only at hact
      unfold recordAt
      split at hact
      · next m1 size hfind =>
        simp only [Res.ok.injEq, Prod.mk.injEq] at hact
        rw [hfind, ← h.1, hact.1]
      · simp at hact
      · simp at hact
      · simp at hact
    · simp at h

theorem collectLoop_run (env : Env) (d : Dir) :
    ∀ (files : List String) (backups : List Metadata) (w : World), w.fs = d →
      ∃ l w1, collectLoop env files backups w = (Res.ok l, w1) ∧ w1.fs = d ∧
        ∀ b ∈ l, b ∈ backups ∨
          ∃ name, endsWith name ".json" = true ∧ recordAt d name = some b ∧
            b.automated = true := by
  intro files
  induction files with
  | nil =>
    intro backups w hw
    exact ⟨backups, w, rfl, hw, fun b hb => Or.inl hb⟩
  | cons file rest ih =>
    intro backups w hw
    unfold collectLoop
    by_cases hjson : endsWith file ".json" = true
    · simp only [hjson, if_true, bind_run, tryCatch]
      rcases hread : readJson env file w with ⟨r, w1⟩
      cases r with
      | error e =>
        have hfs1 := readJson_fs env file w
        rw [hread] at hfs1
        exact ih backups w1 (hfs1.trans hw)
      | ok m =>
        obtain ⟨hrec, hfs1⟩ := readJson_ok env file w w1 m hread
        by_cases hauto : m.automated = true
        · obtain ⟨l, w2, h2, hfs2, hall⟩ := ih (backups ++ [m]) w1 (hfs1.trans hw)
          refine ⟨l, w2, by simpa [hauto] using h2, hfs2, ?_⟩
          intro b hb
          rcases hall b hb with h | h
          · rcases List.mem_append.1 h with h | h
            · exact Or.inl h
            · rw [List.mem_singleton] at h
              subst h
              exact Or.inr ⟨file, hjson, hw ▸ hrec, hauto⟩
          · exact Or.inr h
        · obtain ⟨l, w2, h2, hfs2, hall⟩ := ih backups w1 (hfs1.trans hw)
          exact ⟨l, w2, by simpa [hauto] using h2, hfs2, hall⟩
    · simp only [hjson, bind_run, pure_run]
      exact ih backups w hw

theorem deleteLoop_run (env : Env) :
    ∀ (l : List Metadata) (w : World),
      ∃ w1, deleteLoop env l w = (Res.ok (), w1) ∧
        ∀ n, n ∉ deletedNames l → w1.fs.find n = w.fs.find n := by
  intro l
  induction l with
  | nil =>
    intro w
    exact ⟨w, rfl, fun _ _ => rfl⟩
  | cons m rest ih =>
    intro w
    obtain ⟨b1, w1, r1, w2, h1, h2, hc1⟩ := deleteIfExists_cases env (tmpl m.id ++ ".tar.gz") w
    have hframe2 : ∀ n, n ≠ tmpl m.id ++ ".tar.gz" → w2.fs.find n = w.fs.find n := by
      intro n hn
      rcases hc1 with ⟨_, h⟩ | ⟨_, h, _⟩ | ⟨e, _, h, _⟩
      · rw [h, find_remove, if_neg hn]
      · rw [h]
      · rw [h]
    have hnames : ∀ n, n ∉ deletedNames (m :: rest) →
        n ≠ tmpl m.id ++ ".tar.gz" ∧ n ≠ tmpl m.id ++ ".json" ∧ n ∉ deletedNames rest := by
      intro n hn
      simp only [deletedNames, List.flatMap_cons, List.mem_append, List.mem_cons,
        List.mem_singleton, List.not_mem_nil, or_false, not_or] at hn
      exact ⟨hn.1.1, hn.1.2, by simpa [deletedNames] using hn.2⟩
    cases r1 with
    | error e1 =>
      obtain ⟨w3, h3, hframe3⟩ := ih w2
      refine ⟨w3, ?_, ?_⟩
      · unfold deleteLoop
        simp only [bind_run, tryCatch, h1, h2, pure_run]
        exact h3
      · intro n hn
        obtain ⟨hn1, -, hn3⟩ := hnames n hn
        rw [hframe3 n hn3, hframe2 n hn1]
    | ok u =>
      obtain ⟨b2, w3, r2, w4, h3, h4, hc2⟩ := deleteIfExists_cases env (tmpl m.id ++ ".json") w2
      have hframe4 : ∀ n, n ≠ tmpl m.id ++ ".json" → w4.fs.find n = w2.fs.find n := by
        intro n hn
        rcases hc2 with ⟨_, h⟩ | ⟨_, h, _⟩ | ⟨e, _, h, _⟩
        · rw [h, find_remove, if_neg hn]
        · rw [h]
        · rw [h]
      obtain ⟨w5, h5, hframe5⟩ := ih w4
      refine ⟨w5, ?_, ?_⟩
      · unfold deleteLoop
        cases r2 <;> simp only [bind_run, tryCatch, h1, h2, h3, h4, pure_run] <;> exact h5
      · intro n hn
        obtain ⟨hn1, hn2, hn3⟩ := hnames n hn
        rw [hframe5 n hn3, hframe4 n hn2, hframe2 n hn1]

theorem mem_jsSlice {α : Type} (l : List α) (start : Int) (a : α) (h : a ∈ jsSlice l start) :
    a ∈ l := by
  unfold jsSlice at h
  split at h <;> exact List.mem_of_mem_drop h

theorem cleanupOldBackups_run (env : Env) (keepCount : Int) (w : World) :
    ∃ w1, cleanupOldBackups env keepCount w = (Res.ok (), w1) ∧
      ∀ n, (∀ name b, endsWith name ".json" = true → recordAt w.fs name = some b →
          b.automated = true → n ≠ tmpl b.id ++ ".tar.gz" ∧ n ≠ tmpl b.id ++ ".json") →
        w1.fs.find n = w.fs.find n := by
  unfold cleanupOldBackups
  simp only [tryCatch, bind_run]
  have hfs1 := readdir_fs env w
  rcases hread : readdir env w with ⟨r, w1⟩
  rw [hread] at hfs1
  cases r with
  | error e => exact ⟨w1, rfl, fun n _ => by rw [hfs1]⟩
  | ok files =>
    obtain ⟨l, w2, hl, hfs2, hall⟩ := collectLoop_run env w.fs files [] w1 hfs1
    obtain ⟨w3, h3, hframe⟩ := deleteLoop_run env
      (jsSlice (jsSort (fun a b => compareCreatedAt a.createdAt b.createdAt) l) keepCount) w2
    refine ⟨w3, by simp only [hl, h3], ?_⟩
    intro n hn
    rw [hframe n, hfs2]
    intro hmem
    simp only [deletedNames, List.mem_flatMap, List.mem_cons, List.mem_singleton,
      List.not_mem_nil, or_false] at hmem
    obtain ⟨b, hb, hnb⟩ := hmem
    have hbl : b ∈ l := (mem_jsSort _ _ _).1 (mem_jsSlice _ _ _ hb)
    rcases hall b hbl with h | ⟨name, hends, hrec, hauto⟩
    · simp at h
    · have := hn name b hends hrec hauto
      rcases hnb with h | h
      · exact this.1 h
      · exact this.2 h

/-- C20. Retention only touches automated backups: for every `keepCount` (negative
ones included) and every backup directory in which the records are stored under their
own id, whichever calls fail, `cleanupOldBackups` returns normally and leaves the
metadata file and the archive of every record whose `automated` property is absent or
falsy as they were. -/
theorem cleanupOldBackups_spares_manual (env : Env) (keepCount : Int) (w : World)
    (hstored : StoredUnderOwnId w.fs) :
    (cleanupOldBackups env keepCount w).1 = Res.ok () ∧
    ∀ name m, endsWith name ".json" = true → recordAt w.fs name = some m →
      m.automated = false →
      (cleanupOldBackups env keepCount w).2.fs.find name = w.fs.find name ∧
      (cleanupOldBackups env keepCount w).2.fs.find (tmpl m.id ++ ".tar.gz") =
        w.fs.find (tmpl m.id ++ ".tar.gz") := by
  obtain ⟨w1, hrun, hframe⟩ := cleanupOldBackups_run env keepCount w
  rw [hrun]
  refine ⟨rfl, ?_⟩
  intro name m hends hrec hauto
  have hown := storedUnderOwnId_find w.fs hstored name m hends hrec
  have hdiff : ∀ name1 b, endsWith name1 ".json" = true → recordAt w.fs name1 = some b →
      b.automated = true → tmpl b.id ≠ tmpl m.id := by
    intro name1 b hends1 hrec1 hauto1 hid
    have hown1 := storedUnderOwnId_find w.fs hstored name1 b hends1 hrec1
    rw [hid, ← hown] at hown1
    rw [hown1, hrec] at hrec1
    simp only [Option.some.injEq] at hrec1
    rw [hrec1, hauto1] at hauto
    simp at hauto
  constructor
  · apply hframe
    intro name1 b hends1 hrec1 hauto1
    rw [hown]
    exact ⟨fun h => targz_ne_json _ _ h.symm,
      fun h => hdiff name1 b hends1 hrec1 hauto1 (append_json_inj _ _ h).symm⟩
  · apply hframe
    intro name1 b hends1 hrec1 hauto1
    exact ⟨fun h => hdiff name1 b hends1 hrec1 hauto1 (append_targz_inj _ _ h).symm,
      targz_ne_json _ _⟩

set_option maxRecDepth 100000 in
/-- Witness of C20: in the directory with ten automated and two user-initiated
records, `cleanupOldBackups(7)` leaves both files of the user-initiated record `u01`
as they were. -/
theorem cleanupOldBackups_spares_manual_witness :
    recordAt tenDailyDir "u01.json" = some (sampleRecord "u01" (some 0) false) ∧
    (cleanupOldBackups calmEnv 7 ⟨tenDailyDir, []⟩).2.fs.find "u01.json" =
      tenDailyDir.find "u01.json" ∧
    (cleanupOldBackups calmEnv 7 ⟨tenDailyDir, []⟩).2.fs.find "u01.tar.gz" =
      tenDailyDir.find "u01.tar.gz" :=
  ⟨by decide,
    (cleanupOldBackups_spares_manual calmEnv 7 ⟨tenDailyDir, []⟩
      (by unfold StoredUnderOwnId; decide)).2 "u01.json"
      (sampleRecord "u01" (some 0) false) (by decide) (by decide) rfl⟩

/-! ## Computations that leave the backup root as it is -/

theorem keeps_pure {α : Type} (a : α) : KeepsFs (pure a : M α) := fun _ => rfl

theorem keeps_raise {α : Type} (msg : String) : KeepsFs (raise msg : M α) := fun _ => rfl

theorem keeps_now (env : Env) : KeepsFs (now env) := fun _ => rfl

theorem keeps_bind {α β : Type} {x : M α} {f : α → M β} (hx : KeepsFs x)
    (hf : ∀ a, KeepsFs (f a)) : KeepsFs (x >>= f) := by
  intro w
  have h1 := hx w
  simp only [bind_run]
  rcases hxw : x w with ⟨r, w1⟩
  rw [hxw] at h1
  cases r with
  | ok a => exact (hf a w1).trans h1
  | error e => exact h1

theorem keeps_tryCatch {α : Type} {x : M α} {h : String → M α} (hx : KeepsFs x)
    (hh : ∀ e, KeepsFs (h e)) : KeepsFs (tryCatch x h) := by
  intro w
  have h1 := hx w
  simp only [tryCatch]
  rcases hxw : x w with ⟨r, w1⟩
  rw [hxw] at h1
  cases r with
  | ok a => exact h1
  | error e => exact (hh e w1).trans h1

theorem keeps_ite {α : Type} (c : Prop) [Decidable c] {x y : M α} (hx : KeepsFs x)
    (hy : KeepsFs y) : KeepsFs (if c then x else y) := by
  split
  · exact hx
  · exact hy

theorem keeps_forOf {α : Type} (body : α → M Unit) (hbody : ∀ a, KeepsFs (body a))
    (l : List α) : KeepsFs (forOf body l) := by
  induction l with
  | nil => exact keeps_pure ()
  | cons a rest ih =>
    unfold forOf
    exact keeps_bind (hbody a) (fun _ => ih)

theorem keeps_perform_const {α : Type} (env : Env) (op : Op) (a : α) :
    KeepsFs (perform env op (fun d => Res.ok (a, d))) := by
  intro w
  apply perform_fs_of_readonly
  intro d a1 d1 h
  simp only [Res.ok.injEq, Prod.mk.injEq] at h
  exact h.2.symm

theorem keeps_mkdirAt (env : Env) (path : String) : KeepsFs (mkdirAt env path) :=
  keeps_perform_const env _ _

theorem keeps_fileExistsAt (env : Env) (path : String) : KeepsFs (fileExistsAt env path) :=
  keeps_tryCatch (keeps_bind (keeps_perform_const env _ _) (fun _ => keeps_pure true))
    (fun _ => keeps_pure false)

theorem keeps_backupApplicationConfig (env : Env) (tempDir : String) :
    KeepsFs (backupApplicationConfig env tempDir) := by
  unfold backupApplicationConfig copyFile copyDirectory
  repeat' first
    | exact keeps_pure _
    | exact keeps_mkdirAt env _
    | exact keeps_fileExistsAt env _
    | exact keeps_perform_const env _ _
    | apply keeps_bind
    | apply keeps_tryCatch
    | apply keeps_ite
    | intro _

theorem keeps_backupDatabaseSchemas (env : Env) (tempDir : String) :
    KeepsFs (backupDatabaseSchemas env tempDir) := by
  unfold backupDatabaseSchemas writeAt
  repeat' first
    | exact keeps_pure _
    | exact keeps_mkdirAt env _
    | exact keeps_perform_const env _ _
    | apply keeps_bind
    | apply keeps_tryCatch
    | intro _

theorem keeps_backupRecentLogs (env : Env) (tempDir : String) :
    KeepsFs (backupRecentLogs env tempDir) := by
  unfold backupRecentLogs copyDirectory writeAt
  repeat' first
    | exact keeps_pure _
    | exact keeps_mkdirAt env _
    | exact keeps_fileExistsAt env _
    | exact keeps_perform_const env _ _
    | apply keeps_bind
    | apply keeps_tryCatch
    | apply keeps_ite
    | intro _

/-! ## The steps of a successful run -/

theorem bind_ok {α β : Type} {x : M α} {f : α → M β} {w w2 : World} {b : β}
    (h : (x >>= f) w = (Res.ok b, w2)) :
    ∃ a w1, x w = (Res.ok a, w1) ∧ f a w1 = (Res.ok b, w2) := by
  simp only [bind_run] at h
  rcases hxw : x w with ⟨r, w1⟩
  rw [hxw] at h
  cases r with
  | ok a => exact ⟨a, w1, rfl, h⟩
  | error e => simp at h

theorem tryCatch_ok {α : Type} {x : M α} {hd : String → M α} {w w2 : World} {a : α}
    (h : tryCatch x hd w = (Res.ok a, w2)) :
    x w = (Res.ok a, w2) ∨ ∃ e w1, x w = (Res.error e, w1) ∧ hd e w1 = (Res.ok a, w2) := by
  simp only [tryCatch] at h
  rcases hxw : x w with ⟨r, w1⟩
  rw [hxw] at h
  cases r with
  | ok a1 => exact Or.inl h
  | error e => exact Or.inr ⟨e, w1, rfl, h⟩

theorem perform_ok {α : Type} {env : Env} {op : Op} {act : Dir → Res (α × Dir)} {w w1 : World}
    {a : α} (h : perform env op act w = (Res.ok a, w1)) :
    act w.fs = Res.ok (a, w1.fs) ∧ w1.trace = w.trace ++ [⟨op, none⟩] := by
  unfold perform at h
  split at h
  · simp at h
  · split at h
    · next a1 d hact =>
      simp only [Prod.mk.injEq, Res.ok.injEq] at h
      obtain ⟨rfl, rfl⟩ := h
      exact ⟨hact, rfl⟩
    · simp at h

theorem saveBackupMetadata_ok {env : Env} {m : Metadata} {w w1 : World}
    (h : saveBackupMetadata env m w = (Res.ok (), w1)) :
    w1.fs = w.fs.put (tmpl m.id ++ ".json") (Node.file (some m) (env.jsonLength m)) ∧
      w1.trace = w.trace ++ [⟨Op.writeFile (tmpl m.id ++ ".json") m, none⟩] := by
  unfold saveBackupMetadata writeJson at h
  obtain ⟨hact, htr⟩ := perform_ok h
  refine ⟨?_, htr⟩
  split at hact
  · simp at hact
  · simp only [Res.ok.injEq, Prod.mk.injEq, true_and] at hact
    exact hact.symm

theorem createArchive_ok {env : Env} {source target : String} {w w1 : World}
    (h : createArchive env source target w = (Res.ok (), w1)) :
    (∃ size, w1.fs = w.fs.put target (Node.file none size)) ∧
      w1.trace = w.trace ++ [⟨Op.archive source target, none⟩] := by
  unfold createArchive at h
  obtain ⟨hact, htr⟩ := perform_ok h
  refine ⟨?_, htr⟩
  split at hact
  · simp at hact
  · simp only [Res.ok.injEq, Prod.mk.injEq, true_and] at hact
    exact ⟨_, hact.symm⟩

theorem rm_ok {env : Env} {name : String} {w w1 : World}
    (h : rm env name w = (Res.ok (), w1)) :
    w1.fs = w.fs.remove name ∧ w1.trace = w.trace ++ [⟨Op.rm name, none⟩] := by
  unfold rm at h
  obtain ⟨hact, htr⟩ := perform_ok h
  simp only [Res.ok.injEq, Prod.mk.injEq, true_and] at hact
  exact ⟨hact.symm, htr⟩

theorem temp_ne_targz (id : String) : "temp_" ++ id ≠ id ++ ".tar.gz" := by
  intro h
  have hl := congrArg String.length h
  simp only [String.length_append] at hl
  have h1 : "temp_".length = 5 := by decide
  have h2 : ".tar.gz".length = 7 := by decide
  omega

/-- The state after the archive was built, the working directory removed and the
record `m` written: the archive is a file and `{id}.json` holds `m`. -/
theorem archived_state {env : Env} {id : String} {m : Metadata} (hid : m.id = some id)
    {wc wd we w1 : World}
    (harch : createArchive env ("temp_" ++ id) (id ++ ".tar.gz") wc = (Res.ok (), wd))
    (hrm : rm env ("temp_" ++ id) wd = (Res.ok (), we))
    (hsave : saveBackupMetadata env m we = (Res.ok (), w1)) :
    (∃ size, w1.fs.find (id ++ ".tar.gz") = some (Node.file none size)) ∧
    recordAt w1.fs (id ++ ".json") = some m ∧
    w1.trace = wc.trace ++ [⟨Op.archive ("temp_" ++ id) (id ++ ".tar.gz"), none⟩,
      ⟨Op.rm ("temp_" ++ id), none⟩, ⟨Op.writeFile (id ++ ".json") m, none⟩] := by
  obtain ⟨⟨size, hfs1⟩, htr1⟩ := createArchive_ok harch
  obtain ⟨hfs2, htr2⟩ := rm_ok hrm
  obtain ⟨hfs3, htr3⟩ := saveBackupMetadata_ok hsave
  rw [hid] at hfs3 htr3
  simp only [tmpl] at hfs3 htr3
  refine ⟨⟨size, ?_⟩, ?_, ?_⟩
  · rw [hfs3, find_put, if_neg (targz_ne_json _ _), hfs2, find_remove,
      if_neg (temp_ne_targz id).symm, hfs1, find_put, if_pos rfl]
  · rw [hfs3]
    exact recordAt_put _ _ _ _
  · rw [htr3, htr2, htr1]
    simp

theorem now_ok {env : Env} {w w1 : World} {t : Int} (h : now env w = (Res.ok t, w1)) :
    t = env.clock w.trace.length ∧ w = w1 := by
  unfold now at h
  simp only [Prod.mk.injEq, Res.ok.injEq] at h
  exact ⟨h.1.symm, h.2⟩

theorem jobShape_ok (env : Env) (id : String) (metadata : Int → Metadata) (producers : M Unit)
    (w w1 : World) (h : jobShape env id metadata producers w = (Res.ok (), w1)) :
    (∃ wa wb wc wd we,
      saveBackupMetadata env (metadata (env.clock w.trace.length)) w = (Res.ok (), wa) ∧
      mkdir env ("temp_" ++ id) wa = (Res.ok (), wb) ∧
      producers wb = (Res.ok (), wc) ∧
      createArchive env ("temp_" ++ id) (id ++ ".tar.gz") wc = (Res.ok (), wd) ∧
      rm env ("temp_" ++ id) wd = (Res.ok (), we) ∧
      saveBackupMetadata env
        (completedRecord (metadata (env.clock w.trace.length)) (env.clock we.trace.length)) we =
          (Res.ok (), w1)) ∨
    (∃ e w0, saveBackupMetadata env
        (failedRecord (metadata (env.clock w.trace.length)) e (env.clock w0.trace.length)) w0 =
          (Res.ok (), w1)) := by
  unfold jobShape at h
  obtain ⟨t0, w', hnow, h⟩ := bind_ok h
  obtain ⟨rfl, rfl⟩ := now_ok hnow
  rcases tryCatch_ok h with h | ⟨e, w0, -, h⟩
  · left
    obtain ⟨_, wa, h1, h⟩ := bind_ok h
    obtain ⟨_, wb, h2, h⟩ := bind_ok h
    obtain ⟨_, wc, h3, h⟩ := bind_ok h
    obtain ⟨_, wd, h4, h⟩ := bind_ok h
    obtain ⟨_, we, h5, h⟩ := bind_ok h
    obtain ⟨tc, w', hnow, h⟩ := bind_ok h
    obtain ⟨rfl, rfl⟩ := now_ok hnow
    exact ⟨wa, wb, wc, wd, we, h1, h2, h3, h4, h5, h⟩
  · right
    obtain ⟨tf, w', hnow, h⟩ := bind_ok h
    obtain ⟨rfl, rfl⟩ := now_ok hnow
    exact ⟨e, _, h⟩

theorem createSystemBackup_ok (env : Env) (id : String) (w w1 : World) (p : String)
    (h : createSystemBackup env id w = (Res.ok p, w1)) :
    p = pathJoin env.backupDir (id ++ ".tar.gz") ∧
    ∃ wc wd,
      createArchive env ("temp_" ++ id) (id ++ ".tar.gz") wc = (Res.ok (), wd) ∧
      rm env ("temp_" ++ id) wd = (Res.ok (), w1) := by
  unfold createSystemBackup at h
  rcases tryCatch_ok h with h | ⟨e, w0, -, h⟩
  · obtain ⟨_, wa, h1, h⟩ := bind_ok h
    obtain ⟨_, wb, h2, h⟩ := bind_ok h
    obtain ⟨_, wc, h3, h⟩ := bind_ok h
    obtain ⟨_, wd, h4, h⟩ := bind_ok h
    obtain ⟨_, we, h5, h⟩ := bind_ok h
    obtain ⟨_, wf, h6, h⟩ := bind_ok h
    simp only [pure_run, Prod.mk.injEq, Res.ok.injEq] at h
    obtain ⟨rfl, rfl⟩ := h
    exact ⟨rfl, wd, we, h5, h6⟩
  · exfalso
    simp only [bind_run] at h
    rcases hrm : tryCatch (rm env ("temp_" ++ id)) (fun _ => pure ()) w0 with ⟨r, w2⟩
    rw [hrm] at h
    cases r <;> simp [raise] at h

theorem performDailyBackup_eq (env : Env) (id : String) :
    performDailyBackup env id =
      tryCatch (do
        let ts ← now env
        let t0 ← now env
        saveBackupMetadata env (dailyRecord env id ts t0)
        let _ ← createSystemBackup env id
        let tc ← now env
        saveBackupMetadata env (completedRecord (dailyRecord env id ts t0) tc)
        cleanupOldBackups env 7
        pure ⟨true, id⟩)
        (fun error => raise error) := rfl

theorem performDailyBackup_ok (env : Env) (id : String) (w w1 : World) (r : DailyResult)
    (h : performDailyBackup env id w = (Res.ok r, w1)) :
    r = ⟨true, id⟩ ∧
    ∃ wa p wb wc,
      saveBackupMetadata env
        (dailyRecord env id (env.clock w.trace.length) (env.clock w.trace.length)) w =
          (Res.ok (), wa) ∧
      createSystemBackup env id wa = (Res.ok p, wb) ∧
      saveBackupMetadata env
        (completedRecord
          (dailyRecord env id (env.clock w.trace.length) (env.clock w.trace.length))
          (env.clock wb.trace.length)) wb = (Res.ok (), wc) ∧
      cleanupOldBackups env 7 wc = (Res.ok (), w1) := by
  rw [performDailyBackup_eq] at h
  rcases tryCatch_ok h with h | ⟨e, w0, -, h⟩
  · obtain ⟨ts, w', hnow, h⟩ := bind_ok h
    obtain ⟨rfl, rfl⟩ := now_ok hnow
    obtain ⟨t0, w', hnow, h⟩ := bind_ok h
    obtain ⟨rfl, rfl⟩ := now_ok hnow
    obtain ⟨_, wa, h1, h⟩ := bind_ok h
    obtain ⟨p, wb, h2, h⟩ := bind_ok h
    obtain ⟨tc, w', hnow, h⟩ := bind_ok h
    obtain ⟨rfl, rfl⟩ := now_ok hnow
    obtain ⟨_, wc, h3, h⟩ := bind_ok h
    obtain ⟨_, wd, h4, h⟩ := bind_ok h
    simp only [pure_run, Prod.mk.injEq, Res.ok.injEq] at h
    obtain ⟨rfl, rfl⟩ := h
    exact ⟨rfl, wa, p, wb, wc, h1, h2, h3, h4⟩
  · simp [raise] at h

theorem spec_performDailyBackup_result (env : Env) (id : String) :
    Spec (performDailyBackup env id) (fun r evs => ∃ ts t0,
      ((∃ e, r = Res.error e) ∧
        (persistedAt (id ++ ".json") evs = [] ∨
          persistedAt (id ++ ".json") evs = [dailyRecord env id ts t0])) ∨
      (r = Res.ok ⟨true, id⟩ ∧ ∃ tc, persistedAt (id ++ ".json") evs =
        [dailyRecord env id ts t0, completedRecord (dailyRecord env id ts t0) tc])) := by
  have hsys : Spec (createSystemBackup env id) (fun _ evs => NoWrite evs) :=
    emits_createSystemBackup (fun ev => ev.op.isWrite = false) (fun _ h => h) env id
  have hclean : Spec (cleanupOldBackups env 7) (fun r evs => NoWrite evs ∧ r = Res.ok ()) := by
    intro w
    obtain ⟨evs, htr, hN⟩ :=
      emits_cleanupOldBackups (fun ev => ev.op.isWrite = false) (fun _ h => h) env 7 w
    obtain ⟨w1, hrun, -⟩ := cleanupOldBackups_run env 7 w
    exact ⟨evs, htr, hN, by rw [hrun]⟩
  have hall := spec_tryCatch
    (spec_bind (spec_now env) (fun ts =>
      spec_bind (spec_now env) (fun t0 =>
        spec_bind (spec_saveBackupMetadata env id (dailyRecord env id ts t0) rfl) (fun _ =>
          spec_bind hsys (fun _ =>
            spec_bind (spec_now env) (fun tc =>
              spec_bind (spec_saveBackupMetadata env id
                (completedRecord (dailyRecord env id ts t0) tc) rfl) (fun _ =>
                spec_bind hclean (fun _ =>
                  spec_pure (⟨true, id⟩ : DailyResult)))))))))
    (fun e => spec_raise e)
  refine Spec.weaken hall ?_
  intro r evs h
  simp only [Res.ok.injEq, exists_eq_left', false_and, exists_false, or_false, false_or,
    exists_const, true_and, and_true, exists_eq', reduceCtorEq, exists_and_left,
    exists_eq_left] at h
  clear hall hsys hclean
  rcases h with ⟨a, rfl, ts, _, _, rfl, rfl, t0, _, _, rfl, rfl, _, _, rfl, rfl, evsS, _, rfl, hS,
      tc, _, _, rfl, rfl, _, _, rfl, rfl, evsC, _, rfl, hC, rfl, rfl⟩ |
    ⟨e, evsB, _, rfl, hbody, rfl, rfl⟩
  · refine ⟨ts, t0, Or.inr ⟨rfl, tc, ?_⟩⟩
    have hS0 := persistedAt_of_no_write (id ++ ".json") evsS hS
    have hC0 := persistedAt_of_no_write (id ++ ".json") evsC hC
    simp only [persistedAt_append, hS0, hC0]
    simp [persistedAt]
  rcases hbody with ⟨_, _, hF⟩ | ⟨ts, _, _, rfl, rfl, hbody⟩
  · exact hF.elim
  rcases hbody with ⟨_, _, hF⟩ | ⟨t0, _, _, rfl, rfl, hbody⟩
  · exact hF.elim
  refine ⟨ts, t0, Or.inl ⟨⟨e, rfl⟩, ?_⟩⟩
  rcases hbody with ⟨_, -, e0, -, rfl⟩ | ⟨_, _, rfl, rfl, hbody⟩
  · exact Or.inl (by simp [persistedAt])
  rcases hbody with ⟨_, -, hS⟩ | ⟨evsS, _, rfl, hS, hbody⟩
  · have hS0 := persistedAt_of_no_write (id ++ ".json") _ hS
    refine Or.inr ?_
    simp only [persistedAt_append, hS0]
    simp [persistedAt]
  have hS0 := persistedAt_of_no_write (id ++ ".json") evsS hS
  rcases hbody with ⟨_, _, hF⟩ | ⟨tc, _, _, rfl, rfl, hbody⟩
  · exact hF.elim
  rcases hbody with ⟨_, -, e0, -, rfl⟩ | ⟨_, _, rfl, rfl, hbody⟩
  · refine Or.inr ?_
    simp only [persistedAt_append, hS0]
    simp [persistedAt]
  rcases hbody with ⟨_, -, hC⟩ | ⟨_, _, _, _, hF⟩
  · exact hC.2.elim
  · exact hF.elim

theorem endsWith_append (a s : String) : endsWith (a ++ s) s = true := by
  unfold endsWith
  rw [String.data_append, List.isSuffixOf_iff_suffix]
  exact List.suffix_append _ _

theorem find_isSome_of_recordAt (d : Dir) (name : String) (m : Metadata)
    (h : recordAt d name = some m) : (d.find name).isSome = true := by
  unfold recordAt at h
  split at h
  · next hfind => simp [hfind]
  · simp at h

/-! ## A completed record and its archive -/

theorem completedWithArchive_of_steps {env : Env} {id : String} {m : Metadata}
    (hid : m.id = some id) {wc wd we w1 : World}
    (harch : createArchive env ("temp_" ++ id) (id ++ ".tar.gz") wc = (Res.ok (), wd))
    (hrm : rm env ("temp_" ++ id) wd = (Res.ok (), we))
    (hsave : saveBackupMetadata env m we = (Res.ok (), w1)) :
    CompletedWithArchive id m w1 := by
  obtain ⟨⟨size, hfind⟩, hrec, htr⟩ := archived_state hid harch hrm hsave
  refine ⟨⟨wc.trace, htr⟩, ⟨size, hfind⟩, hrec, ?_⟩
  intro env2 hnf
  refine ⟨_, getBackupList_of_noFault env2 hnf w1, ?_⟩
  refine ⟨⟨m, size, pathJoin env2.backupDir (id ++ ".tar.gz")⟩, ?_, rfl⟩
  rw [mem_jsSort, List.mem_filterMap]
  refine ⟨id ++ ".json", ?_, ?_⟩
  · have hsome := find_isSome_of_recordAt _ _ _ hrec
    cases hf : w1.fs.find (id ++ ".json") with
    | none => simp [hf] at hsome
    | some node => exact List.mem_map.2 ⟨(id ++ ".json", node), mem_of_find _ _ _ hf, rfl⟩
  · simp [listedAt, endsWith_append, hrec, hid, tmpl, hfind, statSize]

theorem jobRun_of_completed_persisted (id : String) (m0 : Metadata) (r : Res Unit)
    (evs : List Event) (hJ : JobRun id m0 OnlyAux r evs) (h0 : m0.status = some "in_progress")
    (m : Metadata) (hm : m ∈ persistedAt (id ++ ".json") evs)
    (hs : m.status = some "completed") :
    r = Res.ok () ∧ ∃ pre, evs = pre ++ [⟨Op.writeFile (id ++ ".json") m, none⟩] := by
  have hne : m ≠ m0 := by
    intro h
    rw [h, h0] at hs
    simp at hs
  have hnf : ∀ e t, m ≠ failedRecord m0 e t := by
    intro e t h
    rw [h] at hs
    simp [failedRecord] at hs
  cases hJ with
  | initialWriteFailed e t ef =>
    exfalso
    cases ef <;> simp [persistedAt] at hm
    exact hnf _ _ hm
  | mkdirFailed e t ef =>
    exfalso
    cases ef <;> simp [persistedAt] at hm
    · rcases hm with h | h
      · exact hne h
      · exact hnf _ _ h
    · exact hne hm
  | producerFailed evsA e t ef hA =>
    exfalso
    have hA0 := persistedAt_of_onlyAux (id ++ ".json") _ _ hA
    simp only [persistedAt_append, hA0] at hm
    cases ef <;> simp [persistedAt] at hm
    · rcases hm with h | h
      · exact hne h
      · exact hnf _ _ h
    · exact hne hm
  | archiveFailed evsA e t ef hA =>
    exfalso
    have hA0 := persistedAt_of_onlyAux (id ++ ".json") _ _ hA
    simp only [persistedAt_append, hA0] at hm
    cases ef <;> simp [persistedAt] at hm
    · rcases hm with h | h
      · exact hne h
      · exact hnf _ _ h
    · exact hne hm
  | removeFailed evsA e t ef hA =>
    exfalso
    have hA0 := persistedAt_of_onlyAux (id ++ ".json") _ _ hA
    simp only [persistedAt_append, hA0] at hm
    cases ef <;> simp [persistedAt] at hm
    · rcases hm with h | h
      · exact hne h
      · exact hnf _ _ h
    · exact hne hm
  | finalWriteFailed evsA e tc t ef hA =>
    exfalso
    have hA0 := persistedAt_of_onlyAux (id ++ ".json") _ _ hA
    simp only [persistedAt_append, hA0] at hm
    cases ef <;> simp [persistedAt] at hm
    · rcases hm with h | h
      · exact hne h
      · exact hnf _ _ h
    · exact hne hm
  | completed evsA tc hA =>
    have hA0 := persistedAt_of_onlyAux (id ++ ".json") _ _ hA
    simp only [persistedAt_append, hA0] at hm
    simp [persistedAt] at hm
    rcases hm with h | h
    · exact absurd h hne
    · subst h
      exact ⟨rfl, [⟨Op.writeFile (id ++ ".json") m0, none⟩, ⟨Op.mkdir ("temp_" ++ id), none⟩] ++
        evsA ++ [⟨Op.archive ("temp_" ++ id) (id ++ ".tar.gz"), none⟩,
          ⟨Op.rm ("temp_" ++ id), none⟩], by simp⟩

theorem jobShape_completed (env : Env) (id : String) (metadata : Int → Metadata)
    (hid : ∀ t, (metadata t).id = some id) (h0 : ∀ t, (metadata t).status = some "in_progress")
    (producers : M Unit) (hp : Emits (fun ev => ev.op.isAux = true) producers)
    (w : World) (m : Metadata) (hs : m.status = some "completed")
    (hm : m ∈ persistedAt (id ++ ".json")
      (newEvents w (jobShape env id metadata producers w).2)) :
    CompletedWithArchive id m (jobShape env id metadata producers w).2 := by
  obtain ⟨evs, htr, t0, hJ⟩ := spec_jobShape env id metadata hid producers OnlyAux hp w
  rw [newEvents_of_trace w _ evs htr] at hm
  obtain ⟨hr, pre, hevs⟩ := jobRun_of_completed_persisted id _ _ _ hJ (h0 t0) m hm hs
  rcases hrun : jobShape env id metadata producers w with ⟨r, w1⟩
  rw [hrun] at htr hr
  simp only at htr hr
  subst hr
  have hlast : ∀ (l : List Event) (ev : Event), w1.trace = l ++ [ev] →
      ev = ⟨Op.writeFile (id ++ ".json") m, none⟩ := by
    intro l ev hl
    rw [htr, hevs, ← List.append_assoc] at hl
    have := (List.append_inj' hl rfl).2
    simpa using this.symm
  rcases jobShape_ok env id metadata producers w w1 hrun with
    ⟨wa, wb, wc, wd, we, -, -, -, h4, h5, h6⟩ | ⟨e, w0, hf⟩
  · have hst := completedWithArchive_of_steps
      (show (completedRecord (metadata (env.clock w.trace.length))
        (env.clock we.trace.length)).id = some id from hid _) h4 h5 h6
    obtain ⟨pre1, htr1⟩ := hst.1
    have heq := hlast (pre1 ++ [⟨Op.archive ("temp_" ++ id) (id ++ ".tar.gz"), none⟩,
      ⟨Op.rm ("temp_" ++ id), none⟩])
      ⟨Op.writeFile (id ++ ".json") (completedRecord (metadata (env.clock w.trace.length))
        (env.clock we.trace.length)), none⟩ (by rw [htr1]; simp)
    simp only [Event.mk.injEq, Op.writeFile.injEq, true_and, and_true] at heq
    rw [← heq]
    exact hst
  · exfalso
    obtain ⟨-, htrf⟩ := saveBackupMetadata_ok hf
    have heq := hlast _ _ htrf
    simp only [Event.mk.injEq, Op.writeFile.injEq, and_true] at heq
    have := congrArg Metadata.status heq.2
    rw [hs] at this
    simp [failedRecord] at this

/-! ## The daily entry point -/

theorem performDailyBackup_ok_full (env : Env) (id : String) (w w1 : World) (r : DailyResult)
    (h : performDailyBackup env id w = (Res.ok r, w1)) :
    r = ⟨true, id⟩ ∧
    ∃ ts t0 tc wa p wb wc,
      saveBackupMetadata env (dailyRecord env id ts t0) w = (Res.ok (), wa) ∧
      createSystemBackup env id wa = (Res.ok p, wb) ∧
      saveBackupMetadata env (completedRecord (dailyRecord env id ts t0) tc) wb =
        (Res.ok (), wc) ∧
      cleanupOldBackups env 7 wc = (Res.ok (), w1) ∧
      persistedAt (id ++ ".json") (newEvents w w1) =
        [dailyRecord env id ts t0, completedRecord (dailyRecord env id ts t0) tc] ∧
      CompletedWithArchive id (completedRecord (dailyRecord env id ts t0) tc) wc := by
  obtain ⟨hr, wa, p, wb, wc, h1, h2, h3, h4⟩ := performDailyBackup_ok env id w w1 r h
  refine ⟨hr, _, _, _, wa, p, wb, wc, h1, h2, h3, h4, ?_, ?_⟩
  · obtain ⟨-, htr1⟩ := saveBackupMetadata_ok h1
    obtain ⟨evsS, htr2, hS⟩ :=
      emits_createSystemBackup (fun ev => ev.op.isWrite = false) (fun _ h => h) env id wa
    obtain ⟨-, htr3⟩ := saveBackupMetadata_ok h3
    obtain ⟨evsC, htr4, hC⟩ :=
      emits_cleanupOldBackups (fun ev => ev.op.isWrite = false) (fun _ h => h) env 7 wc
    rw [h2] at htr2
    rw [h4] at htr4
    simp only at htr2 htr4
    have htr : w1.trace = w.trace ++
        ([⟨Op.writeFile (id ++ ".json")
            (dailyRecord env id (env.clock w.trace.length) (env.clock w.trace.length)), none⟩] ++
          evsS ++
          [⟨Op.writeFile (id ++ ".json")
            (completedRecord
              (dailyRecord env id (env.clock w.trace.length) (env.clock w.trace.length))
              (env.clock wb.trace.length)), none⟩] ++ evsC) := by
      rw [htr4, htr3, htr2, htr1]
      simp [tmpl, dailyRecord, completedRecord]
    rw [newEvents_of_trace w w1 _ htr]
    have hS0 := persistedAt_of_no_write (id ++ ".json") evsS hS
    have hC0 := persistedAt_of_no_write (id ++ ".json") evsC hC
    simp only [persistedAt_append, hS0, hC0]
    simp [persistedAt]
  · obtain ⟨-, wc0, wd, h5, h6⟩ := createSystemBackup_ok env id wa wb p h2
    exact completedWithArchive_of_steps rfl h5 h6 h3

/-- C18. The daily entry point: every run of `performDailyBackup` that returns
normally is, in this order, the successful write of the initial record with the id
`uuidv4()` returned, the type `daily_auto` and `automated = true`; a run of
`createSystemBackup` that returns normally; the successful write of that record with
status `completed` (the two records being all that the run persists in `{id}.json`);
and then the call `cleanupOldBackups(7)`, after which
`{success: true, backupId}` is returned. -/
theorem daily_entry_point (env : Env) (uuid : String) (w w1 : World) (r : DailyResult)
    (hrun : performDailyBackup env uuid w = (Res.ok r, w1)) :
    r = ⟨true, uuid⟩ ∧
    ∃ m0 tc wa p wb wc,
      m0.id = some uuid ∧ m0.type = some "daily_auto" ∧ m0.automated = true ∧
      m0.status = some "in_progress" ∧
      (completedRecord m0 tc).status = some "completed" ∧
      saveBackupMetadata env m0 w = (Res.ok (), wa) ∧
      createSystemBackup env uuid wa = (Res.ok p, wb) ∧
      saveBackupMetadata env (completedRecord m0 tc) wb = (Res.ok (), wc) ∧
      recordAt wc.fs (uuid ++ ".json") = some (completedRecord m0 tc) ∧
      cleanupOldBackups env 7 wc = (Res.ok (), w1) ∧
      persistedAt (uuid ++ ".json") (newEvents w w1) = [m0, completedRecord m0 tc] := by
  obtain ⟨hr, ts, t0, tc, wa, p, wb, wc, h1, h2, h3, h4, hp, hc⟩ :=
    performDailyBackup_ok_full env uuid w w1 r hrun
  exact ⟨hr, dailyRecord env uuid ts t0, tc, wa, p, wb, wc, rfl, rfl, rfl, rfl, rfl, h1, h2, h3,
    hc.2.2.1, h4, hp⟩

set_option maxRecDepth 100000 in
/-- Witness of C18: the daily backup of an empty directory in which no call fails. -/
theorem daily_entry_point_witness :
    (performDailyBackup calmEnv "job1" ⟨[], []⟩).1 = Res.ok ⟨true, "job1"⟩ ∧
    ∃ m0 tc wa p wb wc,
      m0.id = some "job1" ∧ m0.type = some "daily_auto" ∧ m0.automated = true ∧
      m0.status = some "in_progress" ∧
      (completedRecord m0 tc).status = some "completed" ∧
      saveBackupMetadata calmEnv m0 ⟨[], []⟩ = (Res.ok (), wa) ∧
      createSystemBackup calmEnv "job1" wa = (Res.ok p, wb) ∧
      saveBackupMetadata calmEnv (completedRecord m0 tc) wb = (Res.ok (), wc) ∧
      recordAt wc.fs ("job1" ++ ".json") = some (completedRecord m0 tc) ∧
      cleanupOldBackups calmEnv 7 wc =
        (Res.ok (), (performDailyBackup calmEnv "job1" ⟨[], []⟩).2) ∧
      persistedAt ("job1" ++ ".json")
          (newEvents ⟨[], []⟩ (performDailyBackup calmEnv "job1" ⟨[], []⟩).2) =
        [m0, completedRecord m0 tc] :=
  ⟨by decide!,
    (daily_entry_point calmEnv "job1" ⟨[], []⟩ (performDailyBackup calmEnv "job1" ⟨[], []⟩).2
      ⟨true, "job1"⟩ (by decide!)).2⟩

theorem completedAfterArchive_of_withArchive {id : String} {m : Metadata} {w : World}
    (h : CompletedWithArchive id m w) : CompletedAfterArchive id m w :=
  ⟨h.1, h.2.2.1, fun _ => h.2.2.2⟩

/-- C11, as amended. Completed implies that `createArchive` resolved. For
`createFullBackup`, `createDatabaseBackup` and `createConfigBackup`: whenever a run
persists a record `m` with status `completed` in `{id}.json`, whichever calls failed,
the write of `m` is the last call of the run and follows a call of `createArchive` for
`{id}.tar.gz` that resolved and the successful removal of the working directory; in the
state the run leaves, `{id}.json` holds `m`, and if a child `{id}.tar.gz` is there, a
listing in which no call fails returns `m`. For `performDailyBackup` the same holds of
the state in which the call `cleanupOldBackups(7)` that ends the run starts, which is
the state right after the write. -/
theorem completed_implies_archive (env : Env) (w : World) (id : String)
    (description : Option String) (options : FullOptions)
    (databases services : Option (List String)) (m : Metadata)
    (hs : m.status = some "completed") :
    (m ∈ persistedAt (id ++ ".json")
        (newEvents w (createFullBackup env id description options w).2) →
      CompletedAfterArchive id m (createFullBackup env id description options w).2) ∧
    (m ∈ persistedAt (id ++ ".json")
        (newEvents w (createDatabaseBackup env id databases description w).2) →
      CompletedAfterArchive id m (createDatabaseBackup env id databases description w).2) ∧
    (m ∈ persistedAt (id ++ ".json")
        (newEvents w (createConfigBackup env id services description w).2) →
      CompletedAfterArchive id m (createConfigBackup env id services description w).2) ∧
    (m ∈ persistedAt (id ++ ".json") (newEvents w (performDailyBackup env id w).2) →
      ∃ wc, CompletedAfterArchive id m wc ∧
        cleanupOldBackups env 7 wc = (Res.ok (), (performDailyBackup env id w).2)) := by
  refine ⟨?_, ?_, ?_, ?_⟩
  · rw [createFullBackup_eq]
    exact fun hm => completedAfterArchive_of_withArchive
      (jobShape_completed env id _ (fun _ => rfl) (fun _ => rfl) _
        (emits_fullProducers _ (fun _ h => h) env id options) w m hs hm)
  · rw [createDatabaseBackup_eq]
    exact fun hm => completedAfterArchive_of_withArchive
      (jobShape_completed env id _ (fun _ => rfl) (fun _ => rfl) _
        (emits_databaseProducers _ (fun _ h => h) env id databases) w m hs hm)
  · rw [createConfigBackup_eq]
    exact fun hm => completedAfterArchive_of_withArchive
      (jobShape_completed env id _ (fun _ => rfl) (fun _ => rfl) _
        (emits_configProducers _ (fun _ h => h) env id services) w m hs hm)
  · intro hm
    obtain ⟨evs, htr, ts, t0, hcase⟩ := spec_performDailyBackup_result env id w
    rw [newEvents_of_trace w _ evs htr] at hm
    rcases hcase with ⟨-, hp | hp⟩ | ⟨hr, -⟩
    · rw [hp] at hm
      simp at hm
    · rw [hp, List.mem_singleton] at hm
      rw [hm] at hs
      simp [dailyRecord] at hs
    · rcases hrun : performDailyBackup env id w with ⟨r, w1⟩
      rw [hrun] at hr
      simp only at hr
      subst hr
      obtain ⟨-, ts1, t1, tc, wa, p, wb, wc, -, -, -, h4, hp, hc⟩ :=
        performDailyBackup_ok_full env id w w1 _ hrun
      rw [newEvents_of_trace w _ evs (by rw [← htr, hrun])] at hp
      rw [hp] at hm
      simp only [List.mem_cons, List.mem_singleton, List.not_mem_nil, or_false] at hm
      rcases hm with hm | hm
      · rw [hm] at hs
        simp [dailyRecord] at hs
      · rw [hm]
        exact ⟨wc, completedAfterArchive_of_withArchive hc, h4⟩

set_option maxRecDepth 100000 in
/-- Witness of C11 as amended: a full backup of an empty directory in which no call
fails persists its completed record. -/
theorem completed_implies_archive_witness :
    (completedRecord (fullRecord "job1" none ⟨true, true⟩ 0) 38).status = some "completed" ∧
    completedRecord (fullRecord "job1" none ⟨true, true⟩ 0) 38 ∈
      persistedAt ("job1" ++ ".json")
        (newEvents ⟨[], []⟩ (createFullBackup calmEnv "job1" none ⟨true, true⟩ ⟨[], []⟩).2) ∧
    CompletedAfterArchive "job1" (completedRecord (fullRecord "job1" none ⟨true, true⟩ 0) 38)
      (createFullBackup calmEnv "job1" none ⟨true, true⟩ ⟨[], []⟩).2 :=
  ⟨rfl, by decide!,
    (completed_implies_archive calmEnv ⟨[], []⟩ "job1" none ⟨true, true⟩ none none
      (completedRecord (fullRecord "job1" none ⟨true, true⟩ 0) 38) rfl).1 (by decide!)⟩

set_option maxRecDepth 100000 in
/-- Counterexample to C11 as stated: during the daily backup `job1` and during the
full backup `job2` the disk is full. The write stream of `createArchive` emits `error`
and is closed, no byte of the archive having been written; the archiver emits no
`error`, so that the promise is resolved. Both runners persist `completed`, and the
record is then listed, with an archive of size 0. -/
theorem completed_with_empty_archive :
    archivePromise diskFullStreams = some (Res.ok ()) ∧
    ((performDailyBackup (streamsEnv diskFullStreams 0) "job1" ⟨[], []⟩).1 =
        Res.ok ⟨true, "job1"⟩ ∧
      (persistedAt "job1.json" (newEvents ⟨[], []⟩
        (performDailyBackup (streamsEnv diskFullStreams 0) "job1" ⟨[], []⟩).2)).map
          (fun m => m.status) = [some "in_progress", some "completed"] ∧
      (performDailyBackup (streamsEnv diskFullStreams 0) "job1" ⟨[], []⟩).2.fs.find
        "job1.tar.gz" = some (Node.file none 0)) ∧
    ((persistedAt "job2.json" (newEvents ⟨[], []⟩
        (createFullBackup (streamsEnv diskFullStreams 0) "job2" none ⟨true, true⟩
          ⟨[], []⟩).2)).map (fun m => m.status) = [some "in_progress", some "completed"] ∧
      (createFullBackup (streamsEnv diskFullStreams 0) "job2" none ⟨true, true⟩
        ⟨[], []⟩).2.fs.find "job2.tar.gz" = some (Node.file none 0) ∧
      ((getBackupList calmEnv (createFullBackup (streamsEnv diskFullStreams 0) "job2" none
        ⟨true, true⟩ ⟨[], []⟩).2).1 =
          Res.ok [⟨completedRecord (fullRecord "job2" none ⟨true, true⟩ 0) 38, 0,
            "/var/backups/buddybox/job2.tar.gz"⟩])) :=
  ⟨by decide, ⟨by decide!, by decide!, by decide!⟩, ⟨by decide!, by decide!, by decide!⟩⟩

theorem writes_of_not_write (P : Metadata → Prop) (ev : Event) (h : ev.op.isWrite = false) :
    ∀ name m, ev.op = Op.writeFile name m → P m := by
  intro name m hop
  rw [hop] at h
  simp [Op.isWrite] at h

theorem writes_of_write (P : Metadata → Prop) (m0 : Metadata) (h : P m0) (name0 : String)
    (err : Option String) :
    ∀ name m, (⟨Op.writeFile name0 m0, err⟩ : Event).op = Op.writeFile name m → P m := by
  intro name m hop
  simp only [Op.writeFile.injEq] at hop
  rw [← hop.2]
  exact h

theorem emits_writes_performDailyBackup (env : Env) (uuid : String) :
    Emits (fun ev => ∀ name m, ev.op = Op.writeFile name m →
        m.status ≠ some "failed" ∧ m.error = none)
      (performDailyBackup env uuid) := by
  unfold performDailyBackup
  repeat' first
    | exact emits_pure _ _
    | exact emits_raise _ _
    | exact emits_now _ _
    | exact emits_createSystemBackup _ (writes_of_not_write _) env _
    | exact emits_cleanupOldBackups _ (writes_of_not_write _) env _
    | exact emits_saveBackupMetadata _ env _
        (fun err => writes_of_write _ _ (by simp) _ err)
    | apply emits_bind
    | apply emits_tryCatch
    | intro _

set_option maxRecDepth 100000 in
/-- C19. A fatal error of the daily job is not recorded. In every run of
`performDailyBackup`, whichever calls fail, no record with status `failed` or with an
error message is ever written, and when the run throws, every record it persisted in
`{id}.json` has status `in_progress` and neither an error message nor `completedAt`.
At the failing input, the daily backup `job1` of an empty directory in which the
construction of the archive fails with `disk full` and every other call succeeds, the
run throws `disk full`, the only status it persists is `in_progress`, and the record
it leaves in `job1.json` has status `in_progress`; on the same input the last record
`createFullBackup` persists has status `failed`. -/
theorem daily_failure_not_recorded (env : Env) (id : String) (w : World) :
    (∀ ev ∈ newEvents w (performDailyBackup env id w).2, ∀ name m,
      ev.op = Op.writeFile name m → m.status ≠ some "failed" ∧ m.error = none) ∧
    (∀ e, (performDailyBackup env id w).1 = Res.error e →
      ∀ m ∈ persistedAt (id ++ ".json") (newEvents w (performDailyBackup env id w).2),
        m.status = some "in_progress" ∧ m.error = none ∧ m.completedAt = none) ∧
    (performDailyBackup archiveFailureEnv "job1" ⟨[], []⟩).1 = Res.error "disk full" ∧
    (persistedAt ("job1" ++ ".json")
      (newEvents ⟨[], []⟩ (performDailyBackup archiveFailureEnv "job1" ⟨[], []⟩).2)).map
        (fun m => m.status) = [some "in_progress"] ∧
    (recordAt (performDailyBackup archiveFailureEnv "job1" ⟨[], []⟩).2.fs
      ("job1" ++ ".json")).map (fun m => m.status) = some (some "in_progress") ∧
    (persistedAt ("job1" ++ ".json")
      (newEvents ⟨[], []⟩
        (createFullBackup archiveFailureEnv "job1" none ⟨true, true⟩ ⟨[], []⟩).2)).getLast?.map
        (fun m => m.status) = some (some "failed") := by
  refine ⟨newEvents_of_emits _ (emits_writes_performDailyBackup env id) w, ?_,
    by decide!, by decide!, by decide!, by decide!⟩
  intro e he m hm
  obtain ⟨evs, htr, ts, t0, hcase⟩ := spec_performDailyBackup_result env id w
  rw [newEvents_of_trace w _ evs htr] at hm
  rcases hcase with ⟨-, hp | hp⟩ | ⟨hr, -⟩
  · rw [hp] at hm
    simp at hm
  · rw [hp, List.mem_singleton] at hm
    rw [hm]
    exact ⟨rfl, rfl, rfl⟩
  · rw [hr] at he
    simp at he

/-! ## Role authorization -/

/-- C23. Role authorization: for every list of allowed roles and every role `r` of
the authenticated user, the middleware `authorize(...roles)` calls `next` exactly
once: with no argument if and only if `r` is one of the roles, and otherwise with an
`AppError` whose `statusCode` is 403 (and whose `status` is `fail`). A `user` is
refused by `authorize('admin', 'superadmin')` and an `admin` is admitted. -/
theorem authorize_admits_listed_roles (roles : List String) (r : String) :
    (authorize roles r = [NextCall.proceed] ↔ r ∈ roles) ∧
    (r ∉ roles ↔ ∃ err, authorize roles r = [NextCall.fail err] ∧ err.statusCode = 403 ∧
      err.status = "fail" ∧ err.message = "Not authorized to access this route") ∧
    (∃ call, authorize roles r = [call]) ∧
    authorize ["admin", "superadmin"] "user" =
      [NextCall.fail ⟨"Not authorized to access this route", 403, "fail", true⟩] ∧
    authorize ["admin", "superadmin"] "admin" = [NextCall.proceed] := by
  refine ⟨?_, ?_, ?_, by decide, by decide⟩
  · unfold authorize
    by_cases h : r ∈ roles
    · simp [h]
    · simp [h]
  · unfold authorize
    by_cases h : r ∈ roles
    · simp [h]
    · simp only [h, not_false_eq_true, true_iff]
      refine ⟨AppError.create "Not authorized to access this route" 403, ?_, rfl, by decide, rfl⟩
      simp [h]
  · unfold authorize
    split
    · exact ⟨_, rfl⟩
    · exact ⟨_, rfl⟩

/-! ## The backup root of the two modules -/

theorem jsOr_of_nonempty (s d : String) (h : s ≠ "") : jsOr (some s) d = s := by
  simp [jsOr, h]

theorem backups_ne_buddybox (cwd : String) : pathJoin cwd "backups" ≠ "/var/backups/buddybox" := by
  intro h
  have hd := congrArg (fun s => s.data.reverse.head?) h
  simp [pathJoin, String.data_append] at hd

set_option maxRecDepth 100000 in
/-- C27. The backup root of the two modules. When `BACKUP_DIR` is set to a non-empty
string, the service and the API use it as their root. When it is unset (or empty) the
service uses `{cwd}/backups` and the API `/var/backups/buddybox`, which are different
directories whatever the working directory is. At the failing input, `BACKUP_DIR` unset
and the working directory `/opt/buddybox`, the daily backup `job1` succeeds and the
listing of the API, which reads another directory, returns no record; with `BACKUP_DIR`
set to `/srv/backups` the listing returns the record of `job1`. -/
theorem backup_roots_differ :
    (∀ s cwd, s ≠ "" → serviceBackupDir (some s) cwd = routesBackupDir (some s)) ∧
    (∀ cwd, serviceBackupDir none cwd ≠ routesBackupDir none) ∧
    (∀ cwd, serviceBackupDir (some "") cwd ≠ routesBackupDir (some "")) ∧
    serviceBackupDir none "/opt/buddybox" = "/opt/buddybox/backups" ∧
    routesBackupDir none = "/var/backups/buddybox" ∧
    listAfterDaily calmEnv none "job1" [] [] = (Res.ok ⟨true, "job1"⟩, Res.ok []) ∧
    (listAfterDaily calmEnv (some "/srv/backups") "job1" [] []).2 =
      Res.ok [⟨completedRecord (dailyRecord calmEnv "job1" 0 0) 19, 4096,
        "/srv/backups/job1.tar.gz"⟩] := by
  refine ⟨?_, ?_, ?_, by decide, by decide, by decide!, by decide!⟩
  · intro s cwd h
    simp [serviceBackupDir, routesBackupDir, jsOr, h]
  · intro cwd
    simpa [serviceBackupDir, routesBackupDir, jsOr] using backups_ne_buddybox cwd
  · intro cwd
    simpa [serviceBackupDir, routesBackupDir, jsOr] using backups_ne_buddybox cwd

/-! ## Paths derived from an id -/

theorem splitSlash_ne_nil (l : List Char) : splitSlash l ≠ [] := by
  cases l with
  | nil => simp [splitSlash]
  | cons c cs =>
    unfold splitSlash
    split
    · simp
    · split <;> simp

theorem splitSlash_of_noSlash (l : List Char) (h : '/' ∉ l) : splitSlash l = [l] := by
  induction l with
  | nil => rfl
  | cons c cs ih =>
    have hc : c ≠ '/' := fun hc => h (by simp [hc])
    have hcs : '/' ∉ cs := fun hm => h (List.mem_cons_of_mem _ hm)
    unfold splitSlash
    rw [if_neg hc, ih hcs]

theorem splitSlash_append (a b : List Char) :
    splitSlash (a ++ '/' :: b) = splitSlash a ++ splitSlash b := by
  induction a with
  | nil => simp [splitSlash]
  | cons c cs ih =>
    by_cases hc : c = '/'
    · simp only [List.cons_append]
      rw [splitSlash, if_pos hc, ih, splitSlash, if_pos hc]
      rfl
    · simp only [List.cons_append]
      rw [splitSlash, if_neg hc, ih, splitSlash, if_neg hc]
      cases hs : splitSlash cs with
      | nil => exact absurd hs (splitSlash_ne_nil cs)
      | cons s rest => rfl

theorem normalizeStep_of_name (allow : Bool) (stack : List (List Char)) (seg : List Char)
    (h1 : seg ≠ []) (h2 : seg ≠ ['.']) (h3 : seg ≠ ['.', '.']) :
    normalizeStep allow stack seg = seg :: stack := by
  simp [normalizeStep, h1, h2, h3]

theorem pathSegments_child (root name : String) (hroot : root ≠ "")
    (hslash : '/' ∉ name.data) (h1 : name.data ≠ []) (h2 : name.data ≠ ['.'])
    (h3 : name.data ≠ ['.', '.']) :
    joinSegments root name = pathSegments root ++ [name] := by
  unfold joinSegments pathSegments
  have hdata : (root ++ "/" ++ name).data = root.data ++ '/' :: name.data := by
    simp [String.data_append]
  have hhead : (root ++ "/" ++ name).data.head? = root.data.head? := by
    rw [hdata]
    cases hr : root.data with
    | nil => exact absurd (String.ext hr) hroot
    | cons c cs => rfl
  rw [hhead, hdata, splitSlash_append, splitSlash_of_noSlash _ hslash, List.foldl_append]
  simp only [List.foldl_cons, List.foldl_nil]
  rw [normalizeStep_of_name _ _ _ h1 h2 h3]
  simp

theorem json_name_is_segment (id : String) :
    (id ++ ".json").data ≠ [] ∧ (id ++ ".json").data ≠ ['.'] ∧
      (id ++ ".json").data ≠ ['.', '.'] := by
  refine ⟨?_, ?_, ?_⟩ <;> intro h <;>
    · have hd := congrArg (fun l => l.reverse.head?) h
      simp [String.data_append] at hd

theorem targz_name_is_segment (id : String) :
    (id ++ ".tar.gz").data ≠ [] ∧ (id ++ ".tar.gz").data ≠ ['.'] ∧
      (id ++ ".tar.gz").data ≠ ['.', '.'] := by
  refine ⟨?_, ?_, ?_⟩ <;> intro h <;>
    · have hd := congrArg (fun l => l.reverse.head?) h
      simp [String.data_append] at hd

theorem routesBackupDir_ne_empty (setting : Option String) : routesBackupDir setting ≠ "" := by
  unfold routesBackupDir jsOr
  cases setting with
  | none => decide
  | some s =>
    by_cases h : s = ""
    · simp [h]
    · simp [h]

theorem emits_store_getBackupStatus (env : Env) (id : String) :
    Emits (fun ev => ev.op.isStoreCallOf id = true) (getBackupStatus env id) := by
  unfold getBackupStatus readJson
  repeat' first
    | exact emits_pure _ _
    | exact emits_raise _ _
    | exact emits_perform _ env _ _ (fun _ => by simp [Op.isStoreCallOf])
    | apply emits_bind
    | apply emits_tryCatch
    | intro _

theorem emits_store_fileExists (env : Env) (id name : String)
    (h : name = id ++ ".json" ∨ name = id ++ ".tar.gz") :
    Emits (fun ev => ev.op.isStoreCallOf id = true) (fileExists env name) := by
  unfold fileExists access
  repeat' first
    | exact emits_pure _ _
    | exact emits_perform _ env _ _ (fun _ => by
        rcases h with h | h <;> simp [Op.isStoreCallOf, h])
    | apply emits_bind
    | apply emits_tryCatch
    | intro _

theorem emits_store_getBackupPath (env : Env) (id : String) :
    Emits (fun ev => ev.op.isStoreCallOf id = true) (getBackupPath env id) := by
  unfold getBackupPath
  repeat' first
    | exact emits_pure _ _
    | exact emits_store_fileExists env id _ (Or.inr rfl)
    | apply emits_bind
    | intro _

theorem emits_store_deleteBackup (env : Env) (id : String) :
    Emits (fun ev => ev.op.isStoreCallOf id = true) (deleteBackup env id) := by
  unfold deleteBackup unlink
  repeat' first
    | exact emits_pure _ _
    | exact emits_raise _ _
    | exact emits_store_fileExists env id _ (Or.inr rfl)
    | exact emits_store_fileExists env id _ (Or.inl rfl)
    | exact emits_perform _ env _ _ (fun _ => by simp [Op.isStoreCallOf])
    | apply emits_bind
    | apply emits_tryCatch
    | apply emits_ite
    | intro _

/-- C30, as amended. Id-derived paths: whichever calls fail, `getBackupStatus`,
`getBackupPath` and `deleteBackup` read, probe or unlink no other path than
`path.join(BACKUP_DIR, id + '.json')` and `path.join(BACKUP_DIR, id + '.tar.gz')`; and
for every setting of `BACKUP_DIR` and every id that contains no path separator, these
two paths are the direct children `{id}.json` and `{id}.tar.gz` of `BACKUP_DIR`. -/
theorem id_paths_are_children (env : Env) (setting : Option String) (id : String) (w : World) :
    (∀ ev ∈ newEvents w (getBackupStatus env id w).2, ev.op.isStoreCallOf id = true) ∧
    (∀ ev ∈ newEvents w (getBackupPath env id w).2, ev.op.isStoreCallOf id = true) ∧
    (∀ ev ∈ newEvents w (deleteBackup env id w).2, ev.op.isStoreCallOf id = true) ∧
    ('/' ∉ id.data →
      joinSegments (routesBackupDir setting) (id ++ ".json") =
        pathSegments (routesBackupDir setting) ++ [id ++ ".json"] ∧
      joinSegments (routesBackupDir setting) (id ++ ".tar.gz") =
        pathSegments (routesBackupDir setting) ++ [id ++ ".tar.gz"] ∧
      DirectChild (routesBackupDir setting)
        (joinSegments (routesBackupDir setting) (id ++ ".json")) ∧
      DirectChild (routesBackupDir setting)
        (joinSegments (routesBackupDir setting) (id ++ ".tar.gz"))) := by
  refine ⟨newEvents_of_emits _ (emits_store_getBackupStatus env id) w,
    newEvents_of_emits _ (emits_store_getBackupPath env id) w,
    newEvents_of_emits _ (emits_store_deleteBackup env id) w, ?_⟩
  intro hid
  have hj : '/' ∉ (id ++ ".json").data := by
    simp [String.data_append, hid]
  have ht : '/' ∉ (id ++ ".tar.gz").data := by
    simp [String.data_append, hid]
  obtain ⟨j1, j2, j3⟩ := json_name_is_segment id
  obtain ⟨t1, t2, t3⟩ := targz_name_is_segment id
  have h1 := pathSegments_child (routesBackupDir setting) (id ++ ".json")
    (routesBackupDir_ne_empty setting) hj j1 j2 j3
  have h2 := pathSegments_child (routesBackupDir setting) (id ++ ".tar.gz")
    (routesBackupDir_ne_empty setting) ht t1 t2 t3
  exact ⟨h1, h2, ⟨_, h1⟩, ⟨_, h2⟩⟩

set_option maxRecDepth 100000 in
/-- Counterexample to C30 as stated: for the id `../../etc/passwd` and `BACKUP_DIR`
unset, `deleteBackup` probes and unlinks the path of the archive, which is
`/var/etc/passwd.tar.gz`, and `getBackupStatus` reads `/var/etc/passwd.json`: neither is
a child of `/var/backups/buddybox` nor below it. -/
theorem traversal_leaves_root :
    pathSegments (routesBackupDir none) = ["var", "backups", "buddybox"] ∧
    joinSegments (routesBackupDir none) ("../../etc/passwd" ++ ".tar.gz") =
      ["var", "etc", "passwd.tar.gz"] ∧
    joinSegments (routesBackupDir none) ("../../etc/passwd" ++ ".json") =
      ["var", "etc", "passwd.json"] ∧
    ¬ (pathSegments (routesBackupDir none) <+:
      joinSegments (routesBackupDir none) ("../../etc/passwd" ++ ".tar.gz")) ∧
    ¬ (pathSegments (routesBackupDir none) <+:
      joinSegments (routesBackupDir none) ("../../etc/passwd" ++ ".json")) ∧
    (newEvents ⟨[("../../etc/passwd.tar.gz", Node.file none 1)], []⟩
      (deleteBackup calmEnv "../../etc/passwd"
        ⟨[("../../etc/passwd.tar.gz", Node.file none 1)], []⟩).2).map (fun ev => ev.op) =
      [Op.access "../../etc/passwd.tar.gz", Op.unlink "../../etc/passwd.tar.gz",
        Op.access "../../etc/passwd.json"] := by
  decide

/-! ## The schedule document -/

theorem updateBackupSchedule_ok {env : Env} {schedule : Metadata} {w w1 : World}
    (h : updateBackupSchedule env schedule w = (Res.ok (), w1)) :
    w1.fs = w.fs.put "schedule.json" (Node.file (some schedule) (env.jsonLength schedule)) := by
  unfold updateBackupSchedule at h
  rcases tryCatch_ok h with h | ⟨e, w0, -, h⟩
  · rcases writeJson_cases env "schedule.json" schedule w with hw | ⟨e, hw⟩
    · rw [hw] at h
      simp only [Prod.mk.injEq, true_and] at h
      rw [← h]
    · rw [hw] at h
      simp at h
  · simp [raise] at h

theorem recordAt_put_ne (d : Dir) (name n : String) (node : Node) (h : n ≠ name) :
    recordAt (d.put name node) n = recordAt d n := by
  unfold recordAt
  rw [find_put, if_neg h]

theorem records_all (d : Dir) (p : String → Metadata → Bool)
    (h : d.all (fun e =>
      match e.2 with
      | Node.file (some m) _ => p e.1 m
      | _ => true) = true) :
    ∀ name b, recordAt d name = some b → p name b = true := by
  intro name b hb
  unfold recordAt at hb
  split at hb
  · next m size hfind =>
    simp only [Option.some.injEq] at hb
    subst hb
    have hmem := mem_of_find _ _ _ hfind
    have := List.all_eq_true.1 h _ hmem
    simpa using this
  · simp at hb

/-- C29, as amended. The schedule document: let `updateBackupSchedule` store the
schedule. Whichever calls fail afterwards, `getBackupList` returns the schedule as a
record only if an archive named after its `id` property exists (`undefined.tar.gz` for a
schedule without `id`): when there is none, no element of the list has the `id` of the
schedule. And if the `automated` property of the schedule is absent or falsy,
`cleanupOldBackups` deletes nothing on its account: every file it changes is named
`{b.id}.tar.gz` or `{b.id}.json` after an automated record `b` that another file held
before the schedule was stored; in particular it leaves `schedule.json` as it is unless
such a record has the id `schedule`. -/
theorem schedule_is_read_as_a_record (env : Env) (schedule : Metadata) (w w1 : World)
    (hupdate : updateBackupSchedule env schedule w = (Res.ok (), w1)) :
    recordAt w1.fs "schedule.json" = some schedule ∧
    (∀ env2 : Env, ∃ l, (getBackupList env2 w1).1 = Res.ok l ∧
      (w1.fs.find (tmpl schedule.id ++ ".tar.gz") = none →
        ∀ r ∈ l, tmpl r.metadata.id ≠ tmpl schedule.id ∧ r.metadata ≠ schedule)) ∧
    (schedule.automated = false → ∀ (env2 : Env) (keepCount : Int) (n : String),
      (∀ name b, name ≠ "schedule.json" → endsWith name ".json" = true →
        recordAt w.fs name = some b → b.automated = true →
        n ≠ tmpl b.id ++ ".tar.gz" ∧ n ≠ tmpl b.id ++ ".json") →
      (cleanupOldBackups env2 keepCount w1).2.fs.find n = w1.fs.find n) ∧
    (schedule.automated = false → ∀ (env2 : Env) (keepCount : Int),
      (∀ name b, name ≠ "schedule.json" → endsWith name ".json" = true →
        recordAt w.fs name = some b → b.automated = true → tmpl b.id ≠ "schedule") →
      recordAt (cleanupOldBackups env2 keepCount w1).2.fs "schedule.json" = some schedule) := by
  have hfs := updateBackupSchedule_ok hupdate
  have hrec : recordAt w1.fs "schedule.json" = some schedule := by
    rw [hfs]
    exact recordAt_put _ _ _ _
  have hclean : schedule.automated = false → ∀ (env2 : Env) (keepCount : Int) (n : String),
      (∀ name b, name ≠ "schedule.json" → endsWith name ".json" = true →
        recordAt w.fs name = some b → b.automated = true →
        n ≠ tmpl b.id ++ ".tar.gz" ∧ n ≠ tmpl b.id ++ ".json") →
      (cleanupOldBackups env2 keepCount w1).2.fs.find n = w1.fs.find n := by
    intro hauto env2 keepCount n hn
    obtain ⟨w2, hrun, hframe⟩ := cleanupOldBackups_run env2 keepCount w1
    rw [hrun]
    apply hframe
    intro name b hends hb hbauto
    by_cases hname : name = "schedule.json"
    · rw [hname, hrec] at hb
      simp only [Option.some.injEq] at hb
      rw [← hb, hauto] at hbauto
      simp at hbauto
    · rw [hfs, recordAt_put_ne _ _ _ _ hname] at hb
      exact hn name b hname hends hb hbauto
  refine ⟨hrec, ?_, hclean, ?_⟩
  · intro env2
    obtain ⟨bs, w3, hlist, -, hall⟩ := getBackupList_run env2
      (fun r => (w1.fs.find (tmpl r.metadata.id ++ ".tar.gz")).isSome = true) w1
      (by
        intro m size w0 hw0 hex
        obtain ⟨wa, hwa⟩ := hex
        obtain ⟨b, wb, hb, -, hsome⟩ := fileExists_run env2 (tmpl m.id ++ ".tar.gz") w0
        rw [hwa] at hb
        simp only [Prod.mk.injEq, Res.ok.injEq] at hb
        rw [← hw0]
        exact hsome hb.1.symm)
    refine ⟨_, by rw [hlist], ?_⟩
    intro hnone r hr
    have hsome := hall r ((mem_jsSort _ _ _).1 hr)
    have hne : tmpl r.metadata.id ≠ tmpl schedule.id := by
      intro hid
      rw [hid, hnone] at hsome
      simp at hsome
    exact ⟨hne, fun h => hne (by rw [h])⟩
  · intro hauto env2 keepCount hn
    unfold recordAt
    rw [hclean hauto env2 keepCount "schedule.json" (by
      intro name b hname hends hb hbauto
      refine ⟨?_, ?_⟩
      · exact fun h => targz_ne_json _ "schedule" h.symm
      · intro h
        exact hn name b hname hends hb hbauto (append_json_inj "schedule" _ h).symm)]
    exact hrec

set_option maxRecDepth 100000 in
/-- Witness of C29 as amended: a schedule with none of the properties of a job record
is stored in the directory with seven automated records. -/
theorem schedule_is_read_as_a_record_witness :
    recordAt (updateBackupSchedule calmEnv plainSchedule ⟨sevenDailyDir, []⟩).2.fs
      "schedule.json" = some plainSchedule ∧
    recordAt (cleanupOldBackups calmEnv 7
      (updateBackupSchedule calmEnv plainSchedule ⟨sevenDailyDir, []⟩).2).2.fs
      "schedule.json" = some plainSchedule :=
  have h := schedule_is_read_as_a_record calmEnv plainSchedule ⟨sevenDailyDir, []⟩
    (updateBackupSchedule calmEnv plainSchedule ⟨sevenDailyDir, []⟩).2 (by decide)
  ⟨h.1, h.2.2.2 rfl calmEnv 7 (by
    intro name b _ _ hb _
    have := records_all sevenDailyDir (fun _ b => decide (tmpl b.id ≠ "schedule")) (by decide)
      name b hb
    simpa using this)⟩

set_option maxRecDepth 100000 in
/-- Counterexample to C29 as stated: in a directory with seven automated records, of
which `cleanupOldBackups(7)` deletes nothing, a schedule with the properties
`id: 'd05'` and `automated: true` is stored. Then `getBackupList` returns the schedule as
a backup record, and `cleanupOldBackups(7)` deletes the archive `d05.tar.gz` and the
record `d05.json` on its account. -/
theorem schedule_treated_as_job :
    (cleanupOldBackups calmEnv 7 ⟨sevenDailyDir, []⟩).2.fs = sevenDailyDir ∧
    (updateBackupSchedule calmEnv rogueSchedule ⟨sevenDailyDir, []⟩).1 = Res.ok () ∧
    (∃ l, (getBackupList calmEnv
        (updateBackupSchedule calmEnv rogueSchedule ⟨sevenDailyDir, []⟩).2).1 = Res.ok l ∧
      ⟨rogueSchedule, 4096, "/var/backups/buddybox/d05.tar.gz"⟩ ∈ l) ∧
    (cleanupOldBackups calmEnv 7
      (updateBackupSchedule calmEnv rogueSchedule ⟨sevenDailyDir, []⟩).2).2.fs.map Prod.fst =
      ["d01.json", "d01.tar.gz", "d02.json", "d02.tar.gz", "d03.json", "d03.tar.gz",
        "d04.json", "d04.tar.gz", "d06.json", "d06.tar.gz", "d07.json", "d07.tar.gz",
        "schedule.json"] := by
  refine ⟨by decide!, by decide!, ⟨([("d07", 7), ("d06", 6), ("d05", 5), ("d04", 4), ("d03", 3),
    ("d02", 2), ("d01", 1)].map (fun (p : String × Int) =>
      (⟨sampleRecord p.1 (some p.2) true, 4096, "/var/backups/buddybox/" ++ p.1 ++ ".tar.gz"⟩ :
        Listed))) ++ [⟨rogueSchedule, 4096, "/var/backups/buddybox/d05.tar.gz"⟩],
    by decide!, by decide!⟩, by decide!⟩

/-! ## Idempotent listing -/

theorem dir_pure {α : Type} (a : α) : DependsOnDirOnly (pure a : M α) :=
  fun _ _ h => ⟨rfl, h⟩

theorem dir_bind {α β : Type} {x : M α} {f : α → M β} (hx : DependsOnDirOnly x)
    (hf : ∀ a, DependsOnDirOnly (f a)) : DependsOnDirOnly (x >>= f) := by
  intro w1 w2 h
  obtain ⟨hr, hfs⟩ := hx w1 w2 h
  simp only [bind_run]
  rcases h1 : x w1 with ⟨r1, u1⟩
  rcases h2 : x w2 with ⟨r2, u2⟩
  rw [h1, h2] at hr hfs
  simp only at hr hfs
  subst hr
  cases r1 with
  | ok a => exact hf a u1 u2 hfs
  | error e => exact ⟨rfl, hfs⟩

theorem dir_tryCatch {α : Type} {x : M α} {h : String → M α} (hx : DependsOnDirOnly x)
    (hh : ∀ e, DependsOnDirOnly (h e)) : DependsOnDirOnly (tryCatch x h) := by
  intro w1 w2 hw
  obtain ⟨hr, hfs⟩ := hx w1 w2 hw
  simp only [tryCatch]
  rcases h1 : x w1 with ⟨r1, u1⟩
  rcases h2 : x w2 with ⟨r2, u2⟩
  rw [h1, h2] at hr hfs
  simp only at hr hfs
  subst hr
  cases r1 with
  | ok a => exact ⟨rfl, hfs⟩
  | error e => exact hh e u1 u2 hfs

theorem dir_ite {α : Type} (c : Prop) [Decidable c] {x y : M α} (hx : DependsOnDirOnly x)
    (hy : DependsOnDirOnly y) : DependsOnDirOnly (if c then x else y) := by
  split
  · exact hx
  · exact hy

theorem dir_perform {α : Type} (env : Env) (hst : Stationary env) (op : Op)
    (act : Dir → Res (α × Dir)) : DependsOnDirOnly (perform env op act) := by
  intro w1 w2 h
  unfold perform
  rw [hst w1.trace.length w2.trace.length op, h]
  cases env.fault w2.trace.length op with
  | some e => exact ⟨rfl, rfl⟩
  | none =>
    cases hact : act w2.fs with
    | ok p => exact ⟨rfl, rfl⟩
    | error e => exact ⟨rfl, rfl⟩

theorem dir_fileExists (env : Env) (hst : Stationary env) (name : String) :
    DependsOnDirOnly (fileExists env name) := by
  unfold fileExists access
  repeat' first
    | exact dir_pure _
    | exact dir_perform env hst _ _
    | apply dir_bind
    | apply dir_tryCatch
    | intro _

theorem dir_listLoop (env : Env) (hst : Stationary env) (files : List String) :
    ∀ backups : List Listed, DependsOnDirOnly (listLoop env files backups) := by
  induction files with
  | nil =>
    intro backups
    exact dir_pure _
  | cons file rest ih =>
    intro backups
    unfold listLoop readJson stat
    repeat' first
      | exact dir_pure _
      | exact dir_perform env hst _ _
      | exact dir_fileExists env hst _
      | exact ih _
      | apply dir_bind
      | apply dir_tryCatch
      | apply dir_ite
      | intro _

theorem dir_getBackupList (env : Env) (hst : Stationary env) :
    DependsOnDirOnly (getBackupList env) := by
  unfold getBackupList readdir
  repeat' first
    | exact dir_pure _
    | exact dir_perform env hst _ _
    | exact dir_listLoop env hst _ _
    | apply dir_bind
    | apply dir_tryCatch
    | intro _

/-- C22. Idempotent listing: `getBackupList` never changes the backup directory,
whichever calls fail; and when the outcome of a call does not depend on when it is
made, two calls on the same directory state return the same records in the same order:
a second call made right after the first, and any call made in a world with the same
directory. -/
theorem getBackupList_idempotent (env : Env) (hst : Stationary env) (w : World) :
    (∀ env2 : Env, (getBackupList env2 w).2.fs = w.fs) ∧
    (getBackupList env (getBackupList env w).2).1 = (getBackupList env w).1 ∧
    (∀ w2 : World, w2.fs = w.fs → (getBackupList env w2).1 = (getBackupList env w).1) := by
  have hfs : ∀ env2 : Env, (getBackupList env2 w).2.fs = w.fs := by
    intro env2
    obtain ⟨bs, w1, hrun, hfs, -⟩ := getBackupList_run env2 (fun _ => True) w (fun _ _ _ _ _ => trivial)
    rw [hrun]
    exact hfs
  exact ⟨hfs, (dir_getBackupList env hst _ _ (hfs env)).1,
    fun w2 h => (dir_getBackupList env hst _ _ h).1⟩

/-- Witness of C22: two listings of a directory with two records, with no call made to
fail. -/
theorem getBackupList_idempotent_witness :
    (getBackupList calmEnv (getBackupList calmEnv ⟨validDatesDir, []⟩).2).1 =
      (getBackupList calmEnv ⟨validDatesDir, []⟩).1 ∧
    (getBackupList calmEnv ⟨validDatesDir, []⟩).1 =
      Res.ok [⟨sampleRecord "b" (some 2) false, 4096, "/var/backups/buddybox/b.tar.gz"⟩,
        ⟨sampleRecord "a" (some 1) false, 4096, "/var/backups/buddybox/a.tar.gz"⟩] :=
  ⟨(getBackupList_idempotent calmEnv (fun _ _ _ => rfl) ⟨validDatesDir, []⟩).2.1, by decide⟩

/-! ## The first call of a job runner -/

theorem startsInProgress_of_jobRun (id : String) (m0 : Metadata) (r : Res Unit)
    (evs : List Event) (h : JobRun id m0 OnlyAux r evs) (hid : m0.id = some id)
    (hs : m0.status = some "in_progress") (hc : m0.createdAt ≠ none) :
    StartsInProgress id evs := by
  cases h with
  | initialWriteFailed e t ef =>
    exact ⟨m0, some e, _, rfl, hid, hs, hc, fun _ ev hev => by
      simp only [List.mem_singleton] at hev
      rw [hev]
      rfl⟩
  | mkdirFailed e t ef => exact ⟨m0, none, _, rfl, hid, hs, hc, fun h => absurd rfl h⟩
  | producerFailed evsA e t ef hA =>
    exact ⟨m0, none, _, rfl, hid, hs, hc, fun h => absurd rfl h⟩
  | archiveFailed evsA e t ef hA =>
    exact ⟨m0, none, _, rfl, hid, hs, hc, fun h => absurd rfl h⟩
  | removeFailed evsA e t ef hA =>
    exact ⟨m0, none, _, rfl, hid, hs, hc, fun h => absurd rfl h⟩
  | finalWriteFailed evsA e tc t ef hA =>
    exact ⟨m0, none, _, rfl, hid, hs, hc, fun h => absurd rfl h⟩
  | completed evsA tc hA =>
    exact ⟨m0, none, _, rfl, hid, hs, hc, fun h => absurd rfl h⟩

theorem spec_performDailyBackup_start (env : Env) (id : String) :
    Spec (performDailyBackup env id) (fun _ evs => StartsInProgress id evs) := by
  have hsys : Spec (createSystemBackup env id) (fun _ _ => True) :=
    (emits_createSystemBackup (fun _ => True) (fun _ _ => trivial) env id).weaken
      (fun _ _ _ => trivial)
  have hclean : Spec (cleanupOldBackups env 7) (fun _ _ => True) :=
    (emits_cleanupOldBackups (fun _ => True) (fun _ _ => trivial) env 7).weaken
      (fun _ _ _ => trivial)
  have hall := spec_tryCatch
    (spec_bind (spec_now env) (fun ts =>
      spec_bind (spec_now env) (fun t0 =>
        spec_bind (spec_saveBackupMetadata env id (dailyRecord env id ts t0) rfl) (fun _ =>
          spec_bind hsys (fun _ =>
            spec_bind (spec_now env) (fun tc =>
              spec_bind (spec_saveBackupMetadata env id
                (completedRecord (dailyRecord env id ts t0) tc) rfl) (fun _ =>
                spec_bind hclean (fun _ =>
                  spec_pure (⟨true, id⟩ : DailyResult)))))))))
    (fun e => spec_raise e)
  refine Spec.weaken hall ?_
  intro r evs h
  simp only [Res.ok.injEq, exists_eq_left', false_and, exists_false, or_false, false_or,
    exists_const, true_and, and_true, exists_eq', reduceCtorEq, exists_and_left,
    exists_eq_left] at h
  clear hall hsys hclean
  have hstart : ∀ ts t0 err rest, (err ≠ none → rest = []) →
      StartsInProgress id
        ((⟨Op.writeFile (id ++ ".json") (dailyRecord env id ts t0), err⟩ : Event) :: rest) := by
    intro ts t0 err rest hrest
    refine ⟨_, err, rest, rfl, rfl, rfl, by simp [dailyRecord], ?_⟩
    intro herr ev hev
    rw [hrest herr] at hev
    simp at hev
  rcases h with ⟨a, -, ts, _, _, rfl, rfl, t0, _, _, rfl, rfl, _, _, rfl, rfl, hrest⟩ |
    ⟨e, evsB, _, rfl, hbody, -, rfl⟩
  · obtain ⟨evs1, _, rfl, _⟩ := hrest
    simpa using hstart ts t0 none _ (fun h => absurd rfl h)
  rcases hbody with ⟨_, _, hF⟩ | ⟨ts, _, _, rfl, rfl, hbody⟩
  · exact hF.elim
  rcases hbody with ⟨_, _, hF⟩ | ⟨t0, _, _, rfl, rfl, hbody⟩
  · exact hF.elim
  rcases hbody with ⟨_, -, e0, -, rfl⟩ | ⟨_, evs1, rfl, rfl, hbody⟩
  · simpa using hstart ts t0 (some e0) [] (fun _ => rfl)
  · simpa using hstart ts t0 none _ (fun h => absurd rfl h)

/-! ## Confinement of the runners of the API -/

theorem emits_producer_backupConfigurations (env : Env) (id : String) :
    Emits (fun ev => ProducerCall env id ev.op)
      (backupConfigurations env (pathJoin env.backupDir ("temp_" ++ id))) := by
  unfold backupConfigurations
  repeat' first
    | exact emits_pure _ _
    | exact emits_fileExistsAt _ env _ (fun _ => trivial)
    | exact emits_mkdirAt _ env _ (fun _ => Or.inr (Or.inr ⟨_, rfl⟩))
    | exact emits_execCommand _ env _
        (fun _ => Or.inr (Or.inr (Or.inr (Or.inr ⟨_, _, _, rfl⟩))))
    | apply emits_bind
    | apply emits_tryCatch
    | apply emits_forOf
    | apply emits_ite
    | intro _

theorem emits_producer_backupDatabases (env : Env) (id : String) :
    Emits (fun ev => ProducerCall env id ev.op)
      (backupDatabases env (pathJoin env.backupDir ("temp_" ++ id))) := by
  unfold backupDatabases
  repeat' first
    | exact emits_pure _ _
    | exact emits_mkdirAt _ env _ (fun _ => Or.inl rfl)
    | exact emits_execCommand _ env _ (fun _ => Or.inl rfl)
    | exact emits_execCommand _ env _ (fun _ => Or.inr (Or.inl rfl))
    | exact emits_execCommand _ env _ (fun _ => Or.inr (Or.inr (Or.inl ⟨_, rfl⟩)))
    | exact emits_execCommand _ env _ (fun _ => Or.inr (Or.inr (Or.inr (Or.inl ⟨_, rfl⟩))))
    | apply emits_bind
    | apply emits_tryCatch
    | apply emits_forOf
    | apply emits_ite
    | intro _

theorem emits_producer_backupApplicationData (env : Env) (id : String) :
    Emits (fun ev => ProducerCall env id ev.op)
      (backupApplicationData env (pathJoin env.backupDir ("temp_" ++ id))) := by
  unfold backupApplicationData
  repeat' first
    | exact emits_pure _ _
    | exact emits_fileExistsAt _ env _ (fun _ => trivial)
    | exact emits_mkdirAt _ env _ (fun _ => Or.inr (Or.inl rfl))
    | exact emits_execCommand _ env _
        (fun _ => Or.inr (Or.inr (Or.inr (Or.inr ⟨_, _, _, rfl⟩))))
    | apply emits_bind
    | apply emits_tryCatch
    | apply emits_forOf
    | apply emits_ite
    | intro _

theorem emits_producer_backupDatabase (env : Env) (id dbName : String) :
    Emits (fun ev => ProducerCall env id ev.op)
      (backupDatabase env dbName (pathJoin env.backupDir ("temp_" ++ id))) := by
  unfold backupDatabase
  repeat' first
    | exact emits_pure _ _
    | exact emits_raise _ _
    | exact emits_mkdirAt _ env _ (fun _ => Or.inl rfl)
    | exact emits_execCommand _ env _ (fun _ => Or.inr (Or.inr (Or.inl ⟨_, rfl⟩)))
    | exact emits_execCommand _ env _ (fun _ => Or.inr (Or.inr (Or.inr (Or.inl ⟨_, rfl⟩))))
    | apply emits_bind
    | apply emits_tryCatch
    | intro _

theorem emits_producer_backupServiceConfig (env : Env) (id serviceName : String) :
    Emits (fun ev => ProducerCall env id ev.op)
      (backupServiceConfig env serviceName (pathJoin env.backupDir ("temp_" ++ id))) := by
  unfold backupServiceConfig
  split
  · split
    · exact emits_pure _ _
    · exact emits_raise _ _
  · repeat' first
      | exact emits_pure _ _
      | exact emits_fileExistsAt _ env _ (fun _ => trivial)
      | exact emits_mkdirAt _ env _ (fun _ => Or.inr (Or.inr ⟨_, rfl⟩))
      | exact emits_execCommand _ env _
          (fun _ => Or.inr (Or.inr (Or.inr (Or.inr ⟨_, _, _, rfl⟩))))
      | apply emits_bind
      | apply emits_ite
      | intro _

theorem emits_producer_fullProducers (env : Env) (id : String) (options : FullOptions) :
    Emits (fun ev => ProducerCall env id ev.op) (fullProducers env id options) := by
  unfold fullProducers
  repeat' first
    | exact emits_pure _ _
    | exact emits_producer_backupConfigurations env id
    | exact emits_producer_backupDatabases env id
    | exact emits_producer_backupApplicationData env id
    | apply emits_bind
    | apply emits_ite
    | intro _

theorem emits_producer_databaseProducers (env : Env) (id : String)
    (databases : Option (List String)) :
    Emits (fun ev => ProducerCall env id ev.op) (databaseProducers env id databases) := by
  unfold databaseProducers
  split
  · exact emits_forOf _ _ (fun _ => emits_producer_backupDatabase env id _) _
  · exact emits_raise _ _

theorem emits_producer_configProducers (env : Env) (id : String)
    (services : Option (List String)) :
    Emits (fun ev => ProducerCall env id ev.op) (configProducers env id services) := by
  unfold configProducers
  split
  · exact emits_forOf _ _ (fun _ => emits_producer_backupServiceConfig env id _) _
  · exact emits_raise _ _

/-- C25. In every run of `createFullBackup`, `createDatabaseBackup`, `createConfigBackup`
and `performDailyBackup`, under any faults and from any world, the first call made is the
write of `{id}.json` with a record whose status is `in_progress` and whose `createdAt` is
set, so that neither the creation of the working directory nor a call of a producer
precedes it; and when that write fails, every later call of the run is again a write of a
metadata record, so that no producer runs. -/
theorem runners_start_in_progress (env : Env) (w : World) (id : String)
    (description : Option String) (options : FullOptions)
    (databases services : Option (List String)) :
    StartsInProgress id (newEvents w (createFullBackup env id description options w).2) ∧
    StartsInProgress id (newEvents w (createDatabaseBackup env id databases description w).2) ∧
    StartsInProgress id (newEvents w (createConfigBackup env id services description w).2) ∧
    StartsInProgress id (newEvents w (performDailyBackup env id w).2) := by
  refine ⟨?_, ?_, ?_, ?_⟩
  · obtain ⟨t0, h⟩ := createFullBackup_jobRun env w id description options
    exact startsInProgress_of_jobRun id _ _ _ h rfl rfl (by simp [fullRecord])
  · obtain ⟨t0, h⟩ := createDatabaseBackup_jobRun env w id databases description
    exact startsInProgress_of_jobRun id _ _ _ h rfl rfl (by simp [databaseRecord])
  · obtain ⟨t0, h⟩ := createConfigBackup_jobRun env w id services description
    exact startsInProgress_of_jobRun id _ _ _ h rfl rfl (by simp [configRecord])
  · obtain ⟨evs, htr, h⟩ := spec_performDailyBackup_start env id w
    rw [newEvents_of_trace w _ evs htr]
    exact h

theorem touches_of_keeps {α : Type} (S : String → Prop) {x : M α} (h : KeepsFs x) :
    TouchesOnly S x := fun w n _ => by rw [h w]

theorem touches_bind {α β : Type} {S : String → Prop} {x : M α} {f : α → M β}
    (hx : TouchesOnly S x) (hf : ∀ a, TouchesOnly S (f a)) : TouchesOnly S (x >>= f) := by
  intro w n hn
  have h1 := hx w n hn
  simp only [bind_run]
  rcases hxw : x w with ⟨r, w1⟩
  rw [hxw] at h1
  cases r with
  | ok a => exact (hf a w1 n hn).trans h1
  | error e => exact h1

theorem touches_tryCatch {α : Type} {S : String → Prop} {x : M α} {h : String → M α}
    (hx : TouchesOnly S x) (hh : ∀ e, TouchesOnly S (h e)) : TouchesOnly S (tryCatch x h) := by
  intro w n hn
  have h1 := hx w n hn
  simp only [tryCatch]
  rcases hxw : x w with ⟨r, w1⟩
  rw [hxw] at h1
  cases r with
  | ok a => exact h1
  | error e => exact (hh e w1 n hn).trans h1

theorem touches_perform {α : Type} (S : String → Prop) (env : Env) (op : Op)
    (act : Dir → Res (α × Dir))
    (hact : ∀ d a d1, act d = Res.ok (a, d1) → ∀ n, ¬ S n → d1.find n = d.find n) :
    TouchesOnly S (perform env op act) := by
  intro w n hn
  unfold perform
  split
  · rfl
  · split
    · next a d h => exact hact _ _ _ h n hn
    · rfl

theorem touches_writeJson (S : String → Prop) (env : Env) (name : String) (m : Metadata)
    (hS : S name) : TouchesOnly S (writeJson env name m) := by
  apply touches_perform
  intro d a d1 h n hn
  have hne : n ≠ name := fun h => hn (h ▸ hS)
  split at h
  · exact absurd h (by simp)
  · simp only [Res.ok.injEq, Prod.mk.injEq, true_and] at h
    rw [← h, find_put, if_neg hne]

theorem touches_mkdir (S : String → Prop) (env : Env) (name : String) (hS : S name) :
    TouchesOnly S (mkdir env name) := by
  apply touches_perform
  intro d a d1 h n hn
  have hne : n ≠ name := fun h => hn (h ▸ hS)
  split at h
  · simp only [Res.ok.injEq, Prod.mk.injEq, true_and] at h
    rw [← h]
  · exact absurd h (by simp)
  · simp only [Res.ok.injEq, Prod.mk.injEq, true_and] at h
    rw [← h, find_put, if_neg hne]

theorem touches_rm (S : String → Prop) (env : Env) (name : String) (hS : S name) :
    TouchesOnly S (rm env name) := by
  apply touches_perform
  intro d a d1 h n hn
  have hne : n ≠ name := fun h => hn (h ▸ hS)
  simp only [Res.ok.injEq, Prod.mk.injEq, true_and] at h
  rw [← h, find_remove, if_neg hne]

theorem touches_createArchive (S : String → Prop) (env : Env) (source target : String)
    (hS : S target) : TouchesOnly S (createArchive env source target) := by
  intro w
  unfold createArchive
  refine touches_perform S env _ _ ?_ w
  intro d a d1 h n hn
  have hne : n ≠ target := fun h => hn (h ▸ hS)
  split at h
  · exact absurd h (by simp)
  · simp only [Res.ok.injEq, Prod.mk.injEq, true_and] at h
    rw [← h, find_put, if_neg hne]

theorem touches_jobShape (env : Env) (id : String) (metadata : Int → Metadata)
    (hid : ∀ t, (metadata t).id = some id) (producers : M Unit) (hp : KeepsFs producers) :
    TouchesOnly (OwnName id) (jobShape env id metadata producers) := by
  have hsave : ∀ m : Metadata, m.id = some id →
      TouchesOnly (OwnName id) (saveBackupMetadata env m) := by
    intro m hm
    unfold saveBackupMetadata
    rw [hm]
    exact touches_writeJson _ env _ m (Or.inl rfl)
  unfold jobShape
  refine touches_bind (touches_of_keeps _ (keeps_now env)) (fun t0 => ?_)
  refine touches_tryCatch ?_ (fun e => ?_)
  · refine touches_bind (hsave _ (hid t0)) (fun _ => ?_)
    refine touches_bind (touches_mkdir _ env _ (Or.inr (Or.inr rfl))) (fun _ => ?_)
    refine touches_bind (touches_of_keeps _ hp) (fun _ => ?_)
    refine touches_bind (touches_createArchive _ env _ _ (Or.inr (Or.inl rfl))) (fun _ => ?_)
    refine touches_bind (touches_rm _ env _ (Or.inr (Or.inr rfl))) (fun _ => ?_)
    refine touches_bind (touches_of_keeps _ (keeps_now env)) (fun tc => ?_)
    exact hsave _ (hid t0)
  · refine touches_bind (touches_of_keeps _ (keeps_now env)) (fun t => ?_)
    exact hsave _ (hid t0)

theorem jobCall_of_jobRun (env : Env) (id : String) (m0 : Metadata) (r : Res Unit)
    (evs : List Event)
    (h : JobRun id m0 (fun _ evs => ∀ ev ∈ evs, ProducerCall env id ev.op) r evs) :
    ∀ ev ∈ evs, JobCall env id ev.op := by
  have hprod : ∀ l : List Event, (∀ ev ∈ l, ProducerCall env id ev.op) →
      ∀ ev ∈ l, JobCall env id ev.op := by
    intro l hl ev hev
    have := hl ev hev
    rcases ev with ⟨op, err⟩
    cases op <;> first | exact this | exact this.elim
  cases h with
  | initialWriteFailed e t ef =>
    intro ev hev
    simp only [List.mem_cons, List.mem_singleton, List.not_mem_nil, or_false] at hev
    rcases hev with rfl | rfl <;> simp [JobCall]
  | mkdirFailed e t ef =>
    intro ev hev
    simp only [List.mem_cons, List.mem_singleton, List.not_mem_nil, or_false] at hev
    rcases hev with rfl | rfl | rfl <;> simp [JobCall]
  | producerFailed evsA e t ef hA =>
    intro ev hev
    simp only [List.mem_append, List.mem_cons, List.mem_singleton, List.not_mem_nil,
      or_false] at hev
    rcases hev with ((rfl | rfl) | hev) | rfl
    · simp [JobCall]
    · simp [JobCall]
    · exact hprod _ hA ev hev
    · simp [JobCall]
  | archiveFailed evsA e t ef hA =>
    intro ev hev
    simp only [List.mem_append, List.mem_cons, List.mem_singleton, List.not_mem_nil,
      or_false] at hev
    rcases hev with ((rfl | rfl) | hev) | rfl | rfl
    · simp [JobCall]
    · simp [JobCall]
    · exact hprod _ hA ev hev
    · simp [JobCall]
    · simp [JobCall]
  | removeFailed evsA e t ef hA =>
    intro ev hev
    simp only [List.mem_append, List.mem_cons, List.mem_singleton, List.not_mem_nil,
      or_false] at hev
    rcases hev with ((rfl | rfl) | hev) | rfl | rfl | rfl
    · simp [JobCall]
    · simp [JobCall]
    · exact hprod _ hA ev hev
    · simp [JobCall]
    · simp [JobCall]
    · simp [JobCall]
  | finalWriteFailed evsA e tc t ef hA =>
    intro ev hev
    simp only [List.mem_append, List.mem_cons, List.mem_singleton, List.not_mem_nil,
      or_false] at hev
    rcases hev with ((rfl | rfl) | hev) | rfl | rfl | rfl | rfl
    · simp [JobCall]
    · simp [JobCall]
    · exact hprod _ hA ev hev
    · simp [JobCall]
    · simp [JobCall]
    · simp [JobCall]
    · simp [JobCall]
  | completed evsA tc hA =>
    intro ev hev
    simp only [List.mem_append, List.mem_cons, List.mem_singleton, List.not_mem_nil,
      or_false] at hev
    rcases hev with ((rfl | rfl) | hev) | rfl | rfl | rfl
    · simp [JobCall]
    · simp [JobCall]
    · exact hprod _ hA ev hev
    · simp [JobCall]
    · simp [JobCall]
    · simp [JobCall]

theorem cleanupOldBackups_reads_first (env : Env) (keepCount : Int) (w : World) :
    ∃ err rest, newEvents w (cleanupOldBackups env keepCount w).2 =
      (⟨Op.readdir, err⟩ : Event) :: rest := by
  have hany : ∀ ev : Event, ev.op.isWrite = false → True := fun _ _ => trivial
  have hall : Spec (cleanupOldBackups env keepCount) _ :=
    spec_tryCatch
      (spec_bind (spec_perform env Op.readdir (fun d => Res.ok (d.map Prod.fst, d)))
        (fun files => spec_bind ((emits_collectLoop (fun _ => True) hany env files []).weaken
            (fun _ _ _ => trivial))
          (fun backups => (emits_deleteLoop (fun _ => True) hany env
            (jsSlice (jsSort (fun a b => compareCreatedAt a.createdAt b.createdAt) backups)
              keepCount)).weaken (fun _ _ _ => trivial))))
      (fun _ => spec_pure ())
  obtain ⟨evs, htr, h⟩ := hall w
  rw [newEvents_of_trace w _ evs htr]
  rcases h with ⟨a, -, h⟩ | ⟨e, evs1, evs2, rfl, h, -⟩
  · rcases h with ⟨e, h, -⟩ | ⟨files, evs1, evs2, rfl, h1, -⟩
    · simp at h
    · rcases h1 with ⟨_, -, rfl⟩ | ⟨_, h, -⟩
      · exact ⟨none, evs2, rfl⟩
      · simp at h
  · rcases h with ⟨e1, -, h1⟩ | ⟨files, evs3, evs4, rfl, h1, -⟩
    · rcases h1 with ⟨_, h, -⟩ | ⟨e2, -, rfl⟩
      · simp at h
      · exact ⟨some e2, evs2, rfl⟩
    · rcases h1 with ⟨_, -, rfl⟩ | ⟨_, h, -⟩
      · exact ⟨none, evs4 ++ evs2, rfl⟩
      · simp at h

theorem runnerCall_of_jobCall (env : Env) (id : String) (op : Op) (h : JobCall env id op) :
    op.isRunnerCallOf id = true := by
  cases op <;> simp_all [JobCall, ProducerCall, Op.isRunnerCallOf]

theorem when_of_touches {α : Type} (P Q : Event → Prop) (S : String → Prop) {x : M α}
    (he : Emits Q x) (ht : TouchesOnly S x) : TouchesOnlyWhen P S x := by
  intro w
  obtain ⟨evs, htr, -⟩ := he w
  exact ⟨evs, htr, fun _ n hn => ht w n hn⟩

theorem when_pure {α : Type} (P : Event → Prop) (S : String → Prop) (a : α) :
    TouchesOnlyWhen P S (pure a : M α) :=
  fun w => ⟨[], by simp, fun _ _ _ => rfl⟩

theorem when_raise {α : Type} (P : Event → Prop) (S : String → Prop) (msg : String) :
    TouchesOnlyWhen P S (raise msg : M α) :=
  fun w => ⟨[], by simp [raise], fun _ _ _ => rfl⟩

theorem when_bind {α β : Type} {P : Event → Prop} {S : String → Prop} {x : M α}
    {f : α → M β} (hx : TouchesOnlyWhen P S x) (hf : ∀ a, TouchesOnlyWhen P S (f a)) :
    TouchesOnlyWhen P S (x >>= f) := by
  intro w
  obtain ⟨evs1, htr1, h1⟩ := hx w
  simp only [bind_run]
  rcases hxw : x w with ⟨r, w1⟩
  rw [hxw] at htr1 h1
  simp only at htr1 h1
  cases r with
  | ok a =>
    obtain ⟨evs2, htr2, h2⟩ := hf a w1
    refine ⟨evs1 ++ evs2, ?_, ?_⟩
    · simp only
      rw [htr2, htr1, List.append_assoc]
    · intro hP n hn
      simp only
      rw [h2 (fun ev hev => hP ev (List.mem_append_right _ hev)) n hn,
        h1 (fun ev hev => hP ev (List.mem_append_left _ hev)) n hn]
  | error e => exact ⟨evs1, htr1, h1⟩

theorem when_tryCatch {α : Type} {P : Event → Prop} {S : String → Prop} {x : M α}
    {h : String → M α} (hx : TouchesOnlyWhen P S x) (hh : ∀ e, TouchesOnlyWhen P S (h e)) :
    TouchesOnlyWhen P S (tryCatch x h) := by
  intro w
  obtain ⟨evs1, htr1, h1⟩ := hx w
  simp only [tryCatch]
  rcases hxw : x w with ⟨r, w1⟩
  rw [hxw] at htr1 h1
  simp only at htr1 h1
  cases r with
  | ok a => exact ⟨evs1, htr1, h1⟩
  | error e =>
    obtain ⟨evs2, htr2, h2⟩ := hh e w1
    refine ⟨evs1 ++ evs2, ?_, ?_⟩
    · simp only
      rw [htr2, htr1, List.append_assoc]
    · intro hP n hn
      simp only
      rw [h2 (fun ev hev => hP ev (List.mem_append_right _ hev)) n hn,
        h1 (fun ev hev => hP ev (List.mem_append_left _ hev)) n hn]

theorem when_ite {α : Type} {P : Event → Prop} {S : String → Prop} (c : Prop) [Decidable c]
    {x y : M α} (hx : TouchesOnlyWhen P S x) (hy : TouchesOnlyWhen P S y) :
    TouchesOnlyWhen P S (if c then x else y) := by
  split
  · exact hx
  · exact hy

theorem when_forOf {α : Type} {P : Event → Prop} {S : String → Prop} (body : α → M Unit)
    (hbody : ∀ a, TouchesOnlyWhen P S (body a)) (l : List α) :
    TouchesOnlyWhen P S (forOf body l) := by
  induction l with
  | nil => exact when_pure P S ()
  | cons a rest ih =>
    unfold forOf
    exact when_bind (hbody a) (fun _ => ih)

theorem when_execCommand (env : Env) (S : String → Prop) (command : String) :
    TouchesOnlyWhen (QuietEvent env S) S (execCommand env command) := by
  intro w
  have hfs : (execCommand env command w).2.fs = env.shell w.trace.length command w.fs := by
    unfold execCommand
    exact perform_fs_of_readonly env _ _ (by
      intro d a d1 h
      simp only [Res.ok.injEq, Prod.mk.injEq] at h
      exact h.2.symm) _
  obtain ⟨evs, htr, h⟩ := spec_execCommand env command w
  refine ⟨evs, htr, ?_⟩
  intro hP n hn
  rw [hfs]
  have hq : QuietEvent env S ⟨Op.exec command, none⟩ ∨
      ∃ e, QuietEvent env S ⟨Op.exec command, some e⟩ := by
    rcases h with ⟨a, -, rfl⟩ | ⟨e, -, rfl⟩
    · exact Or.inl (hP _ (by simp))
    · exact Or.inr ⟨e, hP _ (by simp)⟩
  rcases hq with hq | ⟨e, hq⟩
  · exact hq _ _ n hn
  · exact hq _ _ n hn

theorem when_mkdirAt (P : Event → Prop) (S : String → Prop) (env : Env) (path : String) :
    TouchesOnlyWhen P S (mkdirAt env path) :=
  when_of_touches P (fun _ => True) S (emits_mkdirAt _ env path (fun _ => trivial))
    (touches_of_keeps S (keeps_mkdirAt env path))

theorem when_fileExistsAt (P : Event → Prop) (S : String → Prop) (env : Env) (path : String) :
    TouchesOnlyWhen P S (fileExistsAt env path) :=
  when_of_touches P (fun _ => True) S (emits_fileExistsAt _ env path (fun _ => trivial))
    (touches_of_keeps S (keeps_fileExistsAt env path))

theorem when_backupConfigurations (env : Env) (S : String → Prop) (tempDir : String) :
    TouchesOnlyWhen (QuietEvent env S) S (backupConfigurations env tempDir) := by
  unfold backupConfigurations
  repeat' first
    | exact when_pure _ _ _
    | exact when_mkdirAt _ _ env _
    | exact when_execCommand env _ _
    | exact when_fileExistsAt _ _ env _
    | apply when_bind
    | apply when_tryCatch
    | apply when_forOf
    | apply when_ite
    | intro _

theorem when_backupDatabases (env : Env) (S : String → Prop) (tempDir : String) :
    TouchesOnlyWhen (QuietEvent env S) S (backupDatabases env tempDir) := by
  unfold backupDatabases
  repeat' first
    | exact when_pure _ _ _
    | exact when_mkdirAt _ _ env _
    | exact when_execCommand env _ _
    | exact when_fileExistsAt _ _ env _
    | apply when_bind
    | apply when_tryCatch
    | apply when_forOf
    | apply when_ite
    | intro _

theorem when_backupApplicationData (env : Env) (S : String → Prop) (tempDir : String) :
    TouchesOnlyWhen (QuietEvent env S) S (backupApplicationData env tempDir) := by
  unfold backupApplicationData
  repeat' first
    | exact when_pure _ _ _
    | exact when_mkdirAt _ _ env _
    | exact when_execCommand env _ _
    | exact when_fileExistsAt _ _ env _
    | apply when_bind
    | apply when_tryCatch
    | apply when_forOf
    | apply when_ite
    | intro _

theorem when_backupDatabase (env : Env) (S : String → Prop) (dbName tempDir : String) :
    TouchesOnlyWhen (QuietEvent env S) S (backupDatabase env dbName tempDir) := by
  unfold backupDatabase
  repeat' first
    | exact when_pure _ _ _
    | exact when_raise _ _ _
    | exact when_mkdirAt _ _ env _
    | exact when_execCommand env _ _
    | apply when_bind
    | apply when_tryCatch
    | intro _

theorem when_backupServiceConfig (env : Env) (S : String → Prop)
    (serviceName tempDir : String) :
    TouchesOnlyWhen (QuietEvent env S) S (backupServiceConfig env serviceName tempDir) := by
  unfold backupServiceConfig
  split
  · split
    · exact when_pure _ _ _
    · exact when_raise _ _ _
  · repeat' first
      | exact when_pure _ _ _
      | exact when_mkdirAt _ _ env _
      | exact when_execCommand env _ _
      | exact when_fileExistsAt _ _ env _
      | apply when_bind
      | apply when_ite
      | intro _

theorem when_fullProducers (env : Env) (S : String → Prop) (id : String)
    (options : FullOptions) :
    TouchesOnlyWhen (QuietEvent env S) S (fullProducers env id options) := by
  unfold fullProducers
  repeat' first
    | exact when_pure _ _ _
    | exact when_backupConfigurations env _ _
    | exact when_backupDatabases env _ _
    | exact when_backupApplicationData env _ _
    | apply when_bind
    | apply when_ite
    | intro _

theorem when_databaseProducers (env : Env) (S : String → Prop) (id : String)
    (databases : Option (List String)) :
    TouchesOnlyWhen (QuietEvent env S) S (databaseProducers env id databases) := by
  unfold databaseProducers
  split
  · exact when_forOf _ (fun _ => when_backupDatabase env _ _ _) _
  · exact when_raise _ _ _

theorem when_configProducers (env : Env) (S : String → Prop) (id : String)
    (services : Option (List String)) :
    TouchesOnlyWhen (QuietEvent env S) S (configProducers env id services) := by
  unfold configProducers
  split
  · exact when_forOf _ (fun _ => when_backupServiceConfig env _ _ _) _
  · exact when_raise _ _ _

theorem when_jobShape (env : Env) (P : Event → Prop) (id : String) (metadata : Int → Metadata)
    (hid : ∀ t, (metadata t).id = some id) (producers : M Unit)
    (hp : TouchesOnlyWhen P (OwnName id) producers) :
    TouchesOnlyWhen P (OwnName id) (jobShape env id metadata producers) := by
  have hsave : ∀ m : Metadata, m.id = some id →
      TouchesOnlyWhen P (OwnName id) (saveBackupMetadata env m) := by
    intro m hm
    refine when_of_touches P (fun _ => True) _
      (emits_saveBackupMetadata _ env m (fun _ => trivial)) ?_
    unfold saveBackupMetadata
    rw [hm]
    exact touches_writeJson _ env _ m (Or.inl rfl)
  have hnow : TouchesOnlyWhen P (OwnName id) (now env) :=
    when_of_touches P (fun _ => True) _ (emits_now _ env) (touches_of_keeps _ (keeps_now env))
  unfold jobShape
  refine when_bind hnow (fun t0 => ?_)
  refine when_tryCatch ?_ (fun e => ?_)
  · refine when_bind (hsave _ (hid t0)) (fun _ => ?_)
    refine when_bind (when_of_touches P (fun _ => True) _
      (emits_perform _ env _ _ (fun _ => trivial))
      (touches_mkdir _ env _ (Or.inr (Or.inr rfl)))) (fun _ => ?_)
    refine when_bind hp (fun _ => ?_)
    refine when_bind (when_of_touches P (fun _ => True) _
      (emits_createArchive _ env _ _ (fun _ => trivial))
      (touches_createArchive _ env _ _ (Or.inr (Or.inl rfl)))) (fun _ => ?_)
    refine when_bind (when_of_touches P (fun _ => True) _
      (emits_perform _ env _ _ (fun _ => trivial))
      (touches_rm _ env _ (Or.inr (Or.inr rfl)))) (fun _ => ?_)
    refine when_bind hnow (fun tc => ?_)
    exact hsave _ (hid t0)
  · refine when_bind hnow (fun t => ?_)
    exact hsave _ (hid t0)

theorem confined_jobShape (env : Env) (id : String) (metadata : Int → Metadata)
    (hid : ∀ t, (metadata t).id = some id) (producers : M Unit)
    (hp : TouchesOnlyWhen (QuietEvent env (OwnName id)) (OwnName id) producers)
    (hcalls : Emits (fun ev => ProducerCall env id ev.op) producers) (w : World) :
    (∀ ev ∈ newEvents w (jobShape env id metadata producers w).2,
      ev.op.isRunnerCallOf id = true) ∧
    ('/' ∉ id.data →
      QuietShell env id (newEvents w (jobShape env id metadata producers w).2) →
      ∀ n, ¬ OwnName id n → (jobShape env id metadata producers w).2.fs.find n = w.fs.find n) := by
  obtain ⟨evs, htr, t0, h⟩ := spec_jobShape env id metadata hid producers _ hcalls w
  have hjob := jobCall_of_jobRun env id _ _ _ h
  obtain ⟨evs1, htr1, hfs⟩ := when_jobShape env _ id metadata hid producers hp w
  have hevs : evs1 = evs := List.append_cancel_left (htr1.symm.trans htr)
  subst hevs
  rw [newEvents_of_trace w _ evs1 htr]
  exact ⟨fun ev hev => runnerCall_of_jobCall env id _ (hjob ev hev), fun _ hq => hfs hq⟩

theorem quietShell_of_noRedirect (id : String) (evs : List Event)
    (h : noRedirectInto calmEnv.backupDir evs = true) : QuietShell redirectEnv id evs := by
  intro ev hev
  have h1 := List.all_eq_true.1 h ev hev
  rcases ev with ⟨op, err⟩
  cases op <;> try exact trivial
  next command =>
    intro n d name _
    simp only [Option.isNone_iff_eq_none] at h1
    show (redirectShell calmEnv.backupDir command d).find name = d.find name
    unfold redirectShell
    rw [h1]

/-- C26, as amended. Every run of `createFullBackup`, `createDatabaseBackup` and
`createConfigBackup` for the job `id`, under any faults and from any world, makes no
calls but writes of `{id}.json`, the creation and removal of `temp_{id}`, the
construction of `{id}.tar.gz` from `temp_{id}`, and the probes, directory creations and
shell commands of the producers; it never lists the backup root nor unlinks a file,
which the retention cleanup does as its first call, so the cleanup is not invoked. If
moreover the id contains no path separator, so that the three names are children of the
backup root, and the commands that the run handed to the shell changed nothing in the
backup root but `{id}.json`, `{id}.tar.gz` and `temp_{id}`, then every other child of
the backup root is after the run what it was before (absent if it was absent, the same
node otherwise), so the metadata and the archive of every other job are unchanged. -/
theorem api_jobs_confined (env : Env) (w : World) (id : String)
    (description : Option String) (options : FullOptions)
    (databases services : Option (List String)) :
    ((∀ ev ∈ newEvents w (createFullBackup env id description options w).2,
        ev.op.isRunnerCallOf id = true) ∧
      ('/' ∉ id.data →
        QuietShell env id (newEvents w (createFullBackup env id description options w).2) →
        ∀ n, ¬ OwnName id n →
          (createFullBackup env id description options w).2.fs.find n = w.fs.find n)) ∧
    ((∀ ev ∈ newEvents w (createDatabaseBackup env id databases description w).2,
        ev.op.isRunnerCallOf id = true) ∧
      ('/' ∉ id.data →
        QuietShell env id
          (newEvents w (createDatabaseBackup env id databases description w).2) →
        ∀ n, ¬ OwnName id n →
          (createDatabaseBackup env id databases description w).2.fs.find n = w.fs.find n)) ∧
    ((∀ ev ∈ newEvents w (createConfigBackup env id services description w).2,
        ev.op.isRunnerCallOf id = true) ∧
      ('/' ∉ id.data →
        QuietShell env id (newEvents w (createConfigBackup env id services description w).2) →
        ∀ n, ¬ OwnName id n →
          (createConfigBackup env id services description w).2.fs.find n = w.fs.find n)) ∧
    ∀ keepCount w2, ∃ err rest, newEvents w2 (cleanupOldBackups env keepCount w2).2 =
      (⟨Op.readdir, err⟩ : Event) :: rest := by
  refine ⟨?_, ?_, ?_, fun k w2 => cleanupOldBackups_reads_first env k w2⟩
  · rw [createFullBackup_eq]
    exact confined_jobShape env id _ (fun _ => rfl) _ (when_fullProducers env _ id options)
      (emits_producer_fullProducers env id options) w
  · rw [createDatabaseBackup_eq]
    exact confined_jobShape env id _ (fun _ => rfl) _ (when_databaseProducers env _ id databases)
      (emits_producer_databaseProducers env id databases) w
  · rw [createConfigBackup_eq]
    exact confined_jobShape env id _ (fun _ => rfl) _ (when_configProducers env _ id services)
      (emits_producer_configProducers env id services) w

set_option maxRecDepth 100000 in
/-- Witness of C26 as amended: a full backup, a backup of the database `shop` and a
backup of the configuration of `nginx` as the job `job1`, under a shell that performs
output redirections, in a directory that holds the job `other`. The dumps of `shop` are
redirected to `temp_job1/databases/shop.sql`, below the working directory, and the
record and the archive of the job `other` are after each run what they were before. -/
theorem api_jobs_confined_witness :
    (∀ n, ¬ OwnName "job1" n →
      (createFullBackup redirectEnv "job1" none ⟨true, true⟩ ⟨otherJobDir, []⟩).2.fs.find n =
        otherJobDir.find n) ∧
    (∀ n, ¬ OwnName "job1" n →
      (createDatabaseBackup redirectEnv "job1" (some ["shop"]) none
        ⟨otherJobDir, []⟩).2.fs.find n = otherJobDir.find n) ∧
    (∀ n, ¬ OwnName "job1" n →
      (createConfigBackup redirectEnv "job1" (some ["nginx"]) none
        ⟨otherJobDir, []⟩).2.fs.find n = otherJobDir.find n) ∧
    (⟨Op.exec (pgDumpCommand "shop" "/var/backups/buddybox/temp_job1/databases"), none⟩ :
      Event) ∈ newEvents ⟨otherJobDir, []⟩
        (createDatabaseBackup redirectEnv "job1" (some ["shop"]) none ⟨otherJobDir, []⟩).2 ∧
    ¬ OwnName "job1" "other.json" ∧ ¬ OwnName "job1" "other.tar.gz" :=
  ⟨(api_jobs_confined redirectEnv ⟨otherJobDir, []⟩ "job1" none ⟨true, true⟩ none none).1.2
      (by decide) (quietShell_of_noRedirect "job1" _ (by decide!)),
    (api_jobs_confined redirectEnv ⟨otherJobDir, []⟩ "job1" none ⟨true, true⟩ (some ["shop"])
      none).2.1.2 (by decide) (quietShell_of_noRedirect "job1" _ (by decide!)),
    (api_jobs_confined redirectEnv ⟨otherJobDir, []⟩ "job1" none ⟨true, true⟩ none
      (some ["nginx"])).2.2.1.2 (by decide) (quietShell_of_noRedirect "job1" _ (by decide!)),
    by decide!, by unfold OwnName; decide, by unfold OwnName; decide⟩

set_option maxRecDepth 100000 in
/-- Counterexample to C26 as stated. First, a backup of the database named `../../x` as
the job `job1`, in which no call fails. The name is pasted into the command unchecked;
the target of the redirection, spelled `{BACKUP_DIR}/temp_job1/databases/../../x.sql`
here and normalised by `path.join` in the source, is the path
`/var/backups/buddybox/x.sql`, which the shell creates. After the run the backup
directory has the child `x.sql`, which is none of `job1.json`, `job1.tar.gz` and
`temp_job1`. Second, for the id `./other` the record is written to the path of
`other.json` and the archive to the path of `other.tar.gz`: the files of the job
`other`. -/
theorem dump_written_into_backup_root :
    ((⟨Op.exec (pgDumpCommand "../../x" "/var/backups/buddybox/temp_job1/databases"), none⟩ :
        Event) ∈ newEvents ⟨[], []⟩
          (createDatabaseBackup redirectEnv "job1" (some ["../../x"]) none ⟨[], []⟩).2 ∧
      pgDumpCommand "../../x" "/var/backups/buddybox/temp_job1/databases" =
        "sudo -u postgres pg_dump ../../x > /var/backups/buddybox/temp_job1/databases/../../x.sql" ∧
      pathSegments "/var/backups/buddybox/temp_job1/databases/../../x.sql" =
        ["var", "backups", "buddybox", "x.sql"] ∧
      redirectChild "/var/backups/buddybox"
        (pgDumpCommand "../../x" "/var/backups/buddybox/temp_job1/databases") = some "x.sql" ∧
      (createDatabaseBackup redirectEnv "job1" (some ["../../x"]) none
        ⟨[], []⟩).2.fs.find "x.sql" = some (Node.file none 0) ∧
      ((createDatabaseBackup redirectEnv "job1" (some ["../../x"]) none ⟨[], []⟩).2.fs.map
        Prod.fst) = ["job1.json", "x.sql", "job1.tar.gz"] ∧
      ¬ OwnName "job1" "x.sql") ∧
    (¬ OwnName "./other" "other.json" ∧ ¬ OwnName "./other" "other.tar.gz" ∧
      joinSegments (routesBackupDir none) ("./other" ++ ".json") =
        joinSegments (routesBackupDir none) "other.json" ∧
      joinSegments (routesBackupDir none) ("./other" ++ ".tar.gz") =
        joinSegments (routesBackupDir none) "other.tar.gz") :=
  ⟨⟨by decide!, by decide, by decide, by decide, by decide!, by decide!,
      by unfold OwnName; decide⟩,
    by unfold OwnName; decide, by unfold OwnName; decide, by decide, by decide⟩

/-! ## Order of the steps of a full backup -/

theorem spec_run {x : M Unit} {Φ : Res Unit → List Event → Prop} (h : Spec x Φ) :
    Spec x (fun r evs => Φ r evs ∧ (r = Res.ok () → RunOf x evs)) := by
  intro w
  obtain ⟨evs, htr, hΦ⟩ := h w
  exact ⟨evs, htr, hΦ, fun hr => ⟨w, hr, newEvents_of_trace w _ evs htr⟩⟩

theorem spec_producersInOrder (env : Env) (id : String) (options : FullOptions) :
    Spec (fullProducers env id options)
      (fun r evs => r = Res.ok () → ProducersInOrder env id options evs) := by
  have hC : Spec (if options.includeConfigs then
      backupConfigurations env (pathJoin env.backupDir ("temp_" ++ id)) else pure ())
      (fun r evs => r = Res.ok () → if options.includeConfigs then
        RunOf (backupConfigurations env (pathJoin env.backupDir ("temp_" ++ id))) evs ∧ evs ≠ []
        else evs = []) := by
    cases options.includeConfigs with
    | false => exact (spec_pure ()).weaken (by rintro r evs ⟨-, rfl⟩ _; simp)
    | true =>
      refine (spec_run (spec_backupConfigurations env _)).weaken ?_
      rintro r evs ⟨⟨-, h⟩, hrun⟩ hr
      simp only [if_true]
      refine ⟨hrun hr, ?_⟩
      obtain ⟨err, hmem⟩ := h "/etc/nginx" (by simp [configPaths])
      exact List.ne_nil_of_mem hmem
  have hD : Spec (if options.includeDatabases then
      backupDatabases env (pathJoin env.backupDir ("temp_" ++ id)) else pure ())
      (fun r evs => r = Res.ok () → if options.includeDatabases then
        RunOf (backupDatabases env (pathJoin env.backupDir ("temp_" ++ id))) evs ∧ evs ≠ []
        else evs = []) := by
    cases options.includeDatabases with
    | false => exact (spec_pure ()).weaken (by rintro r evs ⟨-, rfl⟩ _; simp)
    | true =>
      refine (spec_run (spec_backupDatabases env _)).weaken ?_
      rintro r evs ⟨h, hrun⟩ hr
      simp only [if_true]
      refine ⟨hrun hr, ?_⟩
      rcases h with ⟨p, e, -, hmem⟩ | ⟨-, ⟨err, hmem⟩, -⟩ <;> exact List.ne_nil_of_mem hmem
  have hA : Spec (backupApplicationData env (pathJoin env.backupDir ("temp_" ++ id)))
      (fun r evs => r = Res.ok () →
        RunOf (backupApplicationData env (pathJoin env.backupDir ("temp_" ++ id))) evs ∧
          evs ≠ []) := by
    refine (spec_run (spec_backupApplicationData env _)).weaken ?_
    rintro r evs ⟨h, hrun⟩ hr
    refine ⟨hrun hr, ?_⟩
    rcases h with ⟨p, e, -, hmem⟩ | ⟨-, h⟩
    · exact List.ne_nil_of_mem hmem
    · obtain ⟨err, hmem⟩ := h "/var/www" (by simp)
      exact List.ne_nil_of_mem hmem
  have hall : Spec (fullProducers env id options) _ :=
    spec_bind hC (fun _ => spec_bind hD (fun _ => hA))
  refine hall.weaken ?_
  rintro r evs h hr
  subst hr
  rcases h with ⟨e, h, -⟩ | ⟨_, evsC, evs2, rfl, hc, h⟩
  · simp at h
  rcases h with ⟨e, h, -⟩ | ⟨_, evsD, evsA, rfl, hd, ha⟩
  · simp at h
  exact ⟨evsC, evsD, evsA, by simp, hc rfl, hd rfl, ha rfl⟩

theorem fullJobOrder_of_jobRun (env : Env) (id : String) (options : FullOptions)
    (m0 : Metadata) (r : Res Unit) (evs : List Event) (h0 : m0.status = some "in_progress")
    (h : JobRun id m0 (fun r evs => r = Res.ok () → ProducersInOrder env id options evs) r evs)
    (hno : NoFatalStep evs) : r = Res.ok () ∧ FullJobOrder env id options evs := by
  have hfail : ∀ e t ef, (⟨Op.writeFile (id ++ ".json") (failedRecord m0 e t), ef⟩ : Event) ∈ evs →
      False := fun e t ef hmem => by
    have := hno _ hmem
    simp [Op.writesFailed, failedRecord] at this
  cases h with
  | initialWriteFailed e t ef => exact (hfail e t ef (by simp)).elim
  | mkdirFailed e t ef => exact (hfail e t ef (by simp)).elim
  | producerFailed evsA e t ef hA => exact (hfail e t ef (by simp)).elim
  | archiveFailed evsA e t ef hA => exact (hfail e t ef (by simp)).elim
  | removeFailed evsA e t ef hA => exact (hfail e t ef (by simp)).elim
  | finalWriteFailed evsA e tc t ef hA => exact (hfail e t ef (by simp)).elim
  | completed evsA tc hA => exact ⟨rfl, m0, tc, evsA, hA rfl, h0, rfl⟩

/-- C24. In every run of `createFullBackup` that does not enter the `catch` block (no
step is fatal: no write of a `failed` record is attempted), the function returns
normally and the calls made are, in this order and with nothing else: the write of the
initial record, the creation of the working directory, a run of the configuration
producer exactly when `options.includeConfigs` is set, a run of the database producer
exactly when `options.includeDatabases` is set, a run of the application-data producer,
the construction of the archive from the working directory, the removal of the working
directory, and the write of the `completed` record; so no producer runs after the
archive is built. -/
theorem full_job_order (env : Env) (w : World) (id : String) (description : Option String)
    (options : FullOptions)
    (hno : NoFatalStep (newEvents w (createFullBackup env id description options w).2)) :
    (createFullBackup env id description options w).1 = Res.ok () ∧
    FullJobOrder env id options
      (newEvents w (createFullBackup env id description options w).2) := by
  rw [createFullBackup_eq] at hno ⊢
  obtain ⟨evs, htr, t0, h⟩ := spec_jobShape env id (fullRecord id description options)
    (fun _ => rfl) (fullProducers env id options) _ (spec_producersInOrder env id options) w
  rw [newEvents_of_trace w _ evs htr] at hno ⊢
  exact fullJobOrder_of_jobRun env id options _ _ evs rfl h hno

set_option maxRecDepth 100000 in
/-- Witness of C24: the full backup `job1` with both options set, from the empty
directory and with no call made to fail. -/
theorem full_job_order_witness :
    (createFullBackup calmEnv "job1" none ⟨true, true⟩ ⟨[], []⟩).1 = Res.ok () ∧
    FullJobOrder calmEnv "job1" ⟨true, true⟩
      (newEvents ⟨[], []⟩ (createFullBackup calmEnv "job1" none ⟨true, true⟩ ⟨[], []⟩).2) :=
  full_job_order calmEnv ⟨[], []⟩ "job1" none ⟨true, true⟩ (by unfold NoFatalStep; decide!)

/-! ## Best-effort cleanup -/

theorem collectLoop_of_noReadFault (env : Env)
    (hread : ∀ n name, env.fault n (Op.readFile name) = none) (d : Dir) :
    ∀ (files : List String) (backups : List Metadata) (w : World), w.fs = d →
      ∃ w1, collectLoop env files backups w =
          (Res.ok (backups ++ files.filterMap
            (fun f => (d.find f).bind (fun node => automatedRecord (f, node)))), w1) ∧
        w1.fs = d := by
  intro files
  induction files with
  | nil =>
    intro backups w hw
    exact ⟨w, by simp [collectLoop], hw⟩
  | cons file rest ih =>
    intro backups w hw
    subst hw
    unfold collectLoop
    by_cases hjson : endsWith file ".json" = true
    · simp only [hjson, if_true, bind_run, tryCatch, readJson, perform, hread]
      cases hfind : w.fs.find file with
      | none =>
        have h := ih backups
          { w with trace := w.trace ++
            [⟨Op.readFile file, some "ENOENT: no such file or directory"⟩] } rfl
        simpa [hfind] using h
      | some node =>
        cases node with
        | dir =>
          have h := ih backups
            { w with trace := w.trace ++
              [⟨Op.readFile file, some "EISDIR: illegal operation on a directory"⟩] } rfl
          simpa [hfind, automatedRecord, hjson] using h
        | file json size =>
          cases json with
          | none =>
            have h := ih backups
              { w with trace := w.trace ++
                [⟨Op.readFile file, some "SyntaxError: Unexpected token"⟩] } rfl
            simpa [hfind, automatedRecord, hjson] using h
          | some m =>
            by_cases hauto : m.automated = true
            · have h := ih (backups ++ [m])
                { fs := w.fs, trace := w.trace ++ [⟨Op.readFile file, none⟩] } rfl
              simpa [hfind, automatedRecord, hjson, hauto] using h
            · have h := ih backups
                { fs := w.fs, trace := w.trace ++ [⟨Op.readFile file, none⟩] } rfl
              simpa [hfind, automatedRecord, hjson, hauto] using h
    · have h := ih backups w rfl
      cases hfind : w.fs.find file with
      | none => simpa [hjson, hfind] using h
      | some node => simpa [hjson, hfind, automatedRecord] using h

theorem deleteIfExists_of_noFaultAt (env : Env) (name : String) (w : World)
    (hacc : ∀ n, env.fault n (Op.access name) = none)
    (hun : ∀ n, env.fault n (Op.unlink name) = none)
    (hfile : w.fs.find name ≠ some Node.dir) :
    ∃ b w1 w2, fileExists env name w = (Res.ok b, w1) ∧
      (if b = true then unlink env name else pure ()) w1 = (Res.ok (), w2) ∧
      w2.fs = w.fs.remove name := by
  obtain ⟨b, w1, r, w2, h1, h2, hc⟩ := deleteIfExists_cases env name w
  rcases hc with ⟨rfl, hfs⟩ | ⟨-, -, hf⟩ | ⟨e, -, -, hsome, hwhy⟩
  · exact ⟨b, w1, w2, h1, h2, hfs⟩
  · exact absurd (hacc _) hf
  · exfalso
    rcases hwhy with hf | hnot
    · exact hf (hun _)
    · cases hfind : w.fs.find name with
      | none => simp [hfind] at hsome
      | some node =>
        cases node with
        | dir => exact hfile hfind
        | file json size => exact hnot json size hfind

theorem deleteLoop_best_effort (env : Env) (B : List String)
    (hacc : ∀ n name, env.fault n (Op.access name) = none)
    (hun : ∀ n name, name ∉ B → env.fault n (Op.unlink name) = none)
    (hB : ∀ id : String, id ++ ".tar.gz" ∈ B → id ++ ".json" ∈ B) :
    ∀ (l : List Metadata) (w : World),
      (∀ n ∈ deletedNames l, n ∉ B → w.fs.find n ≠ some Node.dir) →
      ∃ w1, deleteLoop env l w = (Res.ok (), w1) ∧
        (∀ n, w1.fs.find n = w.fs.find n ∨ w1.fs.find n = none) ∧
        (∀ n ∈ deletedNames l, n ∉ B → w1.fs.find n = none) := by
  intro l
  induction l with
  | nil =>
    intro w _
    exact ⟨w, rfl, fun _ => Or.inl rfl, by simp [deletedNames]⟩
  | cons m rest ih =>
    intro w hdirs
    have hmemT : tmpl m.id ++ ".tar.gz" ∈ deletedNames (m :: rest) := by simp [deletedNames]
    have hmemJ : tmpl m.id ++ ".json" ∈ deletedNames (m :: rest) := by simp [deletedNames]
    have hmemR : ∀ n ∈ deletedNames rest, n ∈ deletedNames (m :: rest) := by
      intro n hn
      simp only [deletedNames, List.flatMap_cons, List.mem_append]
      exact Or.inr hn
    -- a step that changes the directory at most by removing a name
    have hstep : ∀ (name : String) (w0 : World), ∃ b w1 r w2,
        fileExists env name w0 = (Res.ok b, w1) ∧
        (if b = true then unlink env name else pure ()) w1 = (r, w2) ∧
        (∀ n, w2.fs.find n = w0.fs.find n ∨ w2.fs.find n = none) ∧
        (name ∉ B → w0.fs.find name ≠ some Node.dir → r = Res.ok () ∧ w2.fs.find name = none) := by
      intro name w0
      obtain ⟨b, w1, r, w2, h1, h2, hc⟩ := deleteIfExists_cases env name w0
      refine ⟨b, w1, r, w2, h1, h2, ?_, ?_⟩
      · intro n
        rcases hc with ⟨_, h⟩ | ⟨_, h, _⟩ | ⟨e, _, h, _⟩
        · rw [h, find_remove]
          split
          · exact Or.inr rfl
          · exact Or.inl rfl
        · rw [h]; exact Or.inl rfl
        · rw [h]; exact Or.inl rfl
      · intro hnB hfile
        obtain ⟨b3, w3, w4, h3, h4, hfs⟩ := deleteIfExists_of_noFaultAt env name w0
          (fun n => hacc n name) (fun n => hun n name hnB) hfile
        rw [h1] at h3
        simp only [Prod.mk.injEq, Res.ok.injEq] at h3
        obtain ⟨rfl, rfl⟩ := h3
        rw [h2] at h4
        simp only [Prod.mk.injEq] at h4
        obtain ⟨rfl, rfl⟩ := h4
        exact ⟨rfl, by rw [hfs, find_remove, if_pos rfl]⟩
    -- the rest of the loop, from a world that lost at most some names
    have hrest : ∀ w4 : World, (∀ n, w4.fs.find n = w.fs.find n ∨ w4.fs.find n = none) →
        (tmpl m.id ++ ".tar.gz" ∉ B → w4.fs.find (tmpl m.id ++ ".tar.gz") = none) →
        (tmpl m.id ++ ".json" ∉ B → w4.fs.find (tmpl m.id ++ ".json") = none) →
        ∃ w1, deleteLoop env rest w4 = (Res.ok (), w1) ∧
          (∀ n, w1.fs.find n = w.fs.find n ∨ w1.fs.find n = none) ∧
          (∀ n ∈ deletedNames (m :: rest), n ∉ B → w1.fs.find n = none) := by
      intro w4 hmono hT hJ
      obtain ⟨w5, h5, hmono5, hgone5⟩ := ih w4 (by
        intro n hn hnB
        rcases hmono n with h | h
        · rw [h]; exact hdirs n (hmemR n hn) hnB
        · rw [h]; simp)
      refine ⟨w5, h5, ?_, ?_⟩
      · intro n
        rcases hmono5 n with h | h
        · rw [h]; exact hmono n
        · exact Or.inr h
      · intro n hn hnB
        simp only [deletedNames, List.flatMap_cons, List.mem_append, List.mem_cons,
          List.mem_singleton, List.not_mem_nil, or_false] at hn
        rcases hn with (rfl | rfl) | hn
        · rcases hmono5 (tmpl m.id ++ ".tar.gz") with h | h
          · rw [h]; exact hT hnB
          · exact h
        · rcases hmono5 (tmpl m.id ++ ".json") with h | h
          · rw [h]; exact hJ hnB
          · exact h
        · exact hgone5 n (by simpa [deletedNames] using hn) hnB
    obtain ⟨b1, w1, r1, w2, h1, h2, hmono2, hgood2⟩ := hstep (tmpl m.id ++ ".tar.gz") w
    cases r1 with
    | error e1 =>
      have hTB : tmpl m.id ++ ".tar.gz" ∈ B := by
        by_contra hnB
        have := (hgood2 hnB (hdirs _ hmemT hnB)).1
        simp at this
      obtain ⟨w5, h5, hrest5⟩ := hrest w2 hmono2 (fun h => absurd hTB h)
        (fun h => absurd (hB _ hTB) h)
      refine ⟨w5, ?_, hrest5⟩
      unfold deleteLoop
      simp only [bind_run, tryCatch, h1, h2, pure_run]
      exact h5
    | ok u =>
      obtain ⟨b2, w3, r2, w4, h3, h4, hmono4, hgood4⟩ := hstep (tmpl m.id ++ ".json") w2
      have hmono : ∀ n, w4.fs.find n = w.fs.find n ∨ w4.fs.find n = none := by
        intro n
        rcases hmono4 n with h | h
        · rw [h]; exact hmono2 n
        · exact Or.inr h
      have hT : tmpl m.id ++ ".tar.gz" ∉ B → w4.fs.find (tmpl m.id ++ ".tar.gz") = none := by
        intro hnB
        rcases hmono4 (tmpl m.id ++ ".tar.gz") with h | h
        · rw [h]; exact (hgood2 hnB (hdirs _ hmemT hnB)).2
        · exact h
      have hJ : tmpl m.id ++ ".json" ∉ B → w4.fs.find (tmpl m.id ++ ".json") = none := by
        intro hnB
        refine (hgood4 hnB ?_).2
        rcases hmono2 (tmpl m.id ++ ".json") with h | h
        · rw [h]; exact hdirs _ hmemJ hnB
        · rw [h]; simp
      obtain ⟨w5, h5, hrest5⟩ := hrest w4 hmono hT hJ
      refine ⟨w5, ?_, hrest5⟩
      unfold deleteLoop
      cases r2 <;> simp only [bind_run, tryCatch, h1, h2, h3, h4, pure_run] <;> exact h5

theorem cleanupOldBackups_best_effort (env : Env) (w : World) (k : Nat) (B : List String)
    (hfault : ∀ n op, env.fault n op ≠ none → ∃ name ∈ B, op = Op.unlink name)
    (hB : ∀ id : String, id ++ ".tar.gz" ∈ B → id ++ ".json" ∈ B)
    (hnames : (w.fs.map Prod.fst).Nodup)
    (hfiles : ∀ m ∈ automatedRecords w.fs, ∀ n ∈ deletedNames [m], n ∉ B →
      w.fs.find n ≠ some Node.dir) :
    ∃ w1, cleanupOldBackups env k w = (Res.ok (), w1) ∧
      (∀ n, w1.fs.find n = w.fs.find n ∨ w1.fs.find n = none) ∧
      ∀ n ∈ deletedNames (excessRecords w.fs k), n ∉ B → w1.fs.find n = none := by
  have hnone : ∀ n op, (∀ name, op ≠ Op.unlink name) → env.fault n op = none := by
    intro n op hop
    by_contra h
    obtain ⟨name, -, hname⟩ := hfault n op h
    exact hop name hname
  have hun : ∀ n name, name ∉ B → env.fault n (Op.unlink name) = none := by
    intro n name hnB
    by_contra h
    obtain ⟨name1, hmem, hname⟩ := hfault n _ h
    simp only [Op.unlink.injEq] at hname
    exact hnB (hname ▸ hmem)
  have hreaddir : env.fault w.trace.length Op.readdir = none :=
    hnone _ _ (fun _ h => Op.noConfusion h)
  unfold cleanupOldBackups
  simp only [tryCatch, bind_run, readdir, perform, hreaddir]
  obtain ⟨w1, h1, hfs1⟩ := collectLoop_of_noReadFault env
    (fun n name => hnone n _ (fun _ h => Op.noConfusion h)) w.fs (w.fs.map Prod.fst) []
    { fs := w.fs, trace := w.trace ++ [⟨Op.readdir, none⟩] } rfl
  rw [List.nil_append, filterMap_names_eq_automatedRecords w.fs hnames] at h1
  simp only [h1, jsSlice_natCast]
  obtain ⟨w2, h2, hmono, hgone⟩ := deleteLoop_best_effort env B
    (fun n name => hnone n _ (fun _ h => Op.noConfusion h)) hun hB
    (excessRecords w.fs k) w1 (by
      intro n hn hnB
      rw [hfs1]
      simp only [deletedNames, List.mem_flatMap] at hn
      obtain ⟨m, hm, hn⟩ := hn
      exact hfiles m ((mem_jsSort _ _ _).1 (List.mem_of_mem_drop hm)) n
        (by simpa [deletedNames] using hn) hnB)
  rw [hfs1] at hmono
  simp only [excessRecords] at h2
  exact ⟨w2, by simp only [h2], hmono, hgone⟩

theorem deletedNames_closed (bad : Metadata) (id : String)
    (h : id ++ ".tar.gz" ∈ deletedNames [bad]) : id ++ ".json" ∈ deletedNames [bad] := by
  simp only [deletedNames, List.flatMap_cons, List.flatMap_nil, List.append_nil, List.mem_cons,
    List.mem_singleton, List.not_mem_nil, or_false] at h ⊢
  rcases h with h | h
  · exact Or.inr (by rw [append_targz_inj _ _ h])
  · exact absurd h (targz_ne_json _ _)

/-- C21. Best-effort cleanup. Let the only calls made to fail from outside be removals
of the files of one automated record `bad`, let the names of the directory be distinct,
and let no file of another automated record be a directory. Then `cleanupOldBackups(k)`
returns normally and changes the directory only by removing files. The records it
selects for deletion are those beyond position `k` of the sorted array, which is a
rearrangement of the automated records of the directory and, when each of them has a
valid `createdAt`, their arrangement by `createdAt` descending (the order that the sort
gives records without a valid `createdAt` is left open). Afterwards both `{id}.tar.gz`
and `{id}.json` of every selected record are gone, the files of `bad` apart. Moreover,
under any faults whatever, once `performDailyBackup` has persisted the `completed`
record it returns normally with `success: true`, whatever happens in the cleanup. -/
theorem cleanup_best_effort (env : Env) (w : World) (k : Nat) (bad : Metadata)
    (hfault : FaultsOnlyDeleting env bad)
    (hnames : (w.fs.map Prod.fst).Nodup)
    (hfiles : ∀ m ∈ automatedRecords w.fs, ∀ n ∈ deletedNames [m], n ∉ deletedNames [bad] →
      w.fs.find n ≠ some Node.dir) :
    (cleanupOldBackups env k w).1 = Res.ok () ∧
    (∀ n, (cleanupOldBackups env k w).2.fs.find n = w.fs.find n ∨
      (cleanupOldBackups env k w).2.fs.find n = none) ∧
    (∃ sorted : List Metadata, sorted.Perm (automatedRecords w.fs) ∧
      ((∀ m ∈ automatedRecords w.fs, m.createdAt ≠ none) →
        sorted = jsSort (fun a b => compareCreatedAt a.createdAt b.createdAt)
            (automatedRecords w.fs) ∧
          sorted.Pairwise (fun a b => earlier a.createdAt b.createdAt = false)) ∧
      ∀ m ∈ sorted.drop k, ∀ n ∈ deletedNames [m], n ∉ deletedNames [bad] →
        (cleanupOldBackups env k w).2.fs.find n = none) ∧
    ∀ (env2 : Env) (uuid : String) (w2 : World),
      (∃ m ∈ persistedAt (uuid ++ ".json") (newEvents w2 (performDailyBackup env2 uuid w2).2),
        m.status = some "completed") →
      (performDailyBackup env2 uuid w2).1 = Res.ok ⟨true, uuid⟩ := by
  obtain ⟨w1, hrun, hmono, hgone⟩ := cleanupOldBackups_best_effort env w k (deletedNames [bad])
    hfault (deletedNames_closed bad) hnames hfiles
  rw [hrun]
  refine ⟨rfl, hmono, ⟨jsSort (fun a b => compareCreatedAt a.createdAt b.createdAt)
    (automatedRecords w.fs), List.perm_insertionSort _ _,
    fun hv => ⟨rfl, jsSort_pairwise_of_valid _ _ hv⟩, ?_⟩, ?_⟩
  · intro m hm n hn hnB
    refine hgone n ?_ hnB
    simp only [deletedNames, List.mem_flatMap] at hn ⊢
    obtain ⟨m1, hm1, hn⟩ := hn
    simp only [List.mem_singleton] at hm1
    subst hm1
    exact ⟨m1, hm, hn⟩
  · intro env2 uuid w2 hex
    obtain ⟨evs, htr, ts, t0, h⟩ := spec_performDailyBackup_result env2 uuid w2
    rw [newEvents_of_trace w2 _ evs htr] at hex
    obtain ⟨m, hm, hs⟩ := hex
    rcases h with ⟨-, h | h⟩ | ⟨hr, -⟩
    · rw [h] at hm
      simp at hm
    · rw [h] at hm
      simp only [List.mem_singleton] at hm
      rw [hm] at hs
      simp [dailyRecord] at hs
    · exact hr

set_option maxRecDepth 100000 in
/-- Witness of C21: ten automated records with valid creation times, seven to keep, and
the removal of the archive of `d02` made to fail; the records beyond the seventh are
`d03`, `d02` and `d01`; the two other excess records `d03` and `d01` are deleted, both
files of `d02` stay, and the cleanup returns normally. -/
theorem cleanup_best_effort_witness :
    (cleanupOldBackups stuckArchiveEnv (7 : Nat) ⟨tenDailyDir, []⟩).1 = Res.ok () ∧
    (jsSort (fun a b => compareCreatedAt a.createdAt b.createdAt)
        (automatedRecords tenDailyDir)).drop 7 =
      [sampleRecord "d03" (some 3) true, sampleRecord "d02" (some 2) true,
        sampleRecord "d01" (some 1) true] ∧
    (cleanupOldBackups stuckArchiveEnv (7 : Nat) ⟨tenDailyDir, []⟩).2.fs.find "d03.tar.gz" = none ∧
    (cleanupOldBackups stuckArchiveEnv (7 : Nat) ⟨tenDailyDir, []⟩).2.fs.find "d01.json" = none ∧
    (cleanupOldBackups stuckArchiveEnv (7 : Nat) ⟨tenDailyDir, []⟩).2.fs.map Prod.fst =
      ["u01.json", "u01.tar.gz", "d04.json", "d04.tar.gz", "d10.json", "d10.tar.gz",
        "d02.json", "d02.tar.gz", "d06.json", "d06.tar.gz", "d05.json", "d05.tar.gz",
        "d07.json", "d07.tar.gz", "u02.json", "u02.tar.gz", "d09.json", "d09.tar.gz",
        "d08.json", "d08.tar.gz"] := by
  have h := cleanup_best_effort stuckArchiveEnv ⟨tenDailyDir, []⟩ 7
    (sampleRecord "d02" (some 2) true)
    (by
      intro n op hne
      by_cases hop : op = Op.unlink "d02.tar.gz"
      · exact ⟨"d02.tar.gz", by decide, hop⟩
      · simp [stuckArchiveEnv, hop] at hne)
    (by decide) (by decide)
  obtain ⟨sorted, -, hvalid, hgone⟩ := h.2.2.1
  obtain ⟨hsorted, -⟩ := hvalid (by decide)
  subst hsorted
  exact ⟨h.1, by decide,
    hgone (sampleRecord "d03" (some 3) true) (by decide) "d03.tar.gz" (by decide) (by decide),
    hgone (sampleRecord "d01" (some 1) true) (by decide) "d01.json" (by decide) (by decide),
    by decide!⟩

/-! ## The daily backup and its own cleanup -/

theorem preserves_of_keeps {α : Type} (I : Dir → Prop) {x : M α} (h : KeepsFs x) :
    Preserves I x := fun w hI => by rw [h w]; exact hI

theorem preserves_bind {α β : Type} {I : Dir → Prop} {x : M α} {f : α → M β}
    (hx : Preserves I x) (hf : ∀ a, Preserves I (f a)) : Preserves I (x >>= f) := by
  intro w hI
  have h1 := hx w hI
  simp only [bind_run]
  rcases hxw : x w with ⟨r, w1⟩
  rw [hxw] at h1
  cases r with
  | ok a => exact hf a w1 h1
  | error e => exact h1

theorem preserves_tryCatch {α : Type} {I : Dir → Prop} {x : M α} {h : String → M α}
    (hx : Preserves I x) (hh : ∀ e, Preserves I (h e)) : Preserves I (tryCatch x h) := by
  intro w hI
  have h1 := hx w hI
  simp only [tryCatch]
  rcases hxw : x w with ⟨r, w1⟩
  rw [hxw] at h1
  cases r with
  | ok a => exact h1
  | error e => exact hh e w1 h1

theorem preserves_perform {α : Type} (I : Dir → Prop) (env : Env) (op : Op)
    (act : Dir → Res (α × Dir)) (hact : ∀ d a d1, act d = Res.ok (a, d1) → I d → I d1) :
    Preserves I (perform env op act) := by
  intro w hI
  unfold perform
  split
  · exact hI
  · split
    · next a d h => exact hact _ _ _ h hI
    · exact hI

theorem distinctNames_put (d : Dir) (name : String) (node : Node) (h : DistinctNames d) :
    DistinctNames (d.put name node) := by
  unfold DistinctNames Dir.put at *
  split
  · have hmap : (d.map (fun e => if e.1 = name then (name, node) else e)).map Prod.fst =
        d.map Prod.fst := by
      rw [List.map_map]
      apply List.map_congr_left
      intro e _
      simp only [Function.comp]
      split
      · next he => exact he.symm
      · rfl
    rw [hmap]
    exact h
  · next hnone =>
    have hn : Dir.find d name = none := by
      cases hf : Dir.find d name with
      | none => rfl
      | some x => simp [hf] at hnone
    rw [List.map_append, List.nodup_append]
    refine ⟨h, by simp, ?_⟩
    intro a ha hb
    simp only [List.map_cons, List.map_nil, List.mem_singleton] at hb
    subst hb
    obtain ⟨e, he, rfl⟩ := List.mem_map.1 ha
    exact (find_eq_none_iff d _).1 hn e he rfl

theorem distinctNames_remove (d : Dir) (name : String) (h : DistinctNames d) :
    DistinctNames (d.remove name) := by
  unfold DistinctNames Dir.remove at *
  exact h.sublist ((List.filter_sublist d).map Prod.fst)

theorem preserves_writeJson (env : Env) (name : String) (m : Metadata) :
    Preserves DistinctNames (writeJson env name m) := by
  apply preserves_perform
  intro d a d1 h hI
  split at h
  · exact absurd h (by simp)
  · simp only [Res.ok.injEq, Prod.mk.injEq, true_and] at h
    rw [← h]
    exact distinctNames_put _ _ _ hI

theorem preserves_mkdir (env : Env) (name : String) :
    Preserves DistinctNames (mkdir env name) := by
  apply preserves_perform
  intro d a d1 h hI
  split at h
  · simp only [Res.ok.injEq, Prod.mk.injEq, true_and] at h
    rw [← h]
    exact hI
  · exact absurd h (by simp)
  · simp only [Res.ok.injEq, Prod.mk.injEq, true_and] at h
    rw [← h]
    exact distinctNames_put _ _ _ hI

theorem preserves_rm (env : Env) (name : String) : Preserves DistinctNames (rm env name) := by
  apply preserves_perform
  intro d a d1 h hI
  simp only [Res.ok.injEq, Prod.mk.injEq, true_and] at h
  rw [← h]
  exact distinctNames_remove _ _ hI

theorem preserves_createArchive (env : Env) (source target : String) :
    Preserves DistinctNames (createArchive env source target) := by
  intro w
  unfold createArchive
  refine preserves_perform DistinctNames env _ _ ?_ w
  intro d a d1 h hI
  split at h
  · exact absurd h (by simp)
  · simp only [Res.ok.injEq, Prod.mk.injEq, true_and] at h
    rw [← h]
    exact distinctNames_put _ _ _ hI

theorem preserves_createSystemBackup (env : Env) (id : String) :
    Preserves DistinctNames (createSystemBackup env id) := by
  unfold createSystemBackup
  refine preserves_tryCatch ?_ (fun e => ?_)
  · refine preserves_bind (preserves_mkdir env _) (fun _ => ?_)
    refine preserves_bind (preserves_of_keeps _ (keeps_backupApplicationConfig env _)) (fun _ => ?_)
    refine preserves_bind (preserves_of_keeps _ (keeps_backupDatabaseSchemas env _)) (fun _ => ?_)
    refine preserves_bind (preserves_of_keeps _ (keeps_backupRecentLogs env _)) (fun _ => ?_)
    refine preserves_bind (preserves_createArchive env _ _) (fun _ => ?_)
    refine preserves_bind (preserves_rm env _) (fun _ => ?_)
    exact preserves_of_keeps _ (keeps_pure _)
  · refine preserves_bind (preserves_tryCatch (preserves_rm env _)
      (fun _ => preserves_of_keeps _ (keeps_pure _))) (fun _ => ?_)
    exact preserves_of_keeps _ (keeps_raise _)

theorem touches_createSystemBackup (env : Env) (id : String) :
    TouchesOnly (fun n => n = id ++ ".tar.gz" ∨ n = "temp_" ++ id)
      (createSystemBackup env id) := by
  unfold createSystemBackup
  refine touches_tryCatch ?_ (fun e => ?_)
  · refine touches_bind (touches_mkdir _ env _ (Or.inr rfl)) (fun _ => ?_)
    refine touches_bind (touches_of_keeps _ (keeps_backupApplicationConfig env _)) (fun _ => ?_)
    refine touches_bind (touches_of_keeps _ (keeps_backupDatabaseSchemas env _)) (fun _ => ?_)
    refine touches_bind (touches_of_keeps _ (keeps_backupRecentLogs env _)) (fun _ => ?_)
    refine touches_bind (touches_createArchive _ env _ _ (Or.inl rfl)) (fun _ => ?_)
    refine touches_bind (touches_rm _ env _ (Or.inr rfl)) (fun _ => ?_)
    exact touches_of_keeps _ (keeps_pure _)
  · refine touches_bind (touches_tryCatch (touches_rm _ env _ (Or.inr rfl))
      (fun _ => touches_of_keeps _ (keeps_pure _))) (fun _ => ?_)
    exact touches_of_keeps _ (keeps_raise _)

theorem collectLoop_count (env : Env) (d : Dir) (P : Metadata → Bool) (special : String)
    (hP : ∀ name b, endsWith name ".json" = true → recordAt d name = some b →
      b.automated = true → P b = true → name = special) :
    ∀ (files : List String) (backups : List Metadata) (w : World), w.fs = d →
      ∃ l w1, collectLoop env files backups w = (Res.ok l, w1) ∧ w1.fs = d ∧
        (∀ b ∈ l, b ∈ backups ∨
          ∃ name, endsWith name ".json" = true ∧ recordAt d name = some b ∧
            b.automated = true) ∧
        (l.filter P).length ≤ (backups.filter P).length + files.count special := by
  intro files
  induction files with
  | nil =>
    intro backups w hw
    exact ⟨backups, w, rfl, hw, fun b hb => Or.inl hb, by simp⟩
  | cons file rest ih =>
    intro backups w hw
    have hcount : rest.count special ≤ (file :: rest).count special := by
      rw [List.count_cons]
      omega
    unfold collectLoop
    by_cases hjson : endsWith file ".json" = true
    · simp only [hjson, if_true, bind_run, tryCatch]
      rcases hread : readJson env file w with ⟨r, w1⟩
      cases r with
      | error e =>
        have hfs1 := readJson_fs env file w
        rw [hread] at hfs1
        obtain ⟨l, w2, h2, hfs2, hall, hlen⟩ := ih backups w1 (hfs1.trans hw)
        exact ⟨l, w2, h2, hfs2, hall, by omega⟩
      | ok m =>
        obtain ⟨hrec, hfs1⟩ := readJson_ok env file w w1 m hread
        by_cases hauto : m.automated = true
        · obtain ⟨l, w2, h2, hfs2, hall, hlen⟩ := ih (backups ++ [m]) w1 (hfs1.trans hw)
          refine ⟨l, w2, by simpa [hauto] using h2, hfs2, ?_, ?_⟩
          · intro b hb
            rcases hall b hb with h | h
            · rcases List.mem_append.1 h with h | h
              · exact Or.inl h
              · rw [List.mem_singleton] at h
                subst h
                exact Or.inr ⟨file, hjson, hw ▸ hrec, hauto⟩
            · exact Or.inr h
          · by_cases hPm : P m = true
            · have hfile : file = special := hP file m hjson (hw ▸ hrec) hauto hPm
              rw [List.filter_append, List.length_append] at hlen
              simp only [List.filter_cons, hPm, if_true, List.filter_nil,
                List.length_singleton] at hlen
              rw [hfile, List.count_cons_self]
              omega
            · rw [List.filter_append, List.length_append] at hlen
              simp only [List.filter_cons, hPm, List.filter_nil, List.length_nil] at hlen
              simp only [Bool.false_eq_true, if_false, List.length_nil] at hlen
              omega
        · obtain ⟨l, w2, h2, hfs2, hall, hlen⟩ := ih backups w1 (hfs1.trans hw)
          exact ⟨l, w2, by simpa [hauto] using h2, hfs2, hall, by omega⟩
    · simp only [hjson, bind_run, pure_run]
      obtain ⟨l, w2, h2, hfs2, hall, hlen⟩ := ih backups w hw
      exact ⟨l, w2, h2, hfs2, hall, by omega⟩

theorem drop_jsSort_count {α : Type} (key : α → Option Int) (l : List α)
    (hv : ∀ a ∈ l, key a ≠ none) (k : Nat) (b : α)
    (hb : b ∈ (jsSort (fun a b => compareCreatedAt (key a) (key b)) l).drop k) :
    k + 1 ≤ (l.filter (fun a => !earlier (key a) (key b))).length := by
  have hs := jsSort_pairwise_of_valid key l hv
  have hperm := jsSort_perm (fun a b => compareCreatedAt (key a) (key b)) l
  rw [← (hperm.filter _).length_eq]
  generalize jsSort (fun a b => compareCreatedAt (key a) (key b)) l = s at hs hb
  have hsplit := List.take_append_drop k s
  rw [← hsplit] at hs
  obtain ⟨-, -, hcross⟩ := List.pairwise_append.1 hs
  have htake : (s.take k).filter (fun a => !earlier (key a) (key b)) = s.take k := by
    rw [List.filter_eq_self]
    intro a ha
    simp [hcross a ha b hb]
  have hlt : k < s.length := by
    by_contra hc
    have hnil : s.drop k = [] := List.drop_eq_nil_iff.2 (by omega)
    rw [hnil] at hb
    simp at hb
  have hlen : (s.take k).length = k := by
    rw [List.length_take]
    omega
  have hdrop : 0 < ((s.drop k).filter (fun a => !earlier (key a) (key b))).length := by
    rw [List.length_pos_iff_exists_mem]
    exact ⟨b, List.mem_filter.2 ⟨hb, by simp [earlier_irrefl]⟩⟩
  conv_rhs => rw [← hsplit]
  rw [List.filter_append, htake, List.length_append]
  omega

theorem cleanupOldBackups_spares_newest (env : Env) (w : World) (uuid : String) (t0 : Int)
    (k : Nat) (hk : 1 ≤ k)
    (hnames : DistinctNames w.fs)
    (hnew : ∀ b, recordAt w.fs (uuid ++ ".json") = some b → b.createdAt = some t0)
    (hold : ∀ name b, name ≠ uuid ++ ".json" → endsWith name ".json" = true →
      recordAt w.fs name = some b → b.automated = true →
      earlier b.createdAt (some t0) = true ∧ tmpl b.id ≠ uuid) :
    ∃ w1, cleanupOldBackups env k w = (Res.ok (), w1) ∧
      w1.fs.find (uuid ++ ".json") = w.fs.find (uuid ++ ".json") ∧
      w1.fs.find (uuid ++ ".tar.gz") = w.fs.find (uuid ++ ".tar.gz") := by
  unfold cleanupOldBackups
  simp only [tryCatch, bind_run]
  have hfs1 := readdir_fs env w
  rcases hread : readdir env w with ⟨r, w1⟩
  rw [hread] at hfs1
  cases r with
  | error e => exact ⟨w1, rfl, by rw [hfs1], by rw [hfs1]⟩
  | ok files =>
    have hfiles : files = w.fs.map Prod.fst := by
      unfold readdir at hread
      obtain ⟨hact, -⟩ := perform_ok hread
      simp only [Res.ok.injEq, Prod.mk.injEq] at hact
      exact hact.1.symm
    obtain ⟨l, w2, hl, hfs2, hall, hlen⟩ := collectLoop_count env w.fs
      (fun a => !earlier a.createdAt (some t0)) (uuid ++ ".json")
      (by
        intro name b hjson hrec hauto hP
        by_contra hne
        have := (hold name b hne hjson hrec hauto).1
        simp [this] at hP)
      files [] w1 hfs1
    have hone : (l.filter (fun a => !earlier a.createdAt (some t0))).length ≤ 1 := by
      have hc : files.count (uuid ++ ".json") ≤ 1 := by
        rw [hfiles]
        exact List.nodup_iff_count_le_one.1 hnames _
      simp only [List.filter_nil, List.length_nil, Nat.zero_add] at hlen
      omega
    have hfrom : ∀ b ∈ l, ∃ name, endsWith name ".json" = true ∧
        recordAt w.fs name = some b ∧ b.automated = true := by
      intro b hb
      rcases hall b hb with h | h
      · simp at h
      · exact h
    have hvalid : ∀ a ∈ l, a.createdAt ≠ none := by
      intro a ha
      obtain ⟨name, hjson, hrec, hauto⟩ := hfrom a ha
      by_cases hname : name = uuid ++ ".json"
      · rw [hnew a (hname ▸ hrec)]
        simp
      · have := (hold name a hname hjson hrec hauto).1
        intro hnone
        rw [hnone] at this
        simp [earlier] at this
    obtain ⟨w3, h3, hframe⟩ := deleteLoop_run env
      (jsSlice (jsSort (fun a b => compareCreatedAt a.createdAt b.createdAt) l) k) w2
    have hspared : ∀ b ∈ jsSlice (jsSort (fun a b => compareCreatedAt a.createdAt b.createdAt) l) k,
        tmpl b.id ≠ uuid := by
      intro b hb hid
      rw [jsSlice_natCast] at hb
      have hbl : b ∈ l := (mem_jsSort _ _ _).1 (List.mem_of_mem_drop hb)
      obtain ⟨name, hjson, hrec, hauto⟩ := hfrom b hbl
      by_cases hname : name = uuid ++ ".json"
      · have hcb := hnew b (hname ▸ hrec)
        have hcount := drop_jsSort_count (fun a : Metadata => a.createdAt) l hvalid k b hb
        simp only [hcb] at hcount
        omega
      · exact (hold name b hname hjson hrec hauto).2 hid
    have hnot : ∀ n, (n = uuid ++ ".json" ∨ n = uuid ++ ".tar.gz") →
        n ∉ deletedNames
          (jsSlice (jsSort (fun a b => compareCreatedAt a.createdAt b.createdAt) l) k) := by
      intro n hn hmem
      simp only [deletedNames, List.mem_flatMap, List.mem_cons, List.mem_singleton,
        List.not_mem_nil, or_false] at hmem
      obtain ⟨b, hb, hnb⟩ := hmem
      apply hspared b hb
      rcases hn with rfl | rfl <;> rcases hnb with h | h
      · exact absurd h.symm (targz_ne_json _ _)
      · exact (append_json_inj _ _ h).symm
      · exact (append_targz_inj _ _ h).symm
      · exact absurd h (targz_ne_json _ _)
    refine ⟨w3, by simp only [hl, h3], ?_, ?_⟩
    · rw [hframe _ (hnot _ (Or.inl rfl)), hfs2]
    · rw [hframe _ (hnot _ (Or.inr rfl)), hfs2]

theorem performDailyBackup_survives (env : Env) (uuid : String) (w w1 : World)
    (r : DailyResult) (hrun : performDailyBackup env uuid w = (Res.ok r, w1))
    (hnames : DistinctNames w.fs) (hfresh : FreshId w.fs uuid)
    (hearlier : ∀ m ∈ automatedRecords w.fs,
      earlier m.createdAt (some (env.clock w.trace.length)) = true) :
    (∃ tc, recordAt w1.fs (uuid ++ ".json") = some (completedRecord
      (dailyRecord env uuid (env.clock w.trace.length) (env.clock w.trace.length)) tc)) ∧
    ∃ size, w1.fs.find (uuid ++ ".tar.gz") = some (Node.file none size) := by
  obtain ⟨-, wa, p, wb, wc, h1, h2, h3, h4⟩ := performDailyBackup_ok env uuid w w1 r hrun
  obtain ⟨-, wcc, wd, harch, hrm⟩ := createSystemBackup_ok env uuid wa wb p h2
  obtain ⟨⟨size, htar⟩, hrec, -⟩ := archived_state
    (show (completedRecord (dailyRecord env uuid (env.clock w.trace.length)
      (env.clock w.trace.length)) (env.clock wb.trace.length)).id = some uuid from rfl)
    harch hrm h3
  -- the directory before the cleanup
  obtain ⟨hfsa, -⟩ := saveBackupMetadata_ok h1
  obtain ⟨hfsc, -⟩ := saveBackupMetadata_ok h3
  obtain ⟨hfsb, -⟩ := rm_ok hrm
  have hframeb := touches_createSystemBackup env uuid wa
  rw [h2] at hframeb
  simp only at hframeb
  have hnamesa : DistinctNames wa.fs := by
    rw [hfsa]
    exact distinctNames_put _ _ _ hnames
  have hnamesb : DistinctNames wb.fs := by
    have := preserves_createSystemBackup env uuid wa hnamesa
    rw [h2] at this
    exact this
  have hnamesc : DistinctNames wc.fs := by
    rw [hfsc]
    exact distinctNames_put _ _ _ hnamesb
  have hold : ∀ name b, name ≠ uuid ++ ".json" → endsWith name ".json" = true →
      recordAt wc.fs name = some b → b.automated = true →
      earlier b.createdAt (some (env.clock w.trace.length)) = true ∧ tmpl b.id ≠ uuid := by
    intro name b hname hjson hb hauto
    have hfindc : wc.fs.find name = wb.fs.find name := by
      rw [hfsc, find_put, if_neg (by simpa [dailyRecord, completedRecord, tmpl] using hname)]
    by_cases htarn : name = uuid ++ ".tar.gz"
    · exfalso
      rw [htarn, recordAt, htar] at hb
      simp at hb
    by_cases htemp : name = "temp_" ++ uuid
    · exfalso
      rw [recordAt, hfindc, hfsb, htemp, find_remove, if_pos rfl] at hb
      simp at hb
    have hfind : wc.fs.find name = w.fs.find name := by
      rw [hfindc, hframeb name (by simp [htarn, htemp]), hfsa, find_put,
        if_neg (by simpa [dailyRecord, tmpl] using hname)]
    have hbw : recordAt w.fs name = some b := by
      rw [recordAt, ← hfind]
      exact hb
    unfold recordAt at hbw
    split at hbw
    · next m size hf =>
      simp only [Option.some.injEq] at hbw
      subst hbw
      have hmem := mem_of_find _ _ _ hf
      have hrecord : automatedRecord (name, Node.file (some m) size) = some m := by
        simp [automatedRecord, hjson, hauto]
      refine ⟨hearlier m ?_, hfresh _ hmem m hrecord hname⟩
      exact List.mem_filterMap.2 ⟨_, hmem, hrecord⟩
    · simp at hbw
  obtain ⟨w2, hclean, hj, ht⟩ := cleanupOldBackups_spares_newest env wc uuid
    (env.clock w.trace.length) 7 (by decide) hnamesc
    (by
      intro b hb
      rw [hrec] at hb
      simp only [Option.some.injEq] at hb
      rw [← hb]
      rfl)
    hold
  have hw : w2 = w1 := by
    have := hclean.symm.trans h4
    simp only [Prod.mk.injEq, true_and] at this
    exact this
  subst hw
  refine ⟨⟨env.clock wb.trace.length, ?_⟩, size, ?_⟩
  · rw [recordAt, hj]
    exact hrec
  · rw [ht]
    exact htar

/-- C28. A fresh daily backup survives its own cleanup. Let the names of the backup
directory be distinct, let every automated record of the directory have a valid
`createdAt` strictly earlier than the `createdAt` of the new job, and let the id generated
for the new job be fresh (no automated record stored in another file bears it). If
`performDailyBackup` returns normally, whichever calls are made to fail along the way,
then afterwards `{id}.json` holds the completed record of the new job and `{id}.tar.gz`
is the archive built by the job: the cleanup removed neither. -/
theorem fresh_daily_survives (env : Env) (uuid : String) (w : World) (r : DailyResult)
    (hrun : (performDailyBackup env uuid w).1 = Res.ok r)
    (hnames : DistinctNames w.fs) (hfresh : FreshId w.fs uuid)
    (hearlier : ∀ m ∈ automatedRecords w.fs,
      earlier m.createdAt (some (env.clock w.trace.length)) = true) :
    (∃ tc, recordAt (performDailyBackup env uuid w).2.fs (uuid ++ ".json") =
      some (completedRecord
        (dailyRecord env uuid (env.clock w.trace.length) (env.clock w.trace.length)) tc)) ∧
    ∃ size, (performDailyBackup env uuid w).2.fs.find (uuid ++ ".tar.gz") =
      some (Node.file none size) :=
  performDailyBackup_survives env uuid w _ r (Prod.ext hrun rfl) hnames hfresh hearlier

set_option maxRecDepth 100000 in
/-- Witness of C28: a daily backup `job1` at time 100 in a directory with seven automated
records created at times 1 to 7; the cleanup removes the oldest of the eight and keeps
the new one. -/
theorem fresh_daily_survives_witness :
    (performDailyBackup lateClockEnv "job1" ⟨sevenDailyDir, []⟩).1 = Res.ok ⟨true, "job1"⟩ ∧
    ((∃ tc, recordAt (performDailyBackup lateClockEnv "job1" ⟨sevenDailyDir, []⟩).2.fs "job1.json" =
      some (completedRecord (dailyRecord lateClockEnv "job1" 100 100) tc)) ∧
    ∃ size, (performDailyBackup lateClockEnv "job1" ⟨sevenDailyDir, []⟩).2.fs.find "job1.tar.gz" =
      some (Node.file none size)) ∧
    (performDailyBackup lateClockEnv "job1" ⟨sevenDailyDir, []⟩).2.fs.find "d01.json" = none :=
  ⟨by decide!,
    fresh_daily_survives lateClockEnv "job1" ⟨sevenDailyDir, []⟩ ⟨true, "job1"⟩ (by decide!)
      (by unfold DistinctNames; decide) (by unfold FreshId; decide) (by decide),
    by decide!⟩

set_option maxRecDepth 100000 in
/-- Freshness of the generated id matters: when the file `z.json` holds an older automated
record that bears the id generated for the new job, the cleanup selects that record as
the eighth and removes the files named after its id, which are the files of the new
job, while `performDailyBackup` reports success. -/
theorem daily_backup_lost_on_id_collision :
    (performDailyBackup lateClockEnv "job1"
      ⟨sevenDailyDir ++ [("z.json", Node.file (some (sampleRecord "job1" (some 0) true)) 256)],
        []⟩).1 = Res.ok ⟨true, "job1"⟩ ∧
    (performDailyBackup lateClockEnv "job1"
      ⟨sevenDailyDir ++ [("z.json", Node.file (some (sampleRecord "job1" (some 0) true)) 256)],
        []⟩).2.fs.find "job1.json" = none ∧
    (performDailyBackup lateClockEnv "job1"
      ⟨sevenDailyDir ++ [("z.json", Node.file (some (sampleRecord "job1" (some 0) true)) 256)],
        []⟩).2.fs.find "job1.tar.gz" = none :=
  ⟨by decide!, by decide!, by decide!⟩

/-! ## Orphan filtering -/

/-- C2, as amended. Orphan filtering: whatever the backup directory holds and whichever
calls are made to fail, `getBackupList` returns normally and leaves the directory as it
found it, and for every record it returns there is a file at the path
`path.join(BACKUP_DIR, id + '.tar.gz')` built from the id of the record, which is the
`path` of the record; so a record with no file at that path never appears. For a
record whose id contains no path separator that path is the direct child `{id}.tar.gz`
of the backup directory. -/
theorem getBackupList_archive_present (env : Env) (w : World) :
    (getBackupList env w).2.fs = w.fs ∧
    ∃ l, (getBackupList env w).1 = Res.ok l ∧
      ∀ r ∈ l, (w.fs.find (tmpl r.metadata.id ++ ".tar.gz")).isSome = true ∧
        pathSegments r.path = joinSegments env.backupDir (tmpl r.metadata.id ++ ".tar.gz") ∧
        ('/' ∉ (tmpl r.metadata.id).data → env.backupDir ≠ "" →
          pathSegments r.path =
            pathSegments env.backupDir ++ [tmpl r.metadata.id ++ ".tar.gz"] ∧
          DirectChild env.backupDir (pathSegments r.path)) := by
  obtain ⟨bs, w1, hrun, hfs, hall⟩ := getBackupList_run env
    (fun r => (w.fs.find (tmpl r.metadata.id ++ ".tar.gz")).isSome = true ∧
        r.path = pathJoin env.backupDir (tmpl r.metadata.id ++ ".tar.gz")) w
    (by
      intro m size w0 hw0 hex
      obtain ⟨wa, hex⟩ := hex
      obtain ⟨b, w2, hrun, -, hb⟩ := fileExists_run env (tmpl m.id ++ ".tar.gz") w0
      rw [hex] at hrun
      have hbt : b = true := by
        have := congrArg Prod.fst hrun
        simp at this
        exact this
      rw [hw0] at hb
      exact ⟨hb hbt, rfl⟩)
  rw [hrun]
  refine ⟨hfs, _, rfl, ?_⟩
  intro r hr
  obtain ⟨h1, h2⟩ := hall r ((mem_jsSort _ _ _).1 hr)
  have hpath : pathSegments r.path =
      joinSegments env.backupDir (tmpl r.metadata.id ++ ".tar.gz") := by
    rw [h2]
    rfl
  refine ⟨h1, hpath, fun hid hroot => ?_⟩
  have ht : '/' ∉ (tmpl r.metadata.id ++ ".tar.gz").data := by
    simp [String.data_append, hid]
  obtain ⟨t1, t2, t3⟩ := targz_name_is_segment (tmpl r.metadata.id)
  have h := pathSegments_child env.backupDir (tmpl r.metadata.id ++ ".tar.gz") hroot ht t1 t2 t3
  rw [hpath]
  exact ⟨h, _, h⟩

set_option maxRecDepth 100000 in
/-- Counterexample to C2 as stated: the backup directory holds the single file
`schedule.json`, a document with the id `../../etc/passwd` (the schedule handler stores
any body it is sent), and no archive at all. The path `getBackupList` probes for this
id is `/var/etc/passwd.tar.gz`, outside the backup directory; that file exists, so the
document is listed as a backup, with the size of that file. -/
theorem listed_without_archive_in_directory :
    (∃ r, (getBackupList calmEnv ⟨strayArchiveDir, []⟩).1 = Res.ok [r] ∧
      r.metadata.id = some "../../etc/passwd" ∧ r.size = 4096) ∧
    (newEvents ⟨strayArchiveDir, []⟩ (getBackupList calmEnv ⟨strayArchiveDir, []⟩).2).map
        (fun ev => ev.op) =
      [Op.readdir, Op.readFile "schedule.json", Op.access "../../etc/passwd.tar.gz",
        Op.stat "../../etc/passwd.tar.gz"] ∧
    joinSegments (routesBackupDir none) ("../../etc/passwd" ++ ".tar.gz") =
      ["var", "etc", "passwd.tar.gz"] ∧
    pathSegments (routesBackupDir none) = ["var", "backups", "buddybox"] ∧
    ¬ (pathSegments (routesBackupDir none) <+:
      joinSegments (routesBackupDir none) ("../../etc/passwd" ++ ".tar.gz")) ∧
    strayArchiveDir.find "../../etc/passwd.json" = none :=
  ⟨⟨⟨sampleRecord "../../etc/passwd" (some 1) false, 4096,
      "/var/backups/buddybox/../../etc/passwd.tar.gz"⟩, by decide!, rfl, rfl⟩,
    by decide!, by decide, by decide, by decide, by decide⟩

set_option maxRecDepth 100000 in
/-- Witness of C2 as amended: the listing of a directory that holds the job `other`
returns its record, whose archive is the child `other.tar.gz` of the backup directory. -/
theorem getBackupList_archive_present_witness :
    ∃ r, (getBackupList calmEnv ⟨otherJobDir, []⟩).1 = Res.ok [r] ∧
      r.metadata.id = some "other" ∧
      (otherJobDir.find (tmpl r.metadata.id ++ ".tar.gz")).isSome = true ∧
      pathSegments r.path = ["var", "backups", "buddybox", "other.tar.gz"] ∧
      DirectChild calmEnv.backupDir (pathSegments r.path) := by
  obtain ⟨-, l, hl, h⟩ := getBackupList_archive_present calmEnv ⟨otherJobDir, []⟩
  have hrun : (getBackupList calmEnv ⟨otherJobDir, []⟩).1 =
      Res.ok [⟨sampleRecord "other" (some 1) false, 4096,
        "/var/backups/buddybox/other.tar.gz"⟩] := by decide!
  have hl1 : l = [⟨sampleRecord "other" (some 1) false, 4096,
      "/var/backups/buddybox/other.tar.gz"⟩] := by
    rw [hrun] at hl
    exact (Res.ok.inj hl).symm
  subst hl1
  obtain ⟨h1, -, h2⟩ := h _ (List.mem_singleton_self _)
  obtain ⟨h3, h4⟩ := h2 (by decide) (by decide)
  exact ⟨_, hrun, rfl, h1, by rw [h3]; decide, h4⟩

end BuddyBox
